import Mathlib

/-!
# Tomasulo scheduling engine (`hpca.cpp`): shallow embedding and verification

The simulator keeps its hardware in global arrays.  Here the globals become the
fields of one `State` record that every phase function receives and returns.

Modelling conventions
* `int` values (`REG`, `RLOC`, `OPCODE`, `CYCLE`, cycle stamps) are `Int`.
  Register arithmetic (`RSE::doOp`) is that of a 32-bit `int`: `+`, `-`, `*`
  are reduced to 32 bits (`wrap32`), and `/` traps on a zero divisor and on
  `INT_MIN / -1`, which ends the program; a function that can reach a trap
  returns an `Option`, `none` standing for the trap.
* The clock and the cycle stamps (`CYCLE`, `discno`, `bcast`) are counted
  exactly; the driver loop `mainLoop` has no end state once the clock stands at
  `INT_MAX` with the loop condition true.
* The fixed-size arrays `RF`, `RAT`, `ADDRS`, `MULRS` are lists; `State.WF`
  records their lengths (`REGCOUNT`, `REGCOUNT`, `ADDCOUNT`, `MULCOUNT`).  A
  `for` loop over a whole array is a traversal of the whole list.
* `PROGSIZE` is the length of `INSMEM`.
* Objects with static storage are zero-initialised before their constructor
  runs, so a fresh `RSE` has every field `0`/`false` except `discno = -1`.
-/

namespace Tomasulo

/-! ## Constants -/

/-- Opcode for add. -/
abbrev ADD : Int := 0
/-- Opcode for subtract. -/
abbrev SUB : Int := 1
/-- Opcode for multiply. -/
abbrev MUL : Int := 2
/-- Opcode for divide. -/
abbrev DIV : Int := 3

/-- Cycles taken by add. -/
abbrev ADDCYCLE : Int := 2
/-- Cycles taken by subtract. -/
abbrev SUBCYCLE : Int := 2
/-- Cycles taken by multiply. -/
abbrev MULCYCLE : Int := 10
/-- Cycles taken by divide. -/
abbrev DIVCYCLE : Int := 40

/-- Capacity of the instruction queue. -/
abbrev INSCOUNT : Nat := 10
/-- Number of registers. -/
abbrev REGCOUNT : Nat := 8
/-- Number of addition reservation stations. -/
abbrev ADDCOUNT : Nat := 3
/-- Number of multiplication reservation stations. -/
abbrev MULCOUNT : Nat := 2

/-- Sentinel: the RAT points at the register file / no value is waited on. -/
abbrev EMPTY : Int := -1

/-! ## Structures -/

/-- Instruction record (`struct INS`). -/
structure INS where
  op : Int
  dst : Int
  src1 : Int
  src2 : Int
deriving DecidableEq, Repr

/-- Value built by the constructor `INS()`. -/
def INS.init : INS := { op := -1, dst := EMPTY, src1 := EMPTY, src2 := EMPTY }

instance : Inhabited INS := ⟨INS.init⟩

/-- Reservation station entry (`struct RSE`). -/
structure RSE where
  busy : Bool
  op : Int
  Vj : Int
  Vk : Int
  Qj : Int
  Qk : Int
  disp : Bool
  discno : Int
  bcast : Int
  result : Int
deriving DecidableEq, Repr

/-- A global `RSE`: zero-initialised storage, then `RSE()` sets `busy = false`
and `discno = -1`. -/
def RSE.init : RSE :=
  { busy := false, op := 0, Vj := 0, Vk := 0, Qj := 0, Qk := 0, disp := false,
    discno := -1, bcast := 0, result := 0 }

/-- Smallest value of a 32-bit `int`. -/
abbrev INT_MIN : Int := -2147483648
/-- Largest value of a 32-bit `int`. -/
abbrev INT_MAX : Int := 2147483647

/-- Value an `int` holds after an arithmetic operation whose exact result is
`x`: `x` reduced to 32 bits, two's complement. -/
def wrap32 (x : Int) : Int := (x + 2147483648) % 4294967296 - 2147483648

/-- The method `RSE::doOp`: store the result of the station's operation.  The
operands are `int`: sum, difference and product are reduced to 32 bits; `/`
truncates toward zero (`Int.tdiv`) and traps, ending the program, when the
divisor is `0` or the quotient is `INT_MIN / -1`.  The source has no test of its
own; `none` is the trap. -/
def RSE.doOp (r : RSE) : Option RSE :=
  if r.op = ADD then some { r with result := wrap32 (r.Vj + r.Vk) }
  else if r.op = SUB then some { r with result := wrap32 (r.Vj - r.Vk) }
  else if r.op = MUL then some { r with result := wrap32 (r.Vj * r.Vk) }
  else if r.op = DIV then
    if r.Vk = 0 ∨ (r.Vj = INT_MIN ∧ r.Vk = -1) then none
    else some { r with result := Int.tdiv r.Vj r.Vk }
  else some { r with result := -1 }

/-- The hardware elements (the globals of the source). -/
structure State where
  INSMEM : List INS
  CURINS : Nat
  CYCLE : Int
  IQUEUE : List INS
  RF : List Int
  RAT : List Int
  ADDRS : List RSE
  MULRS : List RSE
deriving DecidableEq, Repr

/-- Program size: the number of instructions in `INSMEM`. -/
def State.PROGSIZE (s : State) : Nat := s.INSMEM.length

/-- The arrays have the sizes the source declares. -/
def State.WF (s : State) : Prop :=
  s.RF.length = REGCOUNT ∧ s.RAT.length = REGCOUNT ∧
  s.ADDRS.length = ADDCOUNT ∧ s.MULRS.length = MULCOUNT

instance (s : State) : Decidable s.WF := by
  unfold State.WF; exact inferInstance

/-! ## Array helpers -/

/-- Read `a[i]` for an `int` index.  Out-of-range reads are undefined in the
source; the model returns `0`. -/
def regRead (a : List Int) (i : Int) : Int :=
  if 0 ≤ i then a.getD i.toNat 0 else 0

/-- Write `a[i] = v` for an `int` index.  Out-of-range writes are undefined in
the source; the model leaves the array alone. -/
def regWrite (a : List Int) (i : Int) (v : Int) : List Int :=
  if 0 ≤ i then a.set i.toNat v else a

/-- Apply `f` to the station at index `i` (an in-place update of `pool[i]`). -/
def modifyAt (f : RSE → RSE) : Nat → List RSE → List RSE
  | _, [] => []
  | 0, r :: rs => f r :: rs
  | n + 1, r :: rs => r :: modifyAt f n rs

/-- Apply the fallible `f` to the station at index `i`: `none` when `f` fails
on `pool[i]`. -/
def modifyAtM (f : RSE → Option RSE) : Nat → List RSE → Option (List RSE)
  | _, [] => some []
  | 0, r :: rs => (f r).map (fun r' => r' :: rs)
  | n + 1, r :: rs => (modifyAtM f n rs).map (fun rs' => r :: rs')

/-- Index of the first station satisfying `p`: the station at which a
`for (i = 0; ...) if (p(pool[i])) { ...; break; }` loop runs its body. -/
def firstIdx (p : RSE → Bool) : List RSE → Option Nat
  | [] => none
  | r :: rs => if p r then some 0 else (firstIdx p rs).map (· + 1)

/-! ## Execution functions -/

/-- One test of the `while` condition of `fillIQ`. -/
def fillIQCond (s : State) : Bool :=
  s.CURINS != s.PROGSIZE && s.IQUEUE.length != INSCOUNT

/-- Body of the `while` loop of `fillIQ`: `IQUEUE.push_back(INSMEM[CURINS++])`. -/
def fillIQBody (s : State) : State :=
  { s with IQUEUE := s.IQUEUE ++ [s.INSMEM.getD s.CURINS default],
           CURINS := s.CURINS + 1 }

/-- The `while` loop of `fillIQ` run with a bound on its iterations; `none`
when the bound is reached with the loop condition still true. -/
def fillIQFuel : Nat → State → Option State
  | 0, s => if fillIQCond s then none else some s
  | fuel + 1, s => if fillIQCond s then fillIQFuel fuel (fillIQBody s) else some s

/-- Fill the instruction queue from memory.  `PROGSIZE - CURINS` iterations are
enough whenever `CURINS ≤ PROGSIZE`; otherwise the source reads `INSMEM` out
of bounds and the model leaves the state alone. -/
def fillIQ (s : State) : State :=
  (fillIQFuel (s.PROGSIZE - s.CURINS) s).getD s

/-- Cycles taken for an operation. -/
def opCycles (op : Int) : Int :=
  if op = ADD then ADDCYCLE
  else if op = SUB then SUBCYCLE
  else if op = MUL then MULCYCLE
  else if op = DIV then DIVCYCLE
  else -1

/-- Test of the dispatch loop: busy, undispatched, both values available. -/
def dispReady (r : RSE) : Bool :=
  r.busy && !r.disp && r.Qj == EMPTY && r.Qk == EMPTY

/-- Body of the dispatch loop for the selected station. -/
def dispMark (cycle : Int) (r : RSE) : RSE :=
  { r with disp := true, discno := cycle, bcast := cycle + opCycles r.op }

/-- One of the two loops of `dispatch`, over one pool. -/
def dispatchPool (cycle : Int) (pool : List RSE) : List RSE :=
  match firstIdx dispReady pool with
  | some i => modifyAt (dispMark cycle) i pool
  | none => pool

/-- Dispatch any instructions whose values are available. -/
def dispatch (s : State) : State :=
  { s with ADDRS := dispatchPool s.CYCLE s.ADDRS,
           MULRS := dispatchPool s.CYCLE s.MULRS }

/-- Fill an RS entry with instruction `ins` (reads the globals `RF`, `RAT`). -/
def fillRS (RF RAT : List Int) (ins : INS) (rs : RSE) : RSE :=
  { rs with
    busy := true
    op := ins.op
    Vj := if regRead RAT ins.src1 = EMPTY then regRead RF ins.src1 else rs.Vj
    Vk := if regRead RAT ins.src2 = EMPTY then regRead RF ins.src2 else rs.Vk
    Qj := regRead RAT ins.src1
    Qk := regRead RAT ins.src2
    disp := false }

/-- Test of the allocation loops of `getRS`: not busy and `discno != CYCLE`. -/
def allocatable (cycle : Int) (r : RSE) : Bool :=
  !r.busy && r.discno != cycle

/-- Get a reservation station for an instruction: the returned tag (`-1` when
none is available) and the state with the chosen station filled. -/
def getRS (s : State) (ins : INS) : Int × State :=
  if ins.op = ADD ∨ ins.op = SUB then
    match firstIdx (allocatable s.CYCLE) s.ADDRS with
    | some i => ((i : Int), { s with ADDRS := modifyAt (fillRS s.RF s.RAT ins) i s.ADDRS })
    | none => (-1, s)
  else if ins.op = MUL ∨ ins.op = DIV then
    match firstIdx (allocatable s.CYCLE) s.MULRS with
    | some i => ((i : Int) + (ADDCOUNT : Int),
        { s with MULRS := modifyAt (fillRS s.RF s.RAT ins) i s.MULRS })
    | none => (-1, s)
  else (-1, s)

/-- Issue an instruction from the front of the instruction queue. -/
def issue (s : State) : State :=
  match s.IQUEUE with
  | [] => s
  | nextins :: rest =>
    let p := getRS s nextins
    if p.1 ≠ -1 then
      { p.2 with RAT := regWrite p.2.RAT nextins.dst p.1, IQUEUE := rest }
    else p.2

/-- Effect of `capture` on one station. -/
def captureRSE (res rsn : Int) (r : RSE) : RSE :=
  let r1 := if r.Qj = rsn then { r with Vj := res, Qj := EMPTY } else r
  if r1.Qk = rsn then { r1 with Vk := res, Qk := EMPTY } else r1

/-- Effect of the last loop of `capture` on `RF` (first argument: the RAT). -/
def captureRF (res rsn : Int) : List Int → List Int → List Int
  | rat :: rats, rf :: rfs => (if rat = rsn then res else rf) :: captureRF res rsn rats rfs
  | _, rfs => rfs

/-- Effect of the last loop of `capture` on `RAT`. -/
def captureRAT (rsn : Int) (RAT : List Int) : List Int :=
  RAT.map (fun rat => if rat = rsn then EMPTY else rat)

/-- Capture the result `res` from reservation station `rsn`. -/
def capture (res rsn : Int) (s : State) : State :=
  { s with
    ADDRS := s.ADDRS.map (captureRSE res rsn)
    MULRS := s.MULRS.map (captureRSE res rsn)
    RF := captureRF res rsn s.RAT s.RF
    RAT := captureRAT rsn s.RAT }

/-- Test used by `stallOthers` and `broadcast`: the station is busy,
dispatched and its broadcast cycle is the current cycle. -/
def due (cycle : Int) (r : RSE) : Bool :=
  r.busy && r.disp && r.bcast == cycle

/-- Inner loop of `stallOthers`: `bcast++` for every station whose opcode is `op`. -/
def bumpOp (op : Int) (pool : List RSE) : List RSE :=
  pool.map (fun r => if r.op = op then { r with bcast := r.bcast + 1 } else r)

/-- One iteration `i` of the outer loop of `stallOthers` over one pool. -/
def stallStep (cycle : Int) (pool : List RSE) (i : Nat) : List RSE :=
  match pool[i]? with
  | some r => if due cycle r then bumpOp r.op pool else pool
  | none => pool

/-- One of the two outer loops of `stallOthers`, over one pool. -/
def stallPool (cycle : Int) (pool : List RSE) : List RSE :=
  (List.range pool.length).foldl (stallStep cycle) pool

/-- Stall all stations ready to broadcast in the current cycle for one cycle. -/
def stallOthers (s : State) : State :=
  { s with ADDRS := stallPool s.CYCLE s.ADDRS,
           MULRS := stallPool s.CYCLE s.MULRS }

/-- The `result` field of `pool[i]`. -/
def resultAt (pool : List RSE) (i : Nat) : Int :=
  match pool[i]? with
  | some r => r.result
  | none => 0

/-- Body of the first loop of `broadcast` for the multiplication station `i`;
`none` when `MULRS[i].doOp()` traps. -/
def broadcastMulAt (i : Nat) (s : State) : Option State :=
  match modifyAtM RSE.doOp i s.MULRS with
  | none => none
  | some pool =>
    let s1 := { s with MULRS := pool }
    let s2 := capture (resultAt s1.MULRS i) ((i : Int) + (ADDCOUNT : Int)) s1
    let s3 := { s2 with MULRS := modifyAt (fun r => { r with bcast := -1 }) i s2.MULRS }
    let s4 := stallOthers s3
    some { s4 with MULRS := modifyAt (fun r => { r with busy := false }) i s4.MULRS }

/-- Body of the second loop of `broadcast` for the addition station `i`; `none`
when `ADDRS[i].doOp()` traps. -/
def broadcastAddAt (i : Nat) (s : State) : Option State :=
  match modifyAtM RSE.doOp i s.ADDRS with
  | none => none
  | some pool =>
    let s1 := { s with ADDRS := pool }
    let s2 := capture (resultAt s1.ADDRS i) (i : Int) s1
    let s3 := { s2 with ADDRS := modifyAt (fun r => { r with bcast := -1 }) i s2.ADDRS }
    let s4 := stallOthers s3
    some { s4 with ADDRS := modifyAt (fun r => { r with busy := false }) i s4.ADDRS }

/-- First loop of `broadcast`: the multiplication stations. -/
def broadcastMul (s : State) : Option State :=
  match firstIdx (due s.CYCLE) s.MULRS with
  | some i => broadcastMulAt i s
  | none => some s

/-- Second loop of `broadcast`: the addition stations. -/
def broadcastAdd (s : State) : Option State :=
  match firstIdx (due s.CYCLE) s.ADDRS with
  | some i => broadcastAddAt i s
  | none => some s

/-- Broadcast the value when available: the first loop, then the second. -/
def broadcast (s : State) : Option State :=
  match broadcastMul s with
  | none => none
  | some s1 => broadcastAdd s1

/-- State at the start of the broadcast phase of the cycle that begins in `s`. -/
def preBroadcast (s : State) : State :=
  fillIQ (issue (dispatch s))

/-- One simulated cycle; `none` when a `doOp` of its broadcast phase traps. -/
def ExecCycle (s : State) : Option State :=
  match broadcast (fillIQ (issue (dispatch s))) with
  | none => none
  | some s4 => some { s4 with CYCLE := s4.CYCLE + 1 }

/-- State in which `main` enters its driver loop: program `prog`, register file
`rf`, every RAT entry `EMPTY`, everything else as initialised statically. -/
def initState (prog : List INS) (rf : List Int) : State :=
  { INSMEM := prog, CURINS := 0, CYCLE := 0, IQUEUE := [], RF := rf,
    RAT := List.replicate REGCOUNT EMPTY,
    ADDRS := List.replicate ADDCOUNT RSE.init,
    MULRS := List.replicate MULCOUNT RSE.init }

/-- Register indices of an instruction are in `[0, REGCOUNT)`. -/
def INS.regsOk (ins : INS) : Prop :=
  (0 ≤ ins.dst ∧ ins.dst < REGCOUNT) ∧ (0 ≤ ins.src1 ∧ ins.src1 < REGCOUNT) ∧
  (0 ≤ ins.src2 ∧ ins.src2 < REGCOUNT)

instance (ins : INS) : Decidable ins.regsOk := by
  unfold INS.regsOk; exact inferInstance

/-- The driver loop of `main`, `while (CYCLE <= target) ExecCycle();`, run with
a bound on its iterations.  `none` when the bound is reached with the loop
condition still true, when a cycle traps, and when the loop condition is true
with the clock at `INT_MAX`: the `CYCLE++` of that cycle overflows the `int`
clock, after which the test `CYCLE <= target` can no longer end the loop at
`target + 1`. -/
def mainLoop (target : Int) : Nat → State → Option State
  | 0, s => if s.CYCLE ≤ target then none else some s
  | fuel + 1, s =>
    if s.CYCLE ≤ target then
      if s.CYCLE < INT_MAX then
        match ExecCycle s with
        | none => none
        | some s' => mainLoop target fuel s'
      else none
    else some s

/-- States a run of `main` passes through at the start of a cycle, for any
program whose register indices are in range and any initial register file. -/
inductive Reachable : State → Prop
  | init (prog : List INS) (rf : List Int) (hrf : rf.length = REGCOUNT)
      (hprog : ∀ ins ∈ prog, ins.regsOk) : Reachable (initState prog rf)
  | step {s s' : State} (h : Reachable s) (hstep : ExecCycle s = some s') : Reachable s'

/-! ## Concrete programs and states used as test inputs -/

/-- Register file `[3,4,0,0,0,0,0,0]`. -/
def rf34 : List Int := [3, 4, 0, 0, 0, 0, 0, 0]

/-- The one-instruction program `[Add R2,R0,R1]`. -/
def progAdd : List INS := [{ op := ADD, dst := 2, src1 := 0, src2 := 1 }]

/-- A state with `Add R2,R2,R0` then `Mul R4,R2,R1` queued, `ADDRS[0]` busy and
not dispatched (tag `0` is what `RAT[2]` names), the other stations fresh. -/
def issueState : State :=
  { INSMEM := [], CURINS := 0, CYCLE := 3,
    IQUEUE := [{ op := ADD, dst := 2, src1 := 2, src2 := 0 },
               { op := MUL, dst := 4, src1 := 2, src2 := 1 }],
    RF := rf34, RAT := [EMPTY, EMPTY, 0, EMPTY, EMPTY, EMPTY, EMPTY, EMPTY],
    ADDRS := [{ RSE.init with busy := true, op := ADD, Vj := 3, Vk := 4, Qj := EMPTY,
                              Qk := EMPTY },
              RSE.init, RSE.init],
    MULRS := [RSE.init, RSE.init] }

/-- A state whose queue head is an Add while all three addition stations are
busy; a Mul waits behind it and both multiplication stations are free. -/
def fullAddState : State :=
  { issueState with
    ADDRS := [{ RSE.init with busy := true }, { RSE.init with busy := true },
              { RSE.init with busy := true }] }

/-- The state `issueState` with only the `Mul R4,R2,R1` left in the queue. -/
def issueMulState : State :=
  { issueState with IQUEUE := [{ op := MUL, dst := 4, src1 := 2, src2 := 1 }] }

/-- A state at cycle 5 in which `ADDRS[1]` and `ADDRS[2]` are both ready for
dispatch (`ADDRS[0]` still waits on tag 3) and no multiplication station is. -/
def dispatchState : State :=
  { INSMEM := [], CURINS := 0, CYCLE := 5, IQUEUE := [],
    RF := rf34, RAT := [EMPTY, EMPTY, 0, 1, 2, EMPTY, EMPTY, EMPTY],
    ADDRS := [{ RSE.init with busy := true, op := ADD, Qj := 3, Qk := EMPTY },
              { RSE.init with busy := true, op := SUB, Vj := 3, Vk := 4, Qj := EMPTY,
                              Qk := EMPTY },
              { RSE.init with busy := true, op := ADD, Vj := 4, Vk := 4, Qj := EMPTY,
                              Qk := EMPTY }],
    MULRS := [{ RSE.init with busy := true, op := DIV, Vj := 3, Vk := 4, Qj := EMPTY,
                              Qk := EMPTY, disp := true, discno := 2, bcast := 42 },
              RSE.init] }

/-- State in which `main` starts the driver loop for `[Add R2,R0,R1]` with
`RF = [3,4,0,0,0,0,0,0]`. -/
def addInit : State := initState progAdd rf34

/-! ## The returning semantics

The functions of this section are not code of `hpca.cpp`.  They are the
functions above with the trap removed: `broadcastOut s` is the state that
`broadcast s` returns whenever it returns one (`broadcast_eq_some`), and so on.
They are total, which keeps the proofs about stations and timing free of case
distinctions; every statement about the source functions is derived from them
through those equations. -/

/-- The station after `doOp`, as a total function: what `doOp` returns, and for
a division that traps the station with `Int.tdiv Vj Vk` as a placeholder result. -/
def RSE.computed (r : RSE) : RSE :=
  (r.doOp).getD { r with result := Int.tdiv r.Vj r.Vk }

/-- Returning semantics of `broadcastMulAt`. -/
def broadcastMulAtOut (i : Nat) (s : State) : State :=
  let s1 := { s with MULRS := modifyAt RSE.computed i s.MULRS }
  let s2 := capture (resultAt s1.MULRS i) ((i : Int) + (ADDCOUNT : Int)) s1
  let s3 := { s2 with MULRS := modifyAt (fun r => { r with bcast := -1 }) i s2.MULRS }
  let s4 := stallOthers s3
  { s4 with MULRS := modifyAt (fun r => { r with busy := false }) i s4.MULRS }

/-- Returning semantics of `broadcastAddAt`. -/
def broadcastAddAtOut (i : Nat) (s : State) : State :=
  let s1 := { s with ADDRS := modifyAt RSE.computed i s.ADDRS }
  let s2 := capture (resultAt s1.ADDRS i) (i : Int) s1
  let s3 := { s2 with ADDRS := modifyAt (fun r => { r with bcast := -1 }) i s2.ADDRS }
  let s4 := stallOthers s3
  { s4 with ADDRS := modifyAt (fun r => { r with busy := false }) i s4.ADDRS }

/-- Returning semantics of `broadcastMul`. -/
def broadcastMulOut (s : State) : State :=
  match firstIdx (due s.CYCLE) s.MULRS with
  | some i => broadcastMulAtOut i s
  | none => s

/-- Returning semantics of `broadcastAdd`. -/
def broadcastAddOut (s : State) : State :=
  match firstIdx (due s.CYCLE) s.ADDRS with
  | some i => broadcastAddAtOut i s
  | none => s

/-- Returning semantics of `broadcast`. -/
def broadcastOut (s : State) : State :=
  broadcastAddOut (broadcastMulOut s)

/-- Returning semantics of `ExecCycle`. -/
def ExecCycleOut (s : State) : State :=
  let s4 := broadcastOut (fillIQ (issue (dispatch s)))
  { s4 with CYCLE := s4.CYCLE + 1 }

/-- States of the returning semantics: `initState` and what `ExecCycleOut` makes
of them.  Every `Reachable` state is one (`Reachable.out`). -/
inductive ReachableOut : State → Prop
  | init (prog : List INS) (rf : List Int) (hrf : rf.length = REGCOUNT)
      (hprog : ∀ ins ∈ prog, ins.regsOk) : ReachableOut (initState prog rf)
  | step {s : State} (h : ReachableOut s) : ReachableOut (ExecCycleOut s)

/-! ## Vocabulary for stating what the broadcast phase does -/

/-- All stations in tag order: the addition stations (tags `0..2`) followed by
the multiplication stations (tags `3..4`). -/
def State.stations (s : State) : List RSE := s.ADDRS ++ s.MULRS

/-- Some station among `others` is due at `cycle` and has opcode `op`. -/
def contended (cycle : Int) (others : List RSE) (op : Int) : Bool :=
  others.any (fun q => due cycle q && q.op == op)

/-- The station `r` with `bcast` incremented when its opcode is contended. -/
def stalled (cycle : Int) (others : List RSE) (r : RSE) : RSE :=
  if contended cycle others r.op then { r with bcast := r.bcast + 1 } else r

/-- Every station whose opcode is in `B` gets `bcast + 1`. -/
def bumpSet (B : List Int) (pool : List RSE) : List RSE :=
  pool.map (fun r => if r.op ∈ B then { r with bcast := r.bcast + 1 } else r)

/-- What the body of a `broadcast` loop does to the pool of the broadcasting
station `i`: `doOp`, `capture`, `bcast = -1`, `stallOthers`, `busy = false`. -/
def winPool (cycle res tag : Int) (i : Nat) (pool : List RSE) : List RSE :=
  modifyAt (fun r => { r with busy := false }) i
    (stallPool cycle
      (modifyAt (fun r => { r with bcast := -1 }) i
        ((modifyAt RSE.computed i pool).map (captureRSE res tag))))

/-- What the body of a `broadcast` loop does to the other pool: `capture`,
then `stallOthers`. -/
def losePool (cycle res tag : Int) (pool : List RSE) : List RSE :=
  stallPool cycle (pool.map (captureRSE res tag))

/-- Timing condition on one station at cycle `c`: a busy station holds one of
the four opcodes (latency at least 2); if it is also dispatched, its broadcast
cycle is not in the past, is at least `discno + latency`, and `discno ≥ 0`. -/
def StOk (c : Int) (r : RSE) : Prop :=
  r.busy = true →
    2 ≤ opCycles r.op ∧
    (r.disp = true → c ≤ r.bcast ∧ r.discno + opCycles r.op ≤ r.bcast ∧ 0 ≤ r.discno)

/-- Invariant of the run: array sizes, `CYCLE ≥ 0`, and `StOk` for every
station of both pools. -/
structure PhaseInv (s : State) : Prop where
  wf : s.WF
  cyc : 0 ≤ s.CYCLE
  add : ∀ r ∈ s.ADDRS, StOk s.CYCLE r
  mul : ∀ r ∈ s.MULRS, StOk s.CYCLE r

/-- How the broadcast phase of cycle `c` may change a station `r` that does
not broadcast: only `Vj`/`Vk`/`Qj`/`Qk` (by capture) and `bcast`, which stays
or grows by one, and becomes `c + 1` when `r` was due at `c`. -/
def Deferred (c : Int) (r q : RSE) : Prop :=
  q.busy = r.busy ∧ q.disp = r.disp ∧ q.op = r.op ∧ q.discno = r.discno ∧
  (q.bcast = r.bcast ∨ q.bcast = r.bcast + 1) ∧ (due c r = true → q.bcast = c + 1)

/-- A program whose Mul (dispatched in cycle 3, latency 10) and fourth Add
(dispatched in cycle 11, latency 2) are both due in cycle 13:
`Add R2,R0,R1; Mul R3,R0,R1; Add R2,R2,R0; Add R2,R2,R0; Add R2,R2,R0`. -/
def collisionProg : List INS :=
  [{ op := ADD, dst := 2, src1 := 0, src2 := 1 },
   { op := MUL, dst := 3, src1 := 0, src2 := 1 },
   { op := ADD, dst := 2, src1 := 2, src2 := 0 },
   { op := ADD, dst := 2, src1 := 2, src2 := 0 },
   { op := ADD, dst := 2, src1 := 2, src2 := 0 }]

/-- The state at the start of cycle 13 of the run of `collisionProg` on
`RF = [3,4,0,0,0,0,0,0]`: `ADDRS[0]` (tag 0) and `MULRS[0]` (tag 3) are both
busy, dispatched and have `bcast = 13`. -/
def collisionState : State :=
  { INSMEM := collisionProg, CURINS := 5, CYCLE := 13, IQUEUE := [],
    RF := [3, 4, 0, 0, 0, 0, 0, 0], RAT := [-1, -1, 0, 3, -1, -1, -1, -1],
    ADDRS := [{ busy := true, op := 0, Vj := 13, Vk := 3, Qj := -1, Qk := -1, disp := true,
                discno := 11, bcast := 13, result := 7 },
              { busy := false, op := 0, Vj := 7, Vk := 3, Qj := -1, Qk := -1, disp := true,
                discno := 5, bcast := -1, result := 10 },
              { busy := false, op := 0, Vj := 10, Vk := 3, Qj := -1, Qk := -1, disp := true,
                discno := 8, bcast := -1, result := 13 }],
    MULRS := [{ busy := true, op := 2, Vj := 3, Vk := 4, Qj := -1, Qk := -1, disp := true,
                discno := 3, bcast := 13, result := 0 },
              { busy := false, op := 0, Vj := 7, Vk := 7, Qj := -1, Qk := -1, disp := false,
                discno := -1, bcast := 0, result := 0 }] }

/-- What capturing result `res` of tag `t` does to a station `q` (giving `q'`):
operands that waited on `t` hold `res` and no operand waits on `t` any more. -/
def CapRel (res t : Int) (q q' : RSE) : Prop :=
  (q.Qj = t → q'.Vj = res ∧ q'.Qj = EMPTY) ∧ (q.Qk = t → q'.Vk = res ∧ q'.Qk = EMPTY) ∧
  q'.Qj ≠ t ∧ q'.Qk ≠ t

/-- Some station of `pool`, at an index other than `excl`, is busy, dispatched,
has `bcast = c` and opcode `op`. -/
def Contender (c : Int) (pool : List RSE) (excl : Option Nat) (op : Int) : Prop :=
  ∃ (k : Nat) (d : RSE), some k ≠ excl ∧ pool[k]? = some d ∧
    d.busy = true ∧ d.disp = true ∧ d.bcast = c ∧ d.op = op

/-- The station `q` is `r` up to operands and result, with `bcast` not smaller. -/
def TimingLe (r q : RSE) : Prop :=
  q.busy = r.busy ∧ q.disp = r.disp ∧ q.op = r.op ∧ q.discno = r.discno ∧ r.bcast ≤ q.bcast

/-- A program of twelve copies of `Add R2,R0,R1`, longer than the queue. -/
def longProg : List INS := List.replicate 12 { op := ADD, dst := 2, src1 := 0, src2 := 1 }

/-- Instructions taken from the queue by `issue` in state `s`: the head when
`getRS` finds a station for it, nothing otherwise. -/
def issuedBy (s : State) : List INS :=
  match s.IQUEUE with
  | [] => []
  | nextins :: _ => if (getRS s nextins).1 ≠ -1 then [nextins] else []

/-- Instructions issued during the cycle that starts in state `s` (the issue
phase runs after `dispatch`). -/
def issuedIn (s : State) : List INS := issuedBy (dispatch s)

/-- State at the start of cycle `n` of the run of `prog` on the register file
`rf`: `ExecCycle` applied `n` times to the initial state; `none` when one of
those cycles trapped. -/
def runState (prog : List INS) (rf : List Int) : Nat → Option State
  | 0 => some (initState prog rf)
  | n + 1 =>
    match runState prog rf n with
    | none => none
    | some s => ExecCycle s

/-- Instructions issued during the first `n` cycles of the run of `prog` on
the register file `rf`, in the order of issue. -/
def issuedLog (prog : List INS) (rf : List Int) : Nat → List INS
  | 0 => []
  | n + 1 =>
    issuedLog prog rf n ++
      (match runState prog rf n with
       | none => []
       | some s => issuedIn s)

/-- Returning semantics of `runState`. -/
def runStateOut (prog : List INS) (rf : List Int) : Nat → State
  | 0 => initState prog rf
  | n + 1 => ExecCycleOut (runStateOut prog rf n)

/-- Returning semantics of `issuedLog`. -/
def issuedLogOut (prog : List INS) (rf : List Int) : Nat → List INS
  | 0 => []
  | n + 1 => issuedLogOut prog rf n ++ issuedIn (runStateOut prog rf n)

/-- The queue holds the program slice `INSMEM[CURINS - size .. CURINS)`, within
capacity. -/
structure QueueInv (s : State) : Prop where
  size_le : s.IQUEUE.length ≤ INSCOUNT
  cur_le : s.CURINS ≤ s.PROGSIZE
  size_cur : s.IQUEUE.length ≤ s.CURINS
  slice : s.IQUEUE = (s.INSMEM.drop (s.CURINS - s.IQUEUE.length)).take s.IQUEUE.length

/-- A program with a write-after-write pair on `R2`: `Mul R2,R0,R1` followed by
`Add R2,R0,R1`.  The Add (latency 2) broadcasts in cycle 5, the Mul in cycle 12. -/
def wawProg : List INS :=
  [{ op := MUL, dst := 2, src1 := 0, src2 := 1 },
   { op := ADD, dst := 2, src1 := 0, src2 := 1 }]

/-- A state at cycle 7 in which two addition stations, an Add in `ADDRS[0]` and
a Sub in `ADDRS[1]`, are both busy, dispatched and due. -/
def twoDueState : State :=
  { INSMEM := [], CURINS := 0, CYCLE := 7, IQUEUE := [],
    RF := rf34, RAT := [EMPTY, EMPTY, 0, 1, EMPTY, EMPTY, EMPTY, EMPTY],
    ADDRS := [{ RSE.init with busy := true, op := ADD, Vj := 3, Vk := 4, Qj := EMPTY,
                              Qk := EMPTY, disp := true, discno := 4, bcast := 7 },
              { RSE.init with busy := true, op := SUB, Vj := 3, Vk := 4, Qj := EMPTY,
                              Qk := EMPTY, disp := true, discno := 5, bcast := 7 },
              RSE.init],
    MULRS := [RSE.init, RSE.init] }

/-- Opcode of an instruction is one of `ADD`, `SUB`, `MUL`, `DIV`. -/
def INS.opOk (ins : INS) : Prop :=
  ins.op = ADD ∨ ins.op = SUB ∨ ins.op = MUL ∨ ins.op = DIV

instance (ins : INS) : Decidable ins.opOk := by
  unfold INS.opOk; exact inferInstance

/-- Value of `a op b` for the four operations in `int` arithmetic: sum,
difference and product reduced to 32 bits, and the quotient truncated toward
zero. -/
def seqOp (op a b : Int) : Int :=
  if op = ADD then wrap32 (a + b)
  else if op = SUB then wrap32 (a - b)
  else if op = MUL then wrap32 (a * b)
  else Int.tdiv a b

/-- One instruction executed on its own: `RF[dst] := RF[src1] op RF[src2]`. -/
def seqStep (rf : List Int) (ins : INS) : List Int :=
  regWrite rf ins.dst (seqOp ins.op (regRead rf ins.src1) (regRead rf ins.src2))

/-- The instructions of `prog` executed one at a time in program order on `rf`. -/
def seqExec (rf : List Int) (prog : List INS) : List Int :=
  prog.foldl seqStep rf

/-- Register file after the first `k` instructions of `prog` in program order. -/
def seqAt (rf : List Int) (prog : List INS) (k : Nat) : List Int :=
  seqExec rf (prog.take k)

/-- Program-order execution of `prog` on `rf` never divides by zero: whenever
instruction number `k` is a `DIV`, its second source holds a nonzero value after
the first `k` instructions. -/
def divSafe (rf : List Int) (prog : List INS) : Prop :=
  ∀ k : Nat, k < prog.length → (prog.getD k default).op = DIV →
    regRead (seqAt rf prog k) (prog.getD k default).src2 ≠ 0

instance (rf : List Int) (prog : List INS) : Decidable (divSafe rf prog) := by
  unfold divSafe; exact inferInstance

/-- Value that instruction number `p` of `prog` writes in program-order execution. -/
def outVal (rf : List Int) (prog : List INS) (p : Nat) : Int :=
  seqOp (prog.getD p default).op
    (regRead (seqAt rf prog p) (prog.getD p default).src1)
    (regRead (seqAt rf prog p) (prog.getD p default).src2)

/-- Operand slot `(Q, V)` of the station with tag `u`, which holds instruction
number `pos u` and reads register `src` through this slot: with `Q = EMPTY` the
value `V` is the program-order value of `src` before that instruction; otherwise
`Q` is the tag of a busy station holding an earlier instruction whose
program-order result is that value. -/
def OperandOk (rf0 : List Int) (prog : List INS) (st : List RSE) (pos : Nat → Nat) (u : Nat)
    (Q V src : Int) : Prop :=
  (Q = EMPTY → V = regRead (seqAt rf0 prog (pos u)) src) ∧
  (Q ≠ EMPTY → ∃ (t : Nat) (p : RSE), Q = (t : Int) ∧ st[t]? = some p ∧ p.busy = true ∧
    pos t < pos u ∧ outVal rf0 prog (pos t) = regRead (seqAt rf0 prog (pos u)) src)

/-- The busy station `r` with tag `u` holds instruction number `pos u`, one of
the first `m` (the issued ones): same opcode, both operand slots as in
`OperandOk`, and once dispatched it waits on nothing. -/
structure StationOk (rf0 : List Int) (prog : List INS) (m : Nat) (st : List RSE)
    (pos : Nat → Nat) (u : Nat) (r : RSE) : Prop where
  lt : pos u < m
  op : r.op = (prog.getD (pos u) default).op
  j : OperandOk rf0 prog st pos u r.Qj r.Vj (prog.getD (pos u) default).src1
  k : OperandOk rf0 prog st pos u r.Qk r.Vk (prog.getD (pos u) default).src2
  disp : r.disp = true → r.Qj = EMPTY ∧ r.Qk = EMPTY

/-- RAT entry `e` and RF value `v` of register `k` after `m` issued
instructions: with `e = EMPTY` the register file holds the program-order value
of the register; otherwise `e` is the tag of a busy station whose instruction
writes register `k`, produces that value, and is the last of the `m` issued
instructions that writes register `k`. -/
def RatOk (rf0 : List Int) (prog : List INS) (m : Nat) (st : List RSE) (pos : Nat → Nat)
    (k : Nat) (e v : Int) : Prop :=
  (e = EMPTY → v = regRead (seqAt rf0 prog m) (k : Int)) ∧
  (e ≠ EMPTY → ∃ (t : Nat) (p : RSE), e = (t : Int) ∧ st[t]? = some p ∧ p.busy = true ∧
    (prog.getD (pos t) default).dst = (k : Int) ∧
    outVal rf0 prog (pos t) = regRead (seqAt rf0 prog m) (k : Int) ∧
    ∀ i : Nat, pos t < i → i < m → (prog.getD i default).dst ≠ (k : Int))

/-- Ghost invariant relating a state of the engine to program-order execution
of its program from the initial register file `rf0`: `m` instructions have been
issued and `pos` maps the tag of each busy station to the number of the
instruction it holds. -/
structure Ghost (rf0 : List Int) (s : State) (m : Nat) (pos : Nat → Nat) : Prop where
  st : ∀ (u : Nat) (r : RSE), s.stations[u]? = some r → r.busy = true →
    StationOk rf0 s.INSMEM m s.stations pos u r
  rat : ∀ (k : Nat) (e : Int), s.RAT[k]? = some e →
    RatOk rf0 s.INSMEM m s.stations pos k e (s.RF.getD k 0)

/-! ## Progress measures of the run -/

/-- Weight of a station in the progress measure: `2` while busy and not yet
dispatched, `1` while busy and dispatched, `0` when free. -/
def stW (r : RSE) : Nat := if r.busy then (if r.disp then 1 else 2) else 0

/-- Work left in a state: instructions not yet fetched (weight 4), queued
(weight 3), and the weights of the stations.  Each fetch, issue, dispatch and
broadcast lowers it. -/
def workLeft (s : State) : Nat :=
  4 * (s.PROGSIZE - s.CURINS) + 3 * s.IQUEUE.length + (s.stations.map stW).sum

/-- Cycles from cycle `c` until a busy dispatched station reaches its `bcast`. -/
def waitOf (c : Int) (r : RSE) : Nat := if r.busy && r.disp then (r.bcast - c).toNat else 0

/-- Total waiting time of the dispatched stations of a state. -/
def waitLeft (s : State) : Nat := (s.stations.map (waitOf s.CYCLE)).sum

/-- Nothing is left to do: empty queue, every instruction fetched, every
station free. -/
def Idle (s : State) : Prop :=
  s.IQUEUE = [] ∧ s.CURINS = s.PROGSIZE ∧ ∀ r ∈ s.stations, r.busy = false

/-- Every station carries a dispatch stamp older than the current cycle. -/
def Fresh (s : State) : Prop := ∀ r ∈ s.stations, r.discno < s.CYCLE

/-- A program with a true dependence chain through a division:
`Mul R2,R0,R1; Div R3,R2,R0; Add R4,R3,R2`.  On `RF = [3,4,0,...]` it computes
`R2 = 12`, `R3 = 4`, `R4 = 16`. -/
def chainProg : List INS :=
  [{ op := MUL, dst := 2, src1 := 0, src2 := 1 },
   { op := DIV, dst := 3, src1 := 2, src2 := 0 },
   { op := ADD, dst := 4, src1 := 3, src2 := 2 }]

/-! ## Where the broadcast phase traps -/

/-- The `doOp` of `pool[i]` traps. -/
def trapsAt (i : Nat) (pool : List RSE) : Bool :=
  match pool[i]? with
  | some r => r.doOp.isNone
  | none => false

/-- The station selected by the first loop of `broadcast` traps in `doOp`. -/
def mulTraps (s : State) : Bool :=
  match firstIdx (due s.CYCLE) s.MULRS with
  | some i => trapsAt i s.MULRS
  | none => false

/-- The station selected by the second loop of `broadcast`, run in state `s`,
traps in `doOp`. -/
def addTraps (s : State) : Bool :=
  match firstIdx (due s.CYCLE) s.ADDRS with
  | some i => trapsAt i s.ADDRS
  | none => false

/-- The cycle that starts in `s` traps: in the first loop of its broadcast
phase, or in the second loop after the first has run. -/
def cycleTraps (s : State) : Bool :=
  mulTraps (preBroadcast s) || addTraps (broadcastMulOut (preBroadcast s))

/-- Program-order execution of `prog` on `rf` never reaches a division that
the machine cannot carry out: whenever instruction number `k` is a `DIV`, its
second source holds a nonzero value after the first `k` instructions, and the
pair of its sources is not `INT_MIN`, `-1`. -/
def trapFree (rf : List Int) (prog : List INS) : Prop :=
  ∀ k : Nat, k < prog.length → (prog.getD k default).op = DIV →
    regRead (seqAt rf prog k) (prog.getD k default).src2 ≠ 0 ∧
    ¬ (regRead (seqAt rf prog k) (prog.getD k default).src1 = INT_MIN ∧
       regRead (seqAt rf prog k) (prog.getD k default).src2 = -1)

instance (rf : List Int) (prog : List INS) : Decidable (trapFree rf prog) := by
  unfold trapFree; exact inferInstance

/-- The one-instruction program `Div R2, R0, R1`. -/
def divMinProg : List INS := [{ op := DIV, dst := 2, src1 := 0, src2 := 1 }]

/-- A register file with `R0 = INT_MIN` and `R1 = -1`. -/
def rfMin : List Int := [INT_MIN, -1, 0, 0, 0, 0, 0, 0]

/-! ## Lemmas on the array helpers -/

theorem firstIdx_of_least {p : RSE → Bool} {pool : List RSE} {i : Nat} {r : RSE}
    (hi : pool[i]? = some r) (hp : p r = true)
    (hlt : ∀ q ∈ pool.take i, p q = false) : firstIdx p pool = some i := by
  induction pool generalizing i with
  | nil => simp at hi
  | cons a rest ih =>
    cases i with
    | zero =>
      simp only [List.getElem?_cons_zero, Option.some.injEq] at hi
      subst hi
      simp [firstIdx, hp]
    | succ n =>
      simp only [List.getElem?_cons_succ] at hi
      have ha : p a = false := hlt a (by simp)
      have hrest : ∀ q ∈ rest.take n, p q = false := fun q hq =>
        hlt q (by simp [hq])
      simp [firstIdx, ha, ih hi hrest]

theorem firstIdx_none_of_all {p : RSE → Bool} {pool : List RSE}
    (h : ∀ q ∈ pool, p q = false) : firstIdx p pool = none := by
  induction pool with
  | nil => rfl
  | cons a rest ih =>
    have ha : p a = false := h a (by simp)
    have hrest : ∀ q ∈ rest, p q = false := fun q hq => h q (by simp [hq])
    simp [firstIdx, ha, ih hrest]

theorem firstIdx_some_spec {p : RSE → Bool} {pool : List RSE} {i : Nat}
    (h : firstIdx p pool = some i) :
    ∃ r, pool[i]? = some r ∧ p r = true ∧ ∀ q ∈ pool.take i, p q = false := by
  induction pool generalizing i with
  | nil => simp [firstIdx] at h
  | cons a rest ih =>
    by_cases ha : p a = true
    · simp only [firstIdx, ha, if_true, Option.some.injEq] at h
      subst h
      exact ⟨a, by simp, ha, by simp⟩
    · simp only [firstIdx, ha, Bool.false_eq_true, if_false, Option.map_eq_some'] at h
      obtain ⟨n, hn, rfl⟩ := h
      obtain ⟨r, hr, hpr, hlt⟩ := ih hn
      refine ⟨r, by simpa using hr, hpr, ?_⟩
      intro q hq
      simp only [List.take_succ_cons, List.mem_cons] at hq
      rcases hq with rfl | hq
      · simpa using ha
      · exact hlt q hq

theorem firstIdx_none_spec {p : RSE → Bool} {pool : List RSE}
    (h : firstIdx p pool = none) : ∀ q ∈ pool, p q = false := by
  induction pool with
  | nil => simp
  | cons a rest ih =>
    by_cases ha : p a = true
    · simp [firstIdx, ha] at h
    · simp only [firstIdx, ha, Bool.false_eq_true, if_false, Option.map_eq_none'] at h
      intro q hq
      simp only [List.mem_cons] at hq
      rcases hq with rfl | hq
      · simpa using ha
      · exact ih h q hq

theorem modifyAt_length (f : RSE → RSE) (i : Nat) (pool : List RSE) :
    (modifyAt f i pool).length = pool.length := by
  induction pool generalizing i with
  | nil => cases i <;> rfl
  | cons a rest ih => cases i <;> simp [modifyAt, ih]

theorem modifyAt_getElem? (f : RSE → RSE) (i j : Nat) (pool : List RSE) :
    (modifyAt f i pool)[j]? = if j = i then pool[j]?.map f else pool[j]? := by
  induction pool generalizing i j with
  | nil => cases i <;> simp [modifyAt]
  | cons a rest ih =>
    cases i with
    | zero => cases j <;> simp [modifyAt]
    | succ n => cases j <;> simp [modifyAt, ih]

theorem modifyAt_getElem?_eq {f : RSE → RSE} {i : Nat} {pool : List RSE} {r : RSE}
    (h : pool[i]? = some r) : (modifyAt f i pool)[i]? = some (f r) := by
  simp [modifyAt_getElem?, h]

theorem modifyAt_getElem?_ne (f : RSE → RSE) {i j : Nat} (pool : List RSE)
    (h : j ≠ i) : (modifyAt f i pool)[j]? = pool[j]? := by
  simp [modifyAt_getElem?, h]

/-! ## Issue -/

theorem allocatable_eq_true {cycle : Int} {r : RSE} :
    allocatable cycle r = true ↔ r.busy = false ∧ r.discno ≠ cycle := by
  simp [allocatable]

theorem allocatable_eq_false {cycle : Int} {r : RSE} :
    allocatable cycle r = false ↔ r.busy = true ∨ r.discno = cycle := by
  cases hb : r.busy <;> simp [allocatable, hb]

theorem regWrite_getElem?_eq {a : List Int} {i v : Int} (h0 : 0 ≤ i)
    (hlt : i.toNat < a.length) : (regWrite a i v)[i.toNat]? = some v := by
  simp [regWrite, h0, List.getElem?_set, hlt]

theorem regWrite_getElem?_ne {a : List Int} {i v : Int} {k : Nat} (h : k ≠ i.toNat) :
    (regWrite a i v)[k]? = a[k]? := by
  unfold regWrite
  split
  · simp [List.getElem?_set, Ne.symm h]
  · rfl

theorem regRead_eq {a : List Int} {i v : Int} (h0 : 0 ≤ i) (h : a[i.toNat]? = some v) :
    regRead a i = v := by
  simp [regRead, h0, List.getD_eq_getElem?_getD, h]

/-- C3. Issue failure is atomic: when the queue head is an Add/Sub and no
addition station is allocatable (each is busy, or carries `discno == CYCLE`), or
the head is a Mul/Div and no multiplication station is allocatable, `issue`
returns the state it was given: same queue, RAT, RF and stations of both
pools, so nothing behind the head is issued. -/
theorem issue_failure_atomic (s : State) (ins : INS) (rest : List INS)
    (hq : s.IQUEUE = ins :: rest)
    (hfull : ((ins.op = ADD ∨ ins.op = SUB) ∧
                ∀ r ∈ s.ADDRS, r.busy = true ∨ r.discno = s.CYCLE) ∨
             ((ins.op = MUL ∨ ins.op = DIV) ∧
                ∀ r ∈ s.MULRS, r.busy = true ∨ r.discno = s.CYCLE)) :
    issue s = s := by
  rcases hfull with ⟨hop, hall⟩ | ⟨hop, hall⟩
  · have hnone : firstIdx (allocatable s.CYCLE) s.ADDRS = none :=
      firstIdx_none_of_all (fun r hr => allocatable_eq_false.mpr (hall r hr))
    simp [issue, hq, getRS, hop, hnone]
  · have hnone : firstIdx (allocatable s.CYCLE) s.MULRS = none :=
      firstIdx_none_of_all (fun r hr => allocatable_eq_false.mpr (hall r hr))
    have hno : ¬ (ins.op = ADD ∨ ins.op = SUB) := by
      rcases hop with h | h <;> simp [h]
    simp [issue, hq, getRS, hop, hno, hnone]

/-- Witness for C3: in `fullAddState` the head is an Add, all addition stations
are busy and both multiplication stations are free; `issue` changes nothing. -/
theorem issue_failure_atomic_witness :
    fullAddState.IQUEUE = { op := ADD, dst := 2, src1 := 2, src2 := 0 } ::
        [{ op := MUL, dst := 4, src1 := 2, src2 := 1 }] ∧
      (∀ r ∈ fullAddState.MULRS, r.busy = false) ∧
      issue fullAddState = fullAddState :=
  ⟨rfl, by decide,
   issue_failure_atomic fullAddState _ _ rfl (Or.inl ⟨Or.inl rfl, by decide⟩)⟩

/-- C2. Issue success.  Let the queue be `ins :: rest` with `ins.op` one of the
four opcodes and register indices in `[0,8)`, and let `i` be the lowest index of
an allocatable station (not busy, `discno != CYCLE`) in the pool of `ins.op`'s
class.  After `issue`, station `i` of that pool is busy with `op = ins.op`,
`disp = false`, `Qj`/`Qk` the old `RAT[src1]`/`RAT[src2]`, `Vj`/`Vk` the value of
`RF[src1]`/`RF[src2]` where that RAT entry was `EMPTY` (its other fields as
before); `RAT[dst]` is the tag (`i`, or `i + 3` for the multiplication pool);
the queue is `rest`; every other RAT entry, `RF`, every other station, the
other pool, `CYCLE`, `CURINS` and `INSMEM` are unchanged. -/
theorem issue_success (s : State) (hwf : s.WF) (ins : INS) (rest : List INS)
    (hq : s.IQUEUE = ins :: rest) (hregs : ins.regsOk)
    (i : Nat) (r : RSE) (qj qk vj vk : Int)
    (hqj : s.RAT[ins.src1.toNat]? = some qj) (hqk : s.RAT[ins.src2.toNat]? = some qk)
    (hvj : s.RF[ins.src1.toNat]? = some vj) (hvk : s.RF[ins.src2.toNat]? = some vk) :
    ((ins.op = ADD ∨ ins.op = SUB) → s.ADDRS[i]? = some r →
      r.busy = false → r.discno ≠ s.CYCLE →
      (∀ q ∈ s.ADDRS.take i, q.busy = true ∨ q.discno = s.CYCLE) →
      (issue s).ADDRS[i]? = some
          { r with busy := true, op := ins.op, disp := false, Qj := qj, Qk := qk,
                   Vj := if qj = EMPTY then vj else r.Vj,
                   Vk := if qk = EMPTY then vk else r.Vk } ∧
        (∀ j, j ≠ i → (issue s).ADDRS[j]? = s.ADDRS[j]?) ∧
        (issue s).MULRS = s.MULRS ∧
        (issue s).RAT[ins.dst.toNat]? = some (i : Int) ∧
        (∀ k, k ≠ ins.dst.toNat → (issue s).RAT[k]? = s.RAT[k]?) ∧
        (issue s).IQUEUE = rest ∧ (issue s).RF = s.RF ∧ (issue s).CYCLE = s.CYCLE ∧
        (issue s).CURINS = s.CURINS ∧ (issue s).INSMEM = s.INSMEM) ∧
    ((ins.op = MUL ∨ ins.op = DIV) → s.MULRS[i]? = some r →
      r.busy = false → r.discno ≠ s.CYCLE →
      (∀ q ∈ s.MULRS.take i, q.busy = true ∨ q.discno = s.CYCLE) →
      (issue s).MULRS[i]? = some
          { r with busy := true, op := ins.op, disp := false, Qj := qj, Qk := qk,
                   Vj := if qj = EMPTY then vj else r.Vj,
                   Vk := if qk = EMPTY then vk else r.Vk } ∧
        (∀ j, j ≠ i → (issue s).MULRS[j]? = s.MULRS[j]?) ∧
        (issue s).ADDRS = s.ADDRS ∧
        (issue s).RAT[ins.dst.toNat]? = some ((i : Int) + 3) ∧
        (∀ k, k ≠ ins.dst.toNat → (issue s).RAT[k]? = s.RAT[k]?) ∧
        (issue s).IQUEUE = rest ∧ (issue s).RF = s.RF ∧ (issue s).CYCLE = s.CYCLE ∧
        (issue s).CURINS = s.CURINS ∧ (issue s).INSMEM = s.INSMEM) := by
  obtain ⟨hRF, hRAT, -, -⟩ := hwf
  obtain ⟨⟨hd0, hd8⟩, ⟨h10, -⟩, ⟨h20, -⟩⟩ := hregs
  have hdlt : ins.dst.toNat < s.RAT.length := by
    rw [hRAT]; simp only [REGCOUNT] at hd8 ⊢; omega
  have hfill : fillRS s.RF s.RAT ins r =
      { r with busy := true, op := ins.op, disp := false, Qj := qj, Qk := qk,
               Vj := if qj = EMPTY then vj else r.Vj,
               Vk := if qk = EMPTY then vk else r.Vk } := by
    simp [fillRS, regRead_eq h10 hqj, regRead_eq h20 hqk, regRead_eq h10 hvj,
      regRead_eq h20 hvk]
  have htag : ∀ n : Nat, ¬ ((n : Int) = -1) := fun n => by omega
  have htag3 : ∀ n : Nat, ¬ ((n : Int) + 3 = -1) := fun n => by omega
  constructor
  · intro hop hi hb hd hlow
    have hfirst : firstIdx (allocatable s.CYCLE) s.ADDRS = some i :=
      firstIdx_of_least hi (allocatable_eq_true.mpr ⟨hb, hd⟩)
        (fun q hq => allocatable_eq_false.mpr (hlow q hq))
    have hiss : issue s =
        { s with ADDRS := modifyAt (fillRS s.RF s.RAT ins) i s.ADDRS,
                 RAT := regWrite s.RAT ins.dst (i : Int), IQUEUE := rest } := by
      simp [issue, hq, getRS, hop, hfirst, htag]
    rw [hiss]
    refine ⟨?_, ?_, rfl, ?_, ?_, rfl, rfl, rfl, rfl, rfl⟩
    · simp only [modifyAt_getElem?_eq hi, hfill]
    · intro j hj
      exact modifyAt_getElem?_ne _ _ hj
    · exact regWrite_getElem?_eq hd0 hdlt
    · intro k hk
      exact regWrite_getElem?_ne hk
  · intro hop hi hb hd hlow
    have hno : ¬ (ins.op = ADD ∨ ins.op = SUB) := by
      rcases hop with h | h <;> simp [h]
    have hfirst : firstIdx (allocatable s.CYCLE) s.MULRS = some i :=
      firstIdx_of_least hi (allocatable_eq_true.mpr ⟨hb, hd⟩)
        (fun q hq => allocatable_eq_false.mpr (hlow q hq))
    have hiss : issue s =
        { s with MULRS := modifyAt (fillRS s.RF s.RAT ins) i s.MULRS,
                 RAT := regWrite s.RAT ins.dst ((i : Int) + 3), IQUEUE := rest } := by
      simp [issue, hq, getRS, hop, hno, hfirst, htag3]
    rw [hiss]
    refine ⟨?_, ?_, rfl, ?_, ?_, rfl, rfl, rfl, rfl, rfl⟩
    · simp only [modifyAt_getElem?_eq hi, hfill]
    · intro j hj
      exact modifyAt_getElem?_ne _ _ hj
    · exact regWrite_getElem?_eq hd0 hdlt
    · intro k hk
      exact regWrite_getElem?_ne hk

/-- Witness for C2.  In `issueState` the head `Add R2,R2,R0` goes to `ADDRS[1]`
(the lowest free one): `Qj` is the old `RAT[2] = 0` although `dst = src1`,
`Vk = RF[0] = 3`, `RAT[2]` becomes `1` and the Mul stays queued.  In
`issueMulState` the head `Mul R4,R2,R1` goes to `MULRS[0]` and `RAT[4] = 3`. -/
theorem issue_success_witness :
    ((issue issueState).ADDRS[1]? = some
        { RSE.init with busy := true, op := ADD, disp := false, Qj := 0, Qk := EMPTY,
                        Vj := 0, Vk := 3 } ∧
      (issue issueState).RAT[2]? = some 1 ∧
      (issue issueState).IQUEUE = [{ op := MUL, dst := 4, src1 := 2, src2 := 1 }]) ∧
    ((issue issueMulState).MULRS[0]? = some
        { RSE.init with busy := true, op := MUL, disp := false, Qj := 0, Qk := EMPTY,
                        Vj := 0, Vk := 4 } ∧
      (issue issueMulState).RAT[4]? = some 3 ∧
      (issue issueMulState).IQUEUE = []) :=
  have ha := (issue_success issueState (by decide) _ _ rfl (by decide) 1 RSE.init
    0 EMPTY 0 3 rfl rfl rfl rfl).1 (Or.inl rfl) rfl rfl (by decide) (by decide)
  have hm := (issue_success issueMulState (by decide) _ _ rfl (by decide) 0 RSE.init
    0 EMPTY 0 4 rfl rfl rfl rfl).2 (Or.inl rfl) rfl rfl (by decide) (by decide)
  ⟨⟨ha.1, ha.2.2.2.1, ha.2.2.2.2.2.1⟩, ⟨hm.1, hm.2.2.2.1, hm.2.2.2.2.2.1⟩⟩

/-! ## Dispatch -/

theorem dispReady_eq_true {r : RSE} :
    dispReady r = true ↔ r.busy = true ∧ r.disp = false ∧ r.Qj = EMPTY ∧ r.Qk = EMPTY := by
  simp [dispReady, and_assoc]

theorem dispReady_eq_false {r : RSE} :
    dispReady r = false ↔ ¬ (r.busy = true ∧ r.disp = false ∧ r.Qj = EMPTY ∧ r.Qk = EMPTY) := by
  rw [← dispReady_eq_true]; simp

theorem dispatchPool_of_least (cycle : Int) {pool : List RSE} {i : Nat} {r : RSE}
    (hi : pool[i]? = some r) (hr : dispReady r = true)
    (hlow : ∀ q ∈ pool.take i, dispReady q = false) :
    dispatchPool cycle pool = modifyAt (dispMark cycle) i pool := by
  simp [dispatchPool, firstIdx_of_least hi hr hlow]

theorem dispatchPool_of_none {cycle : Int} {pool : List RSE}
    (h : ∀ q ∈ pool, dispReady q = false) : dispatchPool cycle pool = pool := by
  simp [dispatchPool, firstIdx_none_of_all h]

theorem dispatchPool_changes_one (cycle : Int) (pool : List RSE) (j k : Nat)
    (hj : (dispatchPool cycle pool)[j]? ≠ pool[j]?)
    (hk : (dispatchPool cycle pool)[k]? ≠ pool[k]?) : j = k := by
  unfold dispatchPool at hj hk
  cases h : firstIdx dispReady pool with
  | none => simp [h] at hj
  | some i =>
    simp only [h] at hj hk
    have hji : j = i := by
      by_contra hne
      exact hj (modifyAt_getElem?_ne _ _ hne)
    have hki : k = i := by
      by_contra hne
      exact hk (modifyAt_getElem?_ne _ _ hne)
    rw [hji, hki]

/-- C4. Dispatch selection.  For each pool: if station `i` is the least index
with `busy && !disp && Qj == EMPTY && Qk == EMPTY`, then after `dispatch` it has
`disp = true`, `discno = CYCLE`, `bcast = CYCLE + opCycles(op)` (its other
fields as before) and every other station of the pool is unchanged; if no
station of the pool is eligible the pool is unchanged; in every case at most
one index of the pool changes.  The latencies are Add 2, Sub 2, Mul 10, Div 40.
`dispatch` changes nothing in `RF`, `RAT` or the queue (nor `CYCLE`, `CURINS`,
`INSMEM`). -/
theorem dispatch_selection (s : State) (i : Nat) (r : RSE) :
    (s.ADDRS[i]? = some r →
      r.busy = true → r.disp = false → r.Qj = EMPTY → r.Qk = EMPTY →
      (∀ q ∈ s.ADDRS.take i,
        ¬ (q.busy = true ∧ q.disp = false ∧ q.Qj = EMPTY ∧ q.Qk = EMPTY)) →
      (dispatch s).ADDRS[i]? = some
          { r with disp := true, discno := s.CYCLE, bcast := s.CYCLE + opCycles r.op } ∧
        ∀ j, j ≠ i → (dispatch s).ADDRS[j]? = s.ADDRS[j]?) ∧
    ((∀ q ∈ s.ADDRS,
        ¬ (q.busy = true ∧ q.disp = false ∧ q.Qj = EMPTY ∧ q.Qk = EMPTY)) →
      (dispatch s).ADDRS = s.ADDRS) ∧
    (s.MULRS[i]? = some r →
      r.busy = true → r.disp = false → r.Qj = EMPTY → r.Qk = EMPTY →
      (∀ q ∈ s.MULRS.take i,
        ¬ (q.busy = true ∧ q.disp = false ∧ q.Qj = EMPTY ∧ q.Qk = EMPTY)) →
      (dispatch s).MULRS[i]? = some
          { r with disp := true, discno := s.CYCLE, bcast := s.CYCLE + opCycles r.op } ∧
        ∀ j, j ≠ i → (dispatch s).MULRS[j]? = s.MULRS[j]?) ∧
    ((∀ q ∈ s.MULRS,
        ¬ (q.busy = true ∧ q.disp = false ∧ q.Qj = EMPTY ∧ q.Qk = EMPTY)) →
      (dispatch s).MULRS = s.MULRS) ∧
    (∀ j k : Nat, (dispatch s).ADDRS[j]? ≠ s.ADDRS[j]? →
      (dispatch s).ADDRS[k]? ≠ s.ADDRS[k]? → j = k) ∧
    (∀ j k : Nat, (dispatch s).MULRS[j]? ≠ s.MULRS[j]? →
      (dispatch s).MULRS[k]? ≠ s.MULRS[k]? → j = k) ∧
    (opCycles ADD = 2 ∧ opCycles SUB = 2 ∧ opCycles MUL = 10 ∧ opCycles DIV = 40) ∧
    (dispatch s).RF = s.RF ∧ (dispatch s).RAT = s.RAT ∧
    (dispatch s).IQUEUE = s.IQUEUE ∧ (dispatch s).CYCLE = s.CYCLE ∧
    (dispatch s).CURINS = s.CURINS ∧ (dispatch s).INSMEM = s.INSMEM := by
  refine ⟨?_, ?_, ?_, ?_, ?_, ?_, ⟨rfl, rfl, rfl, rfl⟩, rfl, rfl, rfl, rfl, rfl, rfl⟩
  · intro hi hb hd hj hk hlow
    have h := dispatchPool_of_least s.CYCLE hi
      (dispReady_eq_true.mpr ⟨hb, hd, hj, hk⟩)
      (fun q hq => dispReady_eq_false.mpr (hlow q hq))
    show (dispatchPool s.CYCLE s.ADDRS)[i]? = _ ∧
      ∀ j, j ≠ i → (dispatchPool s.CYCLE s.ADDRS)[j]? = s.ADDRS[j]?
    rw [h]
    exact ⟨modifyAt_getElem?_eq hi, fun j hj => modifyAt_getElem?_ne _ _ hj⟩
  · intro hnone
    exact dispatchPool_of_none (fun q hq => dispReady_eq_false.mpr (hnone q hq))
  · intro hi hb hd hj hk hlow
    have h := dispatchPool_of_least s.CYCLE hi
      (dispReady_eq_true.mpr ⟨hb, hd, hj, hk⟩)
      (fun q hq => dispReady_eq_false.mpr (hlow q hq))
    show (dispatchPool s.CYCLE s.MULRS)[i]? = _ ∧
      ∀ j, j ≠ i → (dispatchPool s.CYCLE s.MULRS)[j]? = s.MULRS[j]?
    rw [h]
    exact ⟨modifyAt_getElem?_eq hi, fun j hj => modifyAt_getElem?_ne _ _ hj⟩
  · intro hnone
    exact dispatchPool_of_none (fun q hq => dispReady_eq_false.mpr (hnone q hq))
  · exact dispatchPool_changes_one s.CYCLE s.ADDRS
  · exact dispatchPool_changes_one s.CYCLE s.MULRS

/-- Witness for C4.  In `dispatchState` (cycle 5) `ADDRS[1]` (a Sub) is the
least eligible addition station: it is dispatched with `discno = 5`,
`bcast = 7`, while the equally eligible `ADDRS[2]` and the waiting `ADDRS[0]`
are unchanged; no multiplication station is eligible and `MULRS` is unchanged. -/
theorem dispatch_selection_witness :
    ((dispatch dispatchState).ADDRS[1]? = some
        { RSE.init with busy := true, op := SUB, Vj := 3, Vk := 4, Qj := EMPTY,
                        Qk := EMPTY, disp := true, discno := 5, bcast := 7 } ∧
      (dispatch dispatchState).ADDRS[2]? = dispatchState.ADDRS[2]? ∧
      (dispatch dispatchState).ADDRS[0]? = dispatchState.ADDRS[0]?) ∧
    (dispatch dispatchState).MULRS = dispatchState.MULRS :=
  have h := dispatch_selection dispatchState 1
    { RSE.init with busy := true, op := SUB, Vj := 3, Vk := 4, Qj := EMPTY, Qk := EMPTY }
  have ha := h.1 rfl rfl rfl rfl rfl (by decide)
  ⟨⟨ha.1, ha.2 2 (by decide), ha.2 0 (by decide)⟩, h.2.2.2.1 (by decide)⟩

/-! ## Frame lemmas: what each phase leaves alone -/

theorem fillIQFuel_frame {fuel : Nat} {s s' : State} (h : fillIQFuel fuel s = some s') :
    s'.CYCLE = s.CYCLE ∧ s'.RF = s.RF ∧ s'.RAT = s.RAT ∧ s'.ADDRS = s.ADDRS ∧
      s'.MULRS = s.MULRS ∧ s'.INSMEM = s.INSMEM := by
  induction fuel generalizing s with
  | zero =>
    unfold fillIQFuel at h
    split at h
    · simp at h
    · simp only [Option.some.injEq] at h; subst h; simp
  | succ n ih =>
    unfold fillIQFuel at h
    split at h
    · have := ih h
      simpa [fillIQBody] using this
    · simp only [Option.some.injEq] at h; subst h; simp

theorem fillIQ_frame (s : State) :
    (fillIQ s).CYCLE = s.CYCLE ∧ (fillIQ s).RF = s.RF ∧ (fillIQ s).RAT = s.RAT ∧
      (fillIQ s).ADDRS = s.ADDRS ∧ (fillIQ s).MULRS = s.MULRS ∧
      (fillIQ s).INSMEM = s.INSMEM := by
  unfold fillIQ
  cases h : fillIQFuel (s.PROGSIZE - s.CURINS) s with
  | none => simp
  | some s' => simpa using fillIQFuel_frame h

theorem fillIQ_of_exhausted {s : State} (h : s.CURINS = s.PROGSIZE) : fillIQ s = s := by
  simp [fillIQ, h, fillIQFuel, fillIQCond]

theorem issue_CYCLE (s : State) : (issue s).CYCLE = s.CYCLE := by
  unfold issue getRS
  repeat' split
  all_goals rfl

theorem issue_RF (s : State) : (issue s).RF = s.RF := by
  unfold issue getRS
  repeat' split
  all_goals rfl

theorem capture_CYCLE (res rsn : Int) (s : State) : (capture res rsn s).CYCLE = s.CYCLE := rfl

theorem stallOthers_CYCLE (s : State) : (stallOthers s).CYCLE = s.CYCLE := rfl

theorem broadcastMulAt_CYCLE (i : Nat) (s : State) : (broadcastMulAtOut i s).CYCLE = s.CYCLE := rfl

theorem broadcastAddAt_CYCLE (i : Nat) (s : State) : (broadcastAddAtOut i s).CYCLE = s.CYCLE := rfl

theorem broadcastMul_CYCLE (s : State) : (broadcastMulOut s).CYCLE = s.CYCLE := by
  unfold broadcastMulOut; split <;> rfl

theorem broadcastAdd_CYCLE (s : State) : (broadcastAddOut s).CYCLE = s.CYCLE := by
  unfold broadcastAddOut; split <;> rfl

theorem broadcast_CYCLE (s : State) : (broadcastOut s).CYCLE = s.CYCLE := by
  simp [broadcastOut, broadcastAdd_CYCLE, broadcastMul_CYCLE]

theorem preBroadcast_CYCLE (s : State) : (preBroadcast s).CYCLE = s.CYCLE := by
  simp [preBroadcast, (fillIQ_frame _).1, issue_CYCLE, dispatch]

theorem ExecCycleOut_eq (s : State) :
    ExecCycleOut s = { broadcastOut (preBroadcast s) with CYCLE := s.CYCLE + 1 } := by
  simp [ExecCycleOut, preBroadcast, broadcast_CYCLE, (fillIQ_frame _).1, issue_CYCLE, dispatch]

theorem ExecCycleOut_CYCLE (s : State) : (ExecCycleOut s).CYCLE = s.CYCLE + 1 := by
  rw [ExecCycleOut_eq]

/-! ## The driver loop -/

theorem ExecCycleOut_idle (s : State) (hq : s.IQUEUE = []) (hcur : s.CURINS = s.PROGSIZE)
    (ha : ∀ r ∈ s.ADDRS, r.busy = false) (hm : ∀ r ∈ s.MULRS, r.busy = false) :
    ExecCycleOut s = { s with CYCLE := s.CYCLE + 1 } := by
  have hda : firstIdx dispReady s.ADDRS = none :=
    firstIdx_none_of_all (fun r hr => by simp [dispReady, ha r hr])
  have hdm : firstIdx dispReady s.MULRS = none :=
    firstIdx_none_of_all (fun r hr => by simp [dispReady, hm r hr])
  have hd : dispatch s = s := by simp [dispatch, dispatchPool, hda, hdm]
  have hi : issue s = s := by simp [issue, hq]
  have hf : fillIQ s = s := fillIQ_of_exhausted hcur
  have hba : firstIdx (due s.CYCLE) s.ADDRS = none :=
    firstIdx_none_of_all (fun r hr => by simp [due, ha r hr])
  have hbm : firstIdx (due s.CYCLE) s.MULRS = none :=
    firstIdx_none_of_all (fun r hr => by simp [due, hm r hr])
  have hb : broadcastOut s = s := by simp [broadcastOut, broadcastMulOut, broadcastAddOut, hba, hbm]
  simp [ExecCycleOut, hd, hi, hf, hb]

/-! ## `stallOthers`: closed form of one pool's loop -/

theorem due_eq_true {c : Int} {r : RSE} :
    due c r = true ↔ r.busy = true ∧ r.disp = true ∧ r.bcast = c := by
  simp [due, and_assoc]

theorem bumpSet_nil (pool : List RSE) : bumpSet [] pool = pool := by
  simp [bumpSet]

theorem bumpOp_bumpSet {x : Int} {B : List Int} (hx : x ∉ B) (pool : List RSE) :
    bumpOp x (bumpSet B pool) = bumpSet (x :: B) pool := by
  simp only [bumpOp, bumpSet, List.map_map]
  apply List.map_congr_left
  intro r _
  by_cases hr : r.op ∈ B
  · have hne : r.op ≠ x := fun h => hx (h ▸ hr)
    simp [hr, hne]
  · by_cases hrx : r.op = x
    · subst hrx
      simp [hr]
    · simp [hr, hrx]

theorem stall_fold_inv (c : Int) (pool : List RSE)
    (H : ∀ q ∈ pool, q.busy = true → q.disp = true → q.bcast ≠ c - 1) :
    ∀ n, n ≤ pool.length → ∃ B : List Int,
      (List.range n).foldl (stallStep c) pool = bumpSet B pool ∧
      (∀ x ∈ B, ∃ q ∈ pool, due c q = true ∧ q.op = x) ∧
      (∀ k q, k < n → pool[k]? = some q → due c q = true → q.op ∈ B) := by
  intro n
  induction n with
  | zero =>
    intro _
    exact ⟨[], by simp [bumpSet_nil], by simp, by simp⟩
  | succ n ih =>
    intro hn
    obtain ⟨B, hfold, hB1, hB2⟩ := ih (by omega)
    have hlt : n < pool.length := by omega
    have hq : pool[n]? = some pool[n] := List.getElem?_eq_getElem hlt
    have hmem : pool[n] ∈ pool := List.getElem_mem hlt
    rw [List.range_succ, List.foldl_append, hfold]
    simp only [List.foldl_cons, List.foldl_nil]
    by_cases hin : pool[n].op ∈ B
    · have hstep : stallStep c (bumpSet B pool) n = bumpSet B pool := by
        have hnd : ¬ (pool[n].busy = true ∧ pool[n].disp = true ∧ pool[n].bcast + 1 = c) := by
          rintro ⟨hb, hd, hc⟩
          exact H _ hmem hb hd (by omega)
        simp [stallStep, bumpSet, List.getElem?_map, hq, hin, due_eq_true, hnd]
      refine ⟨B, hstep, hB1, ?_⟩
      intro k q hk hkq hdue
      rcases Nat.lt_succ_iff_lt_or_eq.mp hk with hk | rfl
      · exact hB2 k q hk hkq hdue
      · rw [hq] at hkq
        cases hkq
        exact hin
    · by_cases hdue : due c pool[n] = true
      · have hstep : stallStep c (bumpSet B pool) n = bumpSet (pool[n].op :: B) pool := by
          rw [← bumpOp_bumpSet hin]
          simp [stallStep, bumpSet, List.getElem?_map, hq, hin, hdue]
        refine ⟨pool[n].op :: B, hstep, ?_, ?_⟩
        · intro x hx
          rcases List.mem_cons.mp hx with rfl | hx
          · exact ⟨_, hmem, hdue, rfl⟩
          · exact hB1 x hx
        · intro k q hk hkq hd
          rcases Nat.lt_succ_iff_lt_or_eq.mp hk with hk | rfl
          · exact List.mem_cons_of_mem _ (hB2 k q hk hkq hd)
          · rw [hq] at hkq
            cases hkq
            exact List.mem_cons_self _ _
      · have hstep : stallStep c (bumpSet B pool) n = bumpSet B pool := by
          simp [stallStep, bumpSet, List.getElem?_map, hq, hin, hdue]
        refine ⟨B, hstep, hB1, ?_⟩
        intro k q hk hkq hd
        rcases Nat.lt_succ_iff_lt_or_eq.mp hk with hk | rfl
        · exact hB2 k q hk hkq hd
        · rw [hq] at hkq
          cases hkq
          exact absurd hd hdue

theorem contended_eq_true {c : Int} {others : List RSE} {op : Int} :
    contended c others op = true ↔ ∃ q ∈ others, due c q = true ∧ q.op = op := by
  simp [contended]

/-- When no busy dispatched station of the pool has `bcast = cycle - 1`, the
outer loop of `stallOthers` increments `bcast` once for exactly the stations
whose opcode is the opcode of a station of the pool that is due at `cycle`. -/
theorem stallPool_eq_map (c : Int) (pool : List RSE)
    (H : ∀ q ∈ pool, q.busy = true → q.disp = true → q.bcast ≠ c - 1) :
    stallPool c pool = pool.map (stalled c pool) := by
  obtain ⟨B, hfold, hB1, hB2⟩ := stall_fold_inv c pool H pool.length (le_refl _)
  unfold stallPool
  rw [hfold, bumpSet]
  apply List.map_congr_left
  intro r _
  have hiff : r.op ∈ B ↔ contended c pool r.op = true := by
    rw [contended_eq_true]
    constructor
    · intro h
      exact hB1 _ h
    · rintro ⟨q, hq, hd, hop⟩
      obtain ⟨k, hk, hkq⟩ := List.getElem_of_mem hq
      have : q.op ∈ B := hB2 k q hk (by rw [List.getElem?_eq_getElem hk, hkq]) hd
      rwa [hop] at this
  by_cases hr : r.op ∈ B
  · simp [stalled, hr, hiff.mp hr]
  · have : ¬ contended c pool r.op = true := fun h => hr (hiff.mpr h)
    simp [stalled, hr, this]

/-! ## Closed form of the body of the `broadcast` loops -/

theorem broadcastMulAtOut_eq (i : Nat) (s : State) :
    broadcastMulAtOut i s =
      { s with
        MULRS := winPool s.CYCLE (resultAt (modifyAt RSE.computed i s.MULRS) i)
                   ((i : Int) + (ADDCOUNT : Int)) i s.MULRS
        ADDRS := losePool s.CYCLE (resultAt (modifyAt RSE.computed i s.MULRS) i)
                   ((i : Int) + (ADDCOUNT : Int)) s.ADDRS
        RF := captureRF (resultAt (modifyAt RSE.computed i s.MULRS) i)
                ((i : Int) + (ADDCOUNT : Int)) s.RAT s.RF
        RAT := captureRAT ((i : Int) + (ADDCOUNT : Int)) s.RAT } := rfl

theorem broadcastAddAtOut_eq (i : Nat) (s : State) :
    broadcastAddAtOut i s =
      { s with
        ADDRS := winPool s.CYCLE (resultAt (modifyAt RSE.computed i s.ADDRS) i) (i : Int) i s.ADDRS
        MULRS := losePool s.CYCLE (resultAt (modifyAt RSE.computed i s.ADDRS) i) (i : Int) s.MULRS
        RF := captureRF (resultAt (modifyAt RSE.computed i s.ADDRS) i) (i : Int) s.RAT s.RF
        RAT := captureRAT (i : Int) s.RAT } := rfl

theorem resultAt_doOp {pool : List RSE} {i : Nat} {r : RSE} (h : pool[i]? = some r) :
    resultAt (modifyAt RSE.computed i pool) i = r.computed.result := by
  simp [resultAt, modifyAt_getElem?_eq h]

theorem captureRSE_timing (res tag : Int) (r : RSE) :
    (captureRSE res tag r).busy = r.busy ∧ (captureRSE res tag r).disp = r.disp ∧
      (captureRSE res tag r).bcast = r.bcast ∧ (captureRSE res tag r).op = r.op ∧
      (captureRSE res tag r).discno = r.discno ∧
      (captureRSE res tag r).result = r.result := by
  unfold captureRSE
  by_cases hj : r.Qj = tag <;> by_cases hk : r.Qk = tag <;> simp [hj, hk]

/-- The total form of `computed`: the arithmetic of `doOp` with the trap test removed. -/
theorem computed_eq (r : RSE) :
    r.computed =
      if r.op = ADD then { r with result := wrap32 (r.Vj + r.Vk) }
      else if r.op = SUB then { r with result := wrap32 (r.Vj - r.Vk) }
      else if r.op = MUL then { r with result := wrap32 (r.Vj * r.Vk) }
      else if r.op = DIV then { r with result := Int.tdiv r.Vj r.Vk }
      else { r with result := -1 } := by
  unfold RSE.computed RSE.doOp
  split_ifs <;> rfl

theorem doOp_timing (r : RSE) :
    r.computed.busy = r.busy ∧ r.computed.disp = r.disp ∧ r.computed.bcast = r.bcast ∧
      r.computed.op = r.op ∧ r.computed.discno = r.discno ∧ r.computed.Vj = r.Vj ∧
      r.computed.Vk = r.Vk ∧ r.computed.Qj = r.Qj ∧ r.computed.Qk = r.Qk := by
  rw [computed_eq]
  repeat' split
  all_goals simp

theorem due_captureRSE (c res tag : Int) (r : RSE) :
    due c (captureRSE res tag r) = due c r := by
  obtain ⟨h1, h2, h3, -⟩ := captureRSE_timing res tag r
  simp [due, h1, h2, h3]

theorem contended_map_capture (c res tag : Int) (pool : List RSE) (op : Int) :
    contended c (pool.map (captureRSE res tag)) op = contended c pool op := by
  simp only [contended, List.any_map]
  congr 1
  funext q
  simp [due_captureRSE, (captureRSE_timing res tag q).2.2.2.1]

theorem stalled_congr {c : Int} {p1 p2 : List RSE}
    (h : ∀ op, contended c p1 op = contended c p2 op) (r : RSE) :
    stalled c p1 r = stalled c p2 r := by
  simp [stalled, h]

theorem losePool_getElem? (c res tag : Int) (pool : List RSE)
    (H : ∀ q ∈ pool, q.busy = true → q.disp = true → q.bcast ≠ c - 1) (j : Nat) :
    (losePool c res tag pool)[j]? =
      pool[j]?.map (fun r => stalled c pool (captureRSE res tag r)) := by
  have H' : ∀ q ∈ pool.map (captureRSE res tag),
      q.busy = true → q.disp = true → q.bcast ≠ c - 1 := by
    intro q hq
    obtain ⟨r, hr, rfl⟩ := List.mem_map.mp hq
    obtain ⟨h1, h2, h3, -⟩ := captureRSE_timing res tag r
    rw [h1, h2, h3]
    exact H r hr
  unfold losePool
  rw [stallPool_eq_map c _ H']
  simp only [List.getElem?_map, Option.map_map]
  congr 1
  funext r
  exact stalled_congr (contended_map_capture c res tag pool) _

theorem contended_winner_erased (c res tag : Int) (hc : c ≠ -1) (op : Int) :
    ∀ (pool : List RSE) (i : Nat),
      contended c (modifyAt (fun r => { r with bcast := -1 }) i
        ((modifyAt RSE.computed i pool).map (captureRSE res tag))) op =
      contended c (pool.eraseIdx i) op := by
  intro pool
  induction pool with
  | nil => intro i; cases i <;> simp [modifyAt, contended]
  | cons a rest ih =>
    intro i
    cases i with
    | zero =>
      have hnd : ((-1 : Int) == c) = false := by
        simp only [beq_eq_false_iff_ne, ne_eq]
        exact fun h => hc h.symm
      have := contended_map_capture c res tag rest op
      simp only [contended, List.any_map] at this
      simp only [modifyAt, contended, List.map_cons, List.any_cons, List.any_map,
        List.eraseIdx_cons_zero, due, hnd, Bool.and_false, Bool.false_and, Bool.false_or]
      exact this
    | succ n =>
      have := ih n
      simp only [contended] at this
      simp [modifyAt, contended, this, due_captureRSE,
        (captureRSE_timing res tag a).2.2.2.1]

theorem mem_modifyAt {f : RSE → RSE} {i : Nat} {pool : List RSE} {q : RSE}
    (h : q ∈ modifyAt f i pool) : q ∈ pool ∨ ∃ r, pool[i]? = some r ∧ q = f r := by
  obtain ⟨k, hk, hkq⟩ := List.getElem_of_mem h
  have hq : (modifyAt f i pool)[k]? = some q := by
    rw [List.getElem?_eq_getElem hk, hkq]
  rw [modifyAt_getElem?] at hq
  split at hq
  · rename_i hki
    subst hki
    obtain ⟨r, hr, rfl⟩ := Option.map_eq_some'.mp hq
    exact Or.inr ⟨r, hr, rfl⟩
  · exact Or.inl (List.getElem?_mem hq)

theorem winPool_getElem? (c res tag : Int) (i : Nat) (pool : List RSE)
    (H : ∀ q ∈ pool, q.busy = true → q.disp = true → q.bcast ≠ c - 1)
    (hc0 : c ≠ 0) (hc1 : c ≠ -1) (j : Nat) :
    (winPool c res tag i pool)[j]? =
      if j = i then
        pool[j]?.map (fun r =>
          { stalled c (pool.eraseIdx i) { captureRSE res tag r.computed with bcast := -1 }
            with busy := false })
      else pool[j]?.map (fun r => stalled c (pool.eraseIdx i) (captureRSE res tag r)) := by
  have H' : ∀ q ∈ modifyAt (fun r => { r with bcast := -1 }) i
      ((modifyAt RSE.computed i pool).map (captureRSE res tag)),
      q.busy = true → q.disp = true → q.bcast ≠ c - 1 := by
    intro q hq
    rcases mem_modifyAt hq with hq | ⟨r, -, rfl⟩
    · obtain ⟨r, hr, rfl⟩ := List.mem_map.mp hq
      obtain ⟨h1, h2, h3, -⟩ := captureRSE_timing res tag r
      rw [h1, h2, h3]
      rcases mem_modifyAt hr with hr | ⟨r0, hr0, rfl⟩
      · exact H r hr
      · obtain ⟨d1, d2, d3, -⟩ := doOp_timing r0
        rw [d1, d2, d3]
        exact H r0 (List.getElem?_mem hr0)
    · intro _ _
      show (-1 : Int) ≠ c - 1
      omega
  unfold winPool
  rw [stallPool_eq_map c _ H']
  have hst : stalled c (modifyAt (fun r => { r with bcast := -1 }) i
      ((modifyAt RSE.computed i pool).map (captureRSE res tag))) =
      stalled c (pool.eraseIdx i) :=
    funext (stalled_congr (contended_winner_erased c res tag hc1 · pool i))
  rw [hst]
  simp only [modifyAt_getElem?, List.getElem?_map]
  by_cases hji : j = i
  · subst hji
    cases pool[j]? <;> simp
  · simp only [hji, if_false]
    cases pool[j]? <;> simp

/-! ## The timing invariant through dispatch, issue and refill -/

theorem opCycles_valid {op : Int} (h : op = ADD ∨ op = SUB ∨ op = MUL ∨ op = DIV) :
    2 ≤ opCycles op := by
  rcases h with h | h | h | h <;> subst h <;> decide

theorem opCycles_ge_two {op : Int} (h : 2 ≤ opCycles op) :
    op = ADD ∨ op = SUB ∨ op = MUL ∨ op = DIV := by
  unfold opCycles at h
  by_cases h0 : op = ADD
  · exact Or.inl h0
  by_cases h1 : op = SUB
  · exact Or.inr (Or.inl h1)
  by_cases h2 : op = MUL
  · exact Or.inr (Or.inr (Or.inl h2))
  by_cases h3 : op = DIV
  · exact Or.inr (Or.inr (Or.inr h3))
  simp [h0, h1, h2, h3] at h

theorem PhaseInv_init (prog : List INS) (rf : List Int) (hrf : rf.length = REGCOUNT) :
    PhaseInv (initState prog rf) := by
  refine ⟨⟨hrf, by simp [initState], by simp [initState], by simp [initState]⟩,
    by simp [initState], ?_, ?_⟩
  · intro r hr
    have : r = RSE.init := by
      simp only [initState] at hr
      exact List.eq_of_mem_replicate hr
    subst this
    intro hb
    exact absurd hb (by decide)
  · intro r hr
    have : r = RSE.init := by
      simp only [initState] at hr
      exact List.eq_of_mem_replicate hr
    subst this
    intro hb
    exact absurd hb (by decide)

theorem dispatchPool_ok {c : Int} {pool : List RSE} (hc : 0 ≤ c)
    (h : ∀ r ∈ pool, StOk c r) : ∀ r ∈ dispatchPool c pool, StOk c r := by
  intro q hq
  unfold dispatchPool at hq
  cases hf : firstIdx dispReady pool with
  | none => rw [hf] at hq; exact h q hq
  | some i =>
    rw [hf] at hq
    rcases mem_modifyAt hq with hq | ⟨r, hr, rfl⟩
    · exact h q hq
    · have hmem : r ∈ pool := List.getElem?_mem hr
      obtain ⟨r', hr', hready, -⟩ := firstIdx_some_spec hf
      rw [hr] at hr'
      cases hr'
      have hb : r.busy = true := (dispReady_eq_true.mp hready).1
      have hop := (h r hmem hb).1
      intro _
      refine ⟨hop, fun _ => ?_⟩
      simp only [dispMark]
      refine ⟨?_, le_refl _, hc⟩
      omega

theorem PhaseInv_dispatch {s : State} (h : PhaseInv s) : PhaseInv (dispatch s) := by
  obtain ⟨⟨h1, h2, h3, h4⟩, hc, ha, hm⟩ := h
  refine ⟨⟨h1, h2, ?_, ?_⟩, hc, dispatchPool_ok hc ha, dispatchPool_ok hc hm⟩
  · show (dispatchPool s.CYCLE s.ADDRS).length = ADDCOUNT
    unfold dispatchPool
    split <;> simp [modifyAt_length, h3]
  · show (dispatchPool s.CYCLE s.MULRS).length = MULCOUNT
    unfold dispatchPool
    split <;> simp [modifyAt_length, h4]

theorem regWrite_length (a : List Int) (i v : Int) : (regWrite a i v).length = a.length := by
  unfold regWrite
  split <;> simp

theorem getRS_RAT (s : State) (ins : INS) : (getRS s ins).2.RAT = s.RAT := by
  unfold getRS
  repeat' split
  all_goals rfl

theorem issue_RAT_length (s : State) : (issue s).RAT.length = s.RAT.length := by
  unfold issue
  split
  · rfl
  · simp only
    split
    · simp [regWrite_length, getRS_RAT]
    · simp [getRS_RAT]

/-- Each pool after `issue` is either untouched or has the instruction filled
into its first allocatable station. -/
theorem issue_cases (s : State) :
    ((issue s).ADDRS = s.ADDRS ∨
      ∃ i ins, 2 ≤ opCycles ins.op ∧ firstIdx (allocatable s.CYCLE) s.ADDRS = some i ∧
        (issue s).ADDRS = modifyAt (fillRS s.RF s.RAT ins) i s.ADDRS) ∧
    ((issue s).MULRS = s.MULRS ∨
      ∃ i ins, 2 ≤ opCycles ins.op ∧ firstIdx (allocatable s.CYCLE) s.MULRS = some i ∧
        (issue s).MULRS = modifyAt (fillRS s.RF s.RAT ins) i s.MULRS) := by
  unfold issue
  cases hq : s.IQUEUE with
  | nil => exact ⟨Or.inl rfl, Or.inl rfl⟩
  | cons ins rest =>
    simp only
    unfold getRS
    by_cases hadd : ins.op = ADD ∨ ins.op = SUB
    · have hop : 2 ≤ opCycles ins.op := by
        rcases hadd with h | h <;> rw [h] <;> decide
      simp only [hadd, if_true]
      cases hf : firstIdx (allocatable s.CYCLE) s.ADDRS with
      | none => simp
      | some i =>
        have : ¬ ((i : Int) = -1) := by omega
        simp only [this, ne_eq, not_false_eq_true, if_true]
        refine ⟨Or.inr ⟨i, ins, hop, ?_, ?_⟩, ?_⟩
        all_goals first | rfl | exact hf | simp
    · simp only [hadd, if_false]
      by_cases hmul : ins.op = MUL ∨ ins.op = DIV
      · have hop : 2 ≤ opCycles ins.op := by
          rcases hmul with h | h <;> rw [h] <;> decide
        simp only [hmul, if_true]
        cases hf : firstIdx (allocatable s.CYCLE) s.MULRS with
        | none => simp
        | some i =>
          have : ¬ ((i : Int) + (ADDCOUNT : Int) = -1) := by
            simp only [ADDCOUNT]; omega
          simp only [this, ne_eq, not_false_eq_true, if_true]
          refine ⟨?_, Or.inr ⟨i, ins, hop, ?_, ?_⟩⟩
          all_goals first | rfl | exact hf | simp
      · simp [hmul]

theorem fill_ok {c : Int} {pool : List RSE} {RF RAT : List Int} {ins : INS} {i : Nat}
    (hop : 2 ≤ opCycles ins.op) (h : ∀ r ∈ pool, StOk c r) :
    ∀ r ∈ modifyAt (fillRS RF RAT ins) i pool, StOk c r := by
  intro q hq
  rcases mem_modifyAt hq with hq | ⟨r, -, rfl⟩
  · exact h q hq
  · intro _
    refine ⟨hop, fun hd => ?_⟩
    simp [fillRS] at hd

theorem PhaseInv_issue {s : State} (h : PhaseInv s) : PhaseInv (issue s) := by
  obtain ⟨⟨h1, h2, h3, h4⟩, hc, ha, hm⟩ := h
  obtain ⟨hA, hM⟩ := issue_cases s
  refine ⟨⟨by rw [issue_RF]; exact h1, by rw [issue_RAT_length]; exact h2, ?_, ?_⟩,
    by rw [issue_CYCLE]; exact hc, ?_, ?_⟩
  · rcases hA with hA | ⟨i, ins, -, -, hA⟩ <;> rw [hA]
    · exact h3
    · rw [modifyAt_length]; exact h3
  · rcases hM with hM | ⟨i, ins, -, -, hM⟩ <;> rw [hM]
    · exact h4
    · rw [modifyAt_length]; exact h4
  · rw [issue_CYCLE]
    rcases hA with hA | ⟨i, ins, hop, -, hA⟩ <;> rw [hA]
    · exact ha
    · exact fill_ok hop ha
  · rw [issue_CYCLE]
    rcases hM with hM | ⟨i, ins, hop, -, hM⟩ <;> rw [hM]
    · exact hm
    · exact fill_ok hop hm

theorem PhaseInv_fillIQ {s : State} (h : PhaseInv s) : PhaseInv (fillIQ s) := by
  obtain ⟨⟨h1, h2, h3, h4⟩, hc, ha, hm⟩ := h
  obtain ⟨f1, f2, f3, f4, f5, -⟩ := fillIQ_frame s
  refine ⟨⟨by rw [f2]; exact h1, by rw [f3]; exact h2, by rw [f4]; exact h3,
    by rw [f5]; exact h4⟩, by rw [f1]; exact hc, ?_, ?_⟩
  · rw [f1, f4]; exact ha
  · rw [f1, f5]; exact hm

theorem PhaseInv_preBroadcast {s : State} (h : PhaseInv s) : PhaseInv (preBroadcast s) :=
  PhaseInv_fillIQ (PhaseInv_issue (PhaseInv_dispatch h))

/-! ## The timing invariant through the broadcast phase -/

theorem StOk_no_stale {c : Int} {pool : List RSE} (h : ∀ r ∈ pool, StOk c r) :
    ∀ q ∈ pool, q.busy = true → q.disp = true → q.bcast ≠ c - 1 := by
  intro q hq hb hd
  have := ((h q hq hb).2 hd).1
  omega

theorem due_cycle_ge {c : Int} {r : RSE} (h : StOk c r) (hd : due c r = true) : 2 ≤ c := by
  obtain ⟨hb, hdisp, hbc⟩ := due_eq_true.mp hd
  obtain ⟨h2, h3⟩ := h hb
  obtain ⟨-, h4, h5⟩ := h3 hdisp
  omega

theorem stalled_fields (c : Int) (others : List RSE) (x : RSE) :
    (stalled c others x).busy = x.busy ∧ (stalled c others x).disp = x.disp ∧
      (stalled c others x).op = x.op ∧ (stalled c others x).discno = x.discno ∧
      (stalled c others x).Vj = x.Vj ∧ (stalled c others x).Vk = x.Vk ∧
      (stalled c others x).Qj = x.Qj ∧ (stalled c others x).Qk = x.Qk ∧
      (stalled c others x).result = x.result ∧
      (stalled c others x).bcast =
        if contended c others x.op = true then x.bcast + 1 else x.bcast := by
  unfold stalled
  split <;> simp

theorem deferred_stalled_capture (c res tag : Int) (others : List RSE) (r : RSE)
    (hself : due c r = true → contended c others r.op = true) :
    Deferred c r (stalled c others (captureRSE res tag r)) := by
  obtain ⟨s1, s2, s3, s4, -, -, -, -, -, s10⟩ := stalled_fields c others (captureRSE res tag r)
  obtain ⟨c1, c2, c3, c4, c5, -⟩ := captureRSE_timing res tag r
  refine ⟨by rw [s1, c1], by rw [s2, c2], by rw [s3, c4], by rw [s4, c5], ?_, ?_⟩
  · rw [s10, c3, c4]
    split
    · exact Or.inr rfl
    · exact Or.inl rfl
  · intro hd
    rw [s10, c3, c4, if_pos (hself hd)]
    have := (due_eq_true.mp hd).2.2
    omega

theorem StOk_of_deferred {c : Int} {r q : RSE} (h : StOk c r) (hd : Deferred c r q) :
    StOk (c + 1) q := by
  obtain ⟨d1, d2, d3, d4, d5, d6⟩ := hd
  intro hb
  rw [d1] at hb
  obtain ⟨h2, h3⟩ := h hb
  rw [d3]
  refine ⟨h2, fun hdisp => ?_⟩
  rw [d2] at hdisp
  obtain ⟨h4, h5, h6⟩ := h3 hdisp
  rw [d4]
  by_cases hdue : due c r = true
  · have := d6 hdue
    have := (due_eq_true.mp hdue).2.2
    refine ⟨by omega, by omega, h6⟩
  · have hne : r.bcast ≠ c := fun he => hdue (due_eq_true.mpr ⟨hb, hdisp, he⟩)
    refine ⟨by omega, by omega, h6⟩

theorem deferred_self {c : Int} {r : RSE} (h : due c r = false) : Deferred c r r :=
  ⟨rfl, rfl, rfl, rfl, Or.inl rfl, fun hd => by rw [h] at hd; cases hd⟩

theorem contended_self {c : Int} {pool : List RSE} {r : RSE} (hr : r ∈ pool)
    (hd : due c r = true) : contended c pool r.op = true :=
  contended_eq_true.mpr ⟨r, hr, hd, rfl⟩

/-- Stations of the pool that does not hold the broadcasting station. -/
theorem losePool_deferred (c res tag : Int) (pool : List RSE)
    (h : ∀ r ∈ pool, StOk c r) (j : Nat) (r : RSE) (hj : pool[j]? = some r) :
    ∃ q, (losePool c res tag pool)[j]? = some q ∧ Deferred c r q := by
  refine ⟨stalled c pool (captureRSE res tag r), ?_, ?_⟩
  · rw [losePool_getElem? c res tag pool (StOk_no_stale h), hj]
    rfl
  · exact deferred_stalled_capture c res tag pool r
      (contended_self (List.getElem?_mem hj))

/-- Stations of the pool that holds the broadcasting station `i`. -/
theorem winPool_deferred (c res tag : Int) (i : Nat) (pool : List RSE)
    (h : ∀ r ∈ pool, StOk c r) (hc : 2 ≤ c) (j : Nat) (r : RSE) (hj : pool[j]? = some r) :
    ∃ q, (winPool c res tag i pool)[j]? = some q ∧
      (j = i → q.busy = false) ∧ (j ≠ i → Deferred c r q) := by
  have hform := winPool_getElem? c res tag i pool (StOk_no_stale h) (by omega) (by omega) j
  by_cases hji : j = i
  · rw [if_pos hji, hj] at hform
    exact ⟨_, hform, fun _ => rfl, fun hne => absurd hji hne⟩
  · rw [if_neg hji, hj] at hform
    refine ⟨_, hform, fun he => absurd he hji, fun _ => ?_⟩
    exact deferred_stalled_capture c res tag _ r
      (fun hd => contended_eq_true.mpr
        ⟨r, List.mem_eraseIdx_iff_getElem?.mpr ⟨j, hji, hj⟩, hd, rfl⟩)

theorem stallPool_length_of (c : Int) (pool : List RSE)
    (H : ∀ q ∈ pool, q.busy = true → q.disp = true → q.bcast ≠ c - 1) :
    (stallPool c pool).length = pool.length := by
  rw [stallPool_eq_map c pool H, List.length_map]

theorem losePool_length (c res tag : Int) (pool : List RSE) (h : ∀ r ∈ pool, StOk c r) :
    (losePool c res tag pool).length = pool.length := by
  have hlen : ∀ j : Nat, (losePool c res tag pool)[j]? = none ↔ pool[j]? = none := by
    intro j
    rw [losePool_getElem? c res tag pool (StOk_no_stale h)]
    simp
  by_contra hne
  rcases Nat.lt_or_gt_of_ne hne with hlt | hgt
  · have := (hlen (losePool c res tag pool).length).mp (by simp)
    rw [List.getElem?_eq_none_iff] at this
    omega
  · have := (hlen pool.length).mpr (by simp)
    rw [List.getElem?_eq_none_iff] at this
    omega

theorem winPool_length (c res tag : Int) (i : Nat) (pool : List RSE)
    (h : ∀ r ∈ pool, StOk c r) (hc : 2 ≤ c) :
    (winPool c res tag i pool).length = pool.length := by
  have hlen : ∀ j : Nat, (winPool c res tag i pool)[j]? = none ↔ pool[j]? = none := by
    intro j
    rw [winPool_getElem? c res tag i pool (StOk_no_stale h) (by omega) (by omega)]
    split <;> simp
  by_contra hne
  rcases Nat.lt_or_gt_of_ne hne with hlt | hgt
  · have := (hlen (winPool c res tag i pool).length).mp (by simp)
    rw [List.getElem?_eq_none_iff] at this
    omega
  · have := (hlen pool.length).mpr (by simp)
    rw [List.getElem?_eq_none_iff] at this
    omega

theorem no_due_losePool (c res tag : Int) (pool : List RSE) (h : ∀ r ∈ pool, StOk c r) :
    firstIdx (due c) (losePool c res tag pool) = none := by
  apply firstIdx_none_of_all
  intro q hq
  obtain ⟨j, hj⟩ := List.mem_iff_getElem?.mp hq
  have hjlt : j < pool.length := by
    have := (List.getElem?_eq_some.mp hj).1
    rwa [losePool_length c res tag pool h] at this
  obtain ⟨q', hq', hdef⟩ := losePool_deferred c res tag pool h j pool[j]
    (List.getElem?_eq_getElem hjlt)
  rw [hj] at hq'
  cases hq'
  have hok := StOk_of_deferred (h _ (List.getElem_mem hjlt)) hdef
  cases hdq : due c q with
  | false => rfl
  | true =>
    obtain ⟨hb, hd, hbc⟩ := due_eq_true.mp hdq
    have := ((hok hb).2 hd).1
    omega

/-- The three ways the broadcast phase can go in a state satisfying the
invariant: a multiplication station broadcasts and nothing else; no
multiplication station is due and an addition station broadcasts; nothing is due. -/
theorem broadcast_cases (s : State) (h : PhaseInv s) :
    (∃ i r, firstIdx (due s.CYCLE) s.MULRS = some i ∧ s.MULRS[i]? = some r ∧
        due s.CYCLE r = true ∧ 2 ≤ s.CYCLE ∧ broadcastOut s = broadcastMulAtOut i s) ∨
    (firstIdx (due s.CYCLE) s.MULRS = none ∧
      ∃ i r, firstIdx (due s.CYCLE) s.ADDRS = some i ∧ s.ADDRS[i]? = some r ∧
        due s.CYCLE r = true ∧ 2 ≤ s.CYCLE ∧ broadcastOut s = broadcastAddAtOut i s) ∨
    (firstIdx (due s.CYCLE) s.MULRS = none ∧ firstIdx (due s.CYCLE) s.ADDRS = none ∧
      broadcastOut s = s) := by
  cases hm : firstIdx (due s.CYCLE) s.MULRS with
  | some i =>
    left
    obtain ⟨r, hr, hd, -⟩ := firstIdx_some_spec hm
    refine ⟨i, r, rfl, hr, hd, due_cycle_ge (h.mul r (List.getElem?_mem hr)) hd, ?_⟩
    have hmul : broadcastMulOut s = broadcastMulAtOut i s := by simp [broadcastMulOut, hm]
    have hnone : firstIdx (due (broadcastMulAtOut i s).CYCLE) (broadcastMulAtOut i s).ADDRS = none := by
      rw [broadcastMulAtOut_eq]
      exact no_due_losePool _ _ _ _ h.add
    unfold broadcastOut
    rw [hmul]
    unfold broadcastAddOut
    rw [hnone]
  | none =>
    right
    have hmul : broadcastMulOut s = s := by simp [broadcastMulOut, hm]
    cases ha : firstIdx (due s.CYCLE) s.ADDRS with
    | some i =>
      left
      obtain ⟨r, hr, hd, -⟩ := firstIdx_some_spec ha
      refine ⟨rfl, i, r, rfl, hr, hd, due_cycle_ge (h.add r (List.getElem?_mem hr)) hd, ?_⟩
      simp [broadcastOut, hmul, broadcastAddOut, ha]
    | none =>
      right
      refine ⟨rfl, rfl, ?_⟩
      simp [broadcastOut, hmul, broadcastAddOut, ha]

theorem captureRF_length (res rsn : Int) (rat rf : List Int) :
    (captureRF res rsn rat rf).length = rf.length := by
  induction rat generalizing rf with
  | nil => cases rf <;> simp [captureRF]
  | cons a rest ih => cases rf <;> simp [captureRF, ih]

/-- Station-by-station description of the broadcast phase in a state
satisfying the invariant.  `wa`/`wm` is the index of the addition /
multiplication station that broadcasts, if any; at most one of them is set. -/
theorem broadcast_stations (s : State) (h : PhaseInv s) :
    ∃ wa wm : Option Nat,
      wm = firstIdx (due s.CYCLE) s.MULRS ∧
      (wm = none → wa = firstIdx (due s.CYCLE) s.ADDRS) ∧ (wm ≠ none → wa = none) ∧
      (∀ j r, s.ADDRS[j]? = some r → ∃ q, (broadcastOut s).ADDRS[j]? = some q ∧
        (wa = some j → due s.CYCLE r = true ∧ q.busy = false) ∧
        (wa ≠ some j → Deferred s.CYCLE r q)) ∧
      (∀ j r, s.MULRS[j]? = some r → ∃ q, (broadcastOut s).MULRS[j]? = some q ∧
        (wm = some j → due s.CYCLE r = true ∧ q.busy = false) ∧
        (wm ≠ some j → Deferred s.CYCLE r q)) ∧
      (broadcastOut s).ADDRS.length = s.ADDRS.length ∧
      (broadcastOut s).MULRS.length = s.MULRS.length ∧
      (broadcastOut s).RF.length = s.RF.length ∧ (broadcastOut s).RAT.length = s.RAT.length := by
  rcases broadcast_cases s h with ⟨i, r, hm, hr, hd, hc, hb⟩ | ⟨hm, i, r, ha, hr, hd, hc, hb⟩ |
    ⟨hm, ha, hb⟩
  · refine ⟨none, some i, hm.symm, (fun hne => by cases hne), fun _ => rfl, ?_, ?_, ?_, ?_, ?_, ?_⟩
    · intro j rj hj
      obtain ⟨q, hq, hdef⟩ := losePool_deferred s.CYCLE
        (resultAt (modifyAt RSE.computed i s.MULRS) i) ((i : Int) + (ADDCOUNT : Int)) s.ADDRS
        h.add j rj hj
      refine ⟨q, ?_, (fun hw => by cases hw), fun _ => hdef⟩
      rw [hb, broadcastMulAtOut_eq]
      exact hq
    · intro j rj hj
      obtain ⟨q, hq, hw, hdef⟩ := winPool_deferred s.CYCLE
        (resultAt (modifyAt RSE.computed i s.MULRS) i) ((i : Int) + (ADDCOUNT : Int)) i s.MULRS
        h.mul hc j rj hj
      refine ⟨q, ?_, ?_, ?_⟩
      · rw [hb, broadcastMulAtOut_eq]
        exact hq
      · intro hwj
        have hji : j = i := by cases hwj; rfl
        subst hji
        rw [hr] at hj
        cases hj
        exact ⟨hd, hw rfl⟩
      · intro hne
        exact hdef (fun hji => hne (by rw [hji]))
    · rw [hb, broadcastMulAtOut_eq]
      exact losePool_length _ _ _ _ h.add
    · rw [hb, broadcastMulAtOut_eq]
      exact winPool_length _ _ _ _ _ h.mul hc
    · rw [hb, broadcastMulAtOut_eq]
      exact captureRF_length _ _ _ _
    · rw [hb, broadcastMulAtOut_eq]
      simp [captureRAT]
  · refine ⟨some i, none, hm.symm, fun _ => ha.symm, fun hne => absurd rfl hne,
      ?_, ?_, ?_, ?_, ?_, ?_⟩
    · intro j rj hj
      obtain ⟨q, hq, hw, hdef⟩ := winPool_deferred s.CYCLE
        (resultAt (modifyAt RSE.computed i s.ADDRS) i) (i : Int) i s.ADDRS h.add hc j rj hj
      refine ⟨q, ?_, ?_, ?_⟩
      · rw [hb, broadcastAddAtOut_eq]
        exact hq
      · intro hwj
        have hji : j = i := by cases hwj; rfl
        subst hji
        rw [hr] at hj
        cases hj
        exact ⟨hd, hw rfl⟩
      · intro hne
        exact hdef (fun hji => hne (by rw [hji]))
    · intro j rj hj
      obtain ⟨q, hq, hdef⟩ := losePool_deferred s.CYCLE
        (resultAt (modifyAt RSE.computed i s.ADDRS) i) (i : Int) s.MULRS h.mul j rj hj
      refine ⟨q, ?_, (fun hw => by cases hw), fun _ => hdef⟩
      rw [hb, broadcastAddAtOut_eq]
      exact hq
    · rw [hb, broadcastAddAtOut_eq]
      exact winPool_length _ _ _ _ _ h.add hc
    · rw [hb, broadcastAddAtOut_eq]
      exact losePool_length _ _ _ _ h.mul
    · rw [hb, broadcastAddAtOut_eq]
      exact captureRF_length _ _ _ _
    · rw [hb, broadcastAddAtOut_eq]
      simp [captureRAT]
  · refine ⟨none, none, hm.symm, fun _ => ha.symm, fun hne => absurd rfl hne,
      ?_, ?_, by rw [hb], by rw [hb], by rw [hb], by rw [hb]⟩
    · intro j rj hj
      refine ⟨rj, by rw [hb]; exact hj, (fun hw => by cases hw), fun _ => ?_⟩
      exact deferred_self (firstIdx_none_spec ha rj (List.getElem?_mem hj))
    · intro j rj hj
      refine ⟨rj, by rw [hb]; exact hj, (fun hw => by cases hw), fun _ => ?_⟩
      exact deferred_self (firstIdx_none_spec hm rj (List.getElem?_mem hj))

theorem StOk_after_broadcast {c : Int} {pool pool' : List RSE} {w : Option Nat}
    (h : ∀ r ∈ pool, StOk c r) (hlen : pool'.length = pool.length)
    (hst : ∀ j r, pool[j]? = some r → ∃ q, pool'[j]? = some q ∧
      (w = some j → due c r = true ∧ q.busy = false) ∧ (w ≠ some j → Deferred c r q)) :
    ∀ q ∈ pool', StOk (c + 1) q := by
  intro q hq
  obtain ⟨j, hj⟩ := List.mem_iff_getElem?.mp hq
  have hjlt : j < pool.length := by
    have := (List.getElem?_eq_some.mp hj).1
    omega
  obtain ⟨q', hq', hw, hdef⟩ := hst j pool[j] (List.getElem?_eq_getElem hjlt)
  rw [hj] at hq'
  cases hq'
  by_cases hwj : w = some j
  · intro hb
    rw [(hw hwj).2] at hb
    cases hb
  · exact StOk_of_deferred (h _ (List.getElem_mem hjlt)) (hdef hwj)

theorem PhaseInv_ExecCycle {s : State} (h : PhaseInv s) : PhaseInv (ExecCycleOut s) := by
  have h0 := PhaseInv_preBroadcast h
  obtain ⟨wa, wm, -, -, -, hA, hM, l1, l2, l3, l4⟩ := broadcast_stations _ h0
  have hc : (preBroadcast s).CYCLE = s.CYCLE := preBroadcast_CYCLE s
  obtain ⟨⟨w1, w2, w3, w4⟩, hcyc, ha, hm⟩ := h0
  rw [ExecCycleOut_eq]
  refine ⟨⟨by rw [← w1, ← l3], by rw [← w2, ← l4], by rw [← w3, ← l1], by rw [← w4, ← l2]⟩,
    ?_, ?_, ?_⟩
  · show 0 ≤ s.CYCLE + 1
    have := h.cyc
    omega
  · show ∀ r ∈ (broadcastOut (preBroadcast s)).ADDRS, StOk (s.CYCLE + 1) r
    rw [← hc]
    exact StOk_after_broadcast ha l1 hA
  · show ∀ r ∈ (broadcastOut (preBroadcast s)).MULRS, StOk (s.CYCLE + 1) r
    rw [← hc]
    exact StOk_after_broadcast hm l2 hM

theorem ReachableOut.inv {s : State} (h : ReachableOut s) : PhaseInv s := by
  induction h with
  | init prog rf hrf _ => exact PhaseInv_init prog rf hrf
  | step _ ih => exact PhaseInv_ExecCycle ih

/-! ## Stations by tag -/

theorem stations_getElem? (s : State) (hlen : s.ADDRS.length = ADDCOUNT) (t : Nat) :
    s.stations[t]? = if t < ADDCOUNT then s.ADDRS[t]? else s.MULRS[t - ADDCOUNT]? := by
  unfold State.stations
  by_cases ht : t < ADDCOUNT
  · rw [if_pos ht, List.getElem?_append_left (by rw [hlen]; exact ht)]
  · rw [if_neg ht, List.getElem?_append_right (by rw [hlen]; omega), hlen]

theorem firstIdx_lt {p : RSE → Bool} {pool : List RSE} {i : Nat}
    (h : firstIdx p pool = some i) : i < pool.length := by
  obtain ⟨r, hr, -⟩ := firstIdx_some_spec h
  exact (List.getElem?_eq_some.mp hr).1

/-- Tag-indexed description of the broadcast phase in a state satisfying the
invariant: at most one tag `w` broadcasts; that station was due and ends free;
every other station is only deferred. -/
theorem broadcast_by_tag (s : State) (h : PhaseInv s) :
    ∃ w : Option Nat, ∀ t r, s.stations[t]? = some r →
      ∃ q, (broadcastOut s).stations[t]? = some q ∧
        (w = some t → due s.CYCLE r = true ∧ q.busy = false) ∧
        (w ≠ some t → Deferred s.CYCLE r q) := by
  obtain ⟨wa, wm, -, hwa1, hwa2, hA, hM, l1, -, -, -⟩ := broadcast_stations s h
  have hlen : s.ADDRS.length = ADDCOUNT := h.wf.2.2.1
  have hlen' : (broadcastOut s).ADDRS.length = ADDCOUNT := by rw [l1, hlen]
  cases wm with
  | none =>
    have hwa := hwa1 rfl
    refine ⟨wa, ?_⟩
    intro t r ht
    rw [stations_getElem? s hlen] at ht
    rw [stations_getElem? _ hlen']
    by_cases hlt : t < ADDCOUNT
    · rw [if_pos hlt] at ht ⊢
      exact hA t r ht
    · rw [if_neg hlt] at ht ⊢
      obtain ⟨q, hq, -, hdef⟩ := hM (t - ADDCOUNT) r ht
      refine ⟨q, hq, ?_, fun _ => hdef (by simp)⟩
      intro hwt
      rw [hwt] at hwa
      have := firstIdx_lt hwa.symm
      omega
  | some i =>
    have hwa : wa = none := hwa2 (by simp)
    refine ⟨some (i + ADDCOUNT), ?_⟩
    intro t r ht
    rw [stations_getElem? s hlen] at ht
    rw [stations_getElem? _ hlen']
    by_cases hlt : t < ADDCOUNT
    · rw [if_pos hlt] at ht ⊢
      obtain ⟨q, hq, -, hdef⟩ := hA t r ht
      refine ⟨q, hq, ?_, fun _ => hdef (by rw [hwa]; simp)⟩
      intro hwt
      simp only [Option.some.injEq] at hwt
      omega
    · rw [if_neg hlt] at ht ⊢
      obtain ⟨q, hq, hw, hdef⟩ := hM (t - ADDCOUNT) r ht
      refine ⟨q, hq, ?_, ?_⟩
      · intro hwt
        simp only [Option.some.injEq] at hwt
        exact hw (by simp only [Option.some.injEq]; omega)
      · intro hwt
        apply hdef
        intro hwmt
        apply hwt
        simp only [Option.some.injEq] at hwmt ⊢
        omega

/-! ## A reachable state with a Mul and an Add due in the same cycle -/

theorem ReachableOut.iterate {s : State} (h : ReachableOut s) (n : Nat) :
    ReachableOut (ExecCycleOut^[n] s) := by
  induction n generalizing s with
  | zero => exact h
  | succ n ih => exact ih (ReachableOut.step h)

theorem collisionState_reached :
    ExecCycleOut^[13] (initState collisionProg rf34) = collisionState := by decide

theorem collisionState_reachable : ReachableOut collisionState := by
  rw [← collisionState_reached]
  exact ReachableOut.iterate (ReachableOut.init collisionProg rf34 rfl (by decide)) 13

theorem collisionState_preBroadcast : preBroadcast collisionState = collisionState := by
  decide

/-! ## contenders are deferred, never dropped -/

/-- Over the returning semantics: In every reachable state `s` (start of cycle `C = s.CYCLE`): a station
(any tag `t`, either pool) that is busy, dispatched and has `bcast == C` at the
start of the broadcast phase and does not broadcast in it (a broadcasting
station is freed, so: is still busy after the phase) leaves the phase busy and
dispatched, with the same opcode and `discno`, and `bcast == C + 1`.
Consequently every busy dispatched station of a reachable state has
`bcast >= CYCLE`. -/
theorem dueDeferred_out (s : State) (hs : ReachableOut s) :
    (∀ (t : Nat) (r q : RSE), (preBroadcast s).stations[t]? = some r →
        (broadcastOut (preBroadcast s)).stations[t]? = some q →
        r.busy = true → r.disp = true → r.bcast = s.CYCLE → q.busy = true →
        q.disp = true ∧ q.bcast = s.CYCLE + 1 ∧ q.op = r.op ∧ q.discno = r.discno) ∧
    (∀ r ∈ s.stations, r.busy = true → r.disp = true → s.CYCLE ≤ r.bcast) := by
  have hinv := hs.inv
  constructor
  · intro t r q hr hq hb hd hbc hqb
    have h0 := PhaseInv_preBroadcast hinv
    have hc : (preBroadcast s).CYCLE = s.CYCLE := preBroadcast_CYCLE s
    obtain ⟨w, hw⟩ := broadcast_by_tag _ h0
    obtain ⟨q', hq', hwin, hdef⟩ := hw t r hr
    rw [hq] at hq'
    cases hq'
    by_cases hwt : w = some t
    · have := (hwin hwt).2
      rw [hqb] at this
      cases this
    · obtain ⟨d1, d2, d3, d4, -, d6⟩ := hdef hwt
      rw [hc] at d6
      exact ⟨by rw [d2, hd], d6 (due_eq_true.mpr ⟨hb, hd, hbc⟩), d3, d4⟩
  · intro r hr hb hd
    rcases List.mem_append.mp hr with hr | hr
    · exact ((hinv.add r hr hb).2 hd).1
    · exact ((hinv.mul r hr hb).2 hd).1

/-! ## multiplicative results preempt additive ones -/

/-- Over the returning semantics: In every reachable state `s` (cycle `C = s.CYCLE`), if at the start of
the broadcast phase some multiplication station and some addition station are
both busy, dispatched and have `bcast == C`, then with `i` the lowest index of
such a multiplication station: the phase is exactly the broadcast of
`MULRS[i]` (`broadcast = broadcastMulAt i`), which ends free; no other
multiplication station and no addition station changes its `busy` flag (none of
them broadcasts), and every addition station that was due at `C` is still busy
and dispatched with `bcast == C + 1`.  In every reachable state at most one
station over both pools goes from busy to free in the broadcast phase. -/
theorem mulFirst_out (s : State) (hs : ReachableOut s) :
    ((∃ m ∈ (preBroadcast s).MULRS, m.busy = true ∧ m.disp = true ∧ m.bcast = s.CYCLE) →
      (∃ a ∈ (preBroadcast s).ADDRS, a.busy = true ∧ a.disp = true ∧ a.bcast = s.CYCLE) →
      ∃ (i : Nat) (S : RSE), (preBroadcast s).MULRS[i]? = some S ∧
        (S.busy = true ∧ S.disp = true ∧ S.bcast = s.CYCLE) ∧
        (∀ q ∈ (preBroadcast s).MULRS.take i,
          ¬ (q.busy = true ∧ q.disp = true ∧ q.bcast = s.CYCLE)) ∧
        broadcastOut (preBroadcast s) = broadcastMulAtOut i (preBroadcast s) ∧
        (∃ S', (broadcastOut (preBroadcast s)).MULRS[i]? = some S' ∧ S'.busy = false) ∧
        (∀ (j : Nat) (r : RSE), j ≠ i → (preBroadcast s).MULRS[j]? = some r →
          ∃ q, (broadcastOut (preBroadcast s)).MULRS[j]? = some q ∧ q.busy = r.busy) ∧
        (∀ (j : Nat) (r : RSE), (preBroadcast s).ADDRS[j]? = some r →
          ∃ q, (broadcastOut (preBroadcast s)).ADDRS[j]? = some q ∧
            q.busy = r.busy ∧ q.disp = r.disp ∧
            (r.busy = true → r.disp = true → r.bcast = s.CYCLE → q.bcast = s.CYCLE + 1))) ∧
    (∀ (t1 t2 : Nat) (r1 q1 r2 q2 : RSE),
      (preBroadcast s).stations[t1]? = some r1 →
      (broadcastOut (preBroadcast s)).stations[t1]? = some q1 →
      r1.busy = true → q1.busy = false →
      (preBroadcast s).stations[t2]? = some r2 →
      (broadcastOut (preBroadcast s)).stations[t2]? = some q2 →
      r2.busy = true → q2.busy = false → t1 = t2) := by
  have h0 := PhaseInv_preBroadcast hs.inv
  have hc : (preBroadcast s).CYCLE = s.CYCLE := preBroadcast_CYCLE s
  constructor
  · rintro ⟨m, hm, hmb, hmd, hmc⟩ _
    obtain ⟨wa, wm, hwm, -, hwa2, hA, hM, -⟩ := broadcast_stations _ h0
    rw [hc] at hwm hA hM
    cases hf : firstIdx (due s.CYCLE) (preBroadcast s).MULRS with
    | none =>
      have := firstIdx_none_spec hf m hm
      rw [due_eq_true.mpr ⟨hmb, hmd, hmc⟩] at this
      cases this
    | some i =>
      obtain ⟨S, hS, hSd, hlow⟩ := firstIdx_some_spec hf
      rw [hf] at hwm
      have hwa : wa = none := hwa2 (by rw [hwm]; simp)
      refine ⟨i, S, hS, due_eq_true.mp hSd, ?_, ?_, ?_, ?_, ?_⟩
      · intro q hq hdq
        have := hlow q hq
        rw [due_eq_true.mpr hdq] at this
        cases this
      · rcases broadcast_cases _ h0 with ⟨i', -, hi', -, -, -, hb⟩ | ⟨hn, -⟩ | ⟨hn, -⟩
        · rw [hc, hf] at hi'
          cases hi'
          exact hb
        · rw [hc, hf] at hn
          cases hn
        · rw [hc, hf] at hn
          cases hn
      · obtain ⟨q, hq, hw, -⟩ := hM i S hS
        exact ⟨q, hq, (hw hwm).2⟩
      · intro j r hji hr
        obtain ⟨q, hq, -, hdef⟩ := hM j r hr
        have : wm ≠ some j := by
          rw [hwm]
          simp only [ne_eq, Option.some.injEq]
          exact fun h => hji h.symm
        exact ⟨q, hq, (hdef this).1⟩
      · intro j r hr
        obtain ⟨q, hq, -, hdef⟩ := hA j r hr
        obtain ⟨d1, d2, -, -, -, d6⟩ := hdef (by rw [hwa]; simp)
        exact ⟨q, hq, d1, d2, fun hb hd hbc => d6 (due_eq_true.mpr ⟨hb, hd, hbc⟩)⟩
  · intro t1 t2 r1 q1 r2 q2 hr1 hq1 hb1 hf1 hr2 hq2 hb2 hf2
    obtain ⟨w, hw⟩ := broadcast_by_tag _ h0
    have key : ∀ (t : Nat) (r q : RSE), (preBroadcast s).stations[t]? = some r →
        (broadcastOut (preBroadcast s)).stations[t]? = some q →
        r.busy = true → q.busy = false → w = some t := by
      intro t r q hr hq hb hf
      obtain ⟨q', hq', -, hdef⟩ := hw t r hr
      rw [hq] at hq'
      cases hq'
      by_contra hne
      have := (hdef hne).1
      rw [hb, hf] at this
      cases this
    have e1 := key t1 r1 q1 hr1 hq1 hb1 hf1
    have e2 := key t2 r2 q2 hr2 hq2 hb2 hf2
    rw [e1] at e2
    exact Option.some.inj e2

/-! ## latency correctness -/

theorem dispatchPool_getElem? (c : Int) (pool : List RSE) (j : Nat) (r : RSE)
    (hr : pool[j]? = some r) :
    (dispatchPool c pool)[j]? = some r ∨
      (dispReady r = true ∧ (dispatchPool c pool)[j]? = some (dispMark c r)) := by
  unfold dispatchPool
  cases hf : firstIdx dispReady pool with
  | none => exact Or.inl hr
  | some i =>
    simp only
    by_cases hji : j = i
    · subst hji
      obtain ⟨r', hr', hready, -⟩ := firstIdx_some_spec hf
      rw [hr] at hr'
      cases hr'
      exact Or.inr ⟨hready, modifyAt_getElem?_eq hr⟩
    · exact Or.inl (by rw [modifyAt_getElem?_ne _ _ hji]; exact hr)

theorem fill_keeps_busy {c : Int} {pool : List RSE} {f : RSE → RSE} {i j : Nat} {r : RSE}
    (hf : firstIdx (allocatable c) pool = some i) (hr : pool[j]? = some r)
    (hb : r.busy = true) : (modifyAt f i pool)[j]? = some r := by
  have hji : j ≠ i := by
    rintro rfl
    obtain ⟨r', hr', hal, -⟩ := firstIdx_some_spec hf
    rw [hr] at hr'
    cases hr'
    have := (allocatable_eq_true.mp hal).1
    rw [hb] at this
    cases this
  rw [modifyAt_getElem?_ne _ _ hji]
  exact hr

/-- A busy station at the start of the broadcast phase: as at the start of the
cycle, or (if it was not dispatched) possibly dispatched in this cycle. -/
theorem preBroadcast_busy (s : State) :
    (∀ (j : Nat) (r : RSE), s.ADDRS[j]? = some r → r.busy = true →
      (preBroadcast s).ADDRS[j]? = some r ∨
        (r.disp = false ∧ (preBroadcast s).ADDRS[j]? = some (dispMark s.CYCLE r))) ∧
    (∀ (j : Nat) (r : RSE), s.MULRS[j]? = some r → r.busy = true →
      (preBroadcast s).MULRS[j]? = some r ∨
        (r.disp = false ∧ (preBroadcast s).MULRS[j]? = some (dispMark s.CYCLE r))) := by
  obtain ⟨hA, hM⟩ := issue_cases (dispatch s)
  obtain ⟨-, -, -, f4, f5, -⟩ := fillIQ_frame (issue (dispatch s))
  have hcd : (dispatch s).CYCLE = s.CYCLE := rfl
  constructor
  · intro j r hr hb
    have key : ∀ r0 : RSE, r0.busy = true → (dispatch s).ADDRS[j]? = some r0 →
        (preBroadcast s).ADDRS[j]? = some r0 := by
      intro r0 hb0 h0
      unfold preBroadcast
      rw [f4]
      rcases hA with hA | ⟨i, ins, -, hf, hA⟩ <;> rw [hA]
      · exact h0
      · exact fill_keeps_busy hf h0 hb0
    rcases dispatchPool_getElem? s.CYCLE s.ADDRS j r hr with h | ⟨hready, h⟩
    · exact Or.inl (key r hb h)
    · exact Or.inr ⟨(dispReady_eq_true.mp hready).2.1, key _ hb h⟩
  · intro j r hr hb
    have key : ∀ r0 : RSE, r0.busy = true → (dispatch s).MULRS[j]? = some r0 →
        (preBroadcast s).MULRS[j]? = some r0 := by
      intro r0 hb0 h0
      unfold preBroadcast
      rw [f5]
      rcases hM with hM | ⟨i, ins, -, hf, hM⟩ <;> rw [hM]
      · exact h0
      · exact fill_keeps_busy hf h0 hb0
    rcases dispatchPool_getElem? s.CYCLE s.MULRS j r hr with h | ⟨hready, h⟩
    · exact Or.inl (key r hb h)
    · exact Or.inr ⟨(dispReady_eq_true.mp hready).2.1, key _ hb h⟩

theorem preBroadcast_busy_station (s : State) (h : PhaseInv s) (t : Nat) (r : RSE)
    (hr : s.stations[t]? = some r) (hb : r.busy = true) :
    (preBroadcast s).stations[t]? = some r ∨
      (r.disp = false ∧ (preBroadcast s).stations[t]? = some (dispMark s.CYCLE r)) := by
  have hlen : s.ADDRS.length = ADDCOUNT := h.wf.2.2.1
  have hlen' : (preBroadcast s).ADDRS.length = ADDCOUNT := (PhaseInv_preBroadcast h).wf.2.2.1
  rw [stations_getElem? s hlen] at hr
  rw [stations_getElem? _ hlen']
  by_cases hlt : t < ADDCOUNT
  · rw [if_pos hlt] at hr ⊢
    exact (preBroadcast_busy s).1 t r hr hb
  · rw [if_neg hlt] at hr ⊢
    exact (preBroadcast_busy s).2 (t - ADDCOUNT) r hr hb

theorem ExecCycleOut_stations (s : State) :
    (ExecCycleOut s).stations = (broadcastOut (preBroadcast s)).stations := by
  rw [ExecCycleOut_eq]
  rfl

/-- Over the returning semantics: Latency correctness.  Let `r` be a busy station (tag `t`, either pool)
of a reachable state `s`, and `q` the same station after `ExecCycle`.
* `r.op` is one of the four opcodes (latencies Add 2, Sub 2, Mul 10, Div 40)
  and, if `r` is dispatched, `bcast >= discno + latency(op)`.
* If `q` is free then `r` was dispatched with `bcast == CYCLE` (a station is
  freed only in the cycle equal to its `bcast`), hence
  `CYCLE >= discno + latency(op)`: never before cycle `D + latency`.
* If `r` is dispatched with `bcast == CYCLE`, then `q` is free, unless its
  `bcast` was incremented (then it is busy, dispatched, `bcast + 1`).
* If `r` is dispatched with `bcast > CYCLE`, `q` is the same busy dispatched
  instruction with `bcast` unchanged or incremented by one.
* If `r` is not dispatched, `q` is busy; if it was dispatched in this cycle
  then `discno = CYCLE` and `bcast = CYCLE + latency(op)` or one more. -/
theorem latency_out (s : State) (hs : ReachableOut s) (t : Nat) (r : RSE)
    (hr : s.stations[t]? = some r) (hb : r.busy = true) :
    (opCycles ADD = 2 ∧ opCycles SUB = 2 ∧ opCycles MUL = 10 ∧ opCycles DIV = 40) ∧
    (r.op = ADD ∨ r.op = SUB ∨ r.op = MUL ∨ r.op = DIV) ∧
    (r.disp = true → r.discno + opCycles r.op ≤ r.bcast) ∧
    ∃ q, (ExecCycleOut s).stations[t]? = some q ∧
      (q.busy = false →
        r.disp = true ∧ r.bcast = s.CYCLE ∧ r.discno + opCycles r.op ≤ s.CYCLE) ∧
      (r.disp = true → r.bcast = s.CYCLE →
        q.busy = false ∨
          (q.busy = true ∧ q.disp = true ∧ q.op = r.op ∧ q.discno = r.discno ∧
            q.bcast = r.bcast + 1)) ∧
      (r.disp = true → s.CYCLE < r.bcast →
        q.busy = true ∧ q.disp = true ∧ q.op = r.op ∧ q.discno = r.discno ∧
          (q.bcast = r.bcast ∨ q.bcast = r.bcast + 1)) ∧
      (r.disp = false →
        q.busy = true ∧ q.op = r.op ∧
          (q.disp = true → q.discno = s.CYCLE ∧
            (q.bcast = s.CYCLE + opCycles r.op ∨ q.bcast = s.CYCLE + opCycles r.op + 1))) := by
  have hinv := hs.inv
  have hmem : r ∈ s.stations := List.getElem?_mem hr
  have hok : StOk s.CYCLE r := by
    rcases List.mem_append.mp hmem with h | h
    · exact hinv.add r h
    · exact hinv.mul r h
  obtain ⟨hop, hdisp⟩ := hok hb
  refine ⟨⟨rfl, rfl, rfl, rfl⟩, opCycles_ge_two hop, fun hd => (hdisp hd).2.1, ?_⟩
  have h0 := PhaseInv_preBroadcast hinv
  have hc : (preBroadcast s).CYCLE = s.CYCLE := preBroadcast_CYCLE s
  obtain ⟨w, hw⟩ := broadcast_by_tag _ h0
  rw [ExecCycleOut_stations]
  rw [hc] at hw
  rcases preBroadcast_busy_station s hinv t r hr hb with h1 | ⟨hnd, h1⟩
  · obtain ⟨q, hq, hwin, hdef⟩ := hw t r h1
    refine ⟨q, hq, ?_, ?_, ?_, ?_⟩
    · intro hqf
      by_cases hwt : w = some t
      · obtain ⟨-, hd, hbc⟩ := due_eq_true.mp (hwin hwt).1
        have := (hdisp hd).2.1
        exact ⟨hd, hbc, by omega⟩
      · have := (hdef hwt).1
        rw [hb, hqf] at this
        cases this
    · intro hd hbc
      by_cases hwt : w = some t
      · exact Or.inl (hwin hwt).2
      · obtain ⟨d1, d2, d3, d4, -, d6⟩ := hdef hwt
        right
        refine ⟨by rw [d1, hb], by rw [d2, hd], d3, d4, ?_⟩
        rw [d6 (due_eq_true.mpr ⟨hb, hd, hbc⟩), hbc]
    · intro hd hlt
      have hwt : w ≠ some t := by
        intro hwt
        have := (due_eq_true.mp (hwin hwt).1).2.2
        omega
      obtain ⟨d1, d2, d3, d4, d5, -⟩ := hdef hwt
      exact ⟨by rw [d1, hb], by rw [d2, hd], d3, d4, d5⟩
    · intro hnd
      have hwt : w ≠ some t := by
        intro hwt
        have := (due_eq_true.mp (hwin hwt).1).2.1
        rw [hnd] at this
        cases this
      obtain ⟨d1, d2, d3, -, -, -⟩ := hdef hwt
      refine ⟨by rw [d1, hb], d3, fun hqd => ?_⟩
      rw [d2, hnd] at hqd
      cases hqd
  · obtain ⟨q, hq, hwin, hdef⟩ := hw t _ h1
    have hwt : w ≠ some t := by
      intro hwt
      have := (due_eq_true.mp (hwin hwt).1).2.2
      simp only [dispMark] at this
      omega
    obtain ⟨d1, d2, d3, d4, d5, -⟩ := hdef hwt
    simp only [dispMark] at d1 d2 d3 d4 d5
    refine ⟨q, hq, ?_, ?_, ?_, ?_⟩
    · intro hqf
      rw [hb, hqf] at d1
      cases d1
    · intro hd
      rw [hnd] at hd
      cases hd
    · intro hd
      rw [hnd] at hd
      cases hd
    · intro _
      exact ⟨by rw [d1, hb], d3, fun _ => ⟨d4, d5⟩⟩

/-! ## capture completeness -/

theorem captureRSE_spec (res t : Int) (q : RSE) (ht : t ≠ EMPTY) :
    CapRel res t q (captureRSE res t q) := by
  unfold CapRel captureRSE
  by_cases hj : q.Qj = t <;> by_cases hk : q.Qk = t <;>
    simp [hj, hk, Ne.symm ht]

theorem capRel_stalled {res t c : Int} {others : List RSE} {q x : RSE}
    (h : CapRel res t q x) : CapRel res t q (stalled c others x) := by
  obtain ⟨-, -, -, -, s5, s6, s7, s8, -⟩ := stalled_fields c others x
  unfold CapRel
  rw [s5, s6, s7, s8]
  exact h

theorem losePool_capRel (c res t : Int) (pool : List RSE) (h : ∀ r ∈ pool, StOk c r)
    (ht : t ≠ EMPTY) (j : Nat) (q : RSE) (hj : pool[j]? = some q) :
    ∃ q', (losePool c res t pool)[j]? = some q' ∧ CapRel res t q q' := by
  refine ⟨stalled c pool (captureRSE res t q), ?_, capRel_stalled (captureRSE_spec res t q ht)⟩
  rw [losePool_getElem? c res t pool (StOk_no_stale h), hj]
  rfl

theorem winPool_capRel (c res t : Int) (i : Nat) (pool : List RSE)
    (h : ∀ r ∈ pool, StOk c r) (hc : 2 ≤ c) (ht : t ≠ EMPTY) (j : Nat) (q : RSE)
    (hj : pool[j]? = some q) :
    ∃ q', (winPool c res t i pool)[j]? = some q' ∧ CapRel res t q q' := by
  have hform := winPool_getElem? c res t i pool (StOk_no_stale h) (by omega) (by omega) j
  by_cases hji : j = i
  · rw [if_pos hji, hj] at hform
    refine ⟨_, hform, ?_⟩
    have h1 := captureRSE_spec res t q.computed ht
    obtain ⟨-, -, -, -, -, -, -, d8, d9⟩ := doOp_timing q
    have h2 : CapRel res t q (captureRSE res t q.computed) := by
      unfold CapRel at h1 ⊢
      rw [d8, d9] at h1
      exact h1
    have h3 : CapRel res t q { captureRSE res t q.computed with bcast := -1 } := h2
    exact capRel_stalled h3
  · rw [if_neg hji, hj] at hform
    exact ⟨_, hform, capRel_stalled (captureRSE_spec res t q ht)⟩

theorem captureRAT_getElem? (t : Int) (RAT : List Int) (k : Nat) :
    (captureRAT t RAT)[k]? = RAT[k]?.map (fun x => if x = t then EMPTY else x) := by
  simp [captureRAT]

theorem captureRAT_ne (t : Int) (RAT : List Int) (ht : t ≠ EMPTY) :
    ∀ x ∈ captureRAT t RAT, x ≠ t := by
  intro x hx
  obtain ⟨y, -, rfl⟩ := List.mem_map.mp hx
  by_cases hy : y = t
  · simp [hy, Ne.symm ht]
  · simp [hy]

theorem captureRF_getElem? (res t : Int) :
    ∀ (RAT RF : List Int) (k : Nat), RF.length = RAT.length → RAT[k]? = some t →
      (captureRF res t RAT RF)[k]? = some res := by
  intro RAT
  induction RAT with
  | nil => intro RF k _ h; simp at h
  | cons a rest ih =>
    intro RF k hlen h
    cases RF with
    | nil => simp at hlen
    | cons b rfs =>
      cases k with
      | zero =>
        simp only [List.getElem?_cons_zero, Option.some.injEq] at h
        simp [captureRF, h]
      | succ n =>
        simp only [List.getElem?_cons_succ] at h
        simp only [captureRF, List.getElem?_cons_succ]
        exact ih rfs n (by simpa using hlen) h

theorem stations_rel {s s' : State} {R : RSE → RSE → Prop}
    (hl : s.ADDRS.length = ADDCOUNT) (hl' : s'.ADDRS.length = ADDCOUNT)
    (hA : ∀ (j : Nat) (q : RSE), s.ADDRS[j]? = some q → ∃ q', s'.ADDRS[j]? = some q' ∧ R q q')
    (hM : ∀ (j : Nat) (q : RSE), s.MULRS[j]? = some q → ∃ q', s'.MULRS[j]? = some q' ∧ R q q') :
    ∀ (t : Nat) (q : RSE), s.stations[t]? = some q →
      ∃ q', s'.stations[t]? = some q' ∧ R q q' := by
  intro t q hq
  rw [stations_getElem? s hl] at hq
  rw [stations_getElem? s' hl']
  by_cases hlt : t < ADDCOUNT
  · rw [if_pos hlt] at hq ⊢
    exact hA t q hq
  · rw [if_neg hlt] at hq ⊢
    exact hM (t - ADDCOUNT) q hq

theorem pool_forall_of_rel (P : RSE → Prop) {pool pool' : List RSE} {R : RSE → RSE → Prop}
    (hlen : pool'.length = pool.length)
    (h : ∀ (j : Nat) (q : RSE), pool[j]? = some q → ∃ q', pool'[j]? = some q' ∧ R q q')
    (hP : ∀ q q', R q q' → P q') : ∀ q' ∈ pool', P q' := by
  intro q' hq'
  obtain ⟨j, hj⟩ := List.mem_iff_getElem?.mp hq'
  have hjlt : j < pool.length := by
    have := (List.getElem?_eq_some.mp hj).1
    omega
  obtain ⟨q'', hq'', hR⟩ := h j pool[j] (List.getElem?_eq_getElem hjlt)
  rw [hj] at hq''
  cases hq''
  exact hP _ _ hR

theorem doOp_result (S : RSE) (hop : S.op = ADD ∨ S.op = SUB ∨ S.op = MUL ∨ S.op = DIV) :
    (S.op = ADD ∧ S.computed.result = wrap32 (S.Vj + S.Vk)) ∨
    (S.op = SUB ∧ S.computed.result = wrap32 (S.Vj - S.Vk)) ∨
    (S.op = MUL ∧ S.computed.result = wrap32 (S.Vj * S.Vk)) ∨
    (S.op = DIV ∧ S.computed.result = Int.tdiv S.Vj S.Vk) := by
  rcases hop with h | h | h | h
  · exact Or.inl ⟨h, by simp [computed_eq, h]⟩
  · exact Or.inr (Or.inl ⟨h, by simp [computed_eq, h]⟩)
  · exact Or.inr (Or.inr (Or.inl ⟨h, by simp [computed_eq, h]⟩))
  · exact Or.inr (Or.inr (Or.inr ⟨h, by simp [computed_eq, h]⟩))

/-- What one body of a `broadcast` loop achieves, for the station with tag `t`
in a state satisfying the invariant. -/
theorem capture_core (s s' : State) (h : PhaseInv s) (t : Nat) (res : Int)
    (hpools : (∃ i, t = i + ADDCOUNT ∧ 2 ≤ s.CYCLE ∧
          s'.MULRS = winPool s.CYCLE res (t : Int) i s.MULRS ∧
          s'.ADDRS = losePool s.CYCLE res (t : Int) s.ADDRS) ∨
        (2 ≤ s.CYCLE ∧ s'.ADDRS = winPool s.CYCLE res (t : Int) t s.ADDRS ∧
          s'.MULRS = losePool s.CYCLE res (t : Int) s.MULRS))
    (hRF : s'.RF = captureRF res (t : Int) s.RAT s.RF)
    (hRAT : s'.RAT = captureRAT (t : Int) s.RAT) :
    (∀ (j : Nat) (q : RSE), s.stations[j]? = some q →
      ∃ q', s'.stations[j]? = some q' ∧
        (q.Qj = (t : Int) → q'.Vj = res ∧ q'.Qj = EMPTY) ∧
        (q.Qk = (t : Int) → q'.Vk = res ∧ q'.Qk = EMPTY)) ∧
    (∀ k : Nat, s.RAT[k]? = some (t : Int) →
      s'.RF[k]? = some res ∧ s'.RAT[k]? = some EMPTY) ∧
    (∀ q' ∈ s'.stations, q'.Qj ≠ (t : Int) ∧ q'.Qk ≠ (t : Int)) ∧
    (∀ x ∈ s'.RAT, x ≠ (t : Int)) := by
  have ht : (t : Int) ≠ EMPTY := by simp only [EMPTY]; omega
  obtain ⟨⟨w1, w2, w3, w4⟩, -, ha, hm⟩ := h
  have hrel : (∀ (j : Nat) (q : RSE), s.ADDRS[j]? = some q →
        ∃ q', s'.ADDRS[j]? = some q' ∧ CapRel res (t : Int) q q') ∧
      (∀ (j : Nat) (q : RSE), s.MULRS[j]? = some q →
        ∃ q', s'.MULRS[j]? = some q' ∧ CapRel res (t : Int) q q') ∧
      s'.ADDRS.length = s.ADDRS.length ∧ s'.MULRS.length = s.MULRS.length := by
    rcases hpools with ⟨i, -, hc, hM, hA⟩ | ⟨hc, hA, hM⟩
    · rw [hM, hA]
      exact ⟨losePool_capRel _ _ _ _ ha ht, winPool_capRel _ _ _ _ _ hm hc ht,
        losePool_length _ _ _ _ ha, winPool_length _ _ _ _ _ hm hc⟩
    · rw [hM, hA]
      exact ⟨winPool_capRel _ _ _ _ _ ha hc ht, losePool_capRel _ _ _ _ hm ht,
        winPool_length _ _ _ _ _ ha hc, losePool_length _ _ _ _ hm⟩
  obtain ⟨rA, rM, lA, lM⟩ := hrel
  refine ⟨?_, ?_, ?_, ?_⟩
  · intro j q hq
    obtain ⟨q', hq', c1, c2, -⟩ := stations_rel w3 (by rw [lA, w3]) rA rM j q hq
    exact ⟨q', hq', c1, c2⟩
  · intro k hk
    rw [hRF, hRAT, captureRAT_getElem?, hk]
    exact ⟨captureRF_getElem? res _ _ _ k (by rw [w1, w2]) hk, by simp⟩
  · intro q' hq'
    rcases List.mem_append.mp hq' with hq' | hq'
    · exact pool_forall_of_rel (fun x => x.Qj ≠ (t : Int) ∧ x.Qk ≠ (t : Int)) lA rA
        (fun _ _ hR => ⟨hR.2.2.1, hR.2.2.2⟩) q' hq'
    · exact pool_forall_of_rel (fun x => x.Qj ≠ (t : Int) ∧ x.Qk ≠ (t : Int)) lM rM
        (fun _ _ hR => ⟨hR.2.2.1, hR.2.2.2⟩) q' hq'
  · rw [hRAT]
    exact captureRAT_ne _ _ ht

/-- Over the returning semantics: Capture completeness.  Let `s` be reachable, `C = s.CYCLE`, and let the
broadcast phase of the cycle select station `S` with tag `t`: either the first
loop of `broadcast` selects multiplication station `i` (`t = i + 3`), or its
second loop selects addition station `t`.  Then `S` was busy, dispatched and
due, its result `r = S.doOp.result` is `Vj + Vk`, `Vj - Vk`, `Vj * Vk` or (for
`Vk != 0`) `Vj / Vk` truncated toward zero according to its opcode, and at the
end of the phase
(1) every station whose `Qj` (resp. `Qk`) was `t` has `Vj` (resp. `Vk`) `= r`
    and that tag `EMPTY`;
(2) every register whose RAT entry was `t` has `RF = r` and `RAT = EMPTY`;
(3) no station has `Qj == t` or `Qk == t` and no RAT entry equals `t`. -/
theorem captureAll_out (s : State) (hs : ReachableOut s) (t : Nat) (S : RSE)
    (hS : (preBroadcast s).stations[t]? = some S)
    (hsel : (∃ i, t = i + ADDCOUNT ∧
              firstIdx (due s.CYCLE) (preBroadcast s).MULRS = some i) ∨
            firstIdx (due s.CYCLE) (broadcastMulOut (preBroadcast s)).ADDRS = some t) :
    (S.busy = true ∧ S.disp = true ∧ S.bcast = s.CYCLE) ∧
    ((S.op = ADD ∧ S.computed.result = wrap32 (S.Vj + S.Vk)) ∨
      (S.op = SUB ∧ S.computed.result = wrap32 (S.Vj - S.Vk)) ∨
      (S.op = MUL ∧ S.computed.result = wrap32 (S.Vj * S.Vk)) ∨
      (S.op = DIV ∧ (S.Vk ≠ 0 → S.computed.result = Int.tdiv S.Vj S.Vk))) ∧
    (∀ (j : Nat) (q : RSE), (preBroadcast s).stations[j]? = some q →
      ∃ q', (broadcastOut (preBroadcast s)).stations[j]? = some q' ∧
        (q.Qj = (t : Int) → q'.Vj = S.computed.result ∧ q'.Qj = EMPTY) ∧
        (q.Qk = (t : Int) → q'.Vk = S.computed.result ∧ q'.Qk = EMPTY)) ∧
    (∀ k : Nat, (preBroadcast s).RAT[k]? = some (t : Int) →
      (broadcastOut (preBroadcast s)).RF[k]? = some S.computed.result ∧
        (broadcastOut (preBroadcast s)).RAT[k]? = some EMPTY) ∧
    (∀ q' ∈ (broadcastOut (preBroadcast s)).stations, q'.Qj ≠ (t : Int) ∧ q'.Qk ≠ (t : Int)) ∧
    (∀ x ∈ (broadcastOut (preBroadcast s)).RAT, x ≠ (t : Int)) := by
  have h0 := PhaseInv_preBroadcast hs.inv
  have hc : (preBroadcast s).CYCLE = s.CYCLE := preBroadcast_CYCLE s
  have hlen : (preBroadcast s).ADDRS.length = ADDCOUNT := h0.wf.2.2.1
  rw [stations_getElem? _ hlen] at hS
  have hres : ∀ S : RSE, StOk (preBroadcast s).CYCLE S → due (preBroadcast s).CYCLE S = true →
      (S.busy = true ∧ S.disp = true ∧ S.bcast = s.CYCLE) ∧
      ((S.op = ADD ∧ S.computed.result = wrap32 (S.Vj + S.Vk)) ∨
        (S.op = SUB ∧ S.computed.result = wrap32 (S.Vj - S.Vk)) ∨
        (S.op = MUL ∧ S.computed.result = wrap32 (S.Vj * S.Vk)) ∨
        (S.op = DIV ∧ (S.Vk ≠ 0 → S.computed.result = Int.tdiv S.Vj S.Vk))) := by
    intro S hok hd
    have hd' := due_eq_true.mp hd
    rw [hc] at hd'
    refine ⟨hd', ?_⟩
    rcases doOp_result S (opCycles_ge_two (hok hd'.1).1) with h | h | h | h
    · exact Or.inl h
    · exact Or.inr (Or.inl h)
    · exact Or.inr (Or.inr (Or.inl h))
    · exact Or.inr (Or.inr (Or.inr ⟨h.1, fun _ => h.2⟩))
  rcases broadcast_cases _ h0 with ⟨i', r, hi', hr, hd, hc2, hb⟩ |
    ⟨hn, i', r, ha, hr, hd, hc2, hb⟩ | ⟨hn, ha, hb⟩
  · have hmul : broadcastMulOut (preBroadcast s) = broadcastMulAtOut i' (preBroadcast s) := by
      simp [broadcastMulOut, hi']
    rcases hsel with ⟨i, hti, hf⟩ | hf
    · rw [hc, hf] at hi'
      cases hi'
      have hnlt : ¬ t < ADDCOUNT := by omega
      rw [if_neg hnlt] at hS
      have hti' : t - ADDCOUNT = i' := by omega
      rw [hti', hr] at hS
      cases hS
      have hcast : (t : Int) = (i' : Int) + (ADDCOUNT : Int) := by
        rw [hti]; push_cast; rfl
      obtain ⟨g1, g2⟩ := hres S (h0.mul S (List.getElem?_mem hr)) hd
      refine ⟨g1, g2, ?_⟩
      have hR := resultAt_doOp hr
      refine capture_core _ _ h0 t S.computed.result
        (Or.inl ⟨i', hti, hc2, ?_, ?_⟩) ?_ ?_
      · rw [hb, broadcastMulAtOut_eq, hR, hcast]
      · rw [hb, broadcastMulAtOut_eq, hR, hcast]
      · rw [hb, broadcastMulAtOut_eq, hR, hcast]
      · rw [hb, broadcastMulAtOut_eq, hcast]
    · rw [hmul] at hf
      have hnone := no_due_losePool (preBroadcast s).CYCLE
        (resultAt (modifyAt RSE.computed i' (preBroadcast s).MULRS) i')
        ((i' : Int) + (ADDCOUNT : Int)) (preBroadcast s).ADDRS h0.add
      rw [broadcastMulAtOut_eq, hc] at hf
      rw [hc] at hnone
      simp only at hf
      rw [hnone] at hf
      cases hf
  · have hmul : broadcastMulOut (preBroadcast s) = preBroadcast s := by
      simp [broadcastMulOut, hn]
    rcases hsel with ⟨i, -, hf⟩ | hf
    · rw [hc, hf] at hn
      cases hn
    · rw [hmul, ← hc, ha] at hf
      cases hf
      have hlt : t < ADDCOUNT := by
        have := firstIdx_lt ha
        omega
      rw [if_pos hlt, hr] at hS
      cases hS
      obtain ⟨g1, g2⟩ := hres S (h0.add S (List.getElem?_mem hr)) hd
      refine ⟨g1, g2, ?_⟩
      have hR := resultAt_doOp hr
      refine capture_core _ _ h0 t S.computed.result (Or.inr ⟨hc2, ?_, ?_⟩) ?_ ?_
      · rw [hb, broadcastAddAtOut_eq, hR]
      · rw [hb, broadcastAddAtOut_eq, hR]
      · rw [hb, broadcastAddAtOut_eq, hR]
      · rw [hb, broadcastAddAtOut_eq]
  · have hmul : broadcastMulOut (preBroadcast s) = preBroadcast s := by
      simp [broadcastMulOut, hn]
    rcases hsel with ⟨i, -, hf⟩ | hf
    · rw [hc, hf] at hn
      cases hn
    · rw [hmul, ← hc, ha] at hf
      cases hf

/-! ## which stations `stallOthers` touches -/

theorem contended_iff_none {c : Int} {pool : List RSE} {op : Int} :
    contended c pool op = true ↔ Contender c pool none op := by
  rw [contended_eq_true]
  constructor
  · rintro ⟨d, hd, hdue, hop⟩
    obtain ⟨k, hk⟩ := List.mem_iff_getElem?.mp hd
    obtain ⟨h1, h2, h3⟩ := due_eq_true.mp hdue
    exact ⟨k, d, by simp, hk, h1, h2, h3, hop⟩
  · rintro ⟨k, d, -, hk, h1, h2, h3, hop⟩
    exact ⟨d, List.getElem?_mem hk, due_eq_true.mpr ⟨h1, h2, h3⟩, hop⟩

theorem contended_iff_some {c : Int} {pool : List RSE} {i : Nat} {op : Int} :
    contended c (pool.eraseIdx i) op = true ↔ Contender c pool (some i) op := by
  rw [contended_eq_true]
  constructor
  · rintro ⟨d, hd, hdue, hop⟩
    obtain ⟨k, hki, hk⟩ := List.mem_eraseIdx_iff_getElem?.mp hd
    obtain ⟨h1, h2, h3⟩ := due_eq_true.mp hdue
    exact ⟨k, d, by simpa using hki, hk, h1, h2, h3, hop⟩
  · rintro ⟨k, d, hki, hk, h1, h2, h3, hop⟩
    exact ⟨d, List.mem_eraseIdx_iff_getElem?.mpr ⟨k, by simpa using hki, hk⟩,
      due_eq_true.mpr ⟨h1, h2, h3⟩, hop⟩

theorem stalled_capture_bcast (c res tag : Int) (others : List RSE) (q : RSE) :
    (contended c others q.op = true →
        (stalled c others (captureRSE res tag q)).bcast = q.bcast + 1) ∧
      (¬ contended c others q.op = true →
        (stalled c others (captureRSE res tag q)).bcast = q.bcast) := by
  obtain ⟨-, -, -, -, -, -, -, -, -, s10⟩ := stalled_fields c others (captureRSE res tag q)
  obtain ⟨-, -, c3, c4, -⟩ := captureRSE_timing res tag q
  rw [s10, c3, c4]
  constructor
  · intro h; rw [if_pos h]
  · intro h; rw [if_neg h]

theorem losePool_bcast (c res tag : Int) (pool : List RSE) (h : ∀ r ∈ pool, StOk c r)
    (j : Nat) (q : RSE) (hj : pool[j]? = some q) :
    ∃ q', (losePool c res tag pool)[j]? = some q' ∧
      (Contender c pool none q.op → q'.bcast = q.bcast + 1) ∧
      (¬ Contender c pool none q.op → q'.bcast = q.bcast) := by
  refine ⟨stalled c pool (captureRSE res tag q), ?_, ?_, ?_⟩
  · rw [losePool_getElem? c res tag pool (StOk_no_stale h), hj]
    rfl
  · intro hcon
    exact (stalled_capture_bcast c res tag pool q).1 (contended_iff_none.mpr hcon)
  · intro hcon
    exact (stalled_capture_bcast c res tag pool q).2 (fun hh => hcon (contended_iff_none.mp hh))

theorem winPool_bcast (c res tag : Int) (i : Nat) (pool : List RSE)
    (h : ∀ r ∈ pool, StOk c r) (hc : 2 ≤ c) (j : Nat) (q : RSE) (hji : j ≠ i)
    (hj : pool[j]? = some q) :
    ∃ q', (winPool c res tag i pool)[j]? = some q' ∧
      (Contender c pool (some i) q.op → q'.bcast = q.bcast + 1) ∧
      (¬ Contender c pool (some i) q.op → q'.bcast = q.bcast) := by
  have hform := winPool_getElem? c res tag i pool (StOk_no_stale h) (by omega) (by omega) j
  rw [if_neg hji, hj] at hform
  refine ⟨_, hform, ?_, ?_⟩
  · intro hcon
    exact (stalled_capture_bcast c res tag _ q).1 (contended_iff_some.mpr hcon)
  · intro hcon
    exact (stalled_capture_bcast c res tag _ q).2 (fun hh => hcon (contended_iff_some.mp hh))

/-- Over the returning semantics: In every reachable state `s` (cycle `C`), when the broadcast
phase selects station `i` of a pool, the `bcast` of every other station `q` of
either pool (busy or not, dispatched or not) is incremented by exactly one if
some busy, dispatched station of `q`'s own pool other than the broadcasting
one has `bcast == C` and the same opcode as `q`, and is unchanged otherwise;
when an addition station broadcasts no multiplication station is due and the
`bcast` of every multiplication station is unchanged. -/
theorem stallBump_out (s : State) (hs : ReachableOut s) (i : Nat) :
    (firstIdx (due s.CYCLE) (preBroadcast s).MULRS = some i →
      (∀ (j : Nat) (q : RSE), j ≠ i → (preBroadcast s).MULRS[j]? = some q →
        ∃ q', (broadcastOut (preBroadcast s)).MULRS[j]? = some q' ∧
          (Contender s.CYCLE (preBroadcast s).MULRS (some i) q.op →
            q'.bcast = q.bcast + 1) ∧
          (¬ Contender s.CYCLE (preBroadcast s).MULRS (some i) q.op →
            q'.bcast = q.bcast)) ∧
      (∀ (j : Nat) (q : RSE), (preBroadcast s).ADDRS[j]? = some q →
        ∃ q', (broadcastOut (preBroadcast s)).ADDRS[j]? = some q' ∧
          (Contender s.CYCLE (preBroadcast s).ADDRS none q.op → q'.bcast = q.bcast + 1) ∧
          (¬ Contender s.CYCLE (preBroadcast s).ADDRS none q.op → q'.bcast = q.bcast))) ∧
    (firstIdx (due s.CYCLE) (broadcastMulOut (preBroadcast s)).ADDRS = some i →
      (∀ (j : Nat) (q : RSE), j ≠ i → (preBroadcast s).ADDRS[j]? = some q →
        ∃ q', (broadcastOut (preBroadcast s)).ADDRS[j]? = some q' ∧
          (Contender s.CYCLE (preBroadcast s).ADDRS (some i) q.op →
            q'.bcast = q.bcast + 1) ∧
          (¬ Contender s.CYCLE (preBroadcast s).ADDRS (some i) q.op →
            q'.bcast = q.bcast)) ∧
      (∀ (j : Nat) (q : RSE), (preBroadcast s).MULRS[j]? = some q →
        ¬ (q.busy = true ∧ q.disp = true ∧ q.bcast = s.CYCLE) ∧
        ∃ q', (broadcastOut (preBroadcast s)).MULRS[j]? = some q' ∧ q'.bcast = q.bcast)) := by
  have h0 := PhaseInv_preBroadcast hs.inv
  have hc : (preBroadcast s).CYCLE = s.CYCLE := preBroadcast_CYCLE s
  rcases broadcast_cases _ h0 with ⟨i', r, hi', hr, hd, hc2, hb⟩ |
    ⟨hn, i', r, ha, hr, hd, hc2, hb⟩ | ⟨hn, ha, hb⟩
  · have hmul : broadcastMulOut (preBroadcast s) = broadcastMulAtOut i' (preBroadcast s) := by
      simp [broadcastMulOut, hi']
    constructor
    · intro hf
      rw [hc, hf] at hi'
      cases hi'
      rw [hb, broadcastMulAtOut_eq, ← hc]
      exact ⟨fun j q hji hj => winPool_bcast _ _ _ _ _ h0.mul hc2 j q hji hj,
        fun j q hj => losePool_bcast _ _ _ _ h0.add j q hj⟩
    · intro hf
      rw [hmul] at hf
      have hnone := no_due_losePool (preBroadcast s).CYCLE
        (resultAt (modifyAt RSE.computed i' (preBroadcast s).MULRS) i')
        ((i' : Int) + (ADDCOUNT : Int)) (preBroadcast s).ADDRS h0.add
      rw [broadcastMulAtOut_eq, hc] at hf
      rw [hc] at hnone
      simp only at hf
      rw [hnone] at hf
      cases hf
  · have hmul : broadcastMulOut (preBroadcast s) = preBroadcast s := by
      simp [broadcastMulOut, hn]
    constructor
    · intro hf
      rw [hc, hf] at hn
      cases hn
    · intro hf
      rw [hmul, ← hc, ha] at hf
      cases hf
      rw [hb, broadcastAddAtOut_eq, ← hc]
      refine ⟨fun j q hji hj => winPool_bcast _ _ _ _ _ h0.add hc2 j q hji hj, ?_⟩
      intro j q hj
      have hnd : ¬ (q.busy = true ∧ q.disp = true ∧ q.bcast = (preBroadcast s).CYCLE) := by
        intro hdq
        have := firstIdx_none_spec hn q (List.getElem?_mem hj)
        rw [due_eq_true.mpr hdq] at this
        cases this
      refine ⟨hnd, ?_⟩
      obtain ⟨q', hq', -, hsame⟩ := losePool_bcast (preBroadcast s).CYCLE
        (resultAt (modifyAt RSE.computed i (preBroadcast s).ADDRS) i) (i : Int)
        (preBroadcast s).MULRS h0.mul j q hj
      refine ⟨q', hq', hsame ?_⟩
      rintro ⟨k, d, -, hk, h1, h2, h3, -⟩
      have := firstIdx_none_spec hn d (List.getElem?_mem hk)
      rw [due_eq_true.mpr ⟨h1, h2, h3⟩] at this
      cases this
  · have hmul : broadcastMulOut (preBroadcast s) = preBroadcast s := by
      simp [broadcastMulOut, hn]
    constructor
    · intro hf
      rw [hc, hf] at hn
      cases hn
    · intro hf
      rw [hmul, ← hc, ha] at hf
      cases hf

/-! ## `stallOthers` in an arbitrary state -/

theorem TimingLe.rfl' (r : RSE) : TimingLe r r := ⟨rfl, rfl, rfl, rfl, le_refl _⟩

theorem TimingLe.trans' {a b c : RSE} (h1 : TimingLe a b) (h2 : TimingLe b c) :
    TimingLe a c := by
  obtain ⟨a1, a2, a3, a4, a5⟩ := h1
  obtain ⟨b1, b2, b3, b4, b5⟩ := h2
  exact ⟨by rw [b1, a1], by rw [b2, a2], by rw [b3, a3], by rw [b4, a4], le_trans a5 b5⟩

theorem timingLe_capture (res tag : Int) (r : RSE) : TimingLe r (captureRSE res tag r) := by
  obtain ⟨c1, c2, c3, c4, c5, -⟩ := captureRSE_timing res tag r
  exact ⟨c1, c2, c4, c5, by rw [c3]⟩

theorem bumpOp_timingLe (x : Int) (pool : List RSE) (k : Nat) (r : RSE)
    (hk : pool[k]? = some r) : ∃ q, (bumpOp x pool)[k]? = some q ∧ TimingLe r q := by
  by_cases hx : r.op = x
  · refine ⟨{ r with bcast := r.bcast + 1 }, by simp [bumpOp, hk, hx], rfl, rfl, rfl, rfl, ?_⟩
    show r.bcast ≤ r.bcast + 1
    omega
  · exact ⟨r, by simp [bumpOp, hk, hx], TimingLe.rfl' r⟩

theorem stallStep_timingLe (c : Int) (pool : List RSE) (i k : Nat) (r : RSE)
    (hk : pool[k]? = some r) : ∃ q, (stallStep c pool i)[k]? = some q ∧ TimingLe r q := by
  unfold stallStep
  split
  · split
    · exact bumpOp_timingLe _ pool k r hk
    · exact ⟨r, hk, TimingLe.rfl' r⟩
  · exact ⟨r, hk, TimingLe.rfl' r⟩

theorem stallFold_timingLe (c : Int) (l : List Nat) :
    ∀ (pool : List RSE) (k : Nat) (r : RSE), pool[k]? = some r →
      ∃ q, (l.foldl (stallStep c) pool)[k]? = some q ∧ TimingLe r q := by
  induction l with
  | nil => intro pool k r hk; exact ⟨r, hk, TimingLe.rfl' r⟩
  | cons i rest ih =>
    intro pool k r hk
    obtain ⟨q1, hq1, h1⟩ := stallStep_timingLe c pool i k r hk
    obtain ⟨q2, hq2, h2⟩ := ih (stallStep c pool i) k q1 hq1
    exact ⟨q2, hq2, TimingLe.trans' h1 h2⟩

theorem stallPool_timingLe (c : Int) (pool : List RSE) (k : Nat) (r : RSE)
    (hk : pool[k]? = some r) : ∃ q, (stallPool c pool)[k]? = some q ∧ TimingLe r q :=
  stallFold_timingLe c _ pool k r hk

/-- The lowest-index due station of a pool is pushed past the current cycle by
the outer loop of `stallOthers`, in any state. -/
theorem stallPool_first_due (c : Int) (pool : List RSE) (j : Nat) (r : RSE)
    (hj : pool[j]? = some r) (hd : due c r = true)
    (hlow : ∀ q ∈ pool.take j, due c q = false) :
    ∃ q, (stallPool c pool)[j]? = some q ∧ TimingLe r q ∧ c + 1 ≤ q.bcast := by
  have hjlt : j < pool.length := (List.getElem?_eq_some.mp hj).1
  have key : ∀ n, n ≤ pool.length →
      (n ≤ j → (List.range n).foldl (stallStep c) pool = pool) ∧
      (j < n → ∃ q, ((List.range n).foldl (stallStep c) pool)[j]? = some q ∧
        TimingLe r q ∧ c + 1 ≤ q.bcast) := by
    intro n
    induction n with
    | zero => intro _; exact ⟨fun _ => rfl, fun h => absurd h (Nat.not_lt_zero _)⟩
    | succ n ih =>
      intro hn
      obtain ⟨ih1, ih2⟩ := ih (by omega)
      rw [List.range_succ, List.foldl_append]
      simp only [List.foldl_cons, List.foldl_nil]
      constructor
      · intro hle
        rw [ih1 (by omega)]
        have hnlt : n < pool.length := by omega
        have hx : pool[n]? = some pool[n] := List.getElem?_eq_getElem hnlt
        have hmem : pool[n] ∈ pool.take j := by
          apply List.getElem?_mem
          rw [List.getElem?_take_of_lt (show n < j by omega)]
          exact hx
        simp [stallStep, hx, hlow _ hmem]
      · intro hlt
        rcases Nat.lt_succ_iff_lt_or_eq.mp hlt with hlt' | heq
        · obtain ⟨q, hq, h1, h2⟩ := ih2 hlt'
          obtain ⟨q2, hq2, h3⟩ := stallStep_timingLe c _ n j q hq
          exact ⟨q2, hq2, TimingLe.trans' h1 h3, le_trans h2 h3.2.2.2.2⟩
        · subst heq
          rw [ih1 (le_refl _)]
          have hb := (due_eq_true.mp hd).2.2
          refine ⟨{ r with bcast := r.bcast + 1 }, ?_, ⟨rfl, rfl, rfl, rfl, ?_⟩, ?_⟩
          · simp [stallStep, hj, hd, bumpOp]
          · show r.bcast ≤ r.bcast + 1
            omega
          · show c + 1 ≤ r.bcast + 1
            omega
  exact (key pool.length (le_refl _)).2 hjlt

theorem losePool_timingLe (c res tag : Int) (pool : List RSE) (k : Nat) (r : RSE)
    (hk : pool[k]? = some r) : ∃ q, (losePool c res tag pool)[k]? = some q ∧ TimingLe r q := by
  have h1 : (pool.map (captureRSE res tag))[k]? = some (captureRSE res tag r) := by
    simp [hk]
  obtain ⟨q, hq, h2⟩ := stallPool_timingLe c _ k _ h1
  exact ⟨q, hq, TimingLe.trans' (timingLe_capture res tag r) h2⟩

theorem losePool_first_due (c res tag : Int) (pool : List RSE) (j : Nat) (r : RSE)
    (hj : pool[j]? = some r) (hd : due c r = true)
    (hlow : ∀ q ∈ pool.take j, due c q = false) :
    ∃ q, (losePool c res tag pool)[j]? = some q ∧ TimingLe r q ∧ c + 1 ≤ q.bcast := by
  have h1 : (pool.map (captureRSE res tag))[j]? = some (captureRSE res tag r) := by
    simp [hj]
  have hd1 : due c (captureRSE res tag r) = true := by rw [due_captureRSE]; exact hd
  have hlow1 : ∀ q ∈ (pool.map (captureRSE res tag)).take j, due c q = false := by
    intro q hq
    rw [← List.map_take] at hq
    obtain ⟨q0, hq0, rfl⟩ := List.mem_map.mp hq
    rw [due_captureRSE]
    exact hlow q0 hq0
  obtain ⟨q, hq, h2, h3⟩ := stallPool_first_due c _ j _ h1 hd1 hlow1
  exact ⟨q, hq, TimingLe.trans' (timingLe_capture res tag r) h2, h3⟩

theorem winPool_timingLe (c res tag : Int) (i : Nat) (pool : List RSE) (k : Nat) (r : RSE)
    (hki : k ≠ i) (hk : pool[k]? = some r) :
    ∃ q, (winPool c res tag i pool)[k]? = some q ∧ TimingLe r q := by
  have h1 : (modifyAt (fun r => { r with bcast := -1 }) i
      ((modifyAt RSE.computed i pool).map (captureRSE res tag)))[k]? =
      some (captureRSE res tag r) := by
    rw [modifyAt_getElem?_ne _ _ hki, List.getElem?_map, modifyAt_getElem?_ne _ _ hki, hk]
    rfl
  obtain ⟨q, hq, h2⟩ := stallPool_timingLe c _ k _ h1
  refine ⟨q, ?_, TimingLe.trans' (timingLe_capture res tag r) h2⟩
  unfold winPool
  rw [modifyAt_getElem?_ne _ _ hki]
  exact hq

theorem winPool_frees (c res tag : Int) (i : Nat) (pool : List RSE) (r : RSE)
    (hi : pool[i]? = some r) :
    ∃ q, (winPool c res tag i pool)[i]? = some q ∧ q.busy = false := by
  have h1 : (modifyAt (fun r => { r with bcast := -1 }) i
      ((modifyAt RSE.computed i pool).map (captureRSE res tag)))[i]? =
      some { captureRSE res tag r.computed with bcast := -1 } := by
    rw [modifyAt_getElem?, if_pos rfl, List.getElem?_map, modifyAt_getElem?_eq hi]
    rfl
  obtain ⟨q, hq, -⟩ := stallPool_timingLe c _ i _ h1
  refine ⟨{ q with busy := false }, ?_, rfl⟩
  unfold winPool
  rw [modifyAt_getElem?_eq hq]

/-! ## the pools do not broadcast independently -/

/-- Over the returning semantics: For every state in which multiplication station `i` is the
lowest-index one that is busy, dispatched and due (`bcast == CYCLE`) and
addition station `j` is the lowest-index such addition station: the first
loop of `broadcast` broadcasts `MULRS[i]`, which ends the phase free; the
second loop does not select `ADDRS[j]`, which ends the phase still busy and
dispatched, same opcode and `discno`, with `bcast >= CYCLE + 1`. -/
theorem mulDefersAdd_out (s : State) (i j : Nat) (M A : RSE)
    (hM : s.MULRS[i]? = some M)
    (hMd : M.busy = true ∧ M.disp = true ∧ M.bcast = s.CYCLE)
    (hMlow : ∀ q ∈ s.MULRS.take i, ¬ (q.busy = true ∧ q.disp = true ∧ q.bcast = s.CYCLE))
    (hA : s.ADDRS[j]? = some A)
    (hAd : A.busy = true ∧ A.disp = true ∧ A.bcast = s.CYCLE)
    (hAlow : ∀ q ∈ s.ADDRS.take j, ¬ (q.busy = true ∧ q.disp = true ∧ q.bcast = s.CYCLE)) :
    broadcastMulOut s = broadcastMulAtOut i s ∧
    (∃ M', (broadcastOut s).MULRS[i]? = some M' ∧ M'.busy = false) ∧
    firstIdx (due s.CYCLE) (broadcastMulOut s).ADDRS ≠ some j ∧
    (∃ A', (broadcastOut s).ADDRS[j]? = some A' ∧ A'.busy = true ∧ A'.disp = true ∧
      A'.op = A.op ∧ A'.discno = A.discno ∧ s.CYCLE + 1 ≤ A'.bcast) := by
  have notdue : ∀ {q : RSE}, ¬ (q.busy = true ∧ q.disp = true ∧ q.bcast = s.CYCLE) →
      due s.CYCLE q = false := by
    intro q h
    cases hq : due s.CYCLE q with
    | false => rfl
    | true => exact absurd (due_eq_true.mp hq) h
  have hfm : firstIdx (due s.CYCLE) s.MULRS = some i :=
    firstIdx_of_least hM (due_eq_true.mpr hMd) (fun q hq => notdue (hMlow q hq))
  have hmul : broadcastMulOut s = broadcastMulAtOut i s := by simp [broadcastMulOut, hfm]
  obtain ⟨A1, hA1, tA1, bA1⟩ := losePool_first_due s.CYCLE
    (resultAt (modifyAt RSE.computed i s.MULRS) i) ((i : Int) + (ADDCOUNT : Int)) s.ADDRS j A hA
    (due_eq_true.mpr hAd) (fun q hq => notdue (hAlow q hq))
  obtain ⟨M1, hM1, bM1⟩ := winPool_frees s.CYCLE
    (resultAt (modifyAt RSE.computed i s.MULRS) i) ((i : Int) + (ADDCOUNT : Int)) i s.MULRS M hM
  have hA1' : (broadcastMulAtOut i s).ADDRS[j]? = some A1 := by
    rw [broadcastMulAtOut_eq]; exact hA1
  have hM1' : (broadcastMulAtOut i s).MULRS[i]? = some M1 := by
    rw [broadcastMulAtOut_eq]; exact hM1
  have hnot : firstIdx (due s.CYCLE) (broadcastMulAtOut i s).ADDRS ≠ some j := by
    intro hf
    obtain ⟨x, hx, hdx, -⟩ := firstIdx_some_spec hf
    rw [hA1'] at hx
    cases hx
    have := (due_eq_true.mp hdx).2.2
    omega
  have hfinal : ∀ A2 : RSE, TimingLe A1 A2 →
      A2.busy = true ∧ A2.disp = true ∧ A2.op = A.op ∧ A2.discno = A.discno ∧
        s.CYCLE + 1 ≤ A2.bcast := by
    intro A2 h2
    obtain ⟨t1, t2, t3, t4, t5⟩ := TimingLe.trans' tA1 h2
    exact ⟨by rw [t1, hAd.1], by rw [t2, hAd.2.1], t3, t4, le_trans bA1 h2.2.2.2.2⟩
  refine ⟨hmul, ?_, by rw [hmul]; exact hnot, ?_⟩
  · unfold broadcastOut
    rw [hmul]
    unfold broadcastAddOut
    cases hf : firstIdx (due (broadcastMulAtOut i s).CYCLE) (broadcastMulAtOut i s).ADDRS with
    | none => exact ⟨M1, hM1', bM1⟩
    | some k =>
      simp only
      rw [broadcastAddAtOut_eq]
      obtain ⟨M2, hM2, tM2⟩ := losePool_timingLe (broadcastMulAtOut i s).CYCLE
        (resultAt (modifyAt RSE.computed k (broadcastMulAtOut i s).ADDRS) k) (k : Int)
        (broadcastMulAtOut i s).MULRS i M1 hM1'
      exact ⟨M2, hM2, by rw [tM2.1, bM1]⟩
  · unfold broadcastOut
    rw [hmul]
    unfold broadcastAddOut
    cases hf : firstIdx (due (broadcastMulAtOut i s).CYCLE) (broadcastMulAtOut i s).ADDRS with
    | none => exact ⟨A1, hA1', hfinal A1 (TimingLe.rfl' A1)⟩
    | some k =>
      simp only
      rw [broadcastAddAtOut_eq]
      have hjk : j ≠ k := by
        rintro rfl
        exact hnot hf
      obtain ⟨A2, hA2, tA2⟩ := winPool_timingLe (broadcastMulAtOut i s).CYCLE
        (resultAt (modifyAt RSE.computed k (broadcastMulAtOut i s).ADDRS) k) (k : Int) k
        (broadcastMulAtOut i s).ADDRS j A1 hjk hA1'
      exact ⟨A2, hA2, hfinal A2 tA2⟩

/-! ## queue refill -/

theorem fillIQCond_eq_true {s : State} :
    fillIQCond s = true ↔ s.CURINS ≠ s.PROGSIZE ∧ s.IQUEUE.length ≠ INSCOUNT := by
  simp [fillIQCond]

theorem fillIQFuel_spec (fuel : Nat) :
    ∀ s : State, s.CURINS ≤ s.PROGSIZE → s.IQUEUE.length ≤ INSCOUNT →
      min (s.PROGSIZE - s.CURINS) (INSCOUNT - s.IQUEUE.length) ≤ fuel →
      fillIQFuel fuel s = some
        { s with
          IQUEUE := s.IQUEUE ++ (s.INSMEM.drop s.CURINS).take
            (min (s.PROGSIZE - s.CURINS) (INSCOUNT - s.IQUEUE.length))
          CURINS := s.CURINS + min (s.PROGSIZE - s.CURINS) (INSCOUNT - s.IQUEUE.length) } := by
  induction fuel with
  | zero =>
    intro s hc hq hk
    have hk0 : min (s.PROGSIZE - s.CURINS) (INSCOUNT - s.IQUEUE.length) = 0 := by omega
    have hcond : ¬ fillIQCond s = true := by
      rw [fillIQCond_eq_true]
      omega
    simp [fillIQFuel, hcond, hk0]
  | succ n ih =>
    intro s hc hq hk
    by_cases hcond : fillIQCond s = true
    · obtain ⟨h1, h2⟩ := fillIQCond_eq_true.mp hcond
      have hlt : s.CURINS < s.INSMEM.length := by
        have : s.CURINS ≤ s.INSMEM.length := hc
        have : s.CURINS ≠ s.INSMEM.length := h1
        omega
      have hk1 : min (s.PROGSIZE - s.CURINS) (INSCOUNT - s.IQUEUE.length) =
          min ((fillIQBody s).PROGSIZE - (fillIQBody s).CURINS)
            (INSCOUNT - (fillIQBody s).IQUEUE.length) + 1 := by
        simp only [fillIQBody, State.PROGSIZE, List.length_append, List.length_singleton]
        simp only [State.PROGSIZE] at hc h1
        omega
      have := ih (fillIQBody s)
        (by simp only [fillIQBody, State.PROGSIZE]; omega)
        (by simp only [fillIQBody, List.length_append, List.length_singleton]; omega)
        (by omega)
      simp only [fillIQFuel, hcond, if_true]
      rw [this, hk1]
      have hget : s.INSMEM.getD s.CURINS default = s.INSMEM[s.CURINS] := by
        simp [List.getD_eq_getElem?_getD, List.getElem?_eq_getElem hlt]
      have hdrop : List.drop s.CURINS s.INSMEM =
          s.INSMEM[s.CURINS] :: List.drop (s.CURINS + 1) s.INSMEM :=
        List.drop_eq_getElem_cons hlt
      simp only [fillIQBody, State.PROGSIZE, hget, hdrop, List.take_succ_cons,
        List.append_assoc, List.singleton_append, Nat.add_assoc, Nat.add_comm 1]
    · have hk0 : min (s.PROGSIZE - s.CURINS) (INSCOUNT - s.IQUEUE.length) = 0 := by
        rw [fillIQCond_eq_true] at hcond
        omega
      simp [fillIQFuel, hcond, hk0]
/-- C12. Queue refill.  For every state with `CURINS ≤ PROGSIZE` and
`IQUEUE.size() ≤ INSCOUNT`, with `k = min (PROGSIZE - CURINS) (INSCOUNT - size)`:
the loop of `fillIQ` terminates (every bound of at least `k` iterations gives
the result `fillIQ s`); the new queue is the old queue followed by
`INSMEM[CURINS .. CURINS + k)` in program order and the new `CURINS` is
`CURINS + k`, every other component (`RF`, `RAT`, both station pools, `CYCLE`,
`INSMEM`) being unchanged; when the queue is at capacity or the program is
exhausted `fillIQ` changes nothing. -/
theorem fillIQ_refill (s : State) (hc : s.CURINS ≤ s.PROGSIZE)
    (hq : s.IQUEUE.length ≤ INSCOUNT) :
    (∀ fuel, min (s.PROGSIZE - s.CURINS) (INSCOUNT - s.IQUEUE.length) ≤ fuel →
      fillIQFuel fuel s = some (fillIQ s)) ∧
    fillIQ s =
      { s with
        IQUEUE := s.IQUEUE ++ (s.INSMEM.drop s.CURINS).take
          (min (s.PROGSIZE - s.CURINS) (INSCOUNT - s.IQUEUE.length))
        CURINS := s.CURINS + min (s.PROGSIZE - s.CURINS) (INSCOUNT - s.IQUEUE.length) } ∧
    (s.IQUEUE.length = INSCOUNT ∨ s.CURINS = s.PROGSIZE → fillIQ s = s) ∧
    (fillIQ s).RF = s.RF ∧ (fillIQ s).RAT = s.RAT ∧ (fillIQ s).ADDRS = s.ADDRS ∧
    (fillIQ s).MULRS = s.MULRS ∧ (fillIQ s).CYCLE = s.CYCLE ∧
    (fillIQ s).INSMEM = s.INSMEM := by
  have hfill : fillIQ s =
      { s with
        IQUEUE := s.IQUEUE ++ (s.INSMEM.drop s.CURINS).take
          (min (s.PROGSIZE - s.CURINS) (INSCOUNT - s.IQUEUE.length))
        CURINS := s.CURINS + min (s.PROGSIZE - s.CURINS) (INSCOUNT - s.IQUEUE.length) } := by
    unfold fillIQ
    rw [fillIQFuel_spec _ s hc hq (Nat.min_le_left _ _)]
    rfl
  refine ⟨?_, hfill, ?_, ?_⟩
  · intro fuel hfuel
    rw [fillIQFuel_spec fuel s hc hq hfuel, hfill]
  · intro h
    have hk0 : min (s.PROGSIZE - s.CURINS) (INSCOUNT - s.IQUEUE.length) = 0 := by omega
    rw [hfill, hk0]
    simp
  · obtain ⟨f1, f2, f3, f4, f5, f6⟩ := fillIQ_frame s
    exact ⟨f2, f3, f4, f5, f1, f6⟩

/-- Witness for C12: from the initial state of the twelve-instruction
`longProg` the refill stops at capacity, with ten instructions queued and
`CURINS = 10`; a second refill then changes nothing. -/
theorem fillIQ_refill_witness :
    (fillIQ (initState longProg rf34)).IQUEUE = longProg.take 10 ∧
    (fillIQ (initState longProg rf34)).CURINS = 10 ∧
    fillIQ (fillIQ (initState longProg rf34)) = fillIQ (initState longProg rf34) :=
  ⟨congrArg State.IQUEUE (fillIQ_refill (initState longProg rf34) (by decide) (by decide)).2.1,
   congrArg State.CURINS (fillIQ_refill (initState longProg rf34) (by decide) (by decide)).2.1,
   (fillIQ_refill (fillIQ (initState longProg rf34)) (by decide) (by decide)).2.2.1
     (Or.inl (by decide))⟩

/-! ## in-order issue -/

theorem getRS_frame (s : State) (ins : INS) :
    (getRS s ins).2.INSMEM = s.INSMEM ∧ (getRS s ins).2.CURINS = s.CURINS ∧
      (getRS s ins).2.IQUEUE = s.IQUEUE ∧ (getRS s ins).2.RF = s.RF ∧
      (getRS s ins).2.CYCLE = s.CYCLE := by
  unfold getRS
  repeat' split
  all_goals exact ⟨rfl, rfl, rfl, rfl, rfl⟩

theorem issue_frame (s : State) :
    (issue s).INSMEM = s.INSMEM ∧ (issue s).CURINS = s.CURINS := by
  unfold issue
  split
  · exact ⟨rfl, rfl⟩
  · simp only
    split
    · exact ⟨(getRS_frame _ _).1, (getRS_frame _ _).2.1⟩
    · exact ⟨(getRS_frame _ _).1, (getRS_frame _ _).2.1⟩

/-- `issue` removes from the queue exactly the instructions of `issuedBy`: the
head, or nothing. -/
theorem issue_queue (s : State) :
    s.IQUEUE = issuedBy s ++ (issue s).IQUEUE ∧ (issuedBy s).length ≤ 1 := by
  cases hq : s.IQUEUE with
  | nil => simp [issue, issuedBy, hq]
  | cons h rest =>
    by_cases hr : (getRS s h).1 ≠ -1
    · simp [issue, issuedBy, hq, hr]
    · simp [issue, issuedBy, hq, hr, (getRS_frame s h).2.2.1]

theorem broadcast_frame (s : State) :
    (broadcastOut s).INSMEM = s.INSMEM ∧ (broadcastOut s).CURINS = s.CURINS ∧
      (broadcastOut s).IQUEUE = s.IQUEUE := by
  have hm : (broadcastMulOut s).INSMEM = s.INSMEM ∧ (broadcastMulOut s).CURINS = s.CURINS ∧
      (broadcastMulOut s).IQUEUE = s.IQUEUE := by
    unfold broadcastMulOut
    split
    · exact ⟨rfl, rfl, rfl⟩
    · exact ⟨rfl, rfl, rfl⟩
  have ha : (broadcastAddOut (broadcastMulOut s)).INSMEM = (broadcastMulOut s).INSMEM ∧
      (broadcastAddOut (broadcastMulOut s)).CURINS = (broadcastMulOut s).CURINS ∧
      (broadcastAddOut (broadcastMulOut s)).IQUEUE = (broadcastMulOut s).IQUEUE := by
    unfold broadcastAddOut
    split
    · exact ⟨rfl, rfl, rfl⟩
    · exact ⟨rfl, rfl, rfl⟩
  unfold broadcastOut
  exact ⟨ha.1.trans hm.1, ha.2.1.trans hm.2.1, ha.2.2.trans hm.2.2⟩

theorem ExecCycleOut_INSMEM (s : State) : (ExecCycleOut s).INSMEM = s.INSMEM := by
  rw [ExecCycleOut_eq]
  show (broadcastOut (preBroadcast s)).INSMEM = s.INSMEM
  rw [(broadcast_frame _).1]
  unfold preBroadcast
  rw [(fillIQ_frame _).2.2.2.2.2, (issue_frame _).1]
  rfl

theorem slice_tail {l : List INS} {a n : Nat} {h : INS} {rest : List INS}
    (hs : h :: rest = (l.drop a).take (n + 1)) :
    a < l.length ∧ l[a]? = some h ∧ rest = (l.drop (a + 1)).take n := by
  by_cases ha : a < l.length
  · rw [List.drop_eq_getElem_cons ha, List.take_succ_cons] at hs
    simp only [List.cons.injEq] at hs
    exact ⟨ha, by rw [List.getElem?_eq_getElem ha, hs.1], hs.2⟩
  · rw [List.drop_eq_nil_of_le (by omega)] at hs
    simp at hs

/-- One cycle keeps the queue invariant and moves the issue point by the
number of instructions issued, which are the next ones in program order. -/
theorem QueueInv_ExecCycle (s : State) (h : QueueInv s) :
    QueueInv (ExecCycleOut s) ∧
    (ExecCycleOut s).CURINS - (ExecCycleOut s).IQUEUE.length =
      (s.CURINS - s.IQUEUE.length) + (issuedIn s).length ∧
    s.INSMEM.take ((s.CURINS - s.IQUEUE.length) + (issuedIn s).length) =
      s.INSMEM.take (s.CURINS - s.IQUEUE.length) ++ issuedIn s := by
  obtain ⟨h1, h2, h3, h4⟩ := h
  -- after dispatch nothing about the queue has changed
  have hd : (dispatch s).IQUEUE = s.IQUEUE := rfl
  obtain ⟨hq, hlen⟩ := issue_queue (dispatch s)
  obtain ⟨i1, i2⟩ := issue_frame (dispatch s)
  have i1' : (issue (dispatch s)).INSMEM = s.INSMEM := i1
  have i2' : (issue (dispatch s)).CURINS = s.CURINS := i2
  rw [hd] at hq
  have hql : s.IQUEUE.length = (issuedIn s).length + (issue (dispatch s)).IQUEUE.length := by
    have := congrArg List.length hq
    simpa [issuedIn] using this
  -- the queue after issue is still a slice
  have hslice : (issue (dispatch s)).IQUEUE =
      (s.INSMEM.drop (s.CURINS - (issue (dispatch s)).IQUEUE.length)).take
        (issue (dispatch s)).IQUEUE.length ∧
      s.INSMEM.take ((s.CURINS - s.IQUEUE.length) + (issuedIn s).length) =
        s.INSMEM.take (s.CURINS - s.IQUEUE.length) ++ issuedIn s := by
    cases hi : issuedBy (dispatch s) with
    | nil =>
      have hi' : issuedIn s = [] := hi
      rw [hi] at hq
      simp only [List.nil_append] at hq
      rw [hi', ← hq]
      exact ⟨h4, by simp⟩
    | cons x xs =>
      have hi' : issuedIn s = x :: xs := hi
      have hxs : xs = [] := by
        rw [hi] at hlen
        simp only [List.length_cons] at hlen
        exact List.length_eq_zero.mp (by omega)
      subst hxs
      rw [hi] at hq
      simp only [List.singleton_append] at hq
      rw [hi'] at hql
      simp only [List.length_singleton] at hql
      have hs' : x :: (issue (dispatch s)).IQUEUE =
          (s.INSMEM.drop (s.CURINS - s.IQUEUE.length)).take
            ((issue (dispatch s)).IQUEUE.length + 1) := by
        rw [← hq, Nat.add_comm, ← hql]
        exact h4
      obtain ⟨ha, hx, hrest⟩ := slice_tail hs'
      have e : s.CURINS - (issue (dispatch s)).IQUEUE.length =
          s.CURINS - s.IQUEUE.length + 1 := by omega
      refine ⟨by rw [e]; exact hrest, ?_⟩
      rw [hi', List.length_singleton, List.take_succ, hx]
      rfl
  obtain ⟨hsl, htake⟩ := hslice
  -- refill; broadcast and the clock leave the queue alone
  have hc1 : (issue (dispatch s)).CURINS ≤ (issue (dispatch s)).PROGSIZE := by
    simp only [State.PROGSIZE, i1', i2']
    exact h2
  have hq1 : (issue (dispatch s)).IQUEUE.length ≤ INSCOUNT := by omega
  have hf := (fillIQ_refill (issue (dispatch s)) hc1 hq1).2.1
  obtain ⟨b1, b2, b3⟩ := broadcast_frame (preBroadcast s)
  have e1 : (ExecCycleOut s).IQUEUE = (fillIQ (issue (dispatch s))).IQUEUE := by
    rw [ExecCycleOut_eq]; exact b3
  have e2 : (ExecCycleOut s).CURINS = (fillIQ (issue (dispatch s))).CURINS := by
    rw [ExecCycleOut_eq]; exact b2
  have e3 : (ExecCycleOut s).INSMEM = s.INSMEM := ExecCycleOut_INSMEM s
  have eq1 := congrArg State.IQUEUE hf
  have eq2 := congrArg State.CURINS hf
  simp only [State.PROGSIZE, i1', i2'] at eq1 eq2
  have hklen : ((s.INSMEM.drop s.CURINS).take
      (min (s.INSMEM.length - s.CURINS)
        (INSCOUNT - (issue (dispatch s)).IQUEUE.length))).length =
      min (s.INSMEM.length - s.CURINS)
        (INSCOUNT - (issue (dispatch s)).IQUEUE.length) := by
    rw [List.length_take, List.length_drop]
    omega
  have hz : (ExecCycleOut s).IQUEUE.length = (issue (dispatch s)).IQUEUE.length +
      min (s.INSMEM.length - s.CURINS)
        (INSCOUNT - (issue (dispatch s)).IQUEUE.length) := by
    rw [e1, eq1, List.length_append, hklen]
  have h2' : s.CURINS ≤ s.INSMEM.length := h2
  refine ⟨⟨by omega, ?_, by rw [e2, eq2]; omega, ?_⟩, by rw [e2, eq2]; omega, htake⟩
  · simp only [State.PROGSIZE, e3, e2, eq2]
    omega
  · rw [e3, hz, e2, eq2]
    have e : s.CURINS + min (s.INSMEM.length - s.CURINS)
          (INSCOUNT - (issue (dispatch s)).IQUEUE.length) -
        ((issue (dispatch s)).IQUEUE.length +
          min (s.INSMEM.length - s.CURINS)
            (INSCOUNT - (issue (dispatch s)).IQUEUE.length)) =
        s.CURINS - (issue (dispatch s)).IQUEUE.length := by omega
    rw [e, List.take_add, List.drop_drop, e1, eq1]
    have e' : s.CURINS - (issue (dispatch s)).IQUEUE.length +
        (issue (dispatch s)).IQUEUE.length = s.CURINS := by omega
    rw [e', ← hsl]
theorem QueueInv_init (prog : List INS) (rf : List Int) : QueueInv (initState prog rf) :=
  ⟨by simp [initState], by simp [initState], by simp [initState], by simp [initState]⟩

theorem run_queue (prog : List INS) (rf : List Int) (n : Nat) :
    QueueInv (runStateOut prog rf n) ∧ (runStateOut prog rf n).INSMEM = prog ∧
    issuedLogOut prog rf n =
      prog.take ((runStateOut prog rf n).CURINS - (runStateOut prog rf n).IQUEUE.length) := by
  induction n with
  | zero => exact ⟨QueueInv_init prog rf, rfl, by simp [issuedLogOut, runStateOut, initState]⟩
  | succ n ih =>
    obtain ⟨hq, hm, hlog⟩ := ih
    obtain ⟨hq', hcnt, htake⟩ := QueueInv_ExecCycle _ hq
    refine ⟨hq', by rw [runStateOut, ExecCycleOut_INSMEM, hm], ?_⟩
    rw [issuedLogOut, hlog]
    show _ = prog.take ((ExecCycleOut (runStateOut prog rf n)).CURINS -
      (ExecCycleOut (runStateOut prog rf n)).IQUEUE.length)
    rw [hm] at htake
    rw [hcnt, htake]

theorem runStateOut_reachable (prog : List INS) (rf : List Int) (hrf : rf.length = REGCOUNT)
    (hprog : ∀ ins ∈ prog, ins.regsOk) (n : Nat) : ReachableOut (runStateOut prog rf n) := by
  induction n with
  | zero => exact ReachableOut.init prog rf hrf hprog
  | succ n ih => exact ReachableOut.step ih

theorem ReachableOut.exists_run {s : State} (h : ReachableOut s) :
    ∃ (prog : List INS) (rf : List Int) (n : Nat), rf.length = REGCOUNT ∧
      (∀ ins ∈ prog, ins.regsOk) ∧ s = runStateOut prog rf n := by
  induction h with
  | init prog rf hrf hprog => exact ⟨prog, rf, 0, hrf, hprog, rfl⟩
  | step _ ih =>
    obtain ⟨prog, rf, n, hrf, hprog, rfl⟩ := ih
    exact ⟨prog, rf, n + 1, hrf, hprog, rfl⟩

/-- Over the returning semantics: In-order issue.  Every reachable state `s` is the state at the start of
some cycle `n` of the run of a program `prog` (`INSMEM = prog`), and in it:
`IQUEUE.size() <= INSCOUNT`, `CURINS <= PROGSIZE`, and the queue is the program
slice `INSMEM[CURINS - size .. CURINS)` in order; the instructions issued in the
`n` cycles so far are, in order of issue, exactly the program prefix
`INSMEM[0 .. CURINS - size)`; the cycle starting in `s` issues at most one
instruction, and the queue before its issue phase is the issued instruction (if
any) followed by the queue after it, so what is issued is the queue head. -/
theorem issueOrder_out (s : State) (hs : ReachableOut s) :
    ∃ (prog : List INS) (rf : List Int) (n : Nat),
      s = runStateOut prog rf n ∧ s.INSMEM = prog ∧
      s.IQUEUE.length ≤ INSCOUNT ∧ s.CURINS ≤ s.PROGSIZE ∧
      s.IQUEUE.length ≤ s.CURINS ∧
      s.IQUEUE = (s.INSMEM.drop (s.CURINS - s.IQUEUE.length)).take s.IQUEUE.length ∧
      issuedLogOut prog rf n = s.INSMEM.take (s.CURINS - s.IQUEUE.length) ∧
      (issuedIn s).length ≤ 1 ∧
      s.IQUEUE = issuedIn s ++ (issue (dispatch s)).IQUEUE := by
  obtain ⟨prog, rf, n, -, -, rfl⟩ := hs.exists_run
  obtain ⟨⟨q1, q2, q3, q4⟩, hm, hlog⟩ := run_queue prog rf n
  obtain ⟨i1, i2⟩ := issue_queue (dispatch (runStateOut prog rf n))
  exact ⟨prog, rf, n, rfl, hm, q1, q2, q3, q4, by rw [hm]; exact hlog, i2, i1⟩

/-! ## the register file is written only by capture -/

theorem captureRF_getElem?_full (res t : Int) :
    ∀ (RAT RF : List Int) (k : Nat),
      (captureRF res t RAT RF)[k]? =
        if RAT[k]? = some t then RF[k]?.map (fun _ => res) else RF[k]? := by
  intro RAT
  induction RAT with
  | nil => intro RF k; cases RF <;> simp [captureRF]
  | cons a rest ih =>
    intro RF k
    cases RF with
    | nil => simp [captureRF]
    | cons b rfs =>
      cases k with
      | zero =>
        by_cases h : a = t <;> simp [captureRF, h]
      | succ n =>
        simp only [captureRF, List.getElem?_cons_succ]
        exact ih rfs n

theorem preBroadcast_RF (s : State) : (preBroadcast s).RF = s.RF := by
  unfold preBroadcast
  rw [(fillIQ_frame _).2.1, issue_RF]
  rfl

theorem ExecCycleOut_RF (s : State) :
    (ExecCycleOut s).RF = (broadcastAddOut (broadcastMulOut (preBroadcast s))).RF := by
  rw [ExecCycleOut_eq]
  rfl

/-- The register file after one `broadcast` loop: unchanged at `k`, or the
selected station's result where the RAT named its tag. -/
theorem broadcastMul_RF (s : State) (k : Nat) :
    (broadcastMulOut s).RF[k]? = s.RF[k]? ∨
      ∃ (i : Nat) (S : RSE), firstIdx (due s.CYCLE) s.MULRS = some i ∧
        s.MULRS[i]? = some S ∧ s.RAT[k]? = some ((i : Int) + 3) ∧
        (broadcastMulOut s).RF[k]? = some S.computed.result := by
  unfold broadcastMulOut
  cases hf : firstIdx (due s.CYCLE) s.MULRS with
  | none => exact Or.inl rfl
  | some i =>
    simp only
    obtain ⟨S, hS, -, -⟩ := firstIdx_some_spec hf
    rw [broadcastMulAtOut_eq, resultAt_doOp hS]
    simp only
    rw [captureRF_getElem?_full]
    by_cases hrat : s.RAT[k]? = some ((i : Int) + (ADDCOUNT : Int))
    · rw [if_pos hrat]
      cases hrf : s.RF[k]? with
      | none => exact Or.inl rfl
      | some x => exact Or.inr ⟨i, S, rfl, hS, hrat, rfl⟩
    · rw [if_neg hrat]
      exact Or.inl rfl

theorem broadcastAdd_RF (s : State) (k : Nat) :
    (broadcastAddOut s).RF[k]? = s.RF[k]? ∨
      ∃ (i : Nat) (S : RSE), firstIdx (due s.CYCLE) s.ADDRS = some i ∧
        s.ADDRS[i]? = some S ∧ s.RAT[k]? = some (i : Int) ∧
        (broadcastAddOut s).RF[k]? = some S.computed.result := by
  unfold broadcastAddOut
  cases hf : firstIdx (due s.CYCLE) s.ADDRS with
  | none => exact Or.inl rfl
  | some i =>
    simp only
    obtain ⟨S, hS, -, -⟩ := firstIdx_some_spec hf
    rw [broadcastAddAtOut_eq, resultAt_doOp hS]
    simp only
    rw [captureRF_getElem?_full]
    by_cases hrat : s.RAT[k]? = some (i : Int)
    · rw [if_pos hrat]
      cases hrf : s.RF[k]? with
      | none => exact Or.inl rfl
      | some x => exact Or.inr ⟨i, S, rfl, hS, hrat, rfl⟩
    · rw [if_neg hrat]
      exact Or.inl rfl

/-- Over the returning semantics: The register file is written only by capture.  For every state `s`:
`dispatch`, `issue` and `fillIQ` leave `RF` unchanged, and after one
`ExecCycle` each `RF[k]` is either unchanged or holds the result of a station
that the broadcast phase of that cycle selected (a multiplication station `i`
with tag `i + 3` in the first loop, or an addition station `i` with tag `i` in
the second) while `RAT[k]` named that station's tag at that moment.  So a
broadcast of a tag that `RAT[k]` no longer names (its mapping was overwritten
by a later writer's issue) leaves `RF[k]` alone. -/
theorem rfWrite_out (s : State) :
    (dispatch s).RF = s.RF ∧ (issue s).RF = s.RF ∧ (fillIQ s).RF = s.RF ∧
    ∀ k : Nat,
      (ExecCycleOut s).RF[k]? = s.RF[k]? ∨
      (∃ (i : Nat) (S : RSE),
        firstIdx (due s.CYCLE) (preBroadcast s).MULRS = some i ∧
        (preBroadcast s).MULRS[i]? = some S ∧
        (preBroadcast s).RAT[k]? = some ((i : Int) + 3) ∧
        (ExecCycleOut s).RF[k]? = some S.computed.result) ∨
      (∃ (i : Nat) (S : RSE),
        firstIdx (due s.CYCLE) (broadcastMulOut (preBroadcast s)).ADDRS = some i ∧
        (broadcastMulOut (preBroadcast s)).ADDRS[i]? = some S ∧
        (broadcastMulOut (preBroadcast s)).RAT[k]? = some (i : Int) ∧
        (ExecCycleOut s).RF[k]? = some S.computed.result) := by
  refine ⟨rfl, issue_RF s, (fillIQ_frame s).2.1, ?_⟩
  intro k
  have hc : (preBroadcast s).CYCLE = s.CYCLE := preBroadcast_CYCLE s
  have hc1 : (broadcastMulOut (preBroadcast s)).CYCLE = s.CYCLE := by
    rw [broadcastMul_CYCLE, hc]
  rw [ExecCycleOut_RF]
  rcases broadcastAdd_RF (broadcastMulOut (preBroadcast s)) k with ha | ⟨i, S, h1, h2, h3, h4⟩
  · rcases broadcastMul_RF (preBroadcast s) k with hm | ⟨i, S, h1, h2, h3, h4⟩
    · left
      rw [ha, hm, preBroadcast_RF]
    · right; left
      rw [hc] at h1
      exact ⟨i, S, h1, h2, h3, by rw [ha, h4]⟩
  · right; right
    rw [hc1] at h1
    exact ⟨i, S, h1, h2, h3, h4⟩

/-! ## C14, C15: which stations the broadcast phase frees, in any state -/

/-- The first loop of `broadcast` in any state: the selected multiplication
station ends free; every other station keeps its `busy` flag. -/
theorem broadcastMul_busy (s : State) :
    (∀ (j : Nat) (r : RSE), s.ADDRS[j]? = some r →
      ∃ q, (broadcastMulOut s).ADDRS[j]? = some q ∧ TimingLe r q) ∧
    (∀ (j : Nat) (r : RSE), s.MULRS[j]? = some r →
      ∃ q, (broadcastMulOut s).MULRS[j]? = some q ∧
        (firstIdx (due s.CYCLE) s.MULRS = some j → q.busy = false) ∧
        (firstIdx (due s.CYCLE) s.MULRS ≠ some j → TimingLe r q)) := by
  unfold broadcastMulOut
  cases hf : firstIdx (due s.CYCLE) s.MULRS with
  | none =>
    exact ⟨fun j r hj => ⟨r, hj, TimingLe.rfl' r⟩,
      fun j r hj => ⟨r, hj, (fun h => by cases h), fun _ => TimingLe.rfl' r⟩⟩
  | some i =>
    simp only
    rw [broadcastMulAtOut_eq]
    refine ⟨fun j r hj => losePool_timingLe _ _ _ _ j r hj, ?_⟩
    intro j r hj
    by_cases hji : j = i
    · subst hji
      obtain ⟨q, hq, hb⟩ := winPool_frees s.CYCLE
        (resultAt (modifyAt RSE.computed j s.MULRS) j) ((j : Int) + (ADDCOUNT : Int)) j s.MULRS r hj
      exact ⟨q, hq, fun _ => hb, fun h => absurd rfl h⟩
    · obtain ⟨q, hq, ht⟩ := winPool_timingLe s.CYCLE
        (resultAt (modifyAt RSE.computed i s.MULRS) i) ((i : Int) + (ADDCOUNT : Int)) i s.MULRS
        j r hji hj
      refine ⟨q, hq, fun h => ?_, fun _ => ht⟩
      exact absurd (Option.some.inj h).symm hji

/-- The second loop of `broadcast` in any state. -/
theorem broadcastAdd_busy (s : State) :
    (∀ (j : Nat) (r : RSE), s.MULRS[j]? = some r →
      ∃ q, (broadcastAddOut s).MULRS[j]? = some q ∧ TimingLe r q) ∧
    (∀ (j : Nat) (r : RSE), s.ADDRS[j]? = some r →
      ∃ q, (broadcastAddOut s).ADDRS[j]? = some q ∧
        (firstIdx (due s.CYCLE) s.ADDRS = some j → q.busy = false) ∧
        (firstIdx (due s.CYCLE) s.ADDRS ≠ some j → TimingLe r q)) := by
  unfold broadcastAddOut
  cases hf : firstIdx (due s.CYCLE) s.ADDRS with
  | none =>
    exact ⟨fun j r hj => ⟨r, hj, TimingLe.rfl' r⟩,
      fun j r hj => ⟨r, hj, (fun h => by cases h), fun _ => TimingLe.rfl' r⟩⟩
  | some i =>
    simp only
    rw [broadcastAddAtOut_eq]
    refine ⟨fun j r hj => losePool_timingLe _ _ _ _ j r hj, ?_⟩
    intro j r hj
    by_cases hji : j = i
    · subst hji
      obtain ⟨q, hq, hb⟩ := winPool_frees s.CYCLE
        (resultAt (modifyAt RSE.computed j s.ADDRS) j) (j : Int) j s.ADDRS r hj
      exact ⟨q, hq, fun _ => hb, fun h => absurd rfl h⟩
    · obtain ⟨q, hq, ht⟩ := winPool_timingLe s.CYCLE
        (resultAt (modifyAt RSE.computed i s.ADDRS) i) (i : Int) i s.ADDRS j r hji hj
      refine ⟨q, hq, fun h => ?_, fun _ => ht⟩
      exact absurd (Option.some.inj h).symm hji

theorem ExecCycleOut_pools (s : State) :
    (ExecCycleOut s).ADDRS = (broadcastAddOut (broadcastMulOut (preBroadcast s))).ADDRS ∧
    (ExecCycleOut s).MULRS = (broadcastAddOut (broadcastMulOut (preBroadcast s))).MULRS := by
  rw [ExecCycleOut_eq]
  exact ⟨rfl, rfl⟩

/-- A busy station that `ExecCycle` leaves free is the one selected by the
loop of `broadcast` for its pool. -/
theorem freed_is_selected (s : State) :
    (∀ (j : Nat) (r q : RSE), s.ADDRS[j]? = some r → (ExecCycleOut s).ADDRS[j]? = some q →
      r.busy = true → q.busy = false →
      firstIdx (due s.CYCLE) (broadcastMulOut (preBroadcast s)).ADDRS = some j) ∧
    (∀ (j : Nat) (r q : RSE), s.MULRS[j]? = some r → (ExecCycleOut s).MULRS[j]? = some q →
      r.busy = true → q.busy = false →
      firstIdx (due s.CYCLE) (preBroadcast s).MULRS = some j) := by
  have hc : (preBroadcast s).CYCLE = s.CYCLE := preBroadcast_CYCLE s
  have hc1 : (broadcastMulOut (preBroadcast s)).CYCLE = s.CYCLE := by
    rw [broadcastMul_CYCLE, hc]
  obtain ⟨eA, eM⟩ := ExecCycleOut_pools s
  obtain ⟨mA, mM⟩ := broadcastMul_busy (preBroadcast s)
  obtain ⟨aM, aA⟩ := broadcastAdd_busy (broadcastMulOut (preBroadcast s))
  rw [hc] at mM
  rw [hc1] at aA
  constructor
  · intro j r q hr hq hb hqf
    rw [eA] at hq
    have h0 : ∃ r0, (preBroadcast s).ADDRS[j]? = some r0 ∧ r0.busy = true := by
      rcases (preBroadcast_busy s).1 j r hr hb with h | ⟨-, h⟩
      · exact ⟨r, h, hb⟩
      · exact ⟨_, h, hb⟩
    obtain ⟨r0, hr0, hb0⟩ := h0
    obtain ⟨r1, hr1, t1⟩ := mA j r0 hr0
    obtain ⟨q', hq', -, hne⟩ := aA j r1 hr1
    rw [hq] at hq'
    cases hq'
    by_contra hsel
    have := (hne hsel).1
    rw [hqf, t1.1, hb0] at this
    cases this
  · intro j r q hr hq hb hqf
    rw [eM] at hq
    have h0 : ∃ r0, (preBroadcast s).MULRS[j]? = some r0 ∧ r0.busy = true := by
      rcases (preBroadcast_busy s).2 j r hr hb with h | ⟨-, h⟩
      · exact ⟨r, h, hb⟩
      · exact ⟨_, h, hb⟩
    obtain ⟨r0, hr0, hb0⟩ := h0
    obtain ⟨r1, hr1, -, hne⟩ := mM j r0 hr0
    obtain ⟨q', hq', t2⟩ := aM j r1 hr1
    rw [hq] at hq'
    cases hq'
    by_contra hsel
    have := (hne hsel).1
    rw [← t2.1, hqf, hb0] at this
    cases this

/-- Over the returning semantics: Single broadcast per pool per cycle.  For every state and each of
the two pools, at most one station of the pool is busy before `ExecCycle` and
free after it: two such stations have the same index. -/
theorem oneFreed_out (s : State) :
    (∀ (j1 j2 : Nat) (r1 q1 r2 q2 : RSE),
      s.ADDRS[j1]? = some r1 → (ExecCycleOut s).ADDRS[j1]? = some q1 →
      r1.busy = true → q1.busy = false →
      s.ADDRS[j2]? = some r2 → (ExecCycleOut s).ADDRS[j2]? = some q2 →
      r2.busy = true → q2.busy = false → j1 = j2) ∧
    (∀ (j1 j2 : Nat) (r1 q1 r2 q2 : RSE),
      s.MULRS[j1]? = some r1 → (ExecCycleOut s).MULRS[j1]? = some q1 →
      r1.busy = true → q1.busy = false →
      s.MULRS[j2]? = some r2 → (ExecCycleOut s).MULRS[j2]? = some q2 →
      r2.busy = true → q2.busy = false → j1 = j2) := by
  obtain ⟨hA, hM⟩ := freed_is_selected s
  constructor
  · intro j1 j2 r1 q1 r2 q2 a1 a2 a3 a4 b1 b2 b3 b4
    have e1 := hA j1 r1 q1 a1 a2 a3 a4
    have e2 := hA j2 r2 q2 b1 b2 b3 b4
    rw [e1] at e2
    exact Option.some.inj e2
  · intro j1 j2 r1 q1 r2 q2 a1 a2 a3 a4 b1 b2 b3 b4
    have e1 := hM j1 r1 q1 a1 a2 a3 a4
    have e2 := hM j2 r2 q2 b1 b2 b3 b4
    rw [e1] at e2
    exact Option.some.inj e2
/-- Only `issue` allocates: `dispatch`, `fillIQ` and `broadcast` never turn a
free station into a busy one, in any state. -/
theorem free_stays_free (s : State) :
    (∀ (j : Nat) (r : RSE), s.ADDRS[j]? = some r → r.busy = false →
      (∃ q, (dispatch s).ADDRS[j]? = some q ∧ q.busy = false) ∧
      (∃ q, (fillIQ s).ADDRS[j]? = some q ∧ q.busy = false) ∧
      (∃ q, (broadcastOut s).ADDRS[j]? = some q ∧ q.busy = false)) ∧
    (∀ (j : Nat) (r : RSE), s.MULRS[j]? = some r → r.busy = false →
      (∃ q, (dispatch s).MULRS[j]? = some q ∧ q.busy = false) ∧
      (∃ q, (fillIQ s).MULRS[j]? = some q ∧ q.busy = false) ∧
      (∃ q, (broadcastOut s).MULRS[j]? = some q ∧ q.busy = false)) := by
  obtain ⟨mA, mM⟩ := broadcastMul_busy s
  obtain ⟨aM, aA⟩ := broadcastAdd_busy (broadcastMulOut s)
  obtain ⟨-, -, -, f4, f5, -⟩ := fillIQ_frame s
  constructor
  · intro j r hr hb
    refine ⟨?_, ⟨r, by rw [f4]; exact hr, hb⟩, ?_⟩
    · rcases dispatchPool_getElem? s.CYCLE s.ADDRS j r hr with h | ⟨hready, -⟩
      · exact ⟨r, h, hb⟩
      · have := (dispReady_eq_true.mp hready).1
        rw [hb] at this
        cases this
    · obtain ⟨r1, hr1, t1⟩ := mA j r hr
      obtain ⟨q, hq, hw, hne⟩ := aA j r1 hr1
      refine ⟨q, hq, ?_⟩
      by_cases hsel : firstIdx (due (broadcastMulOut s).CYCLE) (broadcastMulOut s).ADDRS = some j
      · exact hw hsel
      · rw [(hne hsel).1, t1.1, hb]
  · intro j r hr hb
    refine ⟨?_, ⟨r, by rw [f5]; exact hr, hb⟩, ?_⟩
    · rcases dispatchPool_getElem? s.CYCLE s.MULRS j r hr with h | ⟨hready, -⟩
      · exact ⟨r, h, hb⟩
      · have := (dispReady_eq_true.mp hready).1
        rw [hb] at this
        cases this
    · obtain ⟨r1, hr1, hw, hne⟩ := mM j r hr
      obtain ⟨q, hq, t2⟩ := aM j r1 hr1
      refine ⟨q, hq, ?_⟩
      rw [t2.1]
      by_cases hsel : firstIdx (due s.CYCLE) s.MULRS = some j
      · exact hw hsel
      · rw [(hne hsel).1, hb]

/-- Over the returning semantics: Same-cycle reuse is forbidden.  For every state `s` (in particular
every reachable one) at cycle `C`: a station that the broadcast phase of the
cycle selects (it is busy then) and so frees is not busy in the state
`ExecCycle` returns, because `broadcast` is the last phase of the cycle and the
allocating phase, `issue`, ran before it; and the other phases (`dispatch`,
`fillIQ`, `broadcast`) never make a free station busy, so its next occupant
can only be placed by the issue phase of a later cycle. -/
theorem noReuse_out (s : State) :
    (∀ i : Nat, firstIdx (due s.CYCLE) (preBroadcast s).MULRS = some i →
      (∃ r, (preBroadcast s).MULRS[i]? = some r ∧ r.busy = true) ∧
      ∃ q, (ExecCycleOut s).MULRS[i]? = some q ∧ q.busy = false) ∧
    (∀ i : Nat, firstIdx (due s.CYCLE) (broadcastMulOut (preBroadcast s)).ADDRS = some i →
      (∃ r, (broadcastMulOut (preBroadcast s)).ADDRS[i]? = some r ∧ r.busy = true) ∧
      ∃ q, (ExecCycleOut s).ADDRS[i]? = some q ∧ q.busy = false) ∧
    (∀ (j : Nat) (r : RSE), s.ADDRS[j]? = some r → r.busy = false →
      (∃ q, (dispatch s).ADDRS[j]? = some q ∧ q.busy = false) ∧
      (∃ q, (fillIQ s).ADDRS[j]? = some q ∧ q.busy = false) ∧
      (∃ q, (broadcastOut s).ADDRS[j]? = some q ∧ q.busy = false)) ∧
    (∀ (j : Nat) (r : RSE), s.MULRS[j]? = some r → r.busy = false →
      (∃ q, (dispatch s).MULRS[j]? = some q ∧ q.busy = false) ∧
      (∃ q, (fillIQ s).MULRS[j]? = some q ∧ q.busy = false) ∧
      (∃ q, (broadcastOut s).MULRS[j]? = some q ∧ q.busy = false)) := by
  have hc : (preBroadcast s).CYCLE = s.CYCLE := preBroadcast_CYCLE s
  have hc1 : (broadcastMulOut (preBroadcast s)).CYCLE = s.CYCLE := by
    rw [broadcastMul_CYCLE, hc]
  obtain ⟨eA, eM⟩ := ExecCycleOut_pools s
  obtain ⟨-, mM⟩ := broadcastMul_busy (preBroadcast s)
  obtain ⟨aM, aA⟩ := broadcastAdd_busy (broadcastMulOut (preBroadcast s))
  rw [hc] at mM
  rw [hc1] at aA
  refine ⟨?_, ?_, (free_stays_free s).1, (free_stays_free s).2⟩
  · intro i hf
    have hf' := hf
    rw [← hc] at hf'
    obtain ⟨r, hr, hd, -⟩ := firstIdx_some_spec hf'
    refine ⟨⟨r, hr, (due_eq_true.mp hd).1⟩, ?_⟩
    obtain ⟨r1, hr1, hw, -⟩ := mM i r hr
    obtain ⟨q, hq, t⟩ := aM i r1 hr1
    exact ⟨q, by rw [eM]; exact hq, by rw [t.1]; exact hw hf⟩
  · intro i hf
    have hf' := hf
    rw [← hc1] at hf'
    obtain ⟨r, hr, hd, -⟩ := firstIdx_some_spec hf'
    refine ⟨⟨r, hr, (due_eq_true.mp hd).1⟩, ?_⟩
    obtain ⟨q, hq, hw, -⟩ := aA i r hr
    exact ⟨q, by rw [eA]; exact hq, hw hf⟩

/-! ## the cycle in which a station is freed is not recorded -/

/-! ## division by zero -/

/-! ## The broadcast phase, station by station, with operands -/

theorem stalled_eq (c : Int) (others : List RSE) (x : RSE) :
    stalled c others x = { x with bcast := (stalled c others x).bcast } := by
  unfold stalled
  split <;> rfl

theorem losePool_exact (c res t : Int) (pool : List RSE) (h : ∀ r ∈ pool, StOk c r)
    (j : Nat) (q : RSE) (hj : pool[j]? = some q) :
    ∃ q', (losePool c res t pool)[j]? = some q' ∧
      q' = { captureRSE res t q with bcast := q'.bcast } := by
  refine ⟨stalled c pool (captureRSE res t q), ?_, stalled_eq _ _ _⟩
  rw [losePool_getElem? c res t pool (StOk_no_stale h), hj]
  rfl

theorem winPool_exact (c res t : Int) (i : Nat) (pool : List RSE)
    (h : ∀ r ∈ pool, StOk c r) (hc : 2 ≤ c) (j : Nat) (q : RSE) (hj : pool[j]? = some q) :
    ∃ q', (winPool c res t i pool)[j]? = some q' ∧
      (j = i → q'.busy = false ∧ q'.discno = q.discno) ∧
      (j ≠ i → q' = { captureRSE res t q with bcast := q'.bcast }) := by
  have hform := winPool_getElem? c res t i pool (StOk_no_stale h) (by omega) (by omega) j
  by_cases hji : j = i
  · rw [if_pos hji, hj] at hform
    refine ⟨_, hform, fun _ => ⟨rfl, ?_⟩, fun hne => absurd hji hne⟩
    show (stalled c (pool.eraseIdx i) { captureRSE res t q.computed with bcast := -1 }).discno =
      q.discno
    rw [stalled_eq]
    show (captureRSE res t q.computed).discno = q.discno
    have h1 : ∀ y : RSE, (captureRSE res t y).discno = y.discno := by
      intro y
      unfold captureRSE
      by_cases a : y.Qj = t <;> by_cases b : y.Qk = t <;> simp [a, b]
    have h2 : q.computed.discno = q.discno := by
      rw [computed_eq]
      split_ifs <;> rfl
    rw [h1, h2]
  · rw [if_neg hji, hj] at hform
    exact ⟨_, hform, fun he => absurd he hji, fun _ => stalled_eq _ _ _⟩

/-- The broadcast phase in a state satisfying the timing invariant: either
nothing is due and the state is unchanged, or exactly one station `W` (tag `w`)
broadcasts: it ends free, its result is captured into `RF`/`RAT`, and every
other station is its captured self up to `bcast`. -/
theorem broadcast_effect (s : State) (h : PhaseInv s) :
    (broadcastOut s = s ∧ ∀ r ∈ s.stations, due s.CYCLE r = false) ∨
    ∃ (w : Nat) (W : RSE), s.stations[w]? = some W ∧ due s.CYCLE W = true ∧
      (broadcastOut s).RF = captureRF W.computed.result (w : Int) s.RAT s.RF ∧
      (broadcastOut s).RAT = captureRAT (w : Int) s.RAT ∧
      ∀ (u : Nat) (q : RSE), s.stations[u]? = some q →
        ∃ q', (broadcastOut s).stations[u]? = some q' ∧
          (u = w → q'.busy = false ∧ q'.discno = q.discno) ∧
          (u ≠ w → q' = { captureRSE W.computed.result (w : Int) q with bcast := q'.bcast }) := by
  have hlen : s.ADDRS.length = ADDCOUNT := h.wf.2.2.1
  rcases broadcast_cases s h with ⟨i, r, hi, hr, hd, hc2, hb⟩ | ⟨hn, i, r, ha, hr, hd, hc2, hb⟩ |
    ⟨hn, ha, hb⟩
  · right
    have hcast : ((i + ADDCOUNT : Nat) : Int) = (i : Int) + (ADDCOUNT : Int) := by push_cast; rfl
    have hW : s.stations[i + ADDCOUNT]? = some r := by
      rw [stations_getElem? s hlen, if_neg (by omega)]
      simpa using hr
    refine ⟨i + ADDCOUNT, r, hW, hd, ?_, ?_, ?_⟩
    · rw [hb, broadcastMulAtOut_eq, resultAt_doOp hr, hcast]
    · rw [hb, broadcastMulAtOut_eq, hcast]
    · have hl' : (broadcastOut s).ADDRS.length = ADDCOUNT := by
        rw [hb, broadcastMulAtOut_eq]
        exact (losePool_length _ _ _ _ h.add).trans hlen
      intro u q hu
      rw [stations_getElem? s hlen] at hu
      rw [stations_getElem? _ hl', hcast]
      by_cases hlt : u < ADDCOUNT
      · rw [if_pos hlt] at hu ⊢
        obtain ⟨q', hq', he⟩ := losePool_exact s.CYCLE r.computed.result
          ((i : Int) + (ADDCOUNT : Int)) s.ADDRS h.add u q hu
        refine ⟨q', ?_, fun he' => by omega, fun _ => he⟩
        rw [hb, broadcastMulAtOut_eq, resultAt_doOp hr]
        exact hq'
      · rw [if_neg hlt] at hu ⊢
        obtain ⟨q', hq', hw, he⟩ := winPool_exact s.CYCLE r.computed.result
          ((i : Int) + (ADDCOUNT : Int)) i s.MULRS h.mul hc2 (u - ADDCOUNT) q hu
        refine ⟨q', ?_, fun he' => hw (by omega), fun hne => he (by omega)⟩
        rw [hb, broadcastMulAtOut_eq, resultAt_doOp hr]
        exact hq'
  · right
    have hilt : i < ADDCOUNT := by have := firstIdx_lt ha; omega
    have hW : s.stations[i]? = some r := by
      rw [stations_getElem? s hlen, if_pos hilt]
      exact hr
    refine ⟨i, r, hW, hd, ?_, ?_, ?_⟩
    · rw [hb, broadcastAddAtOut_eq, resultAt_doOp hr]
    · rw [hb, broadcastAddAtOut_eq]
    · have hl' : (broadcastOut s).ADDRS.length = ADDCOUNT := by
        rw [hb, broadcastAddAtOut_eq]
        exact (winPool_length _ _ _ _ _ h.add hc2).trans hlen
      intro u q hu
      rw [stations_getElem? s hlen] at hu
      rw [stations_getElem? _ hl']
      by_cases hlt : u < ADDCOUNT
      · rw [if_pos hlt] at hu ⊢
        obtain ⟨q', hq', hw, he⟩ := winPool_exact s.CYCLE r.computed.result
          (i : Int) i s.ADDRS h.add hc2 u q hu
        refine ⟨q', ?_, hw, he⟩
        rw [hb, broadcastAddAtOut_eq, resultAt_doOp hr]
        exact hq'
      · rw [if_neg hlt] at hu ⊢
        obtain ⟨q', hq', he⟩ := losePool_exact s.CYCLE r.computed.result
          (i : Int) s.MULRS h.mul (u - ADDCOUNT) q hu
        refine ⟨q', ?_, fun he' => by omega, fun _ => he⟩
        rw [hb, broadcastAddAtOut_eq, resultAt_doOp hr]
        exact hq'
  · left
    refine ⟨hb, ?_⟩
    intro r hr
    rcases List.mem_append.mp hr with hr | hr
    · exact firstIdx_none_spec ha r hr
    · exact firstIdx_none_spec hn r hr

/-! ## `dispatch` and `issue`, station by station -/

theorem dispatchPool_length (c : Int) (pool : List RSE) :
    (dispatchPool c pool).length = pool.length := by
  unfold dispatchPool
  split <;> simp [modifyAt_length]

theorem dispatch_station (s : State) (hlen : s.ADDRS.length = ADDCOUNT) (u : Nat) (q : RSE)
    (hu : s.stations[u]? = some q) :
    (dispatch s).stations[u]? = some q ∨
      (dispReady q = true ∧ (dispatch s).stations[u]? = some (dispMark s.CYCLE q)) := by
  have hlen' : (dispatch s).ADDRS.length = ADDCOUNT := by
    show (dispatchPool s.CYCLE s.ADDRS).length = ADDCOUNT
    rw [dispatchPool_length, hlen]
  rw [stations_getElem? s hlen] at hu
  rw [stations_getElem? _ hlen']
  by_cases hlt : u < ADDCOUNT
  · rw [if_pos hlt] at hu ⊢
    exact dispatchPool_getElem? s.CYCLE s.ADDRS u q hu
  · rw [if_neg hlt] at hu ⊢
    exact dispatchPool_getElem? s.CYCLE s.MULRS (u - ADDCOUNT) q hu

/-- What `issue` does: nothing, or it moves the queue head `ins` into a free
station with tag `x`, filled by `fillRS` from the old `RF`/`RAT`, and sets
`RAT[ins.dst] = x`. -/
theorem issue_effect (s : State) (hlen : s.ADDRS.length = ADDCOUNT) :
    issue s = s ∨
    ∃ (ins : INS) (rest : List INS) (x : Nat) (X0 : RSE),
      s.IQUEUE = ins :: rest ∧ 2 ≤ opCycles ins.op ∧
      s.stations[x]? = some X0 ∧ X0.busy = false ∧
      (issue s).IQUEUE = rest ∧ (issue s).RAT = regWrite s.RAT ins.dst (x : Int) ∧
      (issue s).stations[x]? = some (fillRS s.RF s.RAT ins X0) ∧
      (∀ u : Nat, u ≠ x → (issue s).stations[u]? = s.stations[u]?) ∧
      (issue s).RF = s.RF ∧ (issue s).CYCLE = s.CYCLE ∧ (issue s).CURINS = s.CURINS ∧
      (issue s).INSMEM = s.INSMEM := by
  cases hq : s.IQUEUE with
  | nil => left; simp [issue, hq]
  | cons ins rest =>
    by_cases hadd : ins.op = ADD ∨ ins.op = SUB
    · have hop : 2 ≤ opCycles ins.op := by
        rcases hadd with h | h <;> rw [h] <;> decide
      cases hf : firstIdx (allocatable s.CYCLE) s.ADDRS with
      | none => left; simp [issue, hq, getRS, hadd, hf]
      | some i =>
        right
        obtain ⟨X0, hX0, hal, -⟩ := firstIdx_some_spec hf
        have hilt : i < ADDCOUNT := by have := firstIdx_lt hf; omega
        have hne : ¬ ((i : Int) = -1) := by omega
        have hiss : issue s =
            { s with ADDRS := modifyAt (fillRS s.RF s.RAT ins) i s.ADDRS,
                     RAT := regWrite s.RAT ins.dst (i : Int), IQUEUE := rest } := by
          simp [issue, hq, getRS, hadd, hf, hne]
        have hlen' : (issue s).ADDRS.length = ADDCOUNT := by
          rw [hiss]; simp only; rw [modifyAt_length, hlen]
        refine ⟨ins, rest, i, X0, rfl, hop, ?_, (allocatable_eq_true.mp hal).1, by rw [hiss],
          by rw [hiss], ?_, ?_, by rw [hiss], by rw [hiss], by rw [hiss], by rw [hiss]⟩
        · rw [stations_getElem? s hlen, if_pos hilt]; exact hX0
        · rw [stations_getElem? _ hlen', if_pos hilt, hiss]
          exact modifyAt_getElem?_eq hX0
        · intro u hu
          rw [stations_getElem? _ hlen', stations_getElem? s hlen]
          by_cases hlt : u < ADDCOUNT
          · rw [if_pos hlt, if_pos hlt, hiss]
            exact modifyAt_getElem?_ne _ _ hu
          · rw [if_neg hlt, if_neg hlt, hiss]
    · by_cases hmul : ins.op = MUL ∨ ins.op = DIV
      · have hop : 2 ≤ opCycles ins.op := by
          rcases hmul with h | h <;> rw [h] <;> decide
        cases hf : firstIdx (allocatable s.CYCLE) s.MULRS with
        | none => left; simp [issue, hq, getRS, hadd, hmul, hf]
        | some i =>
          right
          obtain ⟨X0, hX0, hal, -⟩ := firstIdx_some_spec hf
          have hne : ¬ ((i : Int) + 3 = -1) := by omega
          have hiss : issue s =
              { s with MULRS := modifyAt (fillRS s.RF s.RAT ins) i s.MULRS,
                       RAT := regWrite s.RAT ins.dst ((i : Int) + 3), IQUEUE := rest } := by
            simp [issue, hq, getRS, hadd, hmul, hf, hne]
          have hlen' : (issue s).ADDRS.length = ADDCOUNT := by
            rw [hiss]; exact hlen
          have hcast : ((i + ADDCOUNT : Nat) : Int) = (i : Int) + 3 := by push_cast; rfl
          refine ⟨ins, rest, i + ADDCOUNT, X0, rfl, hop, ?_, (allocatable_eq_true.mp hal).1,
            by rw [hiss], by rw [hiss, hcast], ?_, ?_, by rw [hiss], by rw [hiss], by rw [hiss],
            by rw [hiss]⟩
          · rw [stations_getElem? s hlen, if_neg (by omega)]
            simpa using hX0
          · rw [stations_getElem? _ hlen', if_neg (by omega), hiss]
            simpa using modifyAt_getElem?_eq hX0
          · intro u hu
            rw [stations_getElem? _ hlen', stations_getElem? s hlen]
            by_cases hlt : u < ADDCOUNT
            · rw [if_pos hlt, if_pos hlt, hiss]
            · rw [if_neg hlt, if_neg hlt, hiss]
              exact modifyAt_getElem?_ne _ _ (by omega)
      · left
        simp [issue, hq, getRS, hadd, hmul]

/-! ## Program-order execution -/

theorem seqStep_length (rf : List Int) (ins : INS) : (seqStep rf ins).length = rf.length :=
  regWrite_length _ _ _

theorem seqExec_length (prog : List INS) : ∀ rf : List Int, (seqExec rf prog).length = rf.length := by
  induction prog with
  | nil => intro rf; rfl
  | cons a rest ih =>
    intro rf
    show (seqExec (seqStep rf a) rest).length = rf.length
    rw [ih, seqStep_length]

theorem seqAt_length (rf : List Int) (prog : List INS) (k : Nat) :
    (seqAt rf prog k).length = rf.length :=
  seqExec_length _ _

theorem seqAt_succ (rf : List Int) (prog : List INS) (m : Nat) (ins : INS)
    (h : prog[m]? = some ins) : seqAt rf prog (m + 1) = seqStep (seqAt rf prog m) ins := by
  unfold seqAt seqExec
  rw [List.take_succ, h]
  simp [List.foldl_append]

theorem seqAt_all (rf : List Int) (prog : List INS) : seqAt rf prog prog.length = seqExec rf prog := by
  unfold seqAt
  rw [List.take_length]

theorem regRead_natCast (a : List Int) (k : Nat) : regRead a (k : Int) = a.getD k 0 := by
  simp [regRead]

theorem regRead_regWrite_eq (a : List Int) (d v : Int) (h0 : 0 ≤ d) (hlt : d.toNat < a.length) :
    regRead (regWrite a d v) d = v :=
  regRead_eq h0 (regWrite_getElem?_eq h0 hlt)

theorem regRead_regWrite_ne (a : List Int) (d v k : Int) (h : k ≠ d) :
    regRead (regWrite a d v) k = regRead a k := by
  unfold regRead
  split
  · rename_i hk
    rw [List.getD_eq_getElem?_getD, List.getD_eq_getElem?_getD]
    by_cases hd : 0 ≤ d
    · rw [regWrite_getElem?_ne (by omega)]
    · simp [regWrite, hd]
  · rfl

theorem seqOp_doOp (r : RSE) (h : 2 ≤ opCycles r.op) : r.computed.result = seqOp r.op r.Vj r.Vk := by
  rcases doOp_result r (opCycles_ge_two h) with h | h | h | h <;>
    rw [h.2] <;> simp [seqOp, h.1]

/-! ## The ghost invariant through the phases of a cycle -/

theorem Ghost_init (prog : List INS) (rf : List Int) (pos : Nat → Nat) :
    Ghost rf (initState prog rf) 0 pos := by
  constructor
  · intro u r hu hb
    have hmem : r ∈ (initState prog rf).stations := List.getElem?_mem hu
    have : r = RSE.init := by
      simp [State.stations, initState] at hmem
      exact hmem
    rw [this] at hb
    cases hb
  · intro k e hk
    have he : e = EMPTY := by
      have hmem : e ∈ (initState prog rf).RAT := List.getElem?_mem hk
      simp [initState] at hmem
      exact hmem
    refine ⟨fun _ => ?_, fun h => absurd he h⟩
    show rf.getD k 0 = regRead (seqAt rf prog 0) (k : Int)
    rw [regRead_natCast]
    rfl

/-- The invariant only reads `INSMEM`, the stations, `RAT` and `RF`. -/
theorem Ghost_of_eq {rf0 : List Int} {s s' : State} {m : Nat} {pos : Nat → Nat}
    (g : Ghost rf0 s m pos) (h1 : s'.INSMEM = s.INSMEM) (h2 : s'.stations = s.stations)
    (h3 : s'.RAT = s.RAT) (h4 : s'.RF = s.RF) : Ghost rf0 s' m pos := by
  constructor
  · intro u r hu hb
    rw [h2] at hu
    rw [h1, h2]
    exact g.st u r hu hb
  · intro k e hk
    rw [h3] at hk
    rw [h1, h2, h4]
    exact g.rat k e hk

theorem stations_length (s : State) (h : s.WF) : s.stations.length = ADDCOUNT + MULCOUNT := by
  unfold State.stations
  rw [List.length_append, h.2.2.1, h.2.2.2]

theorem Ghost_dispatch {rf0 : List Int} {s : State} {m : Nat} {pos : Nat → Nat}
    (hwf : s.WF) (g : Ghost rf0 s m pos) : Ghost rf0 (dispatch s) m pos := by
  have hlen := hwf.2.2.1
  -- every station of the new state is the old one, up to `disp`/`discno`/`bcast`
  have hback : ∀ (u : Nat) (r' : RSE), (dispatch s).stations[u]? = some r' →
      ∃ r, s.stations[u]? = some r ∧ (r' = r ∨ (dispReady r = true ∧ r' = dispMark s.CYCLE r)) := by
    intro u r' hu
    have hlt : u < s.stations.length := by
      have := (List.getElem?_eq_some.mp hu).1
      have e1 : (dispatch s).stations.length = s.stations.length := by
        simp [State.stations, dispatch, dispatchPool_length]
      omega
    refine ⟨s.stations[u], List.getElem?_eq_getElem hlt, ?_⟩
    rcases dispatch_station s hlen u _ (List.getElem?_eq_getElem hlt) with h | ⟨hr, h⟩
    · rw [h] at hu; left; exact (Option.some.inj hu).symm
    · rw [h] at hu; right; exact ⟨hr, (Option.some.inj hu).symm⟩
  have hfwd : ∀ (t : Nat) (p : RSE), s.stations[t]? = some p → p.busy = true →
      ∃ p', (dispatch s).stations[t]? = some p' ∧ p'.busy = true := by
    intro t p ht hb
    rcases dispatch_station s hlen t p ht with h | ⟨-, h⟩
    · exact ⟨p, h, hb⟩
    · exact ⟨_, h, hb⟩
  have hop : ∀ (u : Nat) (Q V src : Int), OperandOk rf0 s.INSMEM s.stations pos u Q V src →
      OperandOk rf0 s.INSMEM (dispatch s).stations pos u Q V src := by
    intro u Q V src ⟨o1, o2⟩
    refine ⟨o1, fun hq => ?_⟩
    obtain ⟨t, p, e, ht, hb, hlt, hv⟩ := o2 hq
    obtain ⟨p', hp', hb'⟩ := hfwd t p ht hb
    exact ⟨t, p', e, hp', hb', hlt, hv⟩
  constructor
  · intro u r' hu hb'
    obtain ⟨r, hr, hrel⟩ := hback u r' hu
    show StationOk rf0 s.INSMEM m (dispatch s).stations pos u r'
    rcases hrel with rfl | ⟨hready, rfl⟩
    · obtain ⟨a, b, c, d, e⟩ := g.st u _ hr hb'
      exact ⟨a, b, hop _ _ _ _ c, hop _ _ _ _ d, e⟩
    · obtain ⟨hb, -, hqj, hqk⟩ := dispReady_eq_true.mp hready
      obtain ⟨a, b, c, d, -⟩ := g.st u _ hr hb
      exact ⟨a, b, hop _ _ _ _ c, hop _ _ _ _ d, fun _ => ⟨hqj, hqk⟩⟩
  · intro k e hk
    obtain ⟨r1, r2⟩ := g.rat k e hk
    refine ⟨r1, fun he => ?_⟩
    obtain ⟨t, p, e1, ht, hb, hd, hv⟩ := r2 he
    obtain ⟨p', hp', hb'⟩ := hfwd t p ht hb
    exact ⟨t, p', e1, hp', hb', hd, hv⟩
/-- The operand slot that `fillRS` writes for source register `src` of the
instruction number `m` entering the free station `x`. -/
theorem fill_operand {rf0 : List Int} {s : State} {m : Nat} {pos pos' : Nat → Nat}
    (hwf : s.WF) (g : Ghost rf0 s m pos) {x : Nat} {X0 : RSE}
    (hx : s.stations[x]? = some X0) (hX0 : X0.busy = false) {st' : List RSE}
    (hst' : ∀ u : Nat, u ≠ x → st'[u]? = s.stations[u]?)
    (hpos' : ∀ u : Nat, u ≠ x → pos' u = pos u) (hposx : pos' x = m)
    (src : Int) (h0 : 0 ≤ src) (h8 : src < REGCOUNT) (V0 : Int) :
    OperandOk rf0 s.INSMEM st' pos' x (regRead s.RAT src)
      (if regRead s.RAT src = EMPTY then regRead s.RF src else V0) src := by
  have hk : src.toNat < s.RAT.length := by rw [hwf.2.1]; omega
  have hsrc : ((src.toNat : Nat) : Int) = src := Int.toNat_of_nonneg h0
  have he : s.RAT[src.toNat]? = some (s.RAT[src.toNat]) := List.getElem?_eq_getElem hk
  have hread : regRead s.RAT src = s.RAT[src.toNat] := regRead_eq h0 he
  obtain ⟨r1, r2⟩ := g.rat _ _ he
  unfold OperandOk
  rw [hread, hposx]
  constructor
  · intro hE
    have h1 := r1 hE
    rw [← regRead_natCast, hsrc] at h1
    rw [if_pos hE, h1]
  · intro hE
    obtain ⟨t, p, e1, ht, hb, -, hv, -⟩ := r2 hE
    have htx : t ≠ x := by
      rintro rfl
      rw [hx] at ht
      rw [← Option.some.inj ht, hX0] at hb
      cases hb
    refine ⟨t, p, e1, by rw [hst' t htx]; exact ht, hb, ?_, ?_⟩
    · rw [hpos' t htx]; exact (g.st t p ht hb).lt
    · rw [hpos' t htx, hv, hsrc]

theorem Ghost_issue {rf0 : List Int} {s : State} {m : Nat} {pos : Nat → Nat}
    (hwf : s.WF) (hrf0 : rf0.length = REGCOUNT)
    (hhead : ∀ (ins : INS) (rest : List INS), s.IQUEUE = ins :: rest →
      s.INSMEM[m]? = some ins ∧ ins.regsOk)
    (g : Ghost rf0 s m pos) :
    ∃ (m' : Nat) (pos' : Nat → Nat), Ghost rf0 (issue s) m' pos' ∧
      m' + (issue s).IQUEUE.length = m + s.IQUEUE.length := by
  rcases issue_effect s hwf.2.2.1 with hno | ⟨ins, rest, x, X0, hq, -, hx, hX0, hq', hrat, hxs,
    hother, hrf, -, -, hmem⟩
  · exact ⟨m, pos, by rw [hno]; exact g, by rw [hno]⟩
  obtain ⟨hins, ⟨hd0, hd8⟩, ⟨h10, h18⟩, ⟨h20, h28⟩⟩ := hhead ins rest hq
  have hget : s.INSMEM.getD m default = ins := by
    rw [List.getD_eq_getElem?_getD, hins]; rfl
  obtain ⟨pos', hposx, hpos'⟩ : ∃ pos' : Nat → Nat, pos' x = m ∧ ∀ u : Nat, u ≠ x → pos' u = pos u :=
    ⟨fun u => if u = x then m else pos u, by simp, fun u hu => by simp [hu]⟩
  refine ⟨m + 1, pos', ?_, by rw [hq', hq]; simp; omega⟩
  -- stations that were busy are other than `x` and stay as they were
  have hne : ∀ (t : Nat) (p : RSE), s.stations[t]? = some p → p.busy = true → t ≠ x := by
    rintro t p ht hb rfl
    rw [hx] at ht
    rw [← Option.some.inj ht, hX0] at hb
    cases hb
  have hop : ∀ (u : Nat) (Q V src : Int), u ≠ x →
      OperandOk rf0 s.INSMEM s.stations pos u Q V src →
      OperandOk rf0 s.INSMEM (issue s).stations pos' u Q V src := by
    intro u Q V src hu ⟨o1, o2⟩
    unfold OperandOk
    rw [hpos' u hu]
    refine ⟨o1, fun hQ => ?_⟩
    obtain ⟨t, p, e1, ht, hb, hlt, hv⟩ := o2 hQ
    have htx := hne t p ht hb
    exact ⟨t, p, e1, by rw [hother t htx]; exact ht, hb, by rw [hpos' t htx]; exact hlt,
      by rw [hpos' t htx]; exact hv⟩
  have hlenm : (seqAt rf0 s.INSMEM m).length = REGCOUNT := by rw [seqAt_length, hrf0]
  have hsucc : seqAt rf0 s.INSMEM (m + 1) = seqStep (seqAt rf0 s.INSMEM m) ins :=
    seqAt_succ _ _ _ _ hins
  constructor
  · intro u r hu hb
    rw [hmem]
    by_cases hux : u = x
    · subst hux
      rw [hxs] at hu
      have hr := (Option.some.inj hu).symm
      subst hr
      refine ⟨by rw [hposx]; omega, by rw [hposx, hget]; rfl, ?_, ?_, fun h => by cases h⟩
      · rw [hposx, hget]
        exact fill_operand hwf g hx hX0 hother hpos' hposx ins.src1 h10 h18 X0.Vj
      · rw [hposx, hget]
        exact fill_operand hwf g hx hX0 hother hpos' hposx ins.src2 h20 h28 X0.Vk
    · rw [hother u hux] at hu
      obtain ⟨a, b, c, d, e⟩ := g.st u r hu hb
      refine ⟨by rw [hpos' u hux]; omega, by rw [hpos' u hux]; exact b, ?_, ?_, e⟩
      · rw [hpos' u hux]; exact hop u _ _ _ hux c
      · rw [hpos' u hux]; exact hop u _ _ _ hux d
  · intro k e hk
    rw [hmem, hrf]
    rw [hrat] at hk
    by_cases hkd : k = ins.dst.toNat
    · have hlt : ins.dst.toNat < s.RAT.length := by rw [hwf.2.1]; omega
      rw [hkd, regWrite_getElem?_eq hd0 hlt] at hk
      have he := (Option.some.inj hk).symm
      have hcast : ((k : Nat) : Int) = ins.dst := by rw [hkd]; exact Int.toNat_of_nonneg hd0
      refine ⟨fun hE => ?_, fun _ => ?_⟩
      · rw [he] at hE
        have : (0 : Int) ≤ (x : Int) := Int.ofNat_nonneg x
        simp only [EMPTY] at hE
        omega
      · refine ⟨x, _, he, hxs, rfl, by rw [hposx, hget, hcast], ?_, ?_⟩
        · rw [hposx, hcast, hsucc]
          unfold seqStep
          rw [regRead_regWrite_eq _ _ _ hd0 (by rw [hlenm]; omega)]
          unfold outVal
          rw [hget]
        · intro i h1 h2
          rw [hposx] at h1
          omega
    · rw [regWrite_getElem?_ne hkd] at hk
      obtain ⟨r1, r2⟩ := g.rat k e hk
      have hcast : ((k : Nat) : Int) ≠ ins.dst := by
        intro h
        apply hkd
        rw [← h]
        simp
      have hsame : regRead (seqAt rf0 s.INSMEM (m + 1)) (k : Int) =
          regRead (seqAt rf0 s.INSMEM m) (k : Int) := by
        rw [hsucc]
        exact regRead_regWrite_ne _ _ _ _ hcast
      refine ⟨fun hE => by rw [hsame]; exact r1 hE, fun hE => ?_⟩
      obtain ⟨t, p, e1, ht, hb, hd, hv, hlast⟩ := r2 hE
      have htx := hne t p ht hb
      refine ⟨t, p, e1, by rw [hother t htx]; exact ht, hb, by rw [hpos' t htx]; exact hd,
        by rw [hpos' t htx, hsame]; exact hv, ?_⟩
      intro i h1 h2
      rw [hpos' t htx] at h1
      by_cases him : i = m
      · rw [him, hget]
        exact fun hh => hcast hh.symm
      · exact hlast i h1 (by omega)
theorem captureRSE_fields (res t : Int) (q : RSE) :
    (captureRSE res t q).busy = q.busy ∧ (captureRSE res t q).op = q.op ∧
    (captureRSE res t q).disp = q.disp ∧
    (captureRSE res t q).Qj = (if q.Qj = t then EMPTY else q.Qj) ∧
    (captureRSE res t q).Vj = (if q.Qj = t then res else q.Vj) ∧
    (captureRSE res t q).Qk = (if q.Qk = t then EMPTY else q.Qk) ∧
    (captureRSE res t q).Vk = (if q.Qk = t then res else q.Vk) := by
  unfold captureRSE
  by_cases h1 : q.Qj = t <;> by_cases h2 : q.Qk = t <;> simp [h1, h2]

theorem Ghost_broadcast {rf0 : List Int} {s : State} {m : Nat} {pos : Nat → Nat}
    (h : PhaseInv s) (g : Ghost rf0 s m pos) : Ghost rf0 (broadcastOut s) m pos := by
  rcases broadcast_effect s h with ⟨hno, -⟩ | ⟨w, W, hw, hdue, hRF, hRAT, hst⟩
  · rw [hno]; exact g
  obtain ⟨hWb, hWd, -⟩ := due_eq_true.mp hdue
  have hmem : (broadcastOut s).INSMEM = s.INSMEM := (broadcast_frame s).1
  have hlen : (broadcastOut s).stations.length = s.stations.length := by
    obtain ⟨-, -, -, -, -, -, -, l1, l2, -⟩ := broadcast_stations s h
    simp [State.stations, l1, l2]
  -- the broadcast value is the program-order result of the winner's instruction
  have hWok := g.st w W hw hWb
  have hres : W.computed.result = outVal rf0 s.INSMEM (pos w) := by
    have hst : StOk s.CYCLE W := by
      have hm : W ∈ s.stations := List.getElem?_mem hw
      rcases List.mem_append.mp hm with hm | hm
      · exact h.add W hm
      · exact h.mul W hm
    obtain ⟨hqj, hqk⟩ := hWok.disp hWd
    rw [seqOp_doOp W (hst hWb).1, hWok.j.1 hqj, hWok.k.1 hqk, hWok.op]
    rfl
  have hw0 : (w : Int) ≠ EMPTY := by
    have : (0 : Int) ≤ (w : Int) := Int.ofNat_nonneg w
    simp only [EMPTY]
    omega
  -- busy stations other than the winner stay busy
  have hfwd : ∀ (t : Nat) (p : RSE), s.stations[t]? = some p → p.busy = true → t ≠ w →
      ∃ p', (broadcastOut s).stations[t]? = some p' ∧ p'.busy = true := by
    intro t p ht hb htw
    obtain ⟨p', hp', -, hrel⟩ := hst t p ht
    refine ⟨p', hp', ?_⟩
    rw [hrel htw]
    show (captureRSE _ _ p).busy = true
    rw [(captureRSE_fields _ _ p).1, hb]
  have hop : ∀ (u : Nat) (Q V src : Int), OperandOk rf0 s.INSMEM s.stations pos u Q V src →
      OperandOk rf0 s.INSMEM (broadcastOut s).stations pos u
        (if Q = (w : Int) then EMPTY else Q) (if Q = (w : Int) then W.computed.result else V) src := by
    intro u Q V src ⟨o1, o2⟩
    by_cases hQ : Q = (w : Int)
    · rw [if_pos hQ, if_pos hQ]
      refine ⟨fun _ => ?_, fun hE => absurd rfl hE⟩
      obtain ⟨t, p, e1, -, -, -, hv⟩ := o2 (by rw [hQ]; exact hw0)
      have htw : t = w := by
        have : (t : Int) = (w : Int) := by rw [← e1, hQ]
        exact_mod_cast this
      rw [hres, ← htw, hv]
    · rw [if_neg hQ, if_neg hQ]
      refine ⟨o1, fun hE => ?_⟩
      obtain ⟨t, p, e1, ht, hb, hlt, hv⟩ := o2 hE
      have htw : t ≠ w := by
        rintro rfl
        exact hQ e1
      obtain ⟨p', hp', hb'⟩ := hfwd t p ht hb htw
      exact ⟨t, p', e1, hp', hb', hlt, hv⟩
  constructor
  · intro u r' hu hb'
    rw [hmem]
    have hlt : u < s.stations.length := by
      have := (List.getElem?_eq_some.mp hu).1
      omega
    obtain ⟨q', hq', hwin, hrel⟩ := hst u _ (List.getElem?_eq_getElem hlt)
    rw [hu] at hq'
    have hq'r := (Option.some.inj hq').symm
    subst hq'r
    have huw : u ≠ w := by
      intro e
      rw [(hwin e).1] at hb'
      cases hb'
    have hr := hrel huw
    obtain ⟨f1, f2, f3, f4, f5, f6, f7⟩ := captureRSE_fields W.computed.result (w : Int) s.stations[u]
    have hb : (s.stations[u]).busy = true := by
      rw [← f1]
      rw [hr] at hb'
      exact hb'
    obtain ⟨a, b, c, d, e⟩ := g.st u _ (List.getElem?_eq_getElem hlt) hb
    have c' := hop _ _ _ _ c
    have d' := hop _ _ _ _ d
    rw [← f4, ← f5] at c'
    rw [← f6, ← f7] at d'
    rw [hr]
    refine ⟨a, by show (captureRSE _ _ _).op = _; rw [f2]; exact b, c', d', ?_⟩
    intro hd
    have hd' : (s.stations[u]).disp = true := by rw [← f3]; exact hd
    obtain ⟨e1, e2⟩ := e hd'
    show (captureRSE _ _ _).Qj = EMPTY ∧ (captureRSE _ _ _).Qk = EMPTY
    rw [f4, f6, e1, e2, if_neg (Ne.symm hw0)]
    exact ⟨rfl, rfl⟩
  · intro k e' hk
    rw [hmem, hRF]
    rw [hRAT, captureRAT_getElem?] at hk
    cases hek : s.RAT[k]? with
    | none => rw [hek] at hk; cases hk
    | some e =>
      rw [hek] at hk
      have he' : e' = if e = (w : Int) then EMPTY else e := (Option.some.inj hk).symm
      have hklt : k < s.RF.length := by
        have := (List.getElem?_eq_some.mp hek).1
        rw [h.wf.1]
        rw [h.wf.2.1] at this
        exact this
      obtain ⟨r1, r2⟩ := g.rat k e hek
      by_cases hew : e = (w : Int)
      · rw [if_pos hew] at he'
        have hval : (captureRF W.computed.result (w : Int) s.RAT s.RF).getD k 0 = W.computed.result := by
          rw [List.getD_eq_getElem?_getD, captureRF_getElem?_full, hek, hew, if_pos rfl,
            List.getElem?_eq_getElem hklt]
          rfl
        rw [hval, he']
        refine ⟨fun _ => ?_, fun hE => absurd rfl hE⟩
        obtain ⟨t, p, e1, -, -, -, hv, -⟩ := r2 (by rw [hew]; exact hw0)
        have htw : t = w := by
          have : (t : Int) = (w : Int) := by rw [← e1, hew]
          exact_mod_cast this
        rw [hres, ← htw, hv]
      · rw [if_neg hew] at he'
        have hval : (captureRF W.computed.result (w : Int) s.RAT s.RF).getD k 0 = s.RF.getD k 0 := by
          rw [List.getD_eq_getElem?_getD, captureRF_getElem?_full, hek,
            if_neg (fun hh => hew (Option.some.inj hh)), ← List.getD_eq_getElem?_getD]
        rw [hval, he']
        refine ⟨r1, fun hE => ?_⟩
        obtain ⟨t, p, e1, ht, hb, hd, hv⟩ := r2 hE
        have htw : t ≠ w := by
          rintro rfl
          exact hew e1
        obtain ⟨p', hp', hb'⟩ := hfwd t p ht hb htw
        exact ⟨t, p', e1, hp', hb', hd, hv⟩

theorem fillIQFuel_balance (fuel : Nat) :
    ∀ s s' : State, fillIQFuel fuel s = some s' →
      s'.CURINS + s.IQUEUE.length = s.CURINS + s'.IQUEUE.length := by
  induction fuel with
  | zero =>
    intro s s' h
    unfold fillIQFuel at h
    split at h
    · cases h
    · cases h; rfl
  | succ fuel ih =>
    intro s s' h
    unfold fillIQFuel at h
    split at h
    · have := ih _ _ h
      simp only [fillIQBody, List.length_append, List.length_singleton] at this
      omega
    · cases h; rfl

theorem fillIQ_balance (s : State) :
    (fillIQ s).CURINS + s.IQUEUE.length = s.CURINS + (fillIQ s).IQUEUE.length := by
  unfold fillIQ
  cases h : fillIQFuel (s.PROGSIZE - s.CURINS) s with
  | none => rfl
  | some s' => exact fillIQFuel_balance _ _ _ h

theorem queue_head {s : State} (hq : QueueInv s) {m : Nat}
    (hm : m + s.IQUEUE.length = s.CURINS) {ins : INS} {rest : List INS}
    (h : s.IQUEUE = ins :: rest) : s.INSMEM[m]? = some ins := by
  have hs := hq.slice
  have hm' : s.CURINS - s.IQUEUE.length = m := by omega
  rw [hm'] at hs
  have hl : s.IQUEUE.length = rest.length + 1 := by rw [h]; rfl
  rw [hl, h] at hs
  exact (slice_tail hs).2.1

/-- One cycle keeps the ghost invariant; the number of issued instructions
stays or grows by one. -/
theorem Ghost_ExecCycle {rf0 : List Int} {s : State} {m : Nat} {pos : Nat → Nat}
    (h : PhaseInv s) (hq : QueueInv s) (hrf0 : rf0.length = REGCOUNT)
    (hprog : ∀ ins ∈ s.INSMEM, ins.regsOk) (hm : m + s.IQUEUE.length = s.CURINS)
    (g : Ghost rf0 s m pos) :
    ∃ (m' : Nat) (pos' : Nat → Nat), Ghost rf0 (ExecCycleOut s) m' pos' ∧
      m' + (ExecCycleOut s).IQUEUE.length = (ExecCycleOut s).CURINS := by
  have g1 : Ghost rf0 (dispatch s) m pos := Ghost_dispatch h.wf g
  have hd := PhaseInv_dispatch h
  have hhead : ∀ (ins : INS) (rest : List INS), (dispatch s).IQUEUE = ins :: rest →
      (dispatch s).INSMEM[m]? = some ins ∧ ins.regsOk := by
    intro ins rest hi
    have := queue_head hq hm hi
    exact ⟨this, hprog ins (List.getElem?_mem this)⟩
  obtain ⟨m', pos', g2, hm2⟩ := Ghost_issue hd.wf hrf0 hhead g1
  have hm2' : m' + (issue (dispatch s)).IQUEUE.length = (issue (dispatch s)).CURINS := by
    rw [hm2, (issue_frame _).2]
    exact hm
  obtain ⟨-, f2, f3, f4, f5, f6⟩ := fillIQ_frame (issue (dispatch s))
  have g3 : Ghost rf0 (preBroadcast s) m' pos' :=
    Ghost_of_eq g2 f6 (by simp [State.stations, preBroadcast, f4, f5]) f3 f2
  have hm3 : m' + (preBroadcast s).IQUEUE.length = (preBroadcast s).CURINS := by
    have := fillIQ_balance (issue (dispatch s))
    show m' + (fillIQ (issue (dispatch s))).IQUEUE.length = (fillIQ (issue (dispatch s))).CURINS
    omega
  have g4 := Ghost_broadcast (PhaseInv_preBroadcast h) g3
  obtain ⟨b1, b2, b3⟩ := broadcast_frame (preBroadcast s)
  refine ⟨m', pos', ?_, ?_⟩
  · rw [ExecCycleOut_eq]
    exact Ghost_of_eq g4 rfl rfl rfl rfl
  · rw [ExecCycleOut_eq]
    show m' + (broadcastOut (preBroadcast s)).IQUEUE.length = (broadcastOut (preBroadcast s)).CURINS
    rw [b2, b3]
    exact hm3

/-- Every state of the run of a program with register indices in range, on a
register file of `REGCOUNT` entries, satisfies the ghost invariant. -/
theorem Ghost_run (prog : List INS) (rf : List Int) (hrf : rf.length = REGCOUNT)
    (hprog : ∀ ins ∈ prog, ins.regsOk) (n : Nat) :
    ∃ (m : Nat) (pos : Nat → Nat), Ghost rf (runStateOut prog rf n) m pos ∧
      m + (runStateOut prog rf n).IQUEUE.length = (runStateOut prog rf n).CURINS := by
  induction n with
  | zero => exact ⟨0, fun _ => 0, Ghost_init prog rf _, rfl⟩
  | succ n ih =>
    obtain ⟨m, pos, g, hm⟩ := ih
    obtain ⟨hq, hmem, -⟩ := run_queue prog rf n
    exact Ghost_ExecCycle (ReachableOut.inv (runStateOut_reachable prog rf hrf hprog n)) hq hrf
      (by rw [hmem]; exact hprog) hm g

/-- Every reachable state satisfies the ghost invariant for its own program and
some initial register file. -/
theorem ReachableOut.ghost {s : State} (h : ReachableOut s) :
    ∃ (rf0 : List Int) (m : Nat) (pos : Nat → Nat), Ghost rf0 s m pos ∧
      m + s.IQUEUE.length = s.CURINS := by
  obtain ⟨prog, rf, n, hrf, hprog, rfl⟩ := h.exists_run
  obtain ⟨m, pos, g, hm⟩ := Ghost_run prog rf hrf hprog n
  exact ⟨rf, m, pos, g, hm⟩

/-! ## RAT uniqueness -/

/-- Over the returning semantics: RAT uniqueness.  In every reachable state `s` (start of a cycle of a
run on a program whose register indices are in `[0, 8)`; the opcodes may be
anything): (1) two registers whose RAT entries hold the same tag other than
`EMPTY` are the same register; (2) with `m = CURINS - IQUEUE.size()` the number
of instructions issued so far, there is an assignment `pos` of instruction
numbers to tags such that every RAT entry `RAT[k] = t != EMPTY` is the tag of a
busy station holding instruction number `pos t < m`, that instruction has
`dst = k`, and no instruction issued after it (numbers in `(pos t, m)`) has
`dst = k`: register `k` names its most recent issued writer; (3) the issue phase
of the cycle either leaves the RAT as it is or overwrites the one entry
`RAT[dst]` of the queue head with the allocated tag. -/
theorem ratInj_out (s : State) (h : ReachableOut s) :
    (∀ (k1 k2 : Nat) (t : Int), s.RAT[k1]? = some t → s.RAT[k2]? = some t → t ≠ EMPTY →
      k1 = k2) ∧
    (∃ (m : Nat) (pos : Nat → Nat), m + s.IQUEUE.length = s.CURINS ∧
      ∀ (k : Nat) (t : Int), s.RAT[k]? = some t → t ≠ EMPTY →
        ∃ (u : Nat) (r : RSE), t = (u : Int) ∧ s.stations[u]? = some r ∧ r.busy = true ∧
          pos u < m ∧ r.op = (s.INSMEM.getD (pos u) default).op ∧
          (s.INSMEM.getD (pos u) default).dst = (k : Int) ∧
          ∀ i : Nat, pos u < i → i < m → (s.INSMEM.getD i default).dst ≠ (k : Int)) ∧
    ((issue (dispatch s)).RAT = s.RAT ∨
      ∃ (ins : INS) (rest : List INS) (x : Nat), s.IQUEUE = ins :: rest ∧
        (issue (dispatch s)).RAT = regWrite s.RAT ins.dst (x : Int)) := by
  obtain ⟨rf0, m, pos, g, hm⟩ := h.ghost
  refine ⟨?_, ⟨m, pos, hm, ?_⟩, ?_⟩
  · intro k1 k2 t h1 h2 ht
    obtain ⟨u1, -, e1, -, -, d1, -⟩ := (g.rat k1 t h1).2 ht
    obtain ⟨u2, -, e2, -, -, d2, -⟩ := (g.rat k2 t h2).2 ht
    have hu : u1 = u2 := by
      have : (u1 : Int) = (u2 : Int) := by rw [← e1, ← e2]
      exact_mod_cast this
    subst hu
    have : (k1 : Int) = (k2 : Int) := by rw [← d1, ← d2]
    exact_mod_cast this
  · intro k t hk ht
    obtain ⟨u, r, e, hu, hb, hd, -, hlast⟩ := (g.rat k t hk).2 ht
    have hs := g.st u r hu hb
    exact ⟨u, r, e, hu, hb, hs.lt, hs.op, hd, hlast⟩
  · rcases issue_effect (dispatch s) (PhaseInv_dispatch h.inv).wf.2.2.1 with
      hno | ⟨ins, rest, x, -, hq, -, -, -, -, hrat, -⟩
    · left; rw [hno]; rfl
    · right; exact ⟨ins, rest, x, hq, hrat⟩

/-! ## Sums over the stations -/

theorem sum_map_le {f g : RSE → Nat} :
    ∀ (l l' : List RSE), l.length = l'.length →
      (∀ (j : Nat) (r r' : RSE), l[j]? = some r → l'[j]? = some r' → g r' ≤ f r) →
      (l'.map g).sum ≤ (l.map f).sum := by
  intro l
  induction l with
  | nil =>
    intro l' hl _
    cases l' with
    | nil => simp
    | cons b l' => simp at hl
  | cons a l ih =>
    intro l' hl h
    cases l' with
    | nil => simp at hl
    | cons b l' =>
      have h0 : g b ≤ f a := h 0 a b (by simp) (by simp)
      have hrest := ih l' (by simpa using hl)
        (fun j r r' hr hr' => h (j + 1) r r' (by simpa using hr) (by simpa using hr'))
      simp only [List.map_cons, List.sum_cons]
      omega

theorem sum_map_lt {f g : RSE → Nat} :
    ∀ (l l' : List RSE), l.length = l'.length →
      (∀ (j : Nat) (r r' : RSE), l[j]? = some r → l'[j]? = some r' → g r' ≤ f r) →
      (∃ (j : Nat) (r r' : RSE), l[j]? = some r ∧ l'[j]? = some r' ∧ g r' < f r) →
      (l'.map g).sum < (l.map f).sum := by
  intro l
  induction l with
  | nil =>
    intro l' _ _ ⟨j, r, r', hr, _⟩
    simp at hr
  | cons a l ih =>
    intro l' hl h ⟨j, r, r', hr, hr', hlt⟩
    cases l' with
    | nil => simp at hl
    | cons b l' =>
      have h0 : g b ≤ f a := h 0 a b (by simp) (by simp)
      have hl' : l.length = l'.length := by simpa using hl
      have hpt : ∀ (j : Nat) (r r' : RSE), l[j]? = some r → l'[j]? = some r' → g r' ≤ f r :=
        fun j r r' hr hr' => h (j + 1) r r' (by simpa using hr) (by simpa using hr')
      simp only [List.map_cons, List.sum_cons]
      cases j with
      | zero =>
        simp only [List.getElem?_cons_zero, Option.some.injEq] at hr hr'
        subst hr hr'
        have := sum_map_le l l' hl' hpt
        omega
      | succ j =>
        have := ih l' hl' hpt ⟨j, r, r', by simpa using hr, by simpa using hr', hlt⟩
        omega

theorem sum_map_point (f : RSE → Nat) :
    ∀ (l l' : List RSE) (x : Nat) (a b : RSE), l[x]? = some a → l'[x]? = some b →
      (∀ j : Nat, j ≠ x → l'[j]? = l[j]?) →
      (l'.map f).sum + f a = (l.map f).sum + f b := by
  intro l
  induction l with
  | nil => intro l' x a b ha; simp at ha
  | cons c l ih =>
    intro l' x a b ha hb h
    cases l' with
    | nil => simp at hb
    | cons d l' =>
      cases x with
      | zero =>
        simp only [List.getElem?_cons_zero, Option.some.injEq] at ha hb
        subst ha hb
        have hl : l' = l := by
          apply List.ext_getElem?
          intro j
          have := h (j + 1) (by omega)
          simpa using this
        rw [hl]
        simp only [List.map_cons, List.sum_cons]
        omega
      | succ x =>
        have hcd : d = c := by
          have := h 0 (by omega)
          simpa using this
        have := ih l' x a b (by simpa using ha) (by simpa using hb)
          (fun j hj => by
            have := h (j + 1) (by omega)
            simpa using this)
        simp only [List.map_cons, List.sum_cons, hcd]
        omega

/-! ## Every phase lowers the work left or does nothing -/

theorem dispatch_stations_length (s : State) :
    (dispatch s).stations.length = s.stations.length := by
  simp [State.stations, dispatch, dispatchPool_length]

theorem stW_dispMark (c : Int) (r : RSE) (h : dispReady r = true) :
    stW (dispMark c r) = 1 ∧ stW r = 2 := by
  obtain ⟨hb, hd, -, -⟩ := dispReady_eq_true.mp h
  simp [stW, dispMark, hb, hd]

theorem workLeft_dispatch (s : State) (hwf : s.WF) :
    (dispatch s = s ∧ ∀ r ∈ s.stations, dispReady r = false) ∨
      workLeft (dispatch s) < workLeft s := by
  have hlen := hwf.2.2.1
  have hlen' : (dispatch s).ADDRS.length = ADDCOUNT := by
    show (dispatchPool s.CYCLE s.ADDRS).length = ADDCOUNT
    rw [dispatchPool_length, hlen]
  have hpt : ∀ (j : Nat) (r r' : RSE), s.stations[j]? = some r →
      (dispatch s).stations[j]? = some r' → stW r' ≤ stW r := by
    intro j r r' hr hr'
    rcases dispatch_station s hlen j r hr with h | ⟨hready, h⟩
    · rw [h] at hr'
      rw [← Option.some.inj hr']
    · rw [h] at hr'
      rw [← Option.some.inj hr']
      obtain ⟨h1, h2⟩ := stW_dispMark s.CYCLE r hready
      omega
  have hstrict : ∀ (j : Nat) (r : RSE), s.stations[j]? = some r → dispReady r = true →
      (dispatch s).stations[j]? = some (dispMark s.CYCLE r) →
      workLeft (dispatch s) < workLeft s := by
    intro j r hr hready hj
    have := sum_map_lt (f := stW) (g := stW) s.stations (dispatch s).stations
      (dispatch_stations_length s).symm hpt
      ⟨j, r, _, hr, hj, by
        obtain ⟨h1, h2⟩ := stW_dispMark s.CYCLE r hready
        omega⟩
    unfold workLeft
    show 4 * (s.PROGSIZE - s.CURINS) + 3 * s.IQUEUE.length + _ < _
    omega
  cases ha : firstIdx dispReady s.ADDRS with
  | some i =>
    right
    obtain ⟨r, hr, hready, -⟩ := firstIdx_some_spec ha
    have hilt : i < ADDCOUNT := by have := firstIdx_lt ha; omega
    refine hstrict i r (by rw [stations_getElem? s hlen, if_pos hilt]; exact hr) hready ?_
    rw [stations_getElem? _ hlen', if_pos hilt]
    show (dispatchPool s.CYCLE s.ADDRS)[i]? = _
    unfold dispatchPool
    rw [ha]
    exact modifyAt_getElem?_eq hr
  | none =>
    cases hm : firstIdx dispReady s.MULRS with
    | some i =>
      right
      obtain ⟨r, hr, hready, -⟩ := firstIdx_some_spec hm
      refine hstrict (i + ADDCOUNT) r
        (by rw [stations_getElem? s hlen, if_neg (by omega)]; simpa using hr) hready ?_
      rw [stations_getElem? _ hlen', if_neg (by omega)]
      show (dispatchPool s.CYCLE s.MULRS)[i + ADDCOUNT - ADDCOUNT]? = _
      unfold dispatchPool
      rw [hm]
      simpa using modifyAt_getElem?_eq hr
    | none =>
      left
      refine ⟨by simp [dispatch, dispatchPool, ha, hm], ?_⟩
      intro r hr
      rcases List.mem_append.mp hr with hr | hr
      · exact firstIdx_none_spec ha r hr
      · exact firstIdx_none_spec hm r hr

theorem workLeft_issue (s : State) (hwf : s.WF) :
    issue s = s ∨ workLeft (issue s) < workLeft s := by
  rcases issue_effect s hwf.2.2.1 with hno | ⟨ins, rest, x, X0, hq, -, hx, hX0, hq', -, hxs,
    hother, -, -, hcur, hmem⟩
  · left; exact hno
  right
  have hsum := sum_map_point stW s.stations (issue s).stations x X0 _ hx hxs hother
  have h0 : stW X0 = 0 := by simp [stW, hX0]
  have h2 : stW (fillRS s.RF s.RAT ins X0) = 2 := by simp [stW, fillRS]
  unfold workLeft State.PROGSIZE
  rw [hq', hq, hcur, hmem]
  simp only [List.length_cons]
  omega

theorem fillIQ_closed (s : State) (h1 : s.CURINS ≤ s.PROGSIZE)
    (h2 : s.IQUEUE.length ≤ INSCOUNT) :
    fillIQ s = { s with
      IQUEUE := s.IQUEUE ++ (s.INSMEM.drop s.CURINS).take
        (min (s.PROGSIZE - s.CURINS) (INSCOUNT - s.IQUEUE.length))
      CURINS := s.CURINS + min (s.PROGSIZE - s.CURINS) (INSCOUNT - s.IQUEUE.length) } := by
  unfold fillIQ
  rw [fillIQFuel_spec (s.PROGSIZE - s.CURINS) s h1 h2 (Nat.min_le_left _ _)]
  rfl

theorem workLeft_fillIQ (s : State) (h1 : s.CURINS ≤ s.PROGSIZE)
    (h2 : s.IQUEUE.length ≤ INSCOUNT) :
    (fillIQ s = s ∧ (s.CURINS = s.PROGSIZE ∨ s.IQUEUE.length = INSCOUNT)) ∨
      workLeft (fillIQ s) < workLeft s := by
  have hc := fillIQ_closed s h1 h2
  by_cases hk : min (s.PROGSIZE - s.CURINS) (INSCOUNT - s.IQUEUE.length) = 0
  · left
    rw [hk] at hc
    refine ⟨by rw [hc]; simp, ?_⟩
    omega
  · right
    obtain ⟨k, hkdef⟩ : ∃ k, k = min (s.PROGSIZE - s.CURINS) (INSCOUNT - s.IQUEUE.length) :=
      ⟨_, rfl⟩
    rw [← hkdef] at hc hk
    have hkle : k ≤ s.INSMEM.length - s.CURINS := by rw [hkdef]; exact Nat.min_le_left _ _
    have hlen : ((s.INSMEM.drop s.CURINS).take k).length = k := by
      rw [List.length_take, List.length_drop]; omega
    have h1' : s.CURINS ≤ s.INSMEM.length := h1
    rw [hc]
    unfold workLeft State.PROGSIZE State.stations
    simp only [List.length_append, hlen]
    omega

theorem captureRSE_stW (res t : Int) (q : RSE) (b : Int) :
    stW { captureRSE res t q with bcast := b } = stW q := by
  obtain ⟨f1, -, f3, -⟩ := captureRSE_fields res t q
  unfold stW
  show (if (captureRSE res t q).busy = true then
    (if (captureRSE res t q).disp = true then 1 else 2) else 0) = _
  rw [f1, f3]

theorem broadcast_stations_length (s : State) (h : PhaseInv s) :
    (broadcastOut s).stations.length = s.stations.length := by
  obtain ⟨-, -, -, -, -, -, -, l1, l2, -⟩ := broadcast_stations s h
  simp [State.stations, l1, l2]

theorem workLeft_broadcast (s : State) (h : PhaseInv s) :
    (broadcastOut s = s ∧ ∀ r ∈ s.stations, due s.CYCLE r = false) ∨
      workLeft (broadcastOut s) < workLeft s := by
  rcases broadcast_effect s h with hno | ⟨w, W, hw, hdue, -, -, hst⟩
  · left; exact hno
  right
  obtain ⟨hWb, hWd, -⟩ := due_eq_true.mp hdue
  obtain ⟨b1, b2, b3⟩ := broadcast_frame s
  have hpt : ∀ (j : Nat) (r r' : RSE), s.stations[j]? = some r →
      (broadcastOut s).stations[j]? = some r' → stW r' ≤ stW r := by
    intro j r r' hr hr'
    obtain ⟨q', hq', hwin, hrel⟩ := hst j r hr
    rw [hr'] at hq'
    have e := (Option.some.inj hq').symm
    subst e
    by_cases hj : j = w
    · have : stW q' = 0 := by simp [stW, (hwin hj).1]
      omega
    · rw [hrel hj, captureRSE_stW]
  obtain ⟨q', hq', hwin, -⟩ := hst w W hw
  have hlt := sum_map_lt (f := stW) (g := stW) s.stations (broadcastOut s).stations
    (broadcast_stations_length s h).symm hpt
    ⟨w, W, q', hw, hq', by
      have h0 : stW q' = 0 := by simp [stW, (hwin rfl).1]
      have h1 : stW W = 1 := by simp [stW, hWb, hWd]
      omega⟩
  unfold workLeft State.PROGSIZE
  rw [b1, b2, b3]
  omega

theorem workLeft_cycle (s : State) : workLeft (ExecCycleOut s) = workLeft (broadcastOut (preBroadcast s)) := by
  rw [ExecCycleOut_eq]
  rfl

/-- One cycle lowers the work left, or no phase does anything: the state only
has its clock advanced, no station is ready for dispatch, none is due, `issue`
is stuck or has nothing to issue, and `fillIQ` has nothing to fetch or no room. -/
theorem cycle_progress (s : State) (h : PhaseInv s) (hq : QueueInv s) :
    workLeft (ExecCycleOut s) < workLeft s ∨
    (ExecCycleOut s = { s with CYCLE := s.CYCLE + 1 } ∧ issue s = s ∧
      (∀ r ∈ s.stations, dispReady r = false) ∧ (∀ r ∈ s.stations, due s.CYCLE r = false) ∧
      (s.CURINS = s.PROGSIZE ∨ s.IQUEUE.length = INSCOUNT)) := by
  have h1 := PhaseInv_dispatch h
  have h2 := PhaseInv_issue h1
  have h3 := PhaseInv_fillIQ h2
  -- the queue bounds hold after `issue`
  have hc2 : (issue (dispatch s)).CURINS ≤ (issue (dispatch s)).PROGSIZE := by
    obtain ⟨i1, i2⟩ := issue_frame (dispatch s)
    unfold State.PROGSIZE
    rw [i1, i2]
    exact hq.cur_le
  have hs2 : (issue (dispatch s)).IQUEUE.length ≤ INSCOUNT := by
    have := congrArg List.length (issue_queue (dispatch s)).1
    rw [List.length_append] at this
    have hd : (dispatch s).IQUEUE = s.IQUEUE := rfl
    rw [hd] at this
    have := hq.size_le
    omega
  -- every phase leaves the work left the same or lower
  have l1 : workLeft (dispatch s) ≤ workLeft s := by
    rcases workLeft_dispatch s h.wf with ⟨e, -⟩ | e
    · rw [e]
    · omega
  have l2 : workLeft (issue (dispatch s)) ≤ workLeft (dispatch s) := by
    rcases workLeft_issue (dispatch s) h1.wf with e | e
    · rw [e]
    · omega
  have l3 : workLeft (preBroadcast s) ≤ workLeft (issue (dispatch s)) := by
    rcases workLeft_fillIQ (issue (dispatch s)) hc2 hs2 with ⟨e, -⟩ | e
    · unfold preBroadcast; rw [e]
    · exact Nat.le_of_lt e
  have l4 : workLeft (ExecCycleOut s) ≤ workLeft (preBroadcast s) := by
    rw [workLeft_cycle]
    rcases workLeft_broadcast (preBroadcast s) h3 with ⟨e, -⟩ | e
    · rw [e]
    · omega
  rcases workLeft_dispatch s h.wf with ⟨e1, hnr⟩ | e1
  swap
  · left; omega
  rw [e1] at l2 l3 hc2 hs2
  rcases workLeft_issue s h.wf with e2 | e2
  swap
  · left; omega
  rw [e2] at l3
  rcases workLeft_fillIQ s hq.cur_le hq.size_le with ⟨e3, hfull⟩ | e3
  swap
  · left
    have : preBroadcast s = fillIQ s := by unfold preBroadcast; rw [e1, e2]
    rw [this] at l4
    omega
  have hpre : preBroadcast s = s := by unfold preBroadcast; rw [e1, e2, e3]
  rcases workLeft_broadcast s h with ⟨e4, hnd⟩ | e4
  · right
    exact ⟨by rw [ExecCycleOut_eq, hpre, e4], e2, hnr, hnd, hfull⟩
  · left
    rw [workLeft_cycle, hpre]
    exact e4

/-- With nothing due, advancing the clock lowers the total waiting time unless
no busy station is dispatched. -/
theorem waitLeft_tick (s : State) (h : PhaseInv s)
    (hnd : ∀ r ∈ s.stations, due s.CYCLE r = false) :
    waitLeft { s with CYCLE := s.CYCLE + 1 } < waitLeft s ∨
      ∀ r ∈ s.stations, r.busy = true → r.disp = false := by
  by_cases hex : ∃ r ∈ s.stations, r.busy = true ∧ r.disp = true
  · left
    obtain ⟨r, hr, hb, hd⟩ := hex
    have hok : StOk s.CYCLE r := by
      rcases List.mem_append.mp hr with hr | hr
      · exact h.add r hr
      · exact h.mul r hr
    have hge := ((hok hb).2 hd).1
    have hne : r.bcast ≠ s.CYCLE := by
      intro e
      have := hnd r hr
      rw [due_eq_true.mpr ⟨hb, hd, e⟩] at this
      cases this
    obtain ⟨j, hj⟩ := List.getElem?_of_mem hr
    unfold waitLeft
    show ((s.stations).map (waitOf (s.CYCLE + 1))).sum < _
    refine sum_map_lt s.stations s.stations rfl ?_ ⟨j, r, r, hj, hj, ?_⟩
    · intro i a a' ha ha'
      rw [ha] at ha'
      rw [← Option.some.inj ha']
      unfold waitOf
      split
      · omega
      · exact Nat.le_refl _
    · unfold waitOf
      simp only [hb, hd, Bool.and_self, if_true]
      omega
  · right
    intro r hr hb
    by_contra hd
    exact hex ⟨r, hr, hb, by simpa using hd⟩

/-- When no busy station is dispatched and none is ready for dispatch, no
station is busy: the busy station holding the earliest instruction would wait
on an earlier one. -/
theorem no_busy_of_stuck {rf0 : List Int} {s : State} {m : Nat} {pos : Nat → Nat}
    (g : Ghost rf0 s m pos)
    (hnd : ∀ r ∈ s.stations, r.busy = true → r.disp = false)
    (hnr : ∀ r ∈ s.stations, dispReady r = false) : ∀ r ∈ s.stations, r.busy = false := by
  have key : ∀ (n u : Nat) (r : RSE), s.stations[u]? = some r → r.busy = true → pos u = n →
      False := by
    intro n
    induction n using Nat.strong_induction_on with
    | _ n ih =>
      intro u r hu hb hpos
      have hmem : r ∈ s.stations := List.getElem?_mem hu
      have hd := hnd r hmem hb
      have hq : r.Qj ≠ EMPTY ∨ r.Qk ≠ EMPTY := by
        by_contra hcon
        push_neg at hcon
        have := hnr r hmem
        rw [dispReady_eq_true.mpr ⟨hb, hd, hcon.1, hcon.2⟩] at this
        cases this
      have hs := g.st u r hu hb
      rcases hq with hq | hq
      · obtain ⟨t, p, -, ht, hpb, hlt, -⟩ := hs.j.2 hq
        exact ih (pos t) (by omega) t p ht hpb rfl
      · obtain ⟨t, p, -, ht, hpb, hlt, -⟩ := hs.k.2 hq
        exact ih (pos t) (by omega) t p ht hpb rfl
  intro r hr
  by_contra hb
  obtain ⟨u, hu⟩ := List.getElem?_of_mem hr
  exact key (pos u) u r hu (by simpa using hb) rfl

/-- With a valid opcode at the head of the queue and every station
allocatable, `issue` takes the head. -/
theorem issue_moves (s : State) (hwf : s.WF) (ins : INS) (rest : List INS)
    (hq : s.IQUEUE = ins :: rest) (hop : ins.opOk)
    (hall : ∀ r ∈ s.stations, allocatable s.CYCLE r = true) : issue s ≠ s := by
  intro he
  have hlen : (issue s).IQUEUE.length = rest.length + 1 := by rw [he, hq]; rfl
  have ha : firstIdx (allocatable s.CYCLE) s.ADDRS ≠ none := by
    intro hf
    have h3 : 0 < s.ADDRS.length := by rw [hwf.2.2.1]; decide
    have hm : s.ADDRS[0] ∈ s.stations :=
      List.mem_append_left _ (List.getElem_mem h3)
    have := firstIdx_none_spec hf _ (List.getElem_mem h3)
    rw [hall _ hm] at this
    cases this
  have hm : firstIdx (allocatable s.CYCLE) s.MULRS ≠ none := by
    intro hf
    have h3 : 0 < s.MULRS.length := by rw [hwf.2.2.2]; decide
    have hm : s.MULRS[0] ∈ s.stations :=
      List.mem_append_right _ (List.getElem_mem h3)
    have := firstIdx_none_spec hf _ (List.getElem_mem h3)
    rw [hall _ hm] at this
    cases this
  by_cases hadd : ins.op = ADD ∨ ins.op = SUB
  · cases hf : firstIdx (allocatable s.CYCLE) s.ADDRS with
    | none => exact ha hf
    | some i =>
      have hne : ¬ ((i : Int) = -1) := by omega
      have : (issue s).IQUEUE = rest := by simp [issue, hq, getRS, hadd, hf, hne]
      rw [this] at hlen
      omega
  · have hmul : ins.op = MUL ∨ ins.op = DIV := by
      rcases hop with h | h | h | h
      · exact absurd (Or.inl h) hadd
      · exact absurd (Or.inr h) hadd
      · exact Or.inl h
      · exact Or.inr h
    cases hf : firstIdx (allocatable s.CYCLE) s.MULRS with
    | none => exact hm hf
    | some i =>
      have hne : ¬ ((i : Int) + 3 = -1) := by omega
      have : (issue s).IQUEUE = rest := by simp [issue, hq, getRS, hadd, hmul, hf, hne]
      rw [this] at hlen
      omega

/-! ## Dispatch stamps are older than the clock -/

theorem captureRSE_discno (res t : Int) (y : RSE) : (captureRSE res t y).discno = y.discno := by
  unfold captureRSE
  by_cases a : y.Qj = t <;> by_cases b : y.Qk = t <;> simp [a, b]

/-- Through one cycle a station keeps its `discno` or gets the cycle number. -/
theorem discno_ExecCycle (s : State) (h : PhaseInv s) (u : Nat) (q : RSE)
    (hu : s.stations[u]? = some q) :
    ∃ q', (ExecCycleOut s).stations[u]? = some q' ∧
      (q'.discno = q.discno ∨ q'.discno = s.CYCLE) := by
  have h1 := PhaseInv_dispatch h
  have h2 := PhaseInv_issue h1
  have h3 := PhaseInv_fillIQ h2
  -- dispatch
  obtain ⟨q1, hq1, hd1⟩ : ∃ q1, (dispatch s).stations[u]? = some q1 ∧
      (q1.discno = q.discno ∨ q1.discno = s.CYCLE) := by
    rcases dispatch_station s h.wf.2.2.1 u q hu with e | ⟨-, e⟩
    · exact ⟨q, e, Or.inl rfl⟩
    · exact ⟨_, e, Or.inr rfl⟩
  -- issue
  obtain ⟨q2, hq2, hd2⟩ : ∃ q2, (issue (dispatch s)).stations[u]? = some q2 ∧
      q2.discno = q1.discno := by
    rcases issue_effect (dispatch s) h1.wf.2.2.1 with e | ⟨ins, rest, x, X0, -, -, hx, -, -, -,
      hxs, hother, -⟩
    · rw [e]; exact ⟨q1, hq1, rfl⟩
    · by_cases hux : u = x
      · subst hux
        rw [hq1] at hx
        rw [← Option.some.inj hx] at hxs
        exact ⟨_, hxs, rfl⟩
      · rw [← hother u hux] at hq1
        exact ⟨q1, hq1, rfl⟩
  -- fillIQ
  have hq3 : (preBroadcast s).stations[u]? = some q2 := by
    obtain ⟨-, -, -, f4, f5, -⟩ := fillIQ_frame (issue (dispatch s))
    have : (preBroadcast s).stations = (issue (dispatch s)).stations := by
      simp [State.stations, preBroadcast, f4, f5]
    rw [this]
    exact hq2
  -- broadcast
  obtain ⟨q4, hq4, hd4⟩ : ∃ q4, (broadcastOut (preBroadcast s)).stations[u]? = some q4 ∧
      q4.discno = q2.discno := by
    rcases broadcast_effect (preBroadcast s) h3 with ⟨e, -⟩ | ⟨w, W, -, -, -, -, hst⟩
    · rw [e]; exact ⟨q2, hq3, rfl⟩
    · obtain ⟨q', hq', hwin, hrel⟩ := hst u q2 hq3
      refine ⟨q', hq', ?_⟩
      by_cases huw : u = w
      · exact (hwin huw).2
      · rw [hrel huw]
        exact captureRSE_discno _ _ _
  refine ⟨q4, by rw [ExecCycleOut_eq]; exact hq4, ?_⟩
  rw [hd4, hd2]
  exact hd1

theorem Fresh_init (prog : List INS) (rf : List Int) : Fresh (initState prog rf) := by
  intro r hr
  have : r = RSE.init := by
    simp [State.stations, initState] at hr
    exact hr
  rw [this]
  show (-1 : Int) < 0
  decide

theorem Fresh_ExecCycle (s : State) (h : PhaseInv s) (hf : Fresh s) : Fresh (ExecCycleOut s) := by
  intro r hr
  obtain ⟨u, hu⟩ := List.getElem?_of_mem hr
  have hlen : (ExecCycleOut s).stations.length = s.stations.length := by
    rw [stations_length _ (PhaseInv_ExecCycle h).wf, stations_length _ h.wf]
  have hlt : u < s.stations.length := by
    have := (List.getElem?_eq_some.mp hu).1
    omega
  obtain ⟨q', hq', hd⟩ := discno_ExecCycle s h u _ (List.getElem?_eq_getElem hlt)
  rw [hu] at hq'
  rw [← Option.some.inj hq'] at hd
  have := hf _ (List.getElem_mem hlt)
  rw [ExecCycleOut_CYCLE]
  rcases hd with e | e <;> omega

theorem Fresh_run (prog : List INS) (rf : List Int) (hrf : rf.length = REGCOUNT)
    (hprog : ∀ ins ∈ prog, ins.regsOk) (n : Nat) : Fresh (runStateOut prog rf n) := by
  induction n with
  | zero => exact Fresh_init prog rf
  | succ n ih =>
    exact Fresh_ExecCycle _ (ReachableOut.inv (runStateOut_reachable prog rf hrf hprog n)) ih

/-! ## The run reaches an idle state and stays there -/

/-- A cycle of the run of a program with valid opcodes and register indices
lowers the work left, or keeps it and lowers the waiting time, or starts in an
idle state. -/
theorem step_progress (prog : List INS) (rf : List Int) (hrf : rf.length = REGCOUNT)
    (hprog : ∀ ins ∈ prog, ins.opOk ∧ ins.regsOk) (n : Nat) :
    workLeft (runStateOut prog rf (n + 1)) < workLeft (runStateOut prog rf n) ∨
    (workLeft (runStateOut prog rf (n + 1)) = workLeft (runStateOut prog rf n) ∧
      waitLeft (runStateOut prog rf (n + 1)) < waitLeft (runStateOut prog rf n)) ∨
    Idle (runStateOut prog rf n) := by
  have hregs : ∀ ins ∈ prog, ins.regsOk := fun i hi => (hprog i hi).2
  have hinv := ReachableOut.inv (runStateOut_reachable prog rf hrf hregs n)
  obtain ⟨hq, hmem, -⟩ := run_queue prog rf n
  rcases cycle_progress _ hinv hq with h | ⟨hE, hiss, hnr, hnd, hfull⟩
  · left; exact h
  right
  have hstep : runStateOut prog rf (n + 1) =
      { runStateOut prog rf n with CYCLE := (runStateOut prog rf n).CYCLE + 1 } := hE
  rcases waitLeft_tick _ hinv hnd with hw | hnodisp
  · left
    exact ⟨by rw [hstep]; rfl, by rw [hstep]; exact hw⟩
  right
  obtain ⟨m, pos, g, hm⟩ := Ghost_run prog rf hrf hregs n
  have hfree := no_busy_of_stuck g hnodisp hnr
  have hfresh := Fresh_run prog rf hrf hregs n
  have hall : ∀ r ∈ (runStateOut prog rf n).stations,
      allocatable (runStateOut prog rf n).CYCLE r = true := by
    intro r hr
    have := hfresh r hr
    exact allocatable_eq_true.mpr ⟨hfree r hr, by omega⟩
  have hempty : (runStateOut prog rf n).IQUEUE = [] := by
    cases hqq : (runStateOut prog rf n).IQUEUE with
    | nil => rfl
    | cons ins rest =>
      have hin := queue_head hq hm hqq
      have hmem' : ins ∈ prog := by rw [← hmem]; exact List.getElem?_mem hin
      exact absurd hiss (issue_moves _ hinv.wf ins rest hqq (hprog ins hmem').1 hall)
  refine ⟨hempty, ?_, hfree⟩
  rcases hfull with h | h
  · exact h
  · rw [hempty] at h
    simp at h

theorem eventually_idle (prog : List INS) (rf : List Int) (hrf : rf.length = REGCOUNT)
    (hprog : ∀ ins ∈ prog, ins.opOk ∧ ins.regsOk) : ∃ K : Nat, Idle (runStateOut prog rf K) := by
  have key : ∀ (a b n : Nat), workLeft (runStateOut prog rf n) = a →
      waitLeft (runStateOut prog rf n) = b → ∃ K : Nat, Idle (runStateOut prog rf K) := by
    intro a
    induction a using Nat.strong_induction_on with
    | _ a iha =>
      intro b
      induction b using Nat.strong_induction_on with
      | _ b ihb =>
        intro n ha hb
        rcases step_progress prog rf hrf hprog n with h1 | ⟨h2, h3⟩ | hidle
        · exact iha _ (by rw [← ha]; exact h1) _ (n + 1) rfl rfl
        · exact ihb _ (by rw [← hb]; exact h3) (n + 1) (by rw [h2, ha]) rfl
        · exact ⟨n, hidle⟩
  exact key _ _ 0 rfl rfl

theorem Idle_run (prog : List INS) (rf : List Int) (K : Nat) (h : Idle (runStateOut prog rf K)) :
    ∀ n : Nat, K ≤ n → Idle (runStateOut prog rf n) := by
  intro n hn
  induction n with
  | zero =>
    have : K = 0 := by omega
    rw [this] at h
    exact h
  | succ n ih =>
    by_cases hK : K = n + 1
    · rw [hK] at h; exact h
    · have hi := ih (by omega)
      obtain ⟨h1, h2, h3⟩ := hi
      have hstep : runStateOut prog rf (n + 1) =
          { runStateOut prog rf n with CYCLE := (runStateOut prog rf n).CYCLE + 1 } :=
        ExecCycleOut_idle _ h1 h2 (fun r hr => h3 r (List.mem_append_left _ hr))
          (fun r hr => h3 r (List.mem_append_right _ hr))
      rw [hstep]
      exact ⟨h1, h2, h3⟩

/-- In an idle state satisfying the ghost invariant every RAT entry is `EMPTY`
and `RF` is the register file of program-order execution. -/
theorem Idle_result {rf0 : List Int} {s : State} {m : Nat} {pos : Nat → Nat}
    (hwf : s.WF) (hrf0 : rf0.length = REGCOUNT) (g : Ghost rf0 s m pos)
    (hm : m + s.IQUEUE.length = s.CURINS) (h : Idle s) :
    (∀ e ∈ s.RAT, e = EMPTY) ∧ s.RF = seqExec rf0 s.INSMEM := by
  obtain ⟨h1, h2, h3⟩ := h
  have hrat : ∀ (k : Nat) (e : Int), s.RAT[k]? = some e → e = EMPTY := by
    intro k e hk
    by_contra hne
    obtain ⟨t, p, -, ht, hb, -⟩ := (g.rat k e hk).2 hne
    rw [h3 p (List.getElem?_mem ht)] at hb
    cases hb
  have hmm : m = s.INSMEM.length := by
    rw [h1] at hm
    simp only [List.length_nil, Nat.add_zero] at hm
    rw [hm, h2]
    rfl
  refine ⟨?_, ?_⟩
  · intro e he
    obtain ⟨k, hk⟩ := List.getElem?_of_mem he
    exact hrat k e hk
  · have hlen : s.RF.length = (seqExec rf0 s.INSMEM).length := by
      rw [seqExec_length, hrf0, hwf.1]
    apply List.ext_getElem hlen
    intro k hk1 hk2
    have hkr : k < s.RAT.length := by rw [hwf.2.1, ← hwf.1]; exact hk1
    have he := hrat k _ (List.getElem?_eq_getElem hkr)
    have hv := (g.rat k _ (List.getElem?_eq_getElem hkr)).1 he
    rw [hmm, seqAt_all, regRead_natCast, List.getD_eq_getElem?_getD, List.getD_eq_getElem?_getD,
      List.getElem?_eq_getElem hk1, List.getElem?_eq_getElem hk2] at hv
    exact hv

/-! ## the engine computes the program-order result -/

/-- Over the returning semantics: for every program `prog` whose instructions
have opcodes in `{ADD, SUB, MUL, DIV}` and register indices in `[0, 8)`, and
every initial register file `rf` (8 entries), there is a cycle count `K` such
that for every `n >= K` the state after `n` returning cycles from the initial
state has an empty queue, `CURINS = PROGSIZE`, every station of both pools
free, every RAT entry `EMPTY`, and `RF` equal to `seqExec rf prog`. -/
theorem settles_out (prog : List INS) (rf : List Int) (hrf : rf.length = REGCOUNT)
    (hprog : ∀ ins ∈ prog, ins.opOk ∧ ins.regsOk) :
    ∃ K : Nat, ∀ n : Nat, K ≤ n →
      (runStateOut prog rf n).IQUEUE = [] ∧
      (runStateOut prog rf n).CURINS = (runStateOut prog rf n).PROGSIZE ∧
      (∀ r ∈ (runStateOut prog rf n).ADDRS, r.busy = false) ∧
      (∀ r ∈ (runStateOut prog rf n).MULRS, r.busy = false) ∧
      (∀ e ∈ (runStateOut prog rf n).RAT, e = EMPTY) ∧
      (runStateOut prog rf n).RF = seqExec rf prog := by
  have hregs : ∀ ins ∈ prog, ins.regsOk := fun i hi => (hprog i hi).2
  obtain ⟨K, hK⟩ := eventually_idle prog rf hrf hprog
  refine ⟨K, fun n hn => ?_⟩
  have hidle := Idle_run prog rf K hK n hn
  obtain ⟨m, pos, g, hm⟩ := Ghost_run prog rf hrf hregs n
  have hwf := (ReachableOut.inv (runStateOut_reachable prog rf hrf hregs n)).wf
  obtain ⟨hrat, hRF⟩ := Idle_result hwf hrf g hm hidle
  rw [(run_queue prog rf n).2.1] at hRF
  exact ⟨hidle.1, hidle.2.1, fun r hr => hidle.2.2 r (List.mem_append_left _ hr),
    fun r hr => hidle.2.2 r (List.mem_append_right _ hr), hrat, hRF⟩

/-! ## no dangling tags -/

/-- Over the returning semantics: No dangling tags.  In every reachable state `s`: (1) every RAT entry
that is not `EMPTY` is a tag `t` with `0 <= t < ADDCOUNT + MULCOUNT = 5` of a
station that is busy; (2) for every busy station with tag `u`, each of `Qj`,
`Qk` that is not `EMPTY` is a tag `t` with `0 <= t < 5`, `t != u`, of a station
that is busy (its result has not been broadcast: broadcasting is what frees a
station); (3) the producers do broadcast: when `s` is the state at the start of
cycle `n` of the run of a program with opcodes in `{ADD, SUB, MUL, DIV}`, there
is a cycle `K >= n` at whose start every station is free. -/
theorem tagsLive_out (s : State) (h : ReachableOut s) :
    (∀ (k : Nat) (e : Int), s.RAT[k]? = some e → e ≠ EMPTY →
      ∃ (t : Nat) (p : RSE), e = (t : Int) ∧ t < ADDCOUNT + MULCOUNT ∧
        s.stations[t]? = some p ∧ p.busy = true) ∧
    (∀ (u : Nat) (r : RSE), s.stations[u]? = some r → r.busy = true →
      (r.Qj ≠ EMPTY → ∃ (t : Nat) (p : RSE), r.Qj = (t : Int) ∧ t < ADDCOUNT + MULCOUNT ∧
        t ≠ u ∧ s.stations[t]? = some p ∧ p.busy = true) ∧
      (r.Qk ≠ EMPTY → ∃ (t : Nat) (p : RSE), r.Qk = (t : Int) ∧ t < ADDCOUNT + MULCOUNT ∧
        t ≠ u ∧ s.stations[t]? = some p ∧ p.busy = true)) ∧
    (∀ (prog : List INS) (rf : List Int) (n : Nat), rf.length = REGCOUNT →
      (∀ ins ∈ prog, ins.opOk ∧ ins.regsOk) → s = runStateOut prog rf n →
      ∃ K : Nat, n ≤ K ∧ ∀ r ∈ (runStateOut prog rf K).stations, r.busy = false) := by
  obtain ⟨rf0, m, pos, g, -⟩ := h.ghost
  have hlen := stations_length s h.inv.wf
  have hlt : ∀ (t : Nat) (p : RSE), s.stations[t]? = some p → t < ADDCOUNT + MULCOUNT := by
    intro t p ht
    have := (List.getElem?_eq_some.mp ht).1
    omega
  refine ⟨?_, ?_, ?_⟩
  · intro k e hk he
    obtain ⟨t, p, e1, ht, hb, -⟩ := (g.rat k e hk).2 he
    exact ⟨t, p, e1, hlt t p ht, ht, hb⟩
  · intro u r hu hb
    have hs := g.st u r hu hb
    constructor
    · intro hq
      obtain ⟨t, p, e1, ht, hb', hpos, -⟩ := hs.j.2 hq
      exact ⟨t, p, e1, hlt t p ht, fun e => by rw [e] at hpos; omega, ht, hb'⟩
    · intro hq
      obtain ⟨t, p, e1, ht, hb', hpos, -⟩ := hs.k.2 hq
      exact ⟨t, p, e1, hlt t p ht, fun e => by rw [e] at hpos; omega, ht, hb'⟩
  · intro prog rf n hrf hprog _
    obtain ⟨K, hK⟩ := eventually_idle prog rf hrf hprog
    exact ⟨max n K, Nat.le_max_left _ _,
      (Idle_run prog rf K hK (max n K) (Nat.le_max_right _ _)).2.2⟩

/-! ## The source functions and their returning semantics -/

theorem wrap32_range (x : Int) : INT_MIN ≤ wrap32 x ∧ wrap32 x ≤ INT_MAX := by
  unfold wrap32
  have h1 := Int.emod_nonneg (x + 2147483648) (show (4294967296 : Int) ≠ 0 by decide)
  have h2 := Int.emod_lt_of_pos (x + 2147483648) (show (0 : Int) < 4294967296 by decide)
  have a : INT_MIN = -2147483648 := rfl
  have b : INT_MAX = 2147483647 := rfl
  omega

theorem wrap32_of_range {x : Int} (h1 : INT_MIN ≤ x) (h2 : x ≤ INT_MAX) : wrap32 x = x := by
  unfold wrap32
  have a : INT_MIN = -2147483648 := rfl
  have b : INT_MAX = 2147483647 := rfl
  omega

/-- On 32-bit operands every result `doOp` returns is a 32-bit value. -/
theorem doOp_range {r r' : RSE} (h : r.doOp = some r')
    (hj : INT_MIN ≤ r.Vj ∧ r.Vj ≤ INT_MAX) (hk : INT_MIN ≤ r.Vk ∧ r.Vk ≤ INT_MAX) :
    INT_MIN ≤ r'.result ∧ r'.result ≤ INT_MAX := by
  have a : INT_MIN = -2147483648 := rfl
  have b : INT_MAX = 2147483647 := rfl
  unfold RSE.doOp at h
  split_ifs at h with h1 h2 h3 h4 h5
  · rw [← Option.some.inj h]; exact wrap32_range _
  · rw [← Option.some.inj h]; exact wrap32_range _
  · rw [← Option.some.inj h]; exact wrap32_range _
  · rw [← Option.some.inj h]
    show INT_MIN ≤ Int.tdiv r.Vj r.Vk ∧ Int.tdiv r.Vj r.Vk ≤ INT_MAX
    have hk0 : r.Vk ≠ 0 := fun h0 => h5 (Or.inl h0)
    have hm : ¬ (r.Vj = INT_MIN ∧ r.Vk = -1) := fun hh => h5 (Or.inr hh)
    have hn : (Int.tdiv r.Vj r.Vk).natAbs = r.Vj.natAbs / r.Vk.natAbs := Int.natAbs_tdiv _ _
    have hle : r.Vj.natAbs / r.Vk.natAbs ≤ r.Vj.natAbs := Nat.div_le_self _ _
    by_cases hjm : r.Vj = INT_MIN
    · by_cases hk1 : r.Vk = 1
      · rw [hk1, Int.tdiv_one]; omega
      · have hk2 : 2 ≤ r.Vk.natAbs := by omega
        have : r.Vj.natAbs / r.Vk.natAbs ≤ r.Vj.natAbs / 2 :=
          Nat.div_le_div_left hk2 (by decide)
        have hja : r.Vj.natAbs = 2147483648 := by rw [hjm]; rfl
        rw [hja] at this hn
        omega
    · have hja : r.Vj.natAbs ≤ 2147483647 := by omega
      omega
  · rw [← Option.some.inj h]
    show INT_MIN ≤ (-1 : Int) ∧ (-1 : Int) ≤ INT_MAX
    decide

theorem doOp_eq_none {r : RSE} :
    r.doOp = none ↔ r.op = DIV ∧ (r.Vk = 0 ∨ (r.Vj = INT_MIN ∧ r.Vk = -1)) := by
  unfold RSE.doOp
  constructor
  · intro h
    split_ifs at h with h1 h2 h3 h4 h5
    exact ⟨h4, h5⟩
  · rintro ⟨h1, h2⟩
    have a : ¬ r.op = ADD := by rw [h1]; decide
    have b : ¬ r.op = SUB := by rw [h1]; decide
    have c : ¬ r.op = MUL := by rw [h1]; decide
    rw [if_neg a, if_neg b, if_neg c, if_pos h1, if_pos h2]

theorem doOp_eq_some {r r' : RSE} (h : r.doOp = some r') : r' = r.computed := by
  unfold RSE.computed
  rw [h]
  rfl

theorem doOp_of_ne_none {r : RSE} (h : r.doOp ≠ none) : r.doOp = some r.computed := by
  cases hd : r.doOp with
  | none => exact absurd hd h
  | some r' => rw [doOp_eq_some hd]

theorem trapsAt_eq_true {i : Nat} {pool : List RSE} :
    trapsAt i pool = true ↔ ∃ r, pool[i]? = some r ∧ r.doOp = none := by
  unfold trapsAt
  cases h : pool[i]? with
  | none => simp
  | some r => simp [Option.isNone_iff_eq_none]

theorem trapsAt_eq_false {i : Nat} {pool : List RSE} :
    trapsAt i pool = false ↔ ∀ r, pool[i]? = some r → r.doOp = some r.computed := by
  constructor
  · intro h r hr
    apply doOp_of_ne_none
    intro hn
    have := trapsAt_eq_true.mpr ⟨r, hr, hn⟩
    rw [h] at this
    cases this
  · intro h
    cases ht : trapsAt i pool with
    | false => rfl
    | true =>
      obtain ⟨r, hr, hn⟩ := trapsAt_eq_true.mp ht
      rw [h r hr] at hn
      cases hn

theorem modifyAtM_doOp (i : Nat) (pool : List RSE) :
    modifyAtM RSE.doOp i pool =
      if trapsAt i pool = true then none else some (modifyAt RSE.computed i pool) := by
  induction pool generalizing i with
  | nil => simp [modifyAtM, modifyAt, trapsAt]
  | cons a rest ih =>
    cases i with
    | zero =>
      cases hd : a.doOp with
      | none => simp [modifyAtM, trapsAt, hd]
      | some a' => simp [modifyAtM, modifyAt, trapsAt, hd, doOp_eq_some hd]
    | succ n =>
      have ht : trapsAt (n + 1) (a :: rest) = trapsAt n rest := by simp [trapsAt]
      rw [modifyAtM, ih n, ht]
      by_cases h : trapsAt n rest = true
      · simp [h]
      · simp [h, modifyAt]

theorem broadcastMulAt_eq (i : Nat) (s : State) :
    broadcastMulAt i s =
      if trapsAt i s.MULRS = true then none else some (broadcastMulAtOut i s) := by
  unfold broadcastMulAt
  rw [modifyAtM_doOp]
  by_cases h : trapsAt i s.MULRS = true
  · simp [h]
  · simp only [h]
    rfl

theorem broadcastAddAt_eq (i : Nat) (s : State) :
    broadcastAddAt i s =
      if trapsAt i s.ADDRS = true then none else some (broadcastAddAtOut i s) := by
  unfold broadcastAddAt
  rw [modifyAtM_doOp]
  by_cases h : trapsAt i s.ADDRS = true
  · simp [h]
  · simp only [h]
    rfl

theorem broadcastMul_eq (s : State) :
    broadcastMul s = if mulTraps s = true then none else some (broadcastMulOut s) := by
  unfold broadcastMul mulTraps broadcastMulOut
  cases h : firstIdx (due s.CYCLE) s.MULRS with
  | none => simp
  | some i => simp only [broadcastMulAt_eq]

theorem broadcastAdd_eq (s : State) :
    broadcastAdd s = if addTraps s = true then none else some (broadcastAddOut s) := by
  unfold broadcastAdd addTraps broadcastAddOut
  cases h : firstIdx (due s.CYCLE) s.ADDRS with
  | none => simp
  | some i => simp only [broadcastAddAt_eq]

theorem broadcast_eq (s : State) :
    broadcast s =
      if (mulTraps s || addTraps (broadcastMulOut s)) = true then none
      else some (broadcastOut s) := by
  unfold broadcast
  rw [broadcastMul_eq]
  by_cases h : mulTraps s = true
  · simp [h]
  · simp only [h, Bool.false_or, broadcastAdd_eq]
    rfl

theorem ExecCycle_eq (s : State) :
    ExecCycle s = if cycleTraps s = true then none else some (ExecCycleOut s) := by
  unfold ExecCycle cycleTraps
  have : fillIQ (issue (dispatch s)) = preBroadcast s := rfl
  rw [this, broadcast_eq]
  by_cases h : (mulTraps (preBroadcast s) ||
      addTraps (broadcastMulOut (preBroadcast s))) = true
  · simp [h]
  · simp only [h]
    rfl

/-- What a source function returns is what its returning semantics gives. -/
theorem broadcastMul_eq_some {s s' : State} (h : broadcastMul s = some s') :
    s' = broadcastMulOut s ∧ mulTraps s = false := by
  rw [broadcastMul_eq] at h
  by_cases ht : mulTraps s = true
  · simp [ht] at h
  · simp only [ht] at h
    exact ⟨(Option.some.inj h).symm, by simpa using ht⟩

theorem broadcast_eq_some {s s' : State} (h : broadcast s = some s') :
    s' = broadcastOut s ∧ broadcastMul s = some (broadcastMulOut s) ∧
      mulTraps s = false ∧ addTraps (broadcastMulOut s) = false := by
  rw [broadcast_eq] at h
  by_cases ht : (mulTraps s || addTraps (broadcastMulOut s)) = true
  · simp [ht] at h
  · simp only [ht] at h
    have ht' : mulTraps s = false ∧ addTraps (broadcastMulOut s) = false := by
      simpa using ht
    refine ⟨(Option.some.inj h).symm, ?_, ht'.1, ht'.2⟩
    rw [broadcastMul_eq, ht'.1]
    rfl

theorem ExecCycle_eq_some {s s' : State} (h : ExecCycle s = some s') :
    s' = ExecCycleOut s ∧ broadcast (preBroadcast s) = some (broadcastOut (preBroadcast s)) ∧
      cycleTraps s = false := by
  rw [ExecCycle_eq] at h
  by_cases ht : cycleTraps s = true
  · simp [ht] at h
  · simp only [ht] at h
    have ht' : cycleTraps s = false := by simpa using ht
    refine ⟨(Option.some.inj h).symm, ?_, ht'⟩
    rw [broadcast_eq]
    unfold cycleTraps at ht'
    rw [ht']
    rfl

theorem ExecCycle_of_not_traps {s : State} (h : cycleTraps s = false) :
    ExecCycle s = some (ExecCycleOut s) := by
  rw [ExecCycle_eq, h]
  rfl

theorem ExecCycle_eq_none {s : State} : ExecCycle s = none ↔ cycleTraps s = true := by
  rw [ExecCycle_eq]
  by_cases h : cycleTraps s = true <;> simp [h]

/-! ## Runs -/

theorem runState_eq_some (prog : List INS) (rf : List Int) :
    ∀ (n : Nat) (s : State), runState prog rf n = some s →
      s = runStateOut prog rf n ∧
      ∀ k : Nat, k ≤ n → runState prog rf k = some (runStateOut prog rf k) := by
  intro n
  induction n with
  | zero =>
    intro s h
    have hs : s = initState prog rf := (Option.some.inj h).symm
    refine ⟨hs, fun k hk => ?_⟩
    have : k = 0 := by omega
    rw [this]
    rfl
  | succ n ih =>
    intro s h
    rw [runState] at h
    cases hn : runState prog rf n with
    | none => rw [hn] at h; cases h
    | some t =>
      rw [hn] at h
      obtain ⟨ht, hk⟩ := ih t hn
      have hs : s = runStateOut prog rf (n + 1) := by
        rw [(ExecCycle_eq_some h).1, ht]
        rfl
      refine ⟨hs, fun k hk' => ?_⟩
      by_cases hkn : k = n + 1
      · rw [hkn, runState, hn, h, hs]
      · exact hk k (by omega)

theorem runState_succ {prog : List INS} {rf : List Int} {n : Nat} {s : State}
    (h : runState prog rf n = some s) : runState prog rf (n + 1) = ExecCycle s := by
  rw [runState, h]

theorem runState_none_mono (prog : List INS) (rf : List Int) (n : Nat)
    (h : runState prog rf n = none) : ∀ m : Nat, n ≤ m → runState prog rf m = none := by
  intro m hm
  induction m with
  | zero =>
    have : n = 0 := by omega
    rw [this] at h
    exact h
  | succ m ih =>
    by_cases hn : n = m + 1
    · rw [← hn]; exact h
    · rw [runState, ih (by omega)]

/-- A run that never traps in its first `n` cycles is the returning run. -/
theorem runState_of_not_traps (prog : List INS) (rf : List Int) (n : Nat)
    (h : ∀ k : Nat, k < n → cycleTraps (runStateOut prog rf k) = false) :
    runState prog rf n = some (runStateOut prog rf n) := by
  induction n with
  | zero => rfl
  | succ n ih =>
    rw [runState, ih (fun k hk => h k (by omega))]
    show ExecCycle (runStateOut prog rf n) = _
    rw [ExecCycle_of_not_traps (h n (by omega))]
    rfl

theorem Reachable.out {s : State} (h : Reachable s) : ReachableOut s := by
  induction h with
  | init prog rf hrf hprog => exact ReachableOut.init prog rf hrf hprog
  | step _ hstep ih =>
    rw [(ExecCycle_eq_some hstep).1]
    exact ReachableOut.step ih

theorem runState_reach (prog : List INS) (rf : List Int) (hrf : rf.length = REGCOUNT)
    (hprog : ∀ ins ∈ prog, ins.regsOk) :
    ∀ (n : Nat) (s : State), runState prog rf n = some s → Reachable s := by
  intro n
  induction n with
  | zero =>
    intro s h
    rw [← Option.some.inj h]
    exact Reachable.init prog rf hrf hprog
  | succ n ih =>
    intro s h
    rw [runState] at h
    cases hn : runState prog rf n with
    | none => rw [hn] at h; cases h
    | some t =>
      rw [hn] at h
      exact Reachable.step (ih t hn) h

theorem Reachable.exists_runState {s : State} (h : Reachable s) :
    ∃ (prog : List INS) (rf : List Int) (n : Nat), rf.length = REGCOUNT ∧
      (∀ ins ∈ prog, ins.regsOk) ∧ runState prog rf n = some s := by
  induction h with
  | init prog rf hrf hprog => exact ⟨prog, rf, 0, hrf, hprog, rfl⟩
  | step _ hstep ih =>
    obtain ⟨prog, rf, n, hrf, hprog, hrun⟩ := ih
    exact ⟨prog, rf, n + 1, hrf, hprog, by rw [runState, hrun]; exact hstep⟩

theorem issuedLog_eq (prog : List INS) (rf : List Int) :
    ∀ (n : Nat) (s : State), runState prog rf n = some s →
      issuedLog prog rf n = issuedLogOut prog rf n := by
  intro n
  induction n with
  | zero => intro s _; rfl
  | succ n ih =>
    intro s h
    have hk := (runState_eq_some prog rf (n + 1) s h).2 n (by omega)
    rw [issuedLog, issuedLogOut, ih _ hk, hk]

/-! ## Which station the broadcast phase selects, and whether it returns -/

theorem trapsAt_of_get {i : Nat} {pool : List RSE} {r : RSE} (h : pool[i]? = some r) :
    trapsAt i pool = r.doOp.isNone := by
  unfold trapsAt
  rw [h]

theorem isNone_eq_true_iff {r : RSE} : r.doOp.isNone = true ↔ r.doOp = none :=
  Option.isNone_iff_eq_none

/-- The broadcast phase in a state satisfying the timing invariant.  Either the
first loop selects a multiplication station `r` (then no addition station is
due when the second loop runs), or no multiplication station is due and the
second loop selects an addition station `r`, or nothing is due.  The phase
returns a state unless the `doOp` of the selected station traps. -/
theorem broadcast_select (s : State) (h : PhaseInv s) :
    (∃ (i : Nat) (r : RSE), firstIdx (due s.CYCLE) s.MULRS = some i ∧ s.MULRS[i]? = some r ∧
        due s.CYCLE r = true ∧ broadcastOut s = broadcastMulAtOut i s ∧
        broadcastMulOut s = broadcastMulAtOut i s ∧
        firstIdx (due s.CYCLE) (broadcastMulOut s).ADDRS = none ∧
        broadcastMul s = (if r.doOp = none then none else some (broadcastMulOut s)) ∧
        broadcast s = (if r.doOp = none then none else some (broadcastOut s))) ∨
    (firstIdx (due s.CYCLE) s.MULRS = none ∧ broadcastMulOut s = s ∧ broadcastMul s = some s ∧
      ∃ (i : Nat) (r : RSE), firstIdx (due s.CYCLE) s.ADDRS = some i ∧ s.ADDRS[i]? = some r ∧
        due s.CYCLE r = true ∧ broadcastOut s = broadcastAddAtOut i s ∧
        broadcast s = (if r.doOp = none then none else some (broadcastOut s))) ∨
    (firstIdx (due s.CYCLE) s.MULRS = none ∧ firstIdx (due s.CYCLE) s.ADDRS = none ∧
      broadcastMulOut s = s ∧ broadcastMul s = some s ∧
      broadcastOut s = s ∧ broadcast s = some s) := by
  rcases broadcast_cases s h with ⟨i, r, hi, hr, hd, -, hb⟩ | ⟨hn, i, r, ha, hr, hd, -, hb⟩ |
    ⟨hn, ha, hb⟩
  · left
    have hmo : broadcastMulOut s = broadcastMulAtOut i s := by
      unfold broadcastMulOut
      rw [hi]
    have hnone : firstIdx (due s.CYCLE) (broadcastMulOut s).ADDRS = none := by
      rw [hmo, broadcastMulAtOut_eq]
      exact no_due_losePool _ _ _ _ h.add
    have hmt : mulTraps s = r.doOp.isNone := by
      unfold mulTraps
      rw [hi]
      exact trapsAt_of_get hr
    have hat : addTraps (broadcastMulOut s) = false := by
      unfold addTraps
      rw [broadcastMul_CYCLE, hnone]
    refine ⟨i, r, hi, hr, hd, hb, hmo, hnone, ?_, ?_⟩
    · rw [broadcastMul_eq, hmt]
      cases hdo : r.doOp <;> simp
    · rw [broadcast_eq, hmt, hat]
      cases hdo : r.doOp <;> simp
  · right; left
    have hmo : broadcastMulOut s = s := by
      unfold broadcastMulOut
      rw [hn]
    have hmt : mulTraps s = false := by
      unfold mulTraps
      rw [hn]
    have hat : addTraps (broadcastMulOut s) = r.doOp.isNone := by
      rw [hmo]
      unfold addTraps
      rw [ha]
      exact trapsAt_of_get hr
    refine ⟨hn, hmo, by rw [broadcastMul_eq, hmt, hmo]; rfl, i, r, ha, hr, hd, hb, ?_⟩
    rw [broadcast_eq, hmt, hat]
    cases hdo : r.doOp <;> simp
  · right; right
    have hmo : broadcastMulOut s = s := by
      unfold broadcastMulOut
      rw [hn]
    have hmt : mulTraps s = false := by
      unfold mulTraps
      rw [hn]
    have hat : addTraps (broadcastMulOut s) = false := by
      rw [hmo]
      unfold addTraps
      rw [ha]
    refine ⟨hn, ha, hmo, by rw [broadcastMul_eq, hmt, hmo]; rfl, hb, ?_⟩
    rw [broadcast_eq, hmt, hat, hb]
    rfl

/-! ## The run of `collisionProg` -/

theorem collisionState_run : runState collisionProg rf34 13 = some collisionState := by
  decide

theorem collisionState_reach : Reachable collisionState :=
  runState_reach collisionProg rf34 rfl (by decide) 13 collisionState collisionState_run

theorem collisionState_phase :
    broadcast (preBroadcast collisionState) =
      some (broadcastOut (preBroadcast collisionState)) := by
  decide

/-! ## Stations the broadcast phase does not select -/

/-- In a state satisfying the timing invariant, a station that neither loop
of `broadcast` selects is deferred. -/
theorem not_selected_deferred (s : State) (h : PhaseInv s) (t : Nat) (r : RSE)
    (ht : s.stations[t]? = some r)
    (hns : ¬ ((∃ i, t = i + ADDCOUNT ∧ firstIdx (due s.CYCLE) s.MULRS = some i) ∨
      (firstIdx (due s.CYCLE) s.MULRS = none ∧ firstIdx (due s.CYCLE) s.ADDRS = some t))) :
    ∃ q, (broadcastOut s).stations[t]? = some q ∧ Deferred s.CYCLE r q := by
  obtain ⟨wa, wm, hwm, hwa1, hwa2, hA, hM, l1, -, -, -⟩ := broadcast_stations s h
  have hlen : s.ADDRS.length = ADDCOUNT := h.wf.2.2.1
  have hlen' : (broadcastOut s).ADDRS.length = ADDCOUNT := by rw [l1, hlen]
  rw [stations_getElem? s hlen] at ht
  rw [stations_getElem? _ hlen']
  by_cases hlt : t < ADDCOUNT
  · rw [if_pos hlt] at ht ⊢
    obtain ⟨q, hq, -, hdef⟩ := hA t r ht
    refine ⟨q, hq, hdef ?_⟩
    intro hwa
    apply hns
    right
    cases hm : wm with
    | none =>
      rw [hm] at hwm
      refine ⟨hwm.symm, ?_⟩
      rw [← hwa1 hm, hwa]
    | some i =>
      have := hwa2 (by rw [hm]; simp)
      rw [this] at hwa
      cases hwa
  · rw [if_neg hlt] at ht ⊢
    obtain ⟨q, hq, -, hdef⟩ := hM (t - ADDCOUNT) r ht
    refine ⟨q, hq, hdef ?_⟩
    intro hwm'
    apply hns
    left
    exact ⟨t - ADDCOUNT, by omega, by rw [← hwm, hwm']⟩

/-- In a state satisfying the timing invariant the second loop of `broadcast`
selects station `t` exactly when no multiplication station is due and `t` is
the first due addition station. -/
theorem second_loop_selects (s : State) (h : PhaseInv s) (t : Nat) :
    firstIdx (due s.CYCLE) (broadcastMulOut s).ADDRS = some t ↔
      (firstIdx (due s.CYCLE) s.MULRS = none ∧ firstIdx (due s.CYCLE) s.ADDRS = some t) := by
  rcases broadcast_select s h with ⟨i, r, hi, -, -, -, -, hnone, -⟩ |
    ⟨hn, hmo, -⟩ | ⟨hn, ha, hmo, -⟩
  · rw [hnone, hi]
    constructor
    · intro h; cases h
    · rintro ⟨h, -⟩; cases h
  · rw [hmo]
    exact ⟨fun h => ⟨hn, h⟩, fun h => h.2⟩
  · rw [hmo]
    exact ⟨fun h => ⟨hn, h⟩, fun h => h.2⟩

/-! ## C8: contenders are deferred, never dropped -/

/-- C8. In every reachable state `s` (start of cycle `C = s.CYCLE`) whose
broadcast phase returns a state `s'`: every station (any tag `t`, either pool)
that is busy, dispatched and has `bcast == C` at the start of the phase and is
not the station a loop of `broadcast` selects (the first loop selects the
lowest-index due multiplication station, the second the lowest-index due
addition station of the state the first loop returns) is, in `s'`, still busy
and dispatched, with the same opcode and `discno`, and `bcast == C + 1`.
Consequently every busy dispatched station of a reachable state has
`bcast >= CYCLE`. -/
theorem contenders_deferred (s : State) (hs : Reachable s) :
    (∀ (s' : State), broadcast (preBroadcast s) = some s' →
      ∀ (t : Nat) (r : RSE), (preBroadcast s).stations[t]? = some r →
        r.busy = true → r.disp = true → r.bcast = s.CYCLE →
        ¬ (∃ i, t = i + ADDCOUNT ∧ firstIdx (due s.CYCLE) (preBroadcast s).MULRS = some i) →
        ¬ (∃ s1, broadcastMul (preBroadcast s) = some s1 ∧
            firstIdx (due s.CYCLE) s1.ADDRS = some t) →
        ∃ q, s'.stations[t]? = some q ∧ q.busy = true ∧ q.disp = true ∧
          q.bcast = s.CYCLE + 1 ∧ q.op = r.op ∧ q.discno = r.discno) ∧
    (∀ r ∈ s.stations, r.busy = true → r.disp = true → s.CYCLE ≤ r.bcast) := by
  have h0 := PhaseInv_preBroadcast hs.out.inv
  have hc : (preBroadcast s).CYCLE = s.CYCLE := preBroadcast_CYCLE s
  refine ⟨?_, (dueDeferred_out s hs.out).2⟩
  intro s' hb t r hr hbusy hdisp hbc hn1 hn2
  obtain ⟨hs', hm, -, -⟩ := broadcast_eq_some hb
  have hns : ¬ ((∃ i, t = i + ADDCOUNT ∧
        firstIdx (due (preBroadcast s).CYCLE) (preBroadcast s).MULRS = some i) ∨
      (firstIdx (due (preBroadcast s).CYCLE) (preBroadcast s).MULRS = none ∧
        firstIdx (due (preBroadcast s).CYCLE) (preBroadcast s).ADDRS = some t)) := by
    rw [hc]
    rintro (h | h)
    · exact hn1 h
    · apply hn2
      refine ⟨_, hm, ?_⟩
      have := (second_loop_selects _ h0 t).mpr (by rw [hc]; exact h)
      rw [hc] at this
      exact this
  obtain ⟨q, hq, d1, d2, d3, d4, -, d6⟩ := not_selected_deferred _ h0 t r hr hns
  rw [hc] at d6
  refine ⟨q, by rw [hs']; exact hq, by rw [d1, hbusy], by rw [d2, hdisp],
    d6 (due_eq_true.mpr ⟨hbusy, hdisp, hbc⟩), d3, d4⟩

/-- Witness for C8: in the reachable `collisionState` (cycle 13) the Add in
`ADDRS[0]` is due but the first loop selects `MULRS[0]`; the phase returns a
state in which `ADDRS[0]` is still busy and dispatched with `bcast = 14`. -/
theorem contenders_deferred_witness :
    Reachable collisionState ∧
    ∃ s' : State, broadcast (preBroadcast collisionState) = some s' ∧
      ∃ q, s'.stations[0]? = some q ∧
        q.busy = true ∧ q.disp = true ∧ q.bcast = collisionState.CYCLE + 1 ∧ q.op = 0 ∧
        q.discno = 11 := by
  have hn1 : ¬ (∃ i, 0 = i + ADDCOUNT ∧
      firstIdx (due collisionState.CYCLE) (preBroadcast collisionState).MULRS = some i) := by
    rintro ⟨i, hi, -⟩
    have : ADDCOUNT = 3 := rfl
    omega
  have hn2 : ¬ (∃ s1, broadcastMul (preBroadcast collisionState) = some s1 ∧
      firstIdx (due collisionState.CYCLE) s1.ADDRS = some 0) := by
    rintro ⟨s1, h1, h2⟩
    rw [(broadcastMul_eq_some h1).1] at h2
    exact absurd h2 (by decide)
  exact ⟨collisionState_reach, _, collisionState_phase,
    (contenders_deferred collisionState collisionState_reach).1 _ collisionState_phase 0
      { busy := true, op := 0, Vj := 13, Vk := 3, Qj := -1, Qk := -1, disp := true,
        discno := 11, bcast := 13, result := 7 }
      (by decide) rfl rfl rfl hn1 hn2⟩

/-- In the phase state of a reachable state, the station the broadcast phase
selects decides whether the phase returns. -/
theorem selected_returns (s : State) (hs : ReachableOut s) (t : Nat) (S : RSE)
    (hS : (preBroadcast s).stations[t]? = some S)
    (hsel : (∃ i, t = i + ADDCOUNT ∧
              firstIdx (due s.CYCLE) (preBroadcast s).MULRS = some i) ∨
            firstIdx (due s.CYCLE) (broadcastMulOut (preBroadcast s)).ADDRS = some t) :
    broadcast (preBroadcast s) =
      (if S.doOp = none then none else some (broadcastOut (preBroadcast s))) := by
  have h0 := PhaseInv_preBroadcast hs.inv
  have hc : (preBroadcast s).CYCLE = s.CYCLE := preBroadcast_CYCLE s
  have hlen : (preBroadcast s).ADDRS.length = ADDCOUNT := h0.wf.2.2.1
  rw [stations_getElem? _ hlen] at hS
  rcases broadcast_select _ h0 with ⟨i, r, hi, hr, -, -, -, hnone, -, hb⟩ |
    ⟨hn, hmo, -, i, r, ha, hr, -, -, hb⟩ | ⟨hn, ha, hmo, -⟩
  · rw [hc] at hi hnone
    rcases hsel with ⟨i', ht, hi'⟩ | hadd
    · rw [hi] at hi'
      have hii : i' = i := (Option.some.inj hi').symm
      rw [ht, hii, if_neg (by omega)] at hS
      have : r = S := by
        have e : i + ADDCOUNT - ADDCOUNT = i := by omega
        rw [e, hr] at hS
        exact Option.some.inj hS
      rw [← this]
      exact hb
    · rw [hnone] at hadd
      cases hadd
  · rw [hc] at hn ha
    rcases hsel with ⟨i', -, hi'⟩ | hadd
    · rw [hn] at hi'
      cases hi'
    · rw [hmo, ha] at hadd
      have hti : t = i := (Option.some.inj hadd).symm
      have hlt : i < ADDCOUNT := by have := firstIdx_lt ha; omega
      rw [hti, if_pos hlt, hr] at hS
      rw [← Option.some.inj hS]
      exact hb
  · rw [hc] at hn ha
    rcases hsel with ⟨i', -, hi'⟩ | hadd
    · rw [hn] at hi'
      cases hi'
    · rw [hmo, ha] at hadd
      cases hadd

/-! ## C5: capture completeness -/

/-- C5. Capture completeness.  Let `s` be reachable, `C = s.CYCLE`, and let the
broadcast phase of the cycle select station `S` with tag `t`: either the first
loop of `broadcast` selects multiplication station `i` (`t = i + 3`), or its
second loop selects addition station `t`.  Then `S` was busy, dispatched and
due.  `S.doOp()` traps exactly when `S` is a `Div` with `Vk = 0` or with
`Vj = INT_MIN`, `Vk = -1`, and then the phase returns no state.  Otherwise `S`
broadcasts: its result `r` is `Vj + Vk`, `Vj - Vk`, `Vj * Vk` in 32-bit `int`
arithmetic or (with `Vk != 0`) `Vj / Vk` truncated toward zero, according to
its opcode, the phase returns a state, and in it
(1) every station whose `Qj` (resp. `Qk`) was `t` has `Vj` (resp. `Vk`) `= r`
    and that tag `EMPTY`;
(2) every register whose RAT entry was `t` has `RF = r` and `RAT = EMPTY`;
(3) no station has `Qj == t` or `Qk == t` and no RAT entry equals `t`. -/
theorem capture_complete (s : State) (hs : Reachable s) (t : Nat) (S : RSE)
    (hS : (preBroadcast s).stations[t]? = some S)
    (hsel : (∃ i, t = i + ADDCOUNT ∧
              firstIdx (due s.CYCLE) (preBroadcast s).MULRS = some i) ∨
            (∃ s1, broadcastMul (preBroadcast s) = some s1 ∧
              firstIdx (due s.CYCLE) s1.ADDRS = some t)) :
    (S.busy = true ∧ S.disp = true ∧ S.bcast = s.CYCLE) ∧
    (S.doOp = none ↔ S.op = DIV ∧ (S.Vk = 0 ∨ (S.Vj = INT_MIN ∧ S.Vk = -1))) ∧
    (S.doOp = none → broadcast (preBroadcast s) = none) ∧
    ∀ S' : RSE, S.doOp = some S' →
      ((S.op = ADD ∧ S'.result = wrap32 (S.Vj + S.Vk)) ∨
        (S.op = SUB ∧ S'.result = wrap32 (S.Vj - S.Vk)) ∨
        (S.op = MUL ∧ S'.result = wrap32 (S.Vj * S.Vk)) ∨
        (S.op = DIV ∧ S.Vk ≠ 0 ∧ S'.result = Int.tdiv S.Vj S.Vk)) ∧
      ∃ s' : State, broadcast (preBroadcast s) = some s' ∧
        (∀ (j : Nat) (q : RSE), (preBroadcast s).stations[j]? = some q →
          ∃ q', s'.stations[j]? = some q' ∧
            (q.Qj = (t : Int) → q'.Vj = S'.result ∧ q'.Qj = EMPTY) ∧
            (q.Qk = (t : Int) → q'.Vk = S'.result ∧ q'.Qk = EMPTY)) ∧
        (∀ k : Nat, (preBroadcast s).RAT[k]? = some (t : Int) →
          s'.RF[k]? = some S'.result ∧ s'.RAT[k]? = some EMPTY) ∧
        (∀ q' ∈ s'.stations, q'.Qj ≠ (t : Int) ∧ q'.Qk ≠ (t : Int)) ∧
        (∀ x ∈ s'.RAT, x ≠ (t : Int)) := by
  have hsel' : (∃ i, t = i + ADDCOUNT ∧
        firstIdx (due s.CYCLE) (preBroadcast s).MULRS = some i) ∨
      firstIdx (due s.CYCLE) (broadcastMulOut (preBroadcast s)).ADDRS = some t := by
    rcases hsel with h | ⟨s1, h1, h2⟩
    · exact Or.inl h
    · rw [(broadcastMul_eq_some h1).1] at h2
      exact Or.inr h2
  obtain ⟨o1, o2, o3, o4, o5, o6⟩ := captureAll_out s hs.out t S hS hsel'
  have hB := selected_returns s hs.out t S hS hsel'
  refine ⟨o1, doOp_eq_none, fun hn => by rw [hB, if_pos hn], ?_⟩
  intro S' hS'
  have hc := doOp_eq_some hS'
  have hne : S.doOp ≠ none := by rw [hS']; exact fun h => by cases h
  rw [hc]
  refine ⟨?_, broadcastOut (preBroadcast s), by rw [hB, if_neg hne], o3, o4, o5, o6⟩
  rcases o2 with h | h | h | ⟨hd, hv⟩
  · exact Or.inl h
  · exact Or.inr (Or.inl h)
  · exact Or.inr (Or.inr (Or.inl h))
  · have hvk : S.Vk ≠ 0 := fun h0 => hne (doOp_eq_none.mpr ⟨hd, Or.inl h0⟩)
    exact Or.inr (Or.inr (Or.inr ⟨hd, hvk, hv hvk⟩))

/-- Witness for C5: in the reachable `collisionState` the first loop selects
`MULRS[0]` (tag 3, `3 * 4 = 12`); `RAT[3]` named tag 3, and the phase returns a
state with `RF[3] = 12`, `RAT[3] = EMPTY`. -/
theorem capture_complete_witness :
    (Reachable collisionState ∧
      firstIdx (due collisionState.CYCLE) (preBroadcast collisionState).MULRS = some 0 ∧
      (preBroadcast collisionState).RAT[3]? = some 3) ∧
    ∃ s' : State, broadcast (preBroadcast collisionState) = some s' ∧
      s'.RF[3]? = some 12 ∧ s'.RAT[3]? = some EMPTY := by
  have hr : Reachable collisionState := collisionState_reach
  have hsel : firstIdx (due collisionState.CYCLE) (preBroadcast collisionState).MULRS =
      some 0 := by decide
  have hrat : (preBroadcast collisionState).RAT[3]? = some 3 := by decide
  refine ⟨⟨hr, hsel, hrat⟩, ?_⟩
  obtain ⟨-, s', hb, -, h2, -⟩ :=
    (capture_complete collisionState hr 3
      { busy := true, op := 2, Vj := 3, Vk := 4, Qj := -1, Qk := -1, disp := true,
        discno := 3, bcast := 13, result := 0 }
      (by decide) (Or.inl ⟨0, rfl, hsel⟩)).2.2.2
      { busy := true, op := 2, Vj := 3, Vk := 4, Qj := -1, Qk := -1, disp := true,
        discno := 3, bcast := 13, result := 12 } (by decide)
  exact ⟨s', hb, h2 3 hrat⟩

/-! ## C6: multiplicative results preempt additive ones -/

/-- C6. In every reachable state `s` (cycle `C = s.CYCLE`), if at the start of
the broadcast phase some multiplication station and some addition station are
both busy, dispatched and have `bcast == C`, then with `i` the lowest index of
such a multiplication station `S`: the phase is exactly the broadcast of
`MULRS[i]` (`broadcast = broadcastMulAt i`); it returns no state when
`S.doOp()` traps; otherwise it returns a state in which `MULRS[i]` is free, no
other multiplication station and no addition station has changed its `busy`
flag (none of them broadcasts), and every addition station that was due at `C`
is still busy and dispatched with `bcast == C + 1`.  In every reachable state
at most one station over both pools goes from busy to free in the broadcast
phase. -/
theorem mul_preempts_add (s : State) (hs : Reachable s) :
    ((∃ m ∈ (preBroadcast s).MULRS, m.busy = true ∧ m.disp = true ∧ m.bcast = s.CYCLE) →
      (∃ a ∈ (preBroadcast s).ADDRS, a.busy = true ∧ a.disp = true ∧ a.bcast = s.CYCLE) →
      ∃ (i : Nat) (S : RSE), (preBroadcast s).MULRS[i]? = some S ∧
        (S.busy = true ∧ S.disp = true ∧ S.bcast = s.CYCLE) ∧
        (∀ q ∈ (preBroadcast s).MULRS.take i,
          ¬ (q.busy = true ∧ q.disp = true ∧ q.bcast = s.CYCLE)) ∧
        broadcast (preBroadcast s) = broadcastMulAt i (preBroadcast s) ∧
        (S.doOp = none → broadcast (preBroadcast s) = none) ∧
        (S.doOp ≠ none → ∃ s' : State, broadcast (preBroadcast s) = some s' ∧
          (∃ S', s'.MULRS[i]? = some S' ∧ S'.busy = false) ∧
          (∀ (j : Nat) (r : RSE), j ≠ i → (preBroadcast s).MULRS[j]? = some r →
            ∃ q, s'.MULRS[j]? = some q ∧ q.busy = r.busy) ∧
          (∀ (j : Nat) (r : RSE), (preBroadcast s).ADDRS[j]? = some r →
            ∃ q, s'.ADDRS[j]? = some q ∧
              q.busy = r.busy ∧ q.disp = r.disp ∧
              (r.busy = true → r.disp = true → r.bcast = s.CYCLE →
                q.bcast = s.CYCLE + 1)))) ∧
    (∀ s' : State, broadcast (preBroadcast s) = some s' →
      ∀ (t1 t2 : Nat) (r1 q1 r2 q2 : RSE),
        (preBroadcast s).stations[t1]? = some r1 → s'.stations[t1]? = some q1 →
        r1.busy = true → q1.busy = false →
        (preBroadcast s).stations[t2]? = some r2 → s'.stations[t2]? = some q2 →
        r2.busy = true → q2.busy = false → t1 = t2) := by
  obtain ⟨o1, o2⟩ := mulFirst_out s hs.out
  have h0 := PhaseInv_preBroadcast hs.out.inv
  have hlen : (preBroadcast s).ADDRS.length = ADDCOUNT := h0.wf.2.2.1
  constructor
  · intro hm ha
    obtain ⟨i, S, hS, hdue, hlow, hbo, hfree, hmul, hadd⟩ := o1 hm ha
    have hfi : firstIdx (due s.CYCLE) (preBroadcast s).MULRS = some i :=
      firstIdx_of_least hS (due_eq_true.mpr hdue)
        (fun q hq => Bool.eq_false_iff.mpr (fun h => hlow q hq (due_eq_true.mp h)))
    have hSt : (preBroadcast s).stations[i + ADDCOUNT]? = some S := by
      rw [stations_getElem? _ hlen, if_neg (by omega)]
      simpa using hS
    have hB := selected_returns s hs.out (i + ADDCOUNT) S hSt (Or.inl ⟨i, rfl, hfi⟩)
    refine ⟨i, S, hS, hdue, hlow, ?_, fun hn => by rw [hB, if_pos hn], ?_⟩
    · rw [hB, broadcastMulAt_eq, trapsAt_of_get hS, hbo]
      cases hd : S.doOp <;> simp
    · intro hne
      exact ⟨_, by rw [hB, if_neg hne], hfree, hmul, hadd⟩
  · intro s' hb
    rw [(broadcast_eq_some hb).1]
    exact o2

/-- Witness for C6: in the reachable `collisionState` (cycle 13) `MULRS[0]` and
`ADDRS[0]` are both due; the phase is the broadcast of `MULRS[0]`, it returns,
and `ADDRS[0]` stays busy with `bcast = 14`. -/
theorem mul_preempts_add_witness :
    (Reachable collisionState ∧
      (∃ m ∈ (preBroadcast collisionState).MULRS,
        m.busy = true ∧ m.disp = true ∧ m.bcast = collisionState.CYCLE) ∧
      (∃ a ∈ (preBroadcast collisionState).ADDRS,
        a.busy = true ∧ a.disp = true ∧ a.bcast = collisionState.CYCLE)) ∧
    (∃ s' : State, broadcast (preBroadcast collisionState) = some s' ∧
      s'.ADDRS[0]?.map (fun r => (r.busy, r.bcast)) = some (true, 14)) ∧
    ∃ (i : Nat) (S : RSE), (preBroadcast collisionState).MULRS[i]? = some S ∧
      (S.busy = true ∧ S.disp = true ∧ S.bcast = collisionState.CYCLE) ∧
      broadcast (preBroadcast collisionState) = broadcastMulAt i (preBroadcast collisionState) := by
  have hm : ∃ m ∈ (preBroadcast collisionState).MULRS,
      m.busy = true ∧ m.disp = true ∧ m.bcast = collisionState.CYCLE := by decide
  have ha : ∃ a ∈ (preBroadcast collisionState).ADDRS,
      a.busy = true ∧ a.disp = true ∧ a.bcast = collisionState.CYCLE := by decide
  obtain ⟨i, S, h1, h2, -, h4, -⟩ :=
    (mul_preempts_add collisionState collisionState_reach).1 hm ha
  exact ⟨⟨collisionState_reach, hm, ha⟩, ⟨_, collisionState_phase, by decide⟩, i, S, h1, h2, h4⟩

/-! ## C7: the pools do not broadcast independently -/

/-- C7, counterexample.  `collisionState` is the state at the start of cycle 13
of the run of `collisionProg`; its `MULRS[0]` and `ADDRS[0]` are both busy,
dispatched and due (`bcast = 13 = CYCLE`).  The broadcast phase returns a state
in which only `MULRS[0]` has been freed: `ADDRS[0]` is still busy, with
`bcast = 14`, and its result has not been broadcast (`RAT[2]` still names
tag 0, `RF[2]` is still 0). -/
theorem pools_not_independent :
    runState collisionProg rf34 13 = some collisionState ∧
    preBroadcast collisionState = collisionState ∧
    collisionState.CYCLE = 13 ∧
    collisionState.MULRS[0]?.map (fun r => (r.busy, r.disp, r.bcast)) = some (true, true, 13) ∧
    collisionState.ADDRS[0]?.map (fun r => (r.busy, r.disp, r.bcast)) = some (true, true, 13) ∧
    ∃ s' : State, broadcast collisionState = some s' ∧
      s'.MULRS[0]?.map (fun r => r.busy) = some false ∧
      s'.ADDRS[0]?.map (fun r => (r.busy, r.disp, r.bcast)) = some (true, true, 14) ∧
      s'.RAT[2]? = some 0 ∧
      s'.RF[2]? = some 0 :=
  ⟨collisionState_run, by decide, by decide, by decide, by decide,
    broadcastOut collisionState, by decide, by decide, by decide, by decide, by decide⟩

/-- C7, amended.  For every state in which multiplication station `i` is the
lowest-index one that is busy, dispatched and due (`bcast == CYCLE`) and
addition station `j` is the lowest-index such addition station: the first
loop of `broadcast` is the broadcast of `MULRS[i]`, which returns no state
exactly when `MULRS[i].doOp()` traps; in the state it returns the second loop
does not select `ADDRS[j]`; and in every state the whole phase returns,
`MULRS[i]` is free and `ADDRS[j]` is still busy and dispatched, same opcode
and `discno`, with `bcast >= CYCLE + 1`. -/
theorem mul_broadcast_defers_add (s : State) (i j : Nat) (M A : RSE)
    (hM : s.MULRS[i]? = some M)
    (hMd : M.busy = true ∧ M.disp = true ∧ M.bcast = s.CYCLE)
    (hMlow : ∀ q ∈ s.MULRS.take i, ¬ (q.busy = true ∧ q.disp = true ∧ q.bcast = s.CYCLE))
    (hA : s.ADDRS[j]? = some A)
    (hAd : A.busy = true ∧ A.disp = true ∧ A.bcast = s.CYCLE)
    (hAlow : ∀ q ∈ s.ADDRS.take j, ¬ (q.busy = true ∧ q.disp = true ∧ q.bcast = s.CYCLE)) :
    broadcastMul s = broadcastMulAt i s ∧
    (broadcastMul s = none ↔ M.doOp = none) ∧
    (∀ s1 : State, broadcastMul s = some s1 → firstIdx (due s.CYCLE) s1.ADDRS ≠ some j) ∧
    (∀ s' : State, broadcast s = some s' →
      (∃ M', s'.MULRS[i]? = some M' ∧ M'.busy = false) ∧
      (∃ A', s'.ADDRS[j]? = some A' ∧ A'.busy = true ∧ A'.disp = true ∧
        A'.op = A.op ∧ A'.discno = A.discno ∧ s.CYCLE + 1 ≤ A'.bcast)) := by
  obtain ⟨-, o2, o3, o4⟩ := mulDefersAdd_out s i j M A hM hMd hMlow hA hAd hAlow
  have hfi : firstIdx (due s.CYCLE) s.MULRS = some i :=
    firstIdx_of_least hM (due_eq_true.mpr hMd)
      (fun q hq => Bool.eq_false_iff.mpr (fun h => hMlow q hq (due_eq_true.mp h)))
  have hmt : mulTraps s = M.doOp.isNone := by
    unfold mulTraps
    rw [hfi]
    exact trapsAt_of_get hM
  refine ⟨by unfold broadcastMul; rw [hfi], ?_, ?_, ?_⟩
  · rw [broadcastMul_eq, hmt]
    cases hd : M.doOp <;> simp
  · intro s1 h1
    rw [(broadcastMul_eq_some h1).1]
    exact o3
  · intro s' hb
    rw [(broadcast_eq_some hb).1]
    exact ⟨o2, o4⟩

/-- Witness for C7 (amended) at `collisionState`, `i = j = 0`. -/
theorem mul_broadcast_defers_add_witness :
    broadcastMul collisionState = broadcastMulAt 0 collisionState ∧
    ∃ s' : State, broadcast collisionState = some s' ∧
      (∃ M', s'.MULRS[0]? = some M' ∧ M'.busy = false) ∧
      (∃ A', s'.ADDRS[0]? = some A' ∧ A'.busy = true ∧
        A'.disp = true ∧ A'.op = 0 ∧ A'.discno = 11 ∧ collisionState.CYCLE + 1 ≤ A'.bcast) := by
  have h := mul_broadcast_defers_add collisionState 0 0
    { busy := true, op := 2, Vj := 3, Vk := 4, Qj := -1, Qk := -1, disp := true,
      discno := 3, bcast := 13, result := 0 }
    { busy := true, op := 0, Vj := 13, Vk := 3, Qj := -1, Qk := -1, disp := true,
      discno := 11, bcast := 13, result := 7 }
    rfl (by decide) (by decide) rfl (by decide) (by decide)
  have hb : broadcast collisionState = some (broadcastOut collisionState) := by decide
  exact ⟨h.1, _, hb, h.2.2.2 _ hb⟩

/-! ## C9: which stations a broadcast stalls -/

/-- C9, counterexample.  In the reachable `collisionState` (cycle 13) the first
loop of `broadcast` selects `MULRS[0]`, a Mul.  The phase returns a state in
which the `bcast` of `ADDRS[0]` (other pool, opcode Add) has been incremented
from 13 to 14, and that of `ADDRS[1]`, which is not busy and had `bcast = -1`,
from -1 to 0. -/
theorem stall_touches_other_pool :
    firstIdx (due collisionState.CYCLE) (preBroadcast collisionState).MULRS = some 0 ∧
    (preBroadcast collisionState).MULRS[0]?.map (fun r => r.op) = some MUL ∧
    (preBroadcast collisionState).ADDRS[0]?.map (fun r => (r.op, r.bcast)) = some (ADD, 13) ∧
    (preBroadcast collisionState).ADDRS[1]?.map (fun r => (r.busy, r.bcast)) =
      some (false, -1) ∧
    ∃ s' : State, broadcast (preBroadcast collisionState) = some s' ∧
      s'.ADDRS[0]?.map (fun r => r.bcast) = some 14 ∧
      s'.ADDRS[1]?.map (fun r => r.bcast) = some 0 :=
  ⟨by decide, by decide, by decide, by decide,
    _, collisionState_phase, by decide, by decide⟩

/-- C9, amended.  In every reachable state `s` (cycle `C`) whose broadcast
phase returns a state `s'`: when the phase selects station `i` of a pool, the
`bcast` of every other station `q` of either pool (busy or not, dispatched or
not) is incremented by exactly one if some busy, dispatched station of `q`'s
own pool other than the broadcasting one has `bcast == C` and the same opcode
as `q`, and is unchanged otherwise; when an addition station broadcasts no
multiplication station is due and the `bcast` of every multiplication station
is unchanged. -/
theorem stall_resolution (s : State) (hs : Reachable s) (i : Nat) (s' : State)
    (hb : broadcast (preBroadcast s) = some s') :
    (firstIdx (due s.CYCLE) (preBroadcast s).MULRS = some i →
      (∀ (j : Nat) (q : RSE), j ≠ i → (preBroadcast s).MULRS[j]? = some q →
        ∃ q', s'.MULRS[j]? = some q' ∧
          (Contender s.CYCLE (preBroadcast s).MULRS (some i) q.op →
            q'.bcast = q.bcast + 1) ∧
          (¬ Contender s.CYCLE (preBroadcast s).MULRS (some i) q.op →
            q'.bcast = q.bcast)) ∧
      (∀ (j : Nat) (q : RSE), (preBroadcast s).ADDRS[j]? = some q →
        ∃ q', s'.ADDRS[j]? = some q' ∧
          (Contender s.CYCLE (preBroadcast s).ADDRS none q.op → q'.bcast = q.bcast + 1) ∧
          (¬ Contender s.CYCLE (preBroadcast s).ADDRS none q.op → q'.bcast = q.bcast))) ∧
    ((∃ s1, broadcastMul (preBroadcast s) = some s1 ∧
        firstIdx (due s.CYCLE) s1.ADDRS = some i) →
      (∀ (j : Nat) (q : RSE), j ≠ i → (preBroadcast s).ADDRS[j]? = some q →
        ∃ q', s'.ADDRS[j]? = some q' ∧
          (Contender s.CYCLE (preBroadcast s).ADDRS (some i) q.op →
            q'.bcast = q.bcast + 1) ∧
          (¬ Contender s.CYCLE (preBroadcast s).ADDRS (some i) q.op →
            q'.bcast = q.bcast)) ∧
      (∀ (j : Nat) (q : RSE), (preBroadcast s).MULRS[j]? = some q →
        ¬ (q.busy = true ∧ q.disp = true ∧ q.bcast = s.CYCLE) ∧
        ∃ q', s'.MULRS[j]? = some q' ∧ q'.bcast = q.bcast)) := by
  obtain ⟨o1, o2⟩ := stallBump_out s hs.out i
  rw [(broadcast_eq_some hb).1]
  refine ⟨o1, ?_⟩
  rintro ⟨s1, h1, h2⟩
  rw [(broadcastMul_eq_some h1).1] at h2
  exact o2 h2

/-- Witness for C9 (amended): in the reachable `collisionState`, `MULRS[0]`
broadcasts; `ADDRS[1]` has opcode Add like the due `ADDRS[0]`, so its `bcast`
goes from `-1` to `-1 + 1`. -/
theorem stall_resolution_witness :
    (Reachable collisionState ∧
      firstIdx (due collisionState.CYCLE) (preBroadcast collisionState).MULRS = some 0 ∧
      Contender collisionState.CYCLE (preBroadcast collisionState).ADDRS none 0) ∧
    ∃ s' : State, broadcast (preBroadcast collisionState) = some s' ∧
      ∃ q', s'.ADDRS[1]? = some q' ∧
        (Contender collisionState.CYCLE (preBroadcast collisionState).ADDRS none 0 →
          q'.bcast = -1 + 1) ∧
        (¬ Contender collisionState.CYCLE (preBroadcast collisionState).ADDRS none 0 →
          q'.bcast = -1) := by
  have hsel : firstIdx (due collisionState.CYCLE) (preBroadcast collisionState).MULRS =
      some 0 := by decide
  have hcon : Contender collisionState.CYCLE (preBroadcast collisionState).ADDRS none 0 :=
    ⟨0, { busy := true, op := 0, Vj := 13, Vk := 3, Qj := -1, Qk := -1, disp := true,
          discno := 11, bcast := 13, result := 7 },
      by simp, by decide, rfl, rfl, by decide, rfl⟩
  exact ⟨⟨collisionState_reach, hsel, hcon⟩, _, collisionState_phase,
    ((stall_resolution collisionState collisionState_reach 0 _ collisionState_phase).1 hsel).2 1
      { busy := false, op := 0, Vj := 7, Vk := 3, Qj := -1, Qk := -1, disp := true,
        discno := 5, bcast := -1, result := 10 } (by decide)⟩

/-! ## What a returning cycle tells about the selected stations -/

theorem mulTraps_false_get {s : State} (h : mulTraps s = false) {i : Nat} {S : RSE}
    (hi : firstIdx (due s.CYCLE) s.MULRS = some i) (hS : s.MULRS[i]? = some S) :
    S.doOp = some S.computed := by
  unfold mulTraps at h
  rw [hi] at h
  exact trapsAt_eq_false.mp h S hS

theorem addTraps_false_get {s : State} (h : addTraps s = false) {i : Nat} {S : RSE}
    (hi : firstIdx (due s.CYCLE) s.ADDRS = some i) (hS : s.ADDRS[i]? = some S) :
    S.doOp = some S.computed := by
  unfold addTraps at h
  rw [hi] at h
  exact trapsAt_eq_false.mp h S hS

theorem ExecCycle_some_parts {s s' : State} (h : ExecCycle s = some s') :
    s' = ExecCycleOut s ∧
    broadcastMul (preBroadcast s) = some (broadcastMulOut (preBroadcast s)) ∧
    mulTraps (preBroadcast s) = false ∧
    addTraps (broadcastMulOut (preBroadcast s)) = false := by
  obtain ⟨h1, h2, -⟩ := ExecCycle_eq_some h
  obtain ⟨-, h3, h4, h5⟩ := broadcast_eq_some h2
  exact ⟨h1, h3, h4, h5⟩

theorem runState_of_isSome {prog : List INS} {rf : List Int} {n : Nat}
    (h : (runState prog rf n).isSome = true) :
    runState prog rf n = some (runStateOut prog rf n) := by
  obtain ⟨s, hs⟩ := Option.isSome_iff_exists.mp h
  rw [hs, (runState_eq_some prog rf n s hs).1]

/-! ## When a cycle returns -/

/-- A cycle of a reachable state returns no state exactly when the station its
broadcast phase selects (the lowest-index due multiplication station, or with
no multiplication station due the lowest-index due addition station) is a
`Div` whose `doOp` traps. -/
theorem ExecCycle_eq_none_iff (s : State) (hs : ReachableOut s) :
    ExecCycle s = none ↔
      ∃ (t : Nat) (S : RSE), (preBroadcast s).stations[t]? = some S ∧
        ((∃ i, t = i + ADDCOUNT ∧ firstIdx (due s.CYCLE) (preBroadcast s).MULRS = some i) ∨
          (firstIdx (due s.CYCLE) (preBroadcast s).MULRS = none ∧
            firstIdx (due s.CYCLE) (preBroadcast s).ADDRS = some t)) ∧
        S.op = DIV ∧ (S.Vk = 0 ∨ (S.Vj = INT_MIN ∧ S.Vk = -1)) := by
  have h0 := PhaseInv_preBroadcast hs.inv
  have hc : (preBroadcast s).CYCLE = s.CYCLE := preBroadcast_CYCLE s
  have hlen : (preBroadcast s).ADDRS.length = ADDCOUNT := h0.wf.2.2.1
  have hE : ExecCycle s = none ↔ broadcast (preBroadcast s) = none := by
    constructor
    · intro h
      cases hb : broadcast (preBroadcast s) with
      | none => rfl
      | some x =>
        have hb' : broadcast (fillIQ (issue (dispatch s))) = some x := hb
        unfold ExecCycle at h
        rw [hb'] at h
        cases h
    · intro hb
      have hb' : broadcast (fillIQ (issue (dispatch s))) = none := hb
      unfold ExecCycle
      rw [hb']
  rw [hE]
  rcases broadcast_select _ h0 with ⟨i, r, hi, hr, -, -, -, -, -, hb⟩ |
    ⟨hn, -, -, i, r, ha, hr, -, -, hb⟩ | ⟨hn, ha, -, -, -, hb⟩
  · rw [hc] at hi
    have hSt : (preBroadcast s).stations[i + ADDCOUNT]? = some r := by
      rw [stations_getElem? _ hlen, if_neg (by omega), Nat.add_sub_cancel]
      exact hr
    constructor
    · intro hnone
      have hd : r.doOp = none := by
        by_contra hne
        rw [hb, if_neg hne] at hnone
        cases hnone
      obtain ⟨h1, h2⟩ := doOp_eq_none.1 hd
      exact ⟨i + ADDCOUNT, r, hSt, Or.inl ⟨i, rfl, hi⟩, h1, h2⟩
    · rintro ⟨t, S, hS, hsel, h1, h2⟩
      rcases hsel with ⟨i', ht, hi'⟩ | ⟨hn, -⟩
      · rw [hi] at hi'
        have hii : i' = i := (Option.some.inj hi').symm
        rw [ht, hii, hSt] at hS
        rw [← Option.some.inj hS] at h1 h2
        rw [hb, if_pos (doOp_eq_none.2 ⟨h1, h2⟩)]
      · rw [hi] at hn
        cases hn
  · rw [hc] at hn ha
    have hlt : i < ADDCOUNT := by have := firstIdx_lt ha; omega
    have hSt : (preBroadcast s).stations[i]? = some r := by
      rw [stations_getElem? _ hlen, if_pos hlt]
      exact hr
    constructor
    · intro hnone
      have hd : r.doOp = none := by
        by_contra hne
        rw [hb, if_neg hne] at hnone
        cases hnone
      obtain ⟨h1, h2⟩ := doOp_eq_none.1 hd
      exact ⟨i, r, hSt, Or.inr ⟨hn, ha⟩, h1, h2⟩
    · rintro ⟨t, S, hS, hsel, h1, h2⟩
      rcases hsel with ⟨i', -, hi'⟩ | ⟨-, ha'⟩
      · rw [hn] at hi'
        cases hi'
      · rw [ha] at ha'
        have hti : t = i := (Option.some.inj ha').symm
        rw [hti, hSt] at hS
        rw [← Option.some.inj hS] at h1 h2
        rw [hb, if_pos (doOp_eq_none.2 ⟨h1, h2⟩)]
  · rw [hc] at hn ha
    constructor
    · intro hnone
      rw [hb] at hnone
      cases hnone
    · rintro ⟨t, S, -, hsel, -, -⟩
      rcases hsel with ⟨i', -, hi'⟩ | ⟨-, ha'⟩
      · rw [hn] at hi'
        cases hi'
      · rw [ha] at ha'
        cases ha'

/-! ## C10: latency correctness -/

/-- C10. Latency correctness.  Let `r` be a busy station (tag `t`, either pool)
of a reachable state `s`, and `q` the same station in the state `s'` that
`ExecCycle` returns.
* `r.op` is one of the four opcodes (latencies Add 2, Sub 2, Mul 10, Div 40)
  and, if `r` is dispatched, `bcast >= discno + latency(op)`.
* If `q` is free then `r` was dispatched with `bcast == CYCLE` (a station is
  freed only in the cycle equal to its `bcast`), hence
  `CYCLE >= discno + latency(op)`: never before cycle `D + latency`.
* If `r` is dispatched with `bcast == CYCLE`, then `q` is free, unless its
  `bcast` was incremented (then it is busy, dispatched, `bcast + 1`).
* If `r` is dispatched with `bcast > CYCLE`, `q` is the same busy dispatched
  instruction with `bcast` unchanged or incremented by one.
* If `r` is not dispatched, `q` is busy; if it was dispatched in this cycle
  then `discno = CYCLE` and `bcast = CYCLE + latency(op)` or one more.
* `ExecCycle` returns no state exactly when the station its broadcast phase
  selects is a `Div` with `Vk = 0` or with `Vj = INT_MIN`, `Vk = -1`. -/
theorem latency_correct (s : State) (hs : Reachable s) (t : Nat) (r : RSE)
    (hr : s.stations[t]? = some r) (hb : r.busy = true) :
    (opCycles ADD = 2 ∧ opCycles SUB = 2 ∧ opCycles MUL = 10 ∧ opCycles DIV = 40) ∧
    (r.op = ADD ∨ r.op = SUB ∨ r.op = MUL ∨ r.op = DIV) ∧
    (r.disp = true → r.discno + opCycles r.op ≤ r.bcast) ∧
    (∀ s' : State, ExecCycle s = some s' →
    ∃ q, s'.stations[t]? = some q ∧
      (q.busy = false →
        r.disp = true ∧ r.bcast = s.CYCLE ∧ r.discno + opCycles r.op ≤ s.CYCLE) ∧
      (r.disp = true → r.bcast = s.CYCLE →
        q.busy = false ∨
          (q.busy = true ∧ q.disp = true ∧ q.op = r.op ∧ q.discno = r.discno ∧
            q.bcast = r.bcast + 1)) ∧
      (r.disp = true → s.CYCLE < r.bcast →
        q.busy = true ∧ q.disp = true ∧ q.op = r.op ∧ q.discno = r.discno ∧
          (q.bcast = r.bcast ∨ q.bcast = r.bcast + 1)) ∧
      (r.disp = false →
        q.busy = true ∧ q.op = r.op ∧
          (q.disp = true → q.discno = s.CYCLE ∧
            (q.bcast = s.CYCLE + opCycles r.op ∨ q.bcast = s.CYCLE + opCycles r.op + 1)))) ∧
    (ExecCycle s = none ↔
      ∃ (u : Nat) (S : RSE), (preBroadcast s).stations[u]? = some S ∧
        ((∃ i, u = i + ADDCOUNT ∧ firstIdx (due s.CYCLE) (preBroadcast s).MULRS = some i) ∨
          (firstIdx (due s.CYCLE) (preBroadcast s).MULRS = none ∧
            firstIdx (due s.CYCLE) (preBroadcast s).ADDRS = some u)) ∧
        S.op = DIV ∧ (S.Vk = 0 ∨ (S.Vj = INT_MIN ∧ S.Vk = -1))) := by
  obtain ⟨o1, o2, o3, o4⟩ := latency_out s hs.out t r hr hb
  refine ⟨o1, o2, o3, ?_, ExecCycle_eq_none_iff s hs.out⟩
  intro s' hstep
  rw [(ExecCycle_eq_some hstep).1]
  exact o4

theorem collisionState_step :
    ExecCycle collisionState = some (ExecCycleOut collisionState) :=
  ExecCycle_of_not_traps (by decide)

/-- Witness for C10: `MULRS[0]` (tag 3) of the reachable `collisionState` is a
Mul dispatched in cycle 3 with `bcast = 13 = 3 + 10`, and cycle 13 frees it. -/
theorem latency_correct_witness :
    (Reachable collisionState ∧ (3 : Int) + opCycles 2 ≤ 13) ∧
    ∃ s' : State, ExecCycle collisionState = some s' ∧
      s'.stations[3]?.map (fun q => q.busy) = some false :=
  ⟨⟨collisionState_reach,
    (latency_correct collisionState collisionState_reach 3
      { busy := true, op := 2, Vj := 3, Vk := 4, Qj := -1, Qk := -1, disp := true,
        discno := 3, bcast := 13, result := 0 } rfl rfl).2.2.1 rfl⟩,
   _, collisionState_step, by decide⟩

/-! ## C11: in-order issue -/

/-- C11. In-order issue.  Every reachable state `s` is the state at the start of
some cycle `n` of the run of a program `prog` (`INSMEM = prog`), and in it:
`IQUEUE.size() <= INSCOUNT`, `CURINS <= PROGSIZE`, and the queue is the program
slice `INSMEM[CURINS - size .. CURINS)` in order; the instructions issued in the
`n` cycles so far are, in order of issue, exactly the program prefix
`INSMEM[0 .. CURINS - size)`; the cycle starting in `s` issues at most one
instruction, and the queue before its issue phase is the issued instruction (if
any) followed by the queue after it, so what is issued is the queue head. -/
theorem in_order_issue (s : State) (hs : Reachable s) :
    ∃ (prog : List INS) (rf : List Int) (n : Nat),
      runState prog rf n = some s ∧ s.INSMEM = prog ∧
      s.IQUEUE.length ≤ INSCOUNT ∧ s.CURINS ≤ s.PROGSIZE ∧
      s.IQUEUE.length ≤ s.CURINS ∧
      s.IQUEUE = (s.INSMEM.drop (s.CURINS - s.IQUEUE.length)).take s.IQUEUE.length ∧
      issuedLog prog rf n = s.INSMEM.take (s.CURINS - s.IQUEUE.length) ∧
      (issuedIn s).length ≤ 1 ∧
      s.IQUEUE = issuedIn s ++ (issue (dispatch s)).IQUEUE := by
  obtain ⟨prog, rf, n, -, -, hrun⟩ := hs.exists_runState
  have hlog := issuedLog_eq prog rf n s hrun
  have hs' := (runState_eq_some prog rf n s hrun).1
  subst hs'
  obtain ⟨⟨q1, q2, q3, q4⟩, hm, hlog'⟩ := run_queue prog rf n
  obtain ⟨i1, i2⟩ := issue_queue (dispatch (runStateOut prog rf n))
  exact ⟨prog, rf, n, hrun, hm, q1, q2, q3, q4, by rw [hlog, hm]; exact hlog', i2, i1⟩

/-- Witness for C11: at the start of cycle 3 of the run of `collisionProg` two
instructions have been issued, the first two of the program, and the other
three are queued. -/
theorem in_order_issue_witness :
    issuedLog collisionProg rf34 3 = collisionProg.take 2 ∧
    ∃ s3 : State, runState collisionProg rf34 3 = some s3 ∧ Reachable s3 ∧
      s3.IQUEUE = collisionProg.drop 2 ∧
      ∃ (prog : List INS) (rf : List Int) (n : Nat),
        runState prog rf n = some s3 ∧
        issuedLog prog rf n = s3.INSMEM.take (s3.CURINS - s3.IQUEUE.length) := by
  have hrun : runState collisionProg rf34 3 = some (runStateOut collisionProg rf34 3) :=
    runState_of_isSome (by decide)
  have hr : Reachable (runStateOut collisionProg rf34 3) :=
    runState_reach collisionProg rf34 rfl (by decide) 3 _ hrun
  obtain ⟨prog, rf, n, h1, -, -, -, -, -, h7, -⟩ :=
    in_order_issue (runStateOut collisionProg rf34 3) hr
  exact ⟨by decide, _, hrun, hr, by decide, prog, rf, n, h1, h7⟩

/-! ## C13: the register file is written only by capture -/

/-- C13. The register file is written only by capture.  For every state `s`:
`dispatch`, `issue` and `fillIQ` leave `RF` unchanged, and in the state `s'`
that one `ExecCycle` returns each `RF[k]` is either unchanged or holds the
result of a station that the broadcast phase of that cycle selected (a
multiplication station `i` with tag `i + 3` in the first loop, or an addition
station `i` with tag `i` in the second, run on the state `s1` the first loop
returned) while `RAT[k]` named that station's tag at that moment.  So a
broadcast of a tag that `RAT[k]` no longer names (its mapping was overwritten
by a later writer's issue) leaves `RF[k]` alone. -/
theorem RF_written_by_capture (s : State) :
    (dispatch s).RF = s.RF ∧ (issue s).RF = s.RF ∧ (fillIQ s).RF = s.RF ∧
    ∀ s' : State, ExecCycle s = some s' → ∀ k : Nat,
      s'.RF[k]? = s.RF[k]? ∨
      (∃ (i : Nat) (S S' : RSE),
        firstIdx (due s.CYCLE) (preBroadcast s).MULRS = some i ∧
        (preBroadcast s).MULRS[i]? = some S ∧
        (preBroadcast s).RAT[k]? = some ((i : Int) + 3) ∧
        S.doOp = some S' ∧ s'.RF[k]? = some S'.result) ∨
      (∃ (s1 : State) (i : Nat) (S S' : RSE),
        broadcastMul (preBroadcast s) = some s1 ∧
        firstIdx (due s.CYCLE) s1.ADDRS = some i ∧
        s1.ADDRS[i]? = some S ∧ s1.RAT[k]? = some (i : Int) ∧
        S.doOp = some S' ∧ s'.RF[k]? = some S'.result) := by
  obtain ⟨o1, o2, o3, o4⟩ := rfWrite_out s
  refine ⟨o1, o2, o3, ?_⟩
  intro s' hstep k
  obtain ⟨hs', hbm, hmt, hat⟩ := ExecCycle_some_parts hstep
  have hc : (preBroadcast s).CYCLE = s.CYCLE := preBroadcast_CYCLE s
  have hc1 : (broadcastMulOut (preBroadcast s)).CYCLE = s.CYCLE := by
    rw [broadcastMul_CYCLE, hc]
  rw [hs']
  rcases o4 k with h | ⟨i, S, h1, h2, h3, h4⟩ | ⟨i, S, h1, h2, h3, h4⟩
  · exact Or.inl h
  · right; left
    exact ⟨i, S, S.computed, h1, h2, h3,
      mulTraps_false_get hmt (by rw [hc]; exact h1) h2, h4⟩
  · right; right
    exact ⟨_, i, S, S.computed, hbm, h1, h2, h3,
      addTraps_false_get hat (by rw [hc1]; exact h1) h2, h4⟩

/-- Witness for C13: in the run of `wawProg` the Add, issued after the Mul, has
taken over `RAT[2]` and written `RF[2] = 7` in cycle 5; when the Mul broadcasts
in cycle 12, `RAT[2]` does not name its tag 3 and `RF[2]` stays `7`. -/
theorem RF_written_by_capture_witness :
    ∃ s12 s13 : State, runState wawProg rf34 12 = some s12 ∧ ExecCycle s12 = some s13 ∧
      firstIdx (due s12.CYCLE) (preBroadcast s12).MULRS = some 0 ∧
      (preBroadcast s12).RAT[2]? = some EMPTY ∧
      s12.RF[2]? = some 7 ∧ s13.RF[2]? = some 7 ∧
      s13.MULRS[0]?.map (fun r => (r.busy, r.result)) = some (false, 12) ∧
      (s13.RF[2]? = s12.RF[2]? ∨
        (∃ (i : Nat) (S S' : RSE),
          firstIdx (due s12.CYCLE) (preBroadcast s12).MULRS = some i ∧
          (preBroadcast s12).MULRS[i]? = some S ∧
          (preBroadcast s12).RAT[2]? = some ((i : Int) + 3) ∧
          S.doOp = some S' ∧ s13.RF[2]? = some S'.result) ∨
        (∃ (s1 : State) (i : Nat) (S S' : RSE),
          broadcastMul (preBroadcast s12) = some s1 ∧
          firstIdx (due s12.CYCLE) s1.ADDRS = some i ∧
          s1.ADDRS[i]? = some S ∧ s1.RAT[2]? = some (i : Int) ∧
          S.doOp = some S' ∧ s13.RF[2]? = some S'.result)) := by
  have h12 : runState wawProg rf34 12 = some (runStateOut wawProg rf34 12) :=
    runState_of_isSome (by decide)
  have h13 : ExecCycle (runStateOut wawProg rf34 12) =
      some (ExecCycleOut (runStateOut wawProg rf34 12)) :=
    ExecCycle_of_not_traps (by decide)
  refine ⟨runStateOut wawProg rf34 12, ExecCycleOut (runStateOut wawProg rf34 12), h12, h13,
    ?_, ?_, ?_, ?_, ?_,
    (RF_written_by_capture (runStateOut wawProg rf34 12)).2.2.2 _ h13 2⟩
  · decide
  · decide
  · decide
  · decide
  · decide

/-! ## C14: single broadcast per pool per cycle -/

/-- C14. Single broadcast per pool per cycle.  For every state and each of
the two pools, at most one station of the pool is busy before `ExecCycle` and
free in the state it returns: two such stations have the same index. -/
theorem single_broadcast_per_pool (s s' : State) (hstep : ExecCycle s = some s') :
    (∀ (j1 j2 : Nat) (r1 q1 r2 q2 : RSE),
      s.ADDRS[j1]? = some r1 → s'.ADDRS[j1]? = some q1 →
      r1.busy = true → q1.busy = false →
      s.ADDRS[j2]? = some r2 → s'.ADDRS[j2]? = some q2 →
      r2.busy = true → q2.busy = false → j1 = j2) ∧
    (∀ (j1 j2 : Nat) (r1 q1 r2 q2 : RSE),
      s.MULRS[j1]? = some r1 → s'.MULRS[j1]? = some q1 →
      r1.busy = true → q1.busy = false →
      s.MULRS[j2]? = some r2 → s'.MULRS[j2]? = some q2 →
      r2.busy = true → q2.busy = false → j1 = j2) := by
  rw [(ExecCycle_eq_some hstep).1]
  exact oneFreed_out s

/-- Witness for C14: in `twoDueState` two addition stations are due in cycle 7;
`ExecCycle` returns a state in which `ADDRS[0]` is free and `ADDRS[1]` busy. -/
theorem single_broadcast_per_pool_witness :
    ∃ s' : State, ExecCycle twoDueState = some s' ∧
      s'.ADDRS.map (fun r => r.busy) = [false, true, false] ∧
      ∀ (j1 j2 : Nat) (r1 q1 r2 q2 : RSE),
        twoDueState.ADDRS[j1]? = some r1 → s'.ADDRS[j1]? = some q1 →
        r1.busy = true → q1.busy = false →
        twoDueState.ADDRS[j2]? = some r2 → s'.ADDRS[j2]? = some q2 →
        r2.busy = true → q2.busy = false → j1 = j2 :=
  ⟨ExecCycleOut twoDueState, ExecCycle_of_not_traps (by decide), by decide,
    (single_broadcast_per_pool twoDueState (ExecCycleOut twoDueState)
      (ExecCycle_of_not_traps (by decide))).1⟩

/-! ## C15: same-cycle reuse is forbidden -/

/-- C15. Same-cycle reuse is forbidden.  For every state `s` (in particular
every reachable one) at cycle `C` and the state `s'` that `ExecCycle` returns:
a station that the broadcast phase of the cycle selects (it is busy then) and
so frees is not busy in `s'`, because `broadcast` is the last phase of the
cycle and the allocating phase, `issue`, ran before it; and the other phases
(`dispatch`, `fillIQ`, `broadcast`) never make a free station busy, so its next
occupant can only be placed by the issue phase of a later cycle. -/
theorem no_same_cycle_reuse (s : State) :
    (∀ s' : State, ExecCycle s = some s' →
      (∀ i : Nat, firstIdx (due s.CYCLE) (preBroadcast s).MULRS = some i →
        (∃ r, (preBroadcast s).MULRS[i]? = some r ∧ r.busy = true) ∧
        ∃ q, s'.MULRS[i]? = some q ∧ q.busy = false) ∧
      (∀ (s1 : State) (i : Nat), broadcastMul (preBroadcast s) = some s1 →
        firstIdx (due s.CYCLE) s1.ADDRS = some i →
        (∃ r, s1.ADDRS[i]? = some r ∧ r.busy = true) ∧
        ∃ q, s'.ADDRS[i]? = some q ∧ q.busy = false)) ∧
    (∀ (j : Nat) (r : RSE), s.ADDRS[j]? = some r → r.busy = false →
      (∃ q, (dispatch s).ADDRS[j]? = some q ∧ q.busy = false) ∧
      (∃ q, (fillIQ s).ADDRS[j]? = some q ∧ q.busy = false) ∧
      (∀ s' : State, broadcast s = some s' → ∃ q, s'.ADDRS[j]? = some q ∧ q.busy = false)) ∧
    (∀ (j : Nat) (r : RSE), s.MULRS[j]? = some r → r.busy = false →
      (∃ q, (dispatch s).MULRS[j]? = some q ∧ q.busy = false) ∧
      (∃ q, (fillIQ s).MULRS[j]? = some q ∧ q.busy = false) ∧
      (∀ s' : State, broadcast s = some s' → ∃ q, s'.MULRS[j]? = some q ∧ q.busy = false)) := by
  obtain ⟨o1, o2, o3, o4⟩ := noReuse_out s
  refine ⟨?_, ?_, ?_⟩
  · intro s' hstep
    rw [(ExecCycle_eq_some hstep).1]
    refine ⟨o1, ?_⟩
    intro s1 i h1 h2
    rw [(broadcastMul_eq_some h1).1] at h2 ⊢
    exact o2 i h2
  · intro j r hj hb
    obtain ⟨a, b, c⟩ := o3 j r hj hb
    exact ⟨a, b, fun s' hs' => by rw [(broadcast_eq_some hs').1]; exact c⟩
  · intro j r hj hb
    obtain ⟨a, b, c⟩ := o4 j r hj hb
    exact ⟨a, b, fun s' hs' => by rw [(broadcast_eq_some hs').1]; exact c⟩

/-- Witness for C15: in the reachable `collisionState` the first loop selects
`MULRS[0]`; it is free in the state `ExecCycle` returns. -/
theorem no_same_cycle_reuse_witness :
    firstIdx (due collisionState.CYCLE) (preBroadcast collisionState).MULRS = some 0 ∧
    ∃ s' : State, ExecCycle collisionState = some s' ∧
      ((∃ r, (preBroadcast collisionState).MULRS[0]? = some r ∧ r.busy = true) ∧
        ∃ q, s'.MULRS[0]? = some q ∧ q.busy = false) :=
  ⟨by decide, _, collisionState_step,
    ((no_same_cycle_reuse collisionState).1 _ collisionState_step).1 0 (by decide)⟩

/-! ## C16: RAT uniqueness -/

/-- C16. RAT uniqueness.  In every reachable state `s` (start of a cycle of a
run on a program whose register indices are in `[0, 8)`; the opcodes may be
anything): (1) two registers whose RAT entries hold the same tag other than
`EMPTY` are the same register; (2) with `m = CURINS - IQUEUE.size()` the number
of instructions issued so far, there is an assignment `pos` of instruction
numbers to tags such that every RAT entry `RAT[k] = t != EMPTY` is the tag of a
busy station holding instruction number `pos t < m`, that instruction has
`dst = k`, and no instruction issued after it (numbers in `(pos t, m)`) has
`dst = k`: register `k` names its most recent issued writer; (3) the issue phase
of the cycle either leaves the RAT as it is or overwrites the one entry
`RAT[dst]` of the queue head with the allocated tag. -/
theorem rat_unique (s : State) (h : Reachable s) :
    (∀ (k1 k2 : Nat) (t : Int), s.RAT[k1]? = some t → s.RAT[k2]? = some t → t ≠ EMPTY →
      k1 = k2) ∧
    (∃ (m : Nat) (pos : Nat → Nat), m + s.IQUEUE.length = s.CURINS ∧
      ∀ (k : Nat) (t : Int), s.RAT[k]? = some t → t ≠ EMPTY →
        ∃ (u : Nat) (r : RSE), t = (u : Int) ∧ s.stations[u]? = some r ∧ r.busy = true ∧
          pos u < m ∧ r.op = (s.INSMEM.getD (pos u) default).op ∧
          (s.INSMEM.getD (pos u) default).dst = (k : Int) ∧
          ∀ i : Nat, pos u < i → i < m → (s.INSMEM.getD i default).dst ≠ (k : Int)) ∧
    ((issue (dispatch s)).RAT = s.RAT ∨
      ∃ (ins : INS) (rest : List INS) (x : Nat), s.IQUEUE = ins :: rest ∧
        (issue (dispatch s)).RAT = regWrite s.RAT ins.dst (x : Int)) :=
  ratInj_out s h.out

/-- Witness for C16: `collisionState` (cycle 13 of the run of `collisionProg`)
is reachable; its RAT is `[-1,-1,0,3,-1,-1,-1,-1]`. -/
theorem rat_unique_witness :
    Reachable collisionState ∧
    ∀ (k1 k2 : Nat) (t : Int), collisionState.RAT[k1]? = some t →
      collisionState.RAT[k2]? = some t → t ≠ EMPTY → k1 = k2 :=
  ⟨collisionState_reach, (rat_unique collisionState collisionState_reach).1⟩

/-! ## Runs of trap-free programs -/

/-- The ghost invariant holds before the broadcast phase of a cycle. -/
theorem Ghost_preBroadcast {rf0 : List Int} {s : State} {m : Nat} {pos : Nat → Nat}
    (h : PhaseInv s) (hq : QueueInv s) (hrf0 : rf0.length = REGCOUNT)
    (hprog : ∀ ins ∈ s.INSMEM, ins.regsOk) (hm : m + s.IQUEUE.length = s.CURINS)
    (g : Ghost rf0 s m pos) :
    ∃ (m' : Nat) (pos' : Nat → Nat), Ghost rf0 (preBroadcast s) m' pos' := by
  have g1 : Ghost rf0 (dispatch s) m pos := Ghost_dispatch h.wf g
  have hd := PhaseInv_dispatch h
  have hhead : ∀ (ins : INS) (rest : List INS), (dispatch s).IQUEUE = ins :: rest →
      (dispatch s).INSMEM[m]? = some ins ∧ ins.regsOk := by
    intro ins rest hi
    have := queue_head hq hm hi
    exact ⟨this, hprog ins (List.getElem?_mem this)⟩
  obtain ⟨m', pos', g2, -⟩ := Ghost_issue hd.wf hrf0 hhead g1
  obtain ⟨-, f2, f3, f4, f5, f6⟩ := fillIQ_frame (issue (dispatch s))
  exact ⟨m', pos', Ghost_of_eq g2 f6 (by simp [State.stations, preBroadcast, f4, f5]) f3 f2⟩

/-- Under the ghost invariant a busy dispatched station of a trap-free program
holds operands on which `doOp` returns. -/
theorem station_doOp_returns {rf0 : List Int} {s : State} {m : Nat} {pos : Nat → Nat}
    (g : Ghost rf0 s m pos) (hsafe : trapFree rf0 s.INSMEM) (u : Nat) (W : RSE)
    (hu : s.stations[u]? = some W) (hb : W.busy = true) (hd : W.disp = true) :
    W.doOp ≠ none := by
  intro hnone
  obtain ⟨hop, hbad⟩ := doOp_eq_none.1 hnone
  have ok := g.st u W hu hb
  obtain ⟨hj, hk⟩ := ok.disp hd
  have hVj := ok.j.1 hj
  have hVk := ok.k.1 hk
  have hop' : (s.INSMEM.getD (pos u) default).op = DIV := by rw [← ok.op]; exact hop
  have hlt : pos u < s.INSMEM.length := by
    by_contra hge
    rw [List.getD_eq_default _ _ (Nat.le_of_not_lt hge)] at hop'
    exact absurd hop' (by decide)
  obtain ⟨h0, h1⟩ := hsafe (pos u) hlt hop'
  rw [← hVk] at h0 h1
  rw [← hVj] at h1
  rcases hbad with hz | hm
  · exact h0 hz
  · exact h1 hm

theorem preBroadcast_INSMEM (s : State) : (preBroadcast s).INSMEM = s.INSMEM := by
  have h1 : (fillIQ (issue (dispatch s))).INSMEM = (issue (dispatch s)).INSMEM :=
    (fillIQ_frame _).2.2.2.2.2
  have h2 : (issue (dispatch s)).INSMEM = (dispatch s).INSMEM := (issue_frame _).1
  show (fillIQ (issue (dispatch s))).INSMEM = s.INSMEM
  rw [h1, h2]
  rfl

/-- No cycle of the run of a trap-free program traps. -/
theorem run_not_traps (prog : List INS) (rf : List Int) (hrf : rf.length = REGCOUNT)
    (hprog : ∀ ins ∈ prog, ins.regsOk) (hsafe : trapFree rf prog) (n : Nat) :
    cycleTraps (runStateOut prog rf n) = false := by
  obtain ⟨m, pos, g, hm⟩ := Ghost_run prog rf hrf hprog n
  obtain ⟨hq, hmem, -⟩ := run_queue prog rf n
  have hinv := ReachableOut.inv (runStateOut_reachable prog rf hrf hprog n)
  obtain ⟨m', pos', g'⟩ := Ghost_preBroadcast hinv hq hrf (by rw [hmem]; exact hprog) hm g
  have hP := PhaseInv_preBroadcast hinv
  have hsafe' : trapFree rf (preBroadcast (runStateOut prog rf n)).INSMEM := by
    rw [preBroadcast_INSMEM, hmem]
    exact hsafe
  have hsome : ∃ x, broadcast (preBroadcast (runStateOut prog rf n)) = some x := by
    rcases broadcast_select _ hP with ⟨i, r, -, hr, hd, -, -, -, -, hb⟩ |
      ⟨-, -, -, i, r, -, hr, hd, -, hb⟩ | ⟨-, -, -, -, -, hb⟩
    · obtain ⟨hbusy, hdisp, -⟩ := due_eq_true.1 hd
      have hget : (preBroadcast (runStateOut prog rf n)).stations[i + ADDCOUNT]? = some r := by
        rw [stations_getElem? _ hP.wf.2.2.1, if_neg (by omega), Nat.add_sub_cancel]
        exact hr
      have := station_doOp_returns g' hsafe' (i + ADDCOUNT) r hget hbusy hdisp
      rw [if_neg this] at hb
      exact ⟨_, hb⟩
    · obtain ⟨hbusy, hdisp, -⟩ := due_eq_true.1 hd
      have hi : i < ADDCOUNT := by
        have := (List.getElem?_eq_some.1 hr).1
        rw [hP.wf.2.2.1] at this
        exact this
      have hget : (preBroadcast (runStateOut prog rf n)).stations[i]? = some r := by
        rw [stations_getElem? _ hP.wf.2.2.1, if_pos hi]
        exact hr
      have := station_doOp_returns g' hsafe' i r hget hbusy hdisp
      rw [if_neg this] at hb
      exact ⟨_, hb⟩
    · exact ⟨_, hb⟩
  obtain ⟨x, hx⟩ := hsome
  obtain ⟨-, -, h1, h2⟩ := broadcast_eq_some hx
  unfold cycleTraps
  rw [h1, h2]
  rfl

/-- The run of a trap-free program returns a state after every number of cycles. -/
theorem run_returns (prog : List INS) (rf : List Int) (hrf : rf.length = REGCOUNT)
    (hprog : ∀ ins ∈ prog, ins.regsOk) (hsafe : trapFree rf prog) (n : Nat) :
    runState prog rf n = some (runStateOut prog rf n) :=
  runState_of_not_traps prog rf n (fun k _ => run_not_traps prog rf hrf hprog hsafe k)

/-! ## C19: no dangling tags -/

/-- C19. No dangling tags.  In every reachable state `s`: (1) every RAT entry
that is not `EMPTY` is a tag `t` with `0 <= t < ADDCOUNT + MULCOUNT = 5` of a
station that is busy; (2) for every busy station with tag `u`, each of `Qj`,
`Qk` that is not `EMPTY` is a tag `t` with `0 <= t < 5`, `t != u`, of a station
that is busy (its result has not been broadcast: broadcasting is what frees a
station); (3) the producers do broadcast unless the program is ended by a trap:
when `s` is the state at the start of cycle `n` of the run of a program with
opcodes in `{ADD, SUB, MUL, DIV}`, there is a cycle `K >= n` at which the run
has trapped or at whose start every station is free, and when program-order
execution reaches no division that traps (`trapFree`), the run has a state at
the start of such a cycle `K` and every station is free in it. -/
theorem no_dangling_tags (s : State) (h : Reachable s) :
    (∀ (k : Nat) (e : Int), s.RAT[k]? = some e → e ≠ EMPTY →
      ∃ (t : Nat) (p : RSE), e = (t : Int) ∧ t < ADDCOUNT + MULCOUNT ∧
        s.stations[t]? = some p ∧ p.busy = true) ∧
    (∀ (u : Nat) (r : RSE), s.stations[u]? = some r → r.busy = true →
      (r.Qj ≠ EMPTY → ∃ (t : Nat) (p : RSE), r.Qj = (t : Int) ∧ t < ADDCOUNT + MULCOUNT ∧
        t ≠ u ∧ s.stations[t]? = some p ∧ p.busy = true) ∧
      (r.Qk ≠ EMPTY → ∃ (t : Nat) (p : RSE), r.Qk = (t : Int) ∧ t < ADDCOUNT + MULCOUNT ∧
        t ≠ u ∧ s.stations[t]? = some p ∧ p.busy = true)) ∧
    (∀ (prog : List INS) (rf : List Int) (n : Nat), rf.length = REGCOUNT →
      (∀ ins ∈ prog, ins.opOk ∧ ins.regsOk) → runState prog rf n = some s →
      (∃ K : Nat, n ≤ K ∧
        (runState prog rf K = none ∨
          ∃ sK : State, runState prog rf K = some sK ∧ ∀ r ∈ sK.stations, r.busy = false)) ∧
      (trapFree rf prog → ∃ K : Nat, n ≤ K ∧
          ∃ sK : State, runState prog rf K = some sK ∧ ∀ r ∈ sK.stations, r.busy = false)) := by
  obtain ⟨o1, o2, o3⟩ := tagsLive_out s h.out
  refine ⟨o1, o2, ?_⟩
  intro prog rf n hrf hprog hrun
  obtain ⟨K, hK, hfree⟩ := o3 prog rf n hrf hprog (runState_eq_some prog rf n s hrun).1
  constructor
  · refine ⟨K, hK, ?_⟩
    cases hr : runState prog rf K with
    | none => exact Or.inl rfl
    | some sK =>
      right
      refine ⟨sK, rfl, ?_⟩
      rw [(runState_eq_some prog rf K sK hr).1]
      exact hfree
  · intro hsafe
    exact ⟨K, hK, _, run_returns prog rf hrf (fun ins hi => (hprog ins hi).2) hsafe K, hfree⟩

/-- Witness for C19 at the reachable `collisionState`: `RAT[2] = 0` and
`RAT[3] = 3` name `ADDRS[0]` and `MULRS[0]`, both busy. -/
theorem no_dangling_tags_witness :
    Reachable collisionState ∧
    ∀ (k : Nat) (e : Int), collisionState.RAT[k]? = some e → e ≠ EMPTY →
      ∃ (t : Nat) (p : RSE), e = (t : Int) ∧ t < ADDCOUNT + MULCOUNT ∧
        collisionState.stations[t]? = some p ∧ p.busy = true :=
  ⟨collisionState_reach, (no_dangling_tags collisionState collisionState_reach).1⟩

/-! ## C20: the cycle in which a station is freed is not recorded -/

/-- C20, counterexample.  In the run of `[Add R2,R0,R1]` on `RF = [3,4,0,...]`,
`ADDRS[0]` is dispatched in cycle 2 (`discno = 2`) and the broadcast phase of
cycle 4 selects and frees it.  In the state that phase returns, with the clock
still reading 4, its `discno` is still 2, not 4, and the test of `getRS`
(`!busy && discno != CYCLE`) evaluated there accepts it: `getRS` applied to
that state for an Add returns tag 0. -/
theorem freed_cycle_not_recorded :
    ∃ s4 sb : State, runState progAdd rf34 4 = some s4 ∧ s4.CYCLE = 4 ∧
      s4.ADDRS[0]?.map (fun r => (r.busy, r.disp, r.discno, r.bcast)) =
        some (true, true, 2, 4) ∧
      broadcast (preBroadcast s4) = some sb ∧ sb.CYCLE = 4 ∧
      sb.ADDRS[0]?.map (fun r => (r.busy, r.discno)) = some (false, 2) ∧
      (getRS sb { op := ADD, dst := 3, src1 := 0, src2 := 1 }).1 = 0 := by
  have h4 : runState progAdd rf34 4 = some (runStateOut progAdd rf34 4) :=
    runState_of_isSome (by decide)
  have hb : broadcast (preBroadcast (runStateOut progAdd rf34 4)) =
      some (broadcastOut (preBroadcast (runStateOut progAdd rf34 4))) := by
    rw [broadcast_eq]
    have : (mulTraps (preBroadcast (runStateOut progAdd rf34 4)) ||
      addTraps (broadcastMulOut (preBroadcast (runStateOut progAdd rf34 4)))) = false := by
      decide
    rw [this]
    rfl
  refine ⟨_, _, h4, ?_, ?_, hb, ?_, ?_, ?_⟩
  · decide
  · decide
  · decide
  · decide
  · decide

/-- The broadcast phase writes no `discno`. -/
theorem broadcast_discno (s : State) (h : PhaseInv s) (u : Nat) (q : RSE)
    (hu : s.stations[u]? = some q) :
    ∃ q', (broadcastOut s).stations[u]? = some q' ∧ q'.discno = q.discno := by
  rcases broadcast_effect s h with ⟨e, -⟩ | ⟨w, W, -, -, -, -, hst⟩
  · rw [e]; exact ⟨q, hu, rfl⟩
  · obtain ⟨q', hq', hwin, hrel⟩ := hst u q hu
    refine ⟨q', hq', ?_⟩
    by_cases huw : u = w
    · exact (hwin huw).2
    · rw [hrel huw]
      exact captureRSE_discno _ _ _

theorem ReachableOut.fresh {s : State} (h : ReachableOut s) : Fresh s := by
  obtain ⟨prog, rf, n, hrf, hprog, rfl⟩ := h.exists_run
  exact Fresh_run prog rf hrf hprog n

/-- C20, amended.  The cycle in which a station is freed is not recorded.  In
every reachable state `s` (cycle `C`): (1) in the state the broadcast phase
returns every station, freed or not, has the `discno` it had at the start of
the phase; (2) in the state `ExecCycle` returns each station has the `discno`
it had in `s`, or `C` (written by `dispatch`, the only writer); (3) every
station has `discno < CYCLE`; (4) in the state on which the cycle's only
`getRS` call is made (after `dispatch`) the test `!busy && discno != CYCLE`
accepts every free station, so allocation depends on `busy` alone.  A station
freed in cycle `C` is thus protected from reuse in cycle `C` only by the order
of the phases (`issue` runs before `broadcast`). -/
theorem discno_is_dispatch_stamp (s : State) (hs : Reachable s) :
    (∀ sb : State, broadcast (preBroadcast s) = some sb →
      ∀ (u : Nat) (q : RSE), (preBroadcast s).stations[u]? = some q →
        ∃ q', sb.stations[u]? = some q' ∧ q'.discno = q.discno) ∧
    (∀ s' : State, ExecCycle s = some s' →
      ∀ (u : Nat) (q : RSE), s.stations[u]? = some q →
        ∃ q', s'.stations[u]? = some q' ∧ (q'.discno = q.discno ∨ q'.discno = s.CYCLE)) ∧
    (∀ r ∈ s.stations, r.discno < s.CYCLE) ∧
    (∀ r ∈ (dispatch s).stations, r.busy = false → allocatable s.CYCLE r = true) := by
  have hinv := hs.out.inv
  have hfresh := hs.out.fresh
  refine ⟨?_, ?_, hfresh, ?_⟩
  · intro sb hb u q hu
    rw [(broadcast_eq_some hb).1]
    exact broadcast_discno _ (PhaseInv_preBroadcast hinv) u q hu
  · intro s' hstep u q hu
    rw [(ExecCycle_eq_some hstep).1]
    exact discno_ExecCycle s hinv u q hu
  · intro r hr hb
    obtain ⟨u, hu⟩ := List.getElem?_of_mem hr
    have hlt : u < s.stations.length := by
      have := (List.getElem?_eq_some.mp hu).1
      rw [dispatch_stations_length] at this
      exact this
    have hq := hfresh _ (List.getElem_mem hlt)
    rcases dispatch_station s hinv.wf.2.2.1 u _ (List.getElem?_eq_getElem hlt) with e | ⟨hrd, e⟩
    · rw [hu] at e
      rw [Option.some.inj e]
      exact allocatable_eq_true.mpr ⟨by rw [← Option.some.inj e]; exact hb, by omega⟩
    · rw [hu] at e
      have hbusy : r.busy = true := by
        rw [Option.some.inj e]
        exact (dispReady_eq_true.mp hrd).1
      rw [hb] at hbusy
      cases hbusy

/-- Witness for C20 (amended) at the reachable `collisionState`: every station
has `discno < 13`. -/
theorem discno_is_dispatch_stamp_witness :
    Reachable collisionState ∧ ∀ r ∈ collisionState.stations, r.discno < collisionState.CYCLE :=
  ⟨collisionState_reach, (discno_is_dispatch_stamp collisionState collisionState_reach).2.2.1⟩

/-! ## C18: the engine computes the program-order result -/

set_option maxRecDepth 8000 in
/-- C18 (as written, refuted).  The program `Div R2, R0, R1` on the register
file `[INT_MIN, -1, 0, ...]` has its opcode in `{ADD, SUB, MUL, DIV}`, register
indices in `[0, 8)`, and program-order execution never divides by zero (the
divisor is `-1`).  Its run reaches cycle 42 and stops there: the `doOp` of the
division traps in the broadcast phase of that cycle (`INT_MIN / -1`), so for
no `n >= 43` is there a state after `n` cycles, in particular none with the
sequential result in `RF`. -/
theorem sequential_result_traps :
    rfMin.length = REGCOUNT ∧ (∀ ins ∈ divMinProg, ins.opOk ∧ ins.regsOk) ∧
    divSafe rfMin divMinProg ∧
    (runState divMinProg rfMin 42).isSome = true ∧
    ∀ n : Nat, 43 ≤ n → runState divMinProg rfMin n = none := by
  refine ⟨rfl, by decide, by decide, by decide, ?_⟩
  have h : runState divMinProg rfMin 43 = none := by
    have h42 := runState_of_isSome (show (runState divMinProg rfMin 42).isSome = true by decide)
    show (match runState divMinProg rfMin 42 with
      | none => none
      | some s => ExecCycle s) = none
    rw [h42]
    exact ExecCycle_eq_none.2 (by decide)
  exact runState_none_mono _ _ 43 h

/-- C18 (amended).  The out-of-order engine computes the sequential result.
For every program `prog` whose instructions have opcodes in
`{ADD, SUB, MUL, DIV}` and register indices in `[0, 8)`, and every initial
register file `rf` (8 entries) on which program-order execution never reaches
a division the machine cannot carry out (`trapFree`: no divisor is zero and no
division is `INT_MIN / -1`), the run returns a state after every number of
cycles, and there is a cycle count `K` such that for every `n >= K` the state
after `n` `ExecCycle` steps from the initial state has an empty queue,
`CURINS = PROGSIZE`, every station of both pools free, every RAT entry
`EMPTY`, and `RF` equal to `seqExec rf prog`: the register file obtained by
executing the instructions one at a time in program order,
`RF[dst] := RF[src1] op RF[src2]` in 32-bit arithmetic. -/
theorem sequential_result (prog : List INS) (rf : List Int) (hrf : rf.length = REGCOUNT)
    (hprog : ∀ ins ∈ prog, ins.opOk ∧ ins.regsOk) (hsafe : trapFree rf prog) :
    (∀ n : Nat, ∃ s : State, runState prog rf n = some s) ∧
    ∃ K : Nat, ∀ n : Nat, K ≤ n → ∃ s : State, runState prog rf n = some s ∧
      s.IQUEUE = [] ∧ s.CURINS = s.PROGSIZE ∧
      (∀ r ∈ s.ADDRS, r.busy = false) ∧ (∀ r ∈ s.MULRS, r.busy = false) ∧
      (∀ e ∈ s.RAT, e = EMPTY) ∧ s.RF = seqExec rf prog := by
  have hregs : ∀ ins ∈ prog, ins.regsOk := fun ins hi => (hprog ins hi).2
  refine ⟨fun n => ⟨_, run_returns prog rf hrf hregs hsafe n⟩, ?_⟩
  obtain ⟨K, hK⟩ := settles_out prog rf hrf hprog
  exact ⟨K, fun n hn => ⟨_, run_returns prog rf hrf hregs hsafe n, hK n hn⟩⟩

theorem sequential_result_witness :
    rf34.length = REGCOUNT ∧ (∀ ins ∈ chainProg, ins.opOk ∧ ins.regsOk) ∧
    trapFree rf34 chainProg ∧
    (∀ n : Nat, ∃ s : State, runState chainProg rf34 n = some s) ∧
    ∃ K : Nat, ∀ n : Nat, K ≤ n → ∃ s : State, runState chainProg rf34 n = some s ∧
      s.IQUEUE = [] ∧ s.CURINS = s.PROGSIZE ∧
      (∀ r ∈ s.ADDRS, r.busy = false) ∧ (∀ r ∈ s.MULRS, r.busy = false) ∧
      (∀ e ∈ s.RAT, e = EMPTY) ∧ s.RF = seqExec rf34 chainProg :=
  ⟨rfl, by decide, by decide,
    sequential_result chainProg rf34 rfl (by decide) (by decide)⟩
/-! ## C17: division by zero -/

/-- A cycle in an idle state returns, and only advances the clock. -/
theorem ExecCycle_of_idle (s : State) (hq : s.IQUEUE = []) (hcur : s.CURINS = s.PROGSIZE)
    (ha : ∀ r ∈ s.ADDRS, r.busy = false) (hm : ∀ r ∈ s.MULRS, r.busy = false) :
    ExecCycle s = some { s with CYCLE := s.CYCLE + 1 } := by
  have hda : firstIdx dispReady s.ADDRS = none :=
    firstIdx_none_of_all (fun r hr => by simp [dispReady, ha r hr])
  have hdm : firstIdx dispReady s.MULRS = none :=
    firstIdx_none_of_all (fun r hr => by simp [dispReady, hm r hr])
  have hd : dispatch s = s := by simp [dispatch, dispatchPool, hda, hdm]
  have hi : issue s = s := by simp [issue, hq]
  have hf : fillIQ s = s := fillIQ_of_exhausted hcur
  have hba : firstIdx (due s.CYCLE) s.ADDRS = none :=
    firstIdx_none_of_all (fun r hr => by simp [due, ha r hr])
  have hbm : firstIdx (due s.CYCLE) s.MULRS = none :=
    firstIdx_none_of_all (fun r hr => by simp [due, hm r hr])
  have hb : broadcast s = some s := by simp [broadcast, broadcastMul, broadcastAdd, hba, hbm]
  simp [ExecCycle, hd, hi, hf, hb]

theorem mainLoop_step {target : Int} {s s' : State} (fuel : Nat) (h : s.CYCLE ≤ target)
    (hmax : s.CYCLE < INT_MAX) (hs : ExecCycle s = some s') :
    mainLoop target (fuel + 1) s = mainLoop target fuel s' := by
  simp [mainLoop, h, hmax, hs]

theorem mainLoop_done {target : Int} {s : State} (fuel : Nat) (h : ¬ s.CYCLE ≤ target) :
    mainLoop target fuel s = some s := by
  cases fuel <;> simp [mainLoop, h]

/-- From an idle state the driver loop with a budget below `INT_MAX` runs the
clock up to `target + 1` and stops. -/
theorem mainLoop_idle (target : Int) (htm : target < INT_MAX) (fuel : Nat) (s : State)
    (hq : s.IQUEUE = []) (hcur : s.CURINS = s.PROGSIZE)
    (ha : ∀ r ∈ s.ADDRS, r.busy = false) (hm : ∀ r ∈ s.MULRS, r.busy = false)
    (hc : s.CYCLE ≤ target + 1) (hfuel : (target + 1 - s.CYCLE).toNat ≤ fuel) :
    mainLoop target fuel s = some { s with CYCLE := target + 1 } := by
  induction fuel generalizing s with
  | zero =>
    have : s.CYCLE = target + 1 := by omega
    have hgt : ¬ s.CYCLE ≤ target := by omega
    simp only [mainLoop, hgt, if_false, ← this]
  | succ n ih =>
    by_cases hle : s.CYCLE ≤ target
    · rw [mainLoop_step n hle (by omega) (ExecCycle_of_idle s hq hcur ha hm)]
      exact ih { s with CYCLE := s.CYCLE + 1 } hq hcur ha hm
        (show s.CYCLE + 1 ≤ target + 1 by omega)
        (show (target + 1 - (s.CYCLE + 1)).toNat ≤ n by omega)
    · have : s.CYCLE = target + 1 := by omega
      simp only [mainLoop, hle, if_false, ← this]

/-- With the budget `INT_MAX` the driver loop has no end state, whatever the
bound on its iterations. -/
theorem mainLoop_max (fuel : Nat) (s : State) (h : s.CYCLE ≤ INT_MAX) :
    mainLoop INT_MAX fuel s = none := by
  induction fuel generalizing s with
  | zero => simp [mainLoop, h]
  | succ n ih =>
    by_cases hlt : s.CYCLE < INT_MAX
    · cases hs : ExecCycle s with
      | none => simp [mainLoop, h, hlt, hs]
      | some s' =>
        rw [mainLoop_step n h hlt hs]
        apply ih
        rw [(ExecCycle_eq_some hs).1, ExecCycleOut_CYCLE]
        omega
    · simp [mainLoop, h, hlt]

theorem addInit_steps :
    ExecCycle addInit = some (runStateOut progAdd rf34 1) ∧
    ExecCycle (runStateOut progAdd rf34 1) = some (runStateOut progAdd rf34 2) ∧
    ExecCycle (runStateOut progAdd rf34 2) = some (runStateOut progAdd rf34 3) ∧
    ExecCycle (runStateOut progAdd rf34 3) = some (runStateOut progAdd rf34 4) ∧
    ExecCycle (runStateOut progAdd rf34 4) = some (runStateOut progAdd rf34 5) :=
  ⟨ExecCycle_of_not_traps (show cycleTraps (runStateOut progAdd rf34 0) = false by decide),
    ExecCycle_of_not_traps (by decide), ExecCycle_of_not_traps (by decide),
    ExecCycle_of_not_traps (by decide), ExecCycle_of_not_traps (by decide)⟩

/-- C1 (as written, refuted).  With cycle budget `T = 3` the driver loop on
`[Add R2,R0,R1]`, `RF = [3,4,0,...]` stops (for every bound of at least 4
iterations) in the state reached after four cycles, where the Add has been
issued and dispatched but not broadcast: `RF[2]` is still `0`, `RAT[2]` names
station `0`, and `ADDRS[0]` is busy.  With the budget `INT_MAX`, the largest
an `int` holds, the loop condition `CYCLE <= target` never fails: the loop has
no end state for any bound on its iterations. -/
theorem add_program_budget_three :
    (∃ s : State, (∀ fuel, 4 ≤ fuel → mainLoop 3 fuel addInit = some s) ∧
      s.CYCLE = 4 ∧ s.RF[2]? = some 0 ∧ s.RAT[2]? = some 0 ∧
      s.ADDRS[0]?.map (fun r => r.busy) = some true) ∧
    ∀ fuel, mainLoop INT_MAX fuel addInit = none := by
  refine ⟨⟨runStateOut progAdd rf34 4, ?_, by decide, by decide, by decide, by decide⟩,
    fun fuel => mainLoop_max fuel addInit (by decide)⟩
  intro fuel hfuel
  obtain ⟨k, rfl⟩ : ∃ k, fuel = k + 4 := ⟨fuel - 4, by omega⟩
  obtain ⟨e0, e1, e2, e3, -⟩ := addInit_steps
  rw [mainLoop_step _ (by decide) (by decide) e0, mainLoop_step _ (by decide) (by decide) e1,
    mainLoop_step _ (by decide) (by decide) e2, mainLoop_step _ (by decide) (by decide) e3,
    mainLoop_done _ (by decide)]

/-- C1 (amended).  For every cycle budget `T` with `4 <= T < INT_MAX` the
driver loop of `main` on `[Add R2,R0,R1]` with `RF = [3,4,0,0,0,0,0,0]`
terminates (every bound of at least `T + 1` iterations gives the same final
state) with `CYCLE = T + 1`, `RF[2] = 7`, `RAT[2] = EMPTY` and
`ADDRS[0].busy = false`. -/
theorem add_program_result (T : Int) (hT : 4 ≤ T) (hmax : T < INT_MAX) :
    ∃ s' : State,
      (∀ fuel, (T + 1).toNat ≤ fuel → mainLoop T fuel addInit = some s') ∧
      s'.CYCLE = T + 1 ∧ s'.RF[2]? = some 7 ∧ s'.RAT[2]? = some EMPTY ∧
      s'.ADDRS[0]?.map (fun r => r.busy) = some false := by
  have r2 : (runStateOut progAdd rf34 5).RF[2]? = some 7 := by decide
  have a2 : (runStateOut progAdd rf34 5).RAT[2]? = some EMPTY := by decide
  have b0 : (runStateOut progAdd rf34 5).ADDRS[0]?.map (fun r => r.busy) = some false := by
    decide
  refine ⟨{ (runStateOut progAdd rf34 5) with CYCLE := T + 1 }, ?_, rfl, r2, a2, b0⟩
  intro fuel hfuel
  obtain ⟨k, rfl⟩ : ∃ k, fuel = k + 5 := ⟨fuel - 5, by omega⟩
  obtain ⟨e0, e1, e2, e3, e4⟩ := addInit_steps
  have c0 : addInit.CYCLE = 0 := by decide
  have c1 : (runStateOut progAdd rf34 1).CYCLE = 1 := by decide
  have c2 : (runStateOut progAdd rf34 2).CYCLE = 2 := by decide
  have c3 : (runStateOut progAdd rf34 3).CYCLE = 3 := by decide
  have c4 : (runStateOut progAdd rf34 4).CYCLE = 4 := by decide
  have c5 : (runStateOut progAdd rf34 5).CYCLE = 5 := by decide
  have hI : INT_MAX = 2147483647 := rfl
  rw [mainLoop_step _ (by omega) (by omega) e0, mainLoop_step _ (by omega) (by omega) e1,
    mainLoop_step _ (by omega) (by omega) e2, mainLoop_step _ (by omega) (by omega) e3,
    mainLoop_step _ (by omega) (by omega) e4]
  exact mainLoop_idle T hmax k (runStateOut progAdd rf34 5) (by decide) (by decide) (by decide)
    (by decide) (by omega) (by omega)

theorem add_program_result_witness :
    (4 : Int) ≤ 4 ∧ (4 : Int) < INT_MAX ∧
    ∃ s' : State,
      (∀ fuel, ((4 : Int) + 1).toNat ≤ fuel → mainLoop 4 fuel addInit = some s') ∧
      s'.CYCLE = 4 + 1 ∧ s'.RF[2]? = some 7 ∧ s'.RAT[2]? = some EMPTY ∧
      s'.ADDRS[0]?.map (fun r => r.busy) = some false :=
  ⟨by decide, by decide, add_program_result 4 (by decide) (by decide)⟩

end Tomasulo
